import Mathlib

/-!
# Bisimulation decomposition for nondeterministic models

A shallow embedding of
`src/storage/bisimulation/NondeterministicModelBisimulationDecomposition.cpp`
(storm).  Probabilities are exact rationals: the functions embed the program for an
exact value type (the instantiation of line 302); the functions with the suffix `In`
take the arithmetic of the value type as a parameter and embed, with `binary64`, the
instantiation for `double` (line 299).  C++ iterator ranges over the flat
vector `orderedQuotientDistributions` are embedded as lists: an iterator pair
`(it, ite)` is the list of the entries from `it` up to `ite`, so `it == ite` is
the empty list, `*it` is the head, `std::next(it) != ite` says that the list has
a second entry, and `++it` is the tail.

Classes that the translation unit only uses (`Distribution`, `Partition`,
`ConstantsComparator`, the refinement driver of the base class) are not part of
the sources; they are modelled from the specification and marked as such.
-/

namespace Storm

/-! ## Numeric comparator -/

/-- Modelled from the spec: the numeric comparator (`storm::utility::ConstantsComparator`,
not in the sources), section 4.1: the three operations `isZero(v)`, `isEqual(a,b)`
and `isLess(a,b)` over the probability value type. -/
structure ConstantsComparator where
  isZero : ℚ → Bool
  isEqual : ℚ → ℚ → Bool
  isLess : ℚ → ℚ → Bool

/-- Modelled from the spec: the comparator of an exact value type, section 4.1:
"for exact types, these reduce to structural equality/ordering". -/
def exactComparator : ConstantsComparator where
  isZero := fun v => decide (v = 0)
  isEqual := fun a b => decide (a = b)
  isLess := fun a b => decide (a < b)

/-! ## Distribution -/

/-- Modelled from the spec: `storm::storage::Distribution` (not in the sources),
section 3: a "mapping from block id to accumulated probability mass (keys unique;
insertion order irrelevant)".  The entries are kept in insertion order. -/
abbrev Distribution := List (Nat × ℚ)

namespace Distribution

/-- The block ids that have an entry. -/
def keys (d : Distribution) : List Nat := d.map Prod.fst

/-- The mass stored for a block id: the value of the entries with that key (keys are
unique, so there is at most one); an absent key is zero mass. -/
def mass (d : Distribution) (b : Nat) : ℚ :=
  ((d.filter (fun e => e.1 = b)).map Prod.snd).sum

/-- The sum of the masses of all entries. -/
def total (d : Distribution) : ℚ := (d.map Prod.snd).sum

/-- Modelled from the spec: `addProbability(blockId, value)`, section 4.2:
"accumulates mass (creates entry if absent)". -/
def addProbability : Distribution → Nat → ℚ → Distribution
  | [], b, v => [(b, v)]
  | (k, m) :: rest, b, v =>
      if k = b then (k, m + v) :: rest else (k, m) :: addProbability rest b v

/-- Modelled from the spec: the first half of `shiftProbability`, section 4.2:
"subtract `value` from `fromBlockId`'s entry (removing it if it becomes exactly
representable zero)".  An absent entry counts as zero mass, as it does in `less`.  The
difference is the exact one; `removeProbabilityIn` takes the difference of the value
type, and for `double` a rounded difference can leave a remainder where the exact one is
zero. -/
def removeProbability : Distribution → Nat → ℚ → Distribution
  | [], b, v => if 0 - v = 0 then [] else [(b, 0 - v)]
  | (k, m) :: rest, b, v =>
      if k = b then (if m - v = 0 then rest else (k, m - v) :: rest)
      else (k, m) :: removeProbability rest b v

/-- Modelled from the spec: `shiftProbability(fromBlockId, toBlockId, value)`,
section 4.2: subtract `value` from the entry of `fromBlockId` "and add it to
`toBlockId`'s entry". -/
def shiftProbability (d : Distribution) (fromBlock toBlock : Nat) (v : ℚ) : Distribution :=
  addProbability (removeProbability d fromBlock v) toBlock v

/-- Modelled from the spec: `equals(other)`, section 4.2: "true iff the two mappings
have identical key sets and `isEqual` holds pairwise". -/
def equals (cmp : ConstantsComparator) (d1 d2 : Distribution) : Bool :=
  d1.keys.all (fun k => decide (k ∈ d2.keys)) &&
  d2.keys.all (fun k => decide (k ∈ d1.keys)) &&
  d1.keys.all (fun k => cmp.isEqual (d1.mass k) (d2.mass k))

/-- The block ids of two distributions in ascending order. -/
def blockIds (d1 d2 : Distribution) : List Nat :=
  (d1.keys ++ d2.keys).insertionSort (fun a b => a ≤ b)

/-- The scan of `less` over a list of block ids: the first block id whose two masses
differ decides, by `isLess`. -/
def lessOn (cmp : ConstantsComparator) (d1 d2 : Distribution) : List Nat → Bool
  | [] => false
  | k :: ks =>
      if cmp.isEqual (d1.mass k) (d2.mass k) then lessOn cmp d1 d2 ks
      else cmp.isLess (d1.mass k) (d2.mass k)

/-- Modelled from the spec: `less(other, comparator)`, section 4.2: "lexicographic
compare over block ids in ascending order (not insertion order) — first differing
mass, by `isLess`; absent key treated as zero mass". -/
def less (cmp : ConstantsComparator) (d1 d2 : Distribution) : Bool :=
  lessOn cmp d1 d2 (blockIds d1 d2)

end Distribution

/-! ## The signature comparison `quotientDistributionsLess` -/

section SignatureComparison

variable {D : Type}

/-- The two inner `while` loops of `quotientDistributionsLess` (lines 274-279):
`while (it != ite && std::next(it) != ite && !(*it)->less(**std::next(it))) ++it;`
on the range that starts at `it`. -/
def skipEqualRun (less : D → D → Bool) : List D → List D
  | a :: b :: rest => if !less a b then skipEqualRun less (b :: rest) else a :: b :: rest
  | l => l

/-- The main loop of `quotientDistributionsLess` (lines 264-285) on the two iterator
ranges, with the final test of lines 282-285.  Every iteration advances the first
iterator, so `fuel` larger than the length of the first range is never used up. -/
def lessLoop (less : D → D → Bool) : Nat → List D → List D → Bool
  | _, [], [] => false
  | _, [], _ :: _ => true
  | _, _ :: _, [] => false
  | 0, _ :: _, _ :: _ => false
  | fuel + 1, x :: xs, y :: ys =>
      if less x y then true
      else if less y x then false
      else lessLoop less fuel (skipEqualRun less (x :: xs)).tail
        (skipEqualRun less (y :: ys)).tail

/-- The comparison of two signature lists as `quotientDistributionsLess` performs it. -/
def signatureLess (less : D → D → Bool) (xs ys : List D) : Bool :=
  lessLoop less (xs.length + 1) xs ys

/-- The reference comparison of the specification, first step: drop the entries that
are equal to the first entry `a` of the current run, keep one entry per run. -/
def collapseFrom (eq : D → D → Bool) (a : D) : List D → List D
  | [] => [a]
  | b :: rest => if eq a b then collapseFrom eq a rest else a :: collapseFrom eq b rest

/-- The reference comparison of the specification, first step: "collapse any run of
equal consecutive entries". -/
def collapseRuns (eq : D → D → Bool) : List D → List D
  | [] => []
  | a :: rest => collapseFrom eq a rest

/-- The reference comparison of the specification, second step: compare the heads with
`less`, "return immediately on the first strict difference"; a list that is exhausted
first is strictly smaller; "equal-length exhaustion with no differences" is not-less. -/
def lexLess (less : D → D → Bool) : List D → List D → Bool
  | [], [] => false
  | [], _ :: _ => true
  | _ :: _, [] => false
  | x :: xs, y :: ys =>
      if less x y then true
      else if less y x then false
      else lexLess less xs ys

/-- The reference comparison of the specification for two signature lists. -/
def referenceLess (less eq : D → D → Bool) (xs ys : List D) : Bool :=
  lexLess less (collapseRuns eq xs) (collapseRuns eq ys)

/-- A signature list is sorted: no entry is less than its predecessor (the test of
`checkQuotientDistributions`, lines 155-161). -/
def SignatureSorted (less : D → D → Bool) (l : List D) : Prop :=
  List.Chain' (fun a b => less b a = false) l

/-- The sortedness test as a Boolean scan over adjacent entries. -/
def signatureSortedCheck (less : D → D → Bool) : List D → Bool
  | a :: b :: rest => !less b a && signatureSortedCheck less (b :: rest)
  | _ => true

instance (less : D → D → Bool) (l : List D) : Decidable (SignatureSorted less l) :=
  decidable_of_iff (signatureSortedCheck less l = true) (by
    unfold SignatureSorted
    induction l with
    | nil => simp [signatureSortedCheck]
    | cons a l ih =>
      cases l with
      | nil => simp [signatureSortedCheck]
      | cons b rest => simp [signatureSortedCheck, List.chain'_cons, ← ih])

/-- The equivalence induced by `less`: neither entry is less than the other. -/
def equivOf (less : D → D → Bool) (a b : D) : Bool := !less a b && !less b a

/-- Strict weak orders, as Boolean comparators. -/
structure StrictWeakOrder (less : D → D → Bool) : Prop where
  irrefl : ∀ a, less a a = false
  trans : ∀ a b c, less a b = true → less b c = true → less a c = true
  incomp_trans : ∀ a b c, equivOf less a b = true → equivOf less b c = true →
    equivOf less a c = true

end SignatureComparison


/-! ## The model -/

/-- The part of the sparse model that the decomposition reads: the row-group indices
of the transition matrix (`getRowGroupIndices()`, one more entry than there are
states) and its rows (`getRow(choice)`), each a list of `(column, value)` entries. -/
structure Model where
  rowGroupIndices : List Nat
  rows : List (List (Nat × ℚ))
deriving DecidableEq

namespace Model

/-- The call `model.getNumberOfStates()`. -/
def getNumberOfStates (m : Model) : Nat := m.rowGroupIndices.length - 1

/-- The call `model.getNumberOfChoices()`. -/
def getNumberOfChoices (m : Model) : Nat := m.rows.length

/-- The call `getTransitionMatrix().getRow(choice)`. -/
def getRow (m : Model) (choice : Nat) : List (Nat × ℚ) := m.rows.getD choice []

/-- The entry `nondeterministicChoiceIndices[state]`. -/
def choiceIndex (m : Model) (state : Nat) : Nat := m.rowGroupIndices.getD state 0

/-- Modelled from the spec: a row of `backwardTransitions`, the matrix
`getTransitionMatrix().transpose(false)` (the transposition is not in the sources),
section 6: "transpose of the forward relation": the row of a state lists, in
ascending order of the choices, a pair `(choice, value)` for every entry of that
choice's row whose column is the state. -/
def backwardRow (m : Model) (state : Nat) : List (Nat × ℚ) :=
  (List.range m.getNumberOfChoices).flatMap fun c =>
    ((m.getRow c).filter (fun e => e.1 = state)).map (fun e => (c, e.2))

end Model

/-! ## The partition -/

/-- Modelled from the spec: a block of the partition (`bisimulation::Block`, not in
the sources), section 3: its range `[begin, end)` into the sequence of states and the
per-block data, "an absorbing flag, a pending splitter boolean". -/
structure Block where
  beginIndex : Nat
  endIndex : Nat
  absorbing : Bool
  splitter : Bool
deriving DecidableEq, Inhabited

/-- Modelled from the spec: the partition (`bisimulation::Partition`, not in the
sources), section 3: "an ordered sequence of all states, value = block id per
position, plus a table mapping block id → `[begin, end)` range into that sequence".
The id of a block is its index in the table. -/
structure Partition where
  positions : List (Nat × Nat)
  blocks : List Block
deriving DecidableEq

namespace Partition

/-- Modelled from the spec: `getBlock(state)`, section 4.3; the result is the id of the
block. -/
def getBlock (p : Partition) (state : Nat) : Nat := (p.positions.lookup state).getD 0

/-- The block with the given id. -/
def block (p : Partition) (id : Nat) : Block := p.blocks.getD id default

/-- The positions of the range `[begin, end)` of a block. -/
def slice (p : Partition) (id : Nat) : List (Nat × Nat) :=
  (p.positions.drop (p.block id).beginIndex).take
    ((p.block id).endIndex - (p.block id).beginIndex)

/-- Modelled from the spec: the range `begin(block)` to `end(block)`, section 4.3: the
member states of a block, in the order of the sequence. -/
def statesOf (p : Partition) (id : Nat) : List Nat := (p.slice id).map Prod.fst

/-- Modelled from the spec: the invariant of the partition, section 3: "ranges are
disjoint, contiguous, and cover every state exactly once; every state belongs to exactly
one block": no state occurs twice in the sequence, every position carries the id of a
block of the table, and the range of a block holds exactly the positions that carry its
id. -/
structure Valid (p : Partition) : Prop where
  nodup : (p.positions.map Prod.fst).Nodup
  bound : ∀ e ∈ p.positions, e.2 < p.blocks.length
  slices : ∀ id, id < p.blocks.length →
    p.slice id = p.positions.filter (fun e => e.2 = id)

/-- The call `block.getNumberOfStates()`. -/
def getNumberOfStates (p : Partition) (id : Nat) : Nat :=
  (p.block id).endIndex - (p.block id).beginIndex

/-- The call `block.data().setSplitter(flag)`. -/
def setSplitter (p : Partition) (id : Nat) (flag : Bool) : Partition :=
  { p with blocks := p.blocks.set id { p.block id with splitter := flag } }

/-- The maximal runs of a list of states: a new run starts where a state is less than
its successor; `a` is the first state of the list. -/
def runsFrom (less : Nat → Nat → Bool) (a : Nat) : List Nat → List (List Nat)
  | [] => [[a]]
  | b :: rest =>
      match runsFrom less b rest with
      | [] => [[a]]
      | r :: rs => if less a b then [a] :: r :: rs else (a :: r) :: rs

/-- The maximal runs of a list of states. -/
def runs (less : Nat → Nat → Bool) : List Nat → List (List Nat)
  | [] => []
  | a :: rest => runsFrom less a rest

/-- The blocks carved for the runs after the first one: consecutive ranges that start
at `start`, fresh block data. -/
def carveBlocks : Nat → List (List Nat) → List Block
  | _, [] => []
  | start, r :: rs =>
      { beginIndex := start, endIndex := start + r.length, absorbing := false,
        splitter := false } :: carveBlocks (start + r.length) rs

/-- The sequence entries of the runs after the first one: the states of a run carry the
fresh id of the run, the ids count up from `next`. -/
def carvePositions : Nat → List (List Nat) → List (Nat × Nat)
  | _, [] => []
  | next, r :: rs => r.map (fun s => (s, next)) ++ carvePositions (next + 1) rs

/-- Modelled from the spec: `splitBlock(block, lessPredicate, onNewBlock)`, section 4.3:
"sort (or stable-partition) the state sub-range by the predicate, then scan for
predicate-boundaries to carve contiguous sub-ranges, assigning each a fresh block id;
invoke `onNewBlock` once per newly created block (the original block id is reused for
the first/largest resulting sub-range ...). Returns whether any split occurred".
The result is the new partition, the ids handed to `onNewBlock` in the order of the
calls, and the returned flag.  The first run keeps the original id. -/
def splitBlock (p : Partition) (id : Nat) (less : Nat → Nat → Bool) :
    Partition × List Nat × Bool :=
  let b := p.block id
  let sorted := (p.statesOf id).insertionSort (fun s t => less t s = false)
  match runs less sorted with
  | [] => (p, [], false)
  | first :: others =>
      let fresh := p.blocks.length
      let positions :=
        p.positions.take b.beginIndex
          ++ (first.map (fun s => (s, id)) ++ carvePositions fresh others)
          ++ p.positions.drop (b.beginIndex + sorted.length)
      let blocks :=
        p.blocks.set id { b with endIndex := b.beginIndex + first.length }
          ++ carveBlocks (b.beginIndex + first.length) others
      ({ positions := positions, blocks := blocks },
        List.range' fresh others.length, decide (others ≠ []))

end Partition

/-! ## The decomposition -/

/-- The mutable members of `NondeterministicModelBisimulationDecomposition`: the
partition (of the base class), `choiceToStateMapping`, `quotientDistributions` and
`orderedQuotientDistributions`.  A pointer into `quotientDistributions` is the index
of the choice it points to. -/
structure Decomposition where
  partition : Partition
  choiceToStateMapping : List Nat
  quotientDistributions : List Distribution
  orderedQuotientDistributions : List Nat
deriving DecidableEq

namespace Decomposition

/-- The distribution `quotientDistributions[choice]`. -/
def distribution (st : Decomposition) (choice : Nat) : Distribution :=
  st.quotientDistributions.getD choice []

/-- The pointers `orderedQuotientDistributions[begin .. end)` of a state, the begin and
end taken from the row-group indices. -/
def orderedRange (m : Model) (st : Decomposition) (state : Nat) : List Nat :=
  (st.orderedQuotientDistributions.drop (m.choiceIndex state)).take
    (m.choiceIndex (state + 1) - m.choiceIndex state)

/-- The signature list of a state: the distributions that the pointers of its range
point to. -/
def signature (m : Model) (st : Decomposition) (state : Nat) : List Distribution :=
  (orderedRange m st state).map st.distribution

end Decomposition

/-- Lines 39-47: `createChoiceToStateMapping`. -/
def createChoiceToStateMapping (m : Model) (mapping : List Nat) : List Nat :=
  (List.range m.getNumberOfStates).foldl
    (fun mapping state =>
      (List.range' (m.choiceIndex state)
          (m.choiceIndex (state + 1) - m.choiceIndex state)).foldl
        (fun mapping choice => mapping.set choice state) mapping)
    mapping

/-- Lines 66-73: `updateOrderedQuotientDistributions(state)`: `std::sort` of the
pointers of the state's range with the comparator `dist1->less(*dist2)`.  The sort is
modelled by an insertion sort (`std::sort` fixes the result only up to the order of
equivalent entries). -/
def updateOrderedQuotientDistributions (cmp : ConstantsComparator) (m : Model)
    (st : Decomposition) (state : Nat) : Decomposition :=
  let range := Decomposition.orderedRange m st state
  { st with
    orderedQuotientDistributions :=
      st.orderedQuotientDistributions.take (m.choiceIndex state)
        ++ range.insertionSort
            (fun c1 c2 => Distribution.less cmp (st.distribution c2) (st.distribution c1) = false)
        ++ st.orderedQuotientDistributions.drop (m.choiceIndex state + range.length) }

/-- Lines 53-57: the replay of the row of a choice against the partition: every entry
whose value is not zero adds its value to the mass of the block of its column. -/
def replayRow (cmp : ConstantsComparator) (m : Model) (p : Partition) (choice : Nat)
    (d : Distribution) : Distribution :=
  (m.getRow choice).foldl
    (fun d entry =>
      if !cmp.isZero entry.2 then Distribution.addProbability d (p.getBlock entry.1) entry.2
      else d)
    d

/-- The distribution of a choice rebuilt from scratch, as `initializeQuotientDistributions`
builds it. -/
def rebuildDistribution (cmp : ConstantsComparator) (m : Model) (p : Partition)
    (choice : Nat) : Distribution :=
  replayRow cmp m p choice []

/-- Lines 53-58: the body of the first loop of `initializeQuotientDistributions` for one
choice. -/
def initializeChoice (cmp : ConstantsComparator) (m : Model) (st : Decomposition)
    (choice : Nat) : Decomposition :=
  { st with
    quotientDistributions :=
      st.quotientDistributions.set choice
        (replayRow cmp m st.partition choice (st.distribution choice))
    orderedQuotientDistributions := st.orderedQuotientDistributions.set choice choice }

/-- Lines 49-64: `initializeQuotientDistributions`. -/
def initializeQuotientDistributions (cmp : ConstantsComparator) (m : Model)
    (st : Decomposition) : Decomposition :=
  (List.range m.getNumberOfStates).foldl (updateOrderedQuotientDistributions cmp m)
    ((List.range (m.rowGroupIndices.getLastD 0)).foldl (initializeChoice cmp m) st)

/-- The decomposition as the constructor leaves it (line 19): the three vectors have one
default entry per choice. -/
def construct (m : Model) (p : Partition) : Decomposition where
  partition := p
  choiceToStateMapping := List.replicate m.getNumberOfChoices 0
  quotientDistributions := List.replicate m.getNumberOfChoices []
  orderedQuotientDistributions := List.replicate m.getNumberOfChoices 0

/-- Lines 33-37: the member function `initialize()`. -/
def initializeDecomposition (cmp : ConstantsComparator) (m : Model) (st : Decomposition) :
    Decomposition :=
  initializeQuotientDistributions cmp m
    { st with choiceToStateMapping := createChoiceToStateMapping m st.choiceToStateMapping }

/-- Lines 249-286: `quotientDistributionsLess(state1, state2)`. -/
def quotientDistributionsLess (cmp : ConstantsComparator) (m : Model) (st : Decomposition)
    (state1 state2 : Nat) : Bool :=
  signatureLess (Distribution.less cmp) (st.signature m state1) (st.signature m state2)

/-- Lines 81-84: `possiblyNeedsRefinement(block)`. -/
def possiblyNeedsRefinement (st : Decomposition) (block : Nat) : Bool :=
  decide (st.partition.getNumberOfStates block > 1) && !(st.partition.block block).absorbing

/-- The local state of `updateQuotientDistributionsOfPredecessors`: the decomposition,
the splitter queue (a queue of block ids), and `lastState` (`none` while
`lastStateInitialized` is false). -/
structure UpdateState where
  dec : Decomposition
  queue : List Nat
  lastState : Option Nat
deriving DecidableEq

/-- Lines 101-105: "If the predecessor block is not marked as to-refined, we do so now":
the flag is set and the block is pushed onto the splitter queue. -/
def markSplitter (p : Partition) (queue : List Nat) (predecessorBlock : Nat) :
    Partition × List Nat :=
  if !(p.block predecessorBlock).splitter then
    (p.setSplitter predecessorBlock true, queue ++ [predecessorBlock])
  else (p, queue)

/-- Lines 107-117: the order of the distributions of the last state is repaired when the
loop has moved on to the choices of another state. -/
def repairOrder (cmp : ConstantsComparator) (m : Model) (st : Decomposition)
    (lastState : Option Nat) (predecessorState : Nat) : Decomposition :=
  match lastState with
  | some last =>
      if last ≠ predecessorState then updateOrderedQuotientDistributions cmp m st last
      else st
  | none => st

/-- Lines 119-120: `quotientDistributions[predecessorChoice].shiftProbability(oldBlock,
newBlock, value)`. -/
def shiftChoice (st : Decomposition) (predecessorChoice oldBlock newBlock : Nat) (value : ℚ) :
    Decomposition :=
  { st with
    quotientDistributions :=
      st.quotientDistributions.set predecessorChoice
        (Distribution.shiftProbability (st.distribution predecessorChoice)
          oldBlock newBlock value) }

/-- Lines 93-120: the body of the inner loop of
`updateQuotientDistributionsOfPredecessors` for one entry of a backward row. -/
def updatePredecessorEntry (cmp : ConstantsComparator) (m : Model) (newBlock oldBlock : Nat)
    (u : UpdateState) (predecessorEntry : Nat × ℚ) : UpdateState :=
  if cmp.isZero predecessorEntry.2 then u
  else
    let predecessorChoice := predecessorEntry.1
    let predecessorState := u.dec.choiceToStateMapping.getD predecessorChoice 0
    let predecessorBlock := u.dec.partition.getBlock predecessorState
    let flagged := markSplitter u.dec.partition u.queue predecessorBlock
    let repaired :=
      repairOrder cmp m { u.dec with partition := flagged.1 } u.lastState predecessorState
    { dec := shiftChoice repaired predecessorChoice oldBlock newBlock predecessorEntry.2
      queue := flagged.2
      lastState := some predecessorState }

/-- The entries that the two nested loops of lines 91-92 visit, in order. -/
def predecessorEntries (m : Model) (st : Decomposition) (newBlock : Nat) : List (Nat × ℚ) :=
  (st.partition.statesOf newBlock).flatMap m.backwardRow

/-- Lines 124-126: the repair of the order for the last predecessor state. -/
def finishUpdate (cmp : ConstantsComparator) (m : Model) (u : UpdateState) :
    Decomposition × List Nat :=
  match u.lastState with
  | some lastState => (updateOrderedQuotientDistributions cmp m u.dec lastState, u.queue)
  | none => (u.dec, u.queue)

/-- Lines 86-127: `updateQuotientDistributionsOfPredecessors(newBlock, oldBlock,
splitterQueue)`. -/
def updateQuotientDistributionsOfPredecessors (cmp : ConstantsComparator) (m : Model)
    (st : Decomposition) (newBlock oldBlock : Nat) (splitterQueue : List Nat) :
    Decomposition × List Nat :=
  finishUpdate cmp m
    ((predecessorEntries m st newBlock).foldl (updatePredecessorEntry cmp m newBlock oldBlock)
      { dec := st, queue := splitterQueue, lastState := none })

/-- Lines 215-247: `splitBlockAccordingToCurrentQuotientDistributions(block,
splitterQueue)`; the result is the decomposition, the queue and the returned flag. -/
def splitBlockAccordingToCurrentQuotientDistributions (cmp : ConstantsComparator)
    (m : Model) (st : Decomposition) (block : Nat) (splitterQueue : List Nat) :
    Decomposition × List Nat × Bool :=
  let result := st.partition.splitBlock block (quotientDistributionsLess cmp m st)
  let updated := result.2.1.foldl
    (fun (acc : Decomposition × List Nat) el =>
      updateQuotientDistributionsOfPredecessors cmp m acc.1 el block acc.2)
    ({ st with partition := result.1 }, splitterQueue)
  (updated.1, updated.2, result.2.2)

/-- Lines 288-297: `refinePartitionBasedOnSplitter(splitter, splitterQueue)`. -/
def refinePartitionBasedOnSplitter (cmp : ConstantsComparator) (m : Model)
    (st : Decomposition) (splitter : Nat) (splitterQueue : List Nat) :
    Decomposition × List Nat :=
  if !possiblyNeedsRefinement st splitter then (st, splitterQueue)
  else
    let result := splitBlockAccordingToCurrentQuotientDistributions cmp m st splitter splitterQueue
    (result.1, result.2.1)

/-! ## The refinement driver -/

/-- Modelled from the spec: the start of the refinement loop (the driver of the base
class is not in the sources), section 4.5: "all such blocks enqueued"; section 3: "a
block is marked pending while queued". -/
def enqueueAllBlocks (st : Decomposition) : Decomposition × List Nat :=
  ({ st with
      partition :=
        { st.partition with
          blocks := st.partition.blocks.map (fun b => { b with splitter := true }) } },
    List.range st.partition.blocks.length)

/-- Modelled from the spec: one round of the refinement loop, sections 2 and 4.5: the
driver "pops a candidate block" from the queue, the block is no longer pending, and
`refine(block)` runs. -/
def refinementStep (cmp : ConstantsComparator) (m : Model)
    (s : Decomposition × List Nat) : Decomposition × List Nat :=
  match s.2 with
  | [] => s
  | splitter :: rest =>
      refinePartitionBasedOnSplitter cmp m
        { s.1 with partition := s.1.partition.setSplitter splitter false } splitter rest

/-- Modelled from the spec: the refinement loop, section 4.5: "repeat until queue
empty"; `fuel` bounds the number of rounds. -/
def refinementLoop (cmp : ConstantsComparator) (m : Model) :
    Nat → Decomposition × List Nat → Decomposition × List Nat
  | 0, s => s
  | fuel + 1, s =>
      match s.2 with
      | [] => s
      | _ :: _ => refinementLoop cmp m fuel (refinementStep cmp m s)


/-! ## Invariants -/

/-- The sum of the probabilities in the transition row of a choice. -/
def Model.rowSum (m : Model) (choice : Nat) : ℚ := ((m.getRow choice).map Prod.snd).sum

/-- Mass conservation: the masses of the quotient distribution of every choice add up
to the sum of the probabilities of its row. -/
def Decomposition.MassConserved (m : Model) (st : Decomposition) : Prop :=
  ∀ c, (st.distribution c).total = m.rowSum c

/-- The row-group indices are non-decreasing. -/
def Model.Monotone (m : Model) : Prop := m.rowGroupIndices.Pairwise (fun a b => a ≤ b)

/-- Every signature list is sorted. -/
def Decomposition.SignaturesSorted (cmp : ConstantsComparator) (m : Model)
    (st : Decomposition) : Prop :=
  ∀ s, SignatureSorted (Distribution.less cmp) (st.signature m s)

/-- Every pointer in the range of a state points to the distribution of a choice that
`choiceToStateMapping` maps to that state. -/
def Decomposition.Owned (m : Model) (st : Decomposition) : Prop :=
  ∀ s, s < m.getNumberOfStates → ∀ c ∈ st.orderedRange m s,
    st.choiceToStateMapping.getD c 0 = s

/-- What a caller may rely on after `splitBlock(block, less, onNewBlock)` on a valid
partition: the result `r` is a valid partition of the same states, the ids handed to
`onNewBlock` are the ids that the table did not have before, every state outside the
block keeps its block, every state of the block stays in the block or moves to one of
the new blocks, two states of the block end in the same block exactly if neither is
less than the other (for a strict weak order), and the data of the old blocks is kept
while the new blocks carry fresh data. -/
structure Partition.SplitSpec (p : Partition) (id : Nat) (less : Nat → Nat → Bool)
    (r : Partition × List Nat × Bool) : Prop where
  valid : r.1.Valid
  states : (r.1.positions.map Prod.fst).Perm (p.positions.map Prod.fst)
  news : r.2.1 = List.range' p.blocks.length (r.1.blocks.length - p.blocks.length)
  grow : p.blocks.length ≤ r.1.blocks.length
  flag : r.2.2 = decide (r.2.1 ≠ [])
  inTable : r.2.1 ≠ [] → id < p.blocks.length
  frame : ∀ e, e ∈ p.positions → e.2 ≠ id → e ∈ r.1.positions
  members : ∀ e, e ∈ r.1.positions →
    (e ∈ p.positions ∧ e.2 ≠ id) ∨ ((e.1, id) ∈ p.positions ∧ (e.2 = id ∨ e.2 ∈ r.2.1))
  classes : StrictWeakOrder less → ∀ e1, e1 ∈ r.1.positions → ∀ e2, e2 ∈ r.1.positions →
    (e1.1, id) ∈ p.positions → (e2.1, id) ∈ p.positions →
    (e1.2 = e2.2 ↔ equivOf less e1.1 e2.1 = true)
  oldData : ∀ j, j < p.blocks.length →
    (r.1.block j).absorbing = (p.block j).absorbing ∧
    (r.1.block j).splitter = (p.block j).splitter
  newData : ∀ j, j ∈ r.2.1 →
    (r.1.block j).absorbing = false ∧ (r.1.block j).splitter = false

/-- The probability mass that the row of a choice sends into the states that `g` maps
to the block id `k`. -/
def Model.blockMass (m : Model) (g : Nat → Nat) (choice k : Nat) : ℚ :=
  Distribution.mass ((m.getRow choice).map (fun e => (g e.1, e.2))) k

/-- No transition of the model has a negative probability. -/
def Model.Nonnegative (m : Model) : Prop := ∀ row ∈ m.rows, ∀ e ∈ row, 0 ≤ e.2

/-- Every quotient distribution equals (`Distribution.equals`) the distribution that is
rebuilt from the row of its choice against the current partition. -/
def Decomposition.Consistent (cmp : ConstantsComparator) (m : Model) (st : Decomposition) :
    Prop :=
  ∀ c, c < m.getNumberOfChoices →
    Distribution.equals cmp (st.distribution c)
      (rebuildDistribution cmp m st.partition c) = true

/-- The keys of every quotient distribution are unique. -/
def Decomposition.UniqueKeys (st : Decomposition) : Prop :=
  ∀ d ∈ st.quotientDistributions, d.keys.Nodup

/-- A distribution stores no zero mass. -/
def Distribution.ZeroFree (d : Distribution) : Prop := ∀ k ∈ d.keys, d.mass k ≠ 0

/-- Every stored mass is positive. -/
def Distribution.Positive (d : Distribution) : Prop := ∀ k ∈ d.keys, 0 < d.mass k

/-- Two partitions that differ at most in the splitter flags of their blocks. -/
def Partition.SameLayout (p q : Partition) : Prop :=
  q.positions = p.positions ∧ q.blocks.length = p.blocks.length ∧
  ∀ i, (q.block i).beginIndex = (p.block i).beginIndex ∧
    (q.block i).endIndex = (p.block i).endIndex ∧
    (q.block i).absorbing = (p.block i).absorbing

/-- The quotient distributions are the rebuilt ones for the block function `g`: they have
the masses of the rows aggregated by `g`, unique keys and no zero entry. -/
structure Decomposition.Tracks (m : Model) (g : Nat → Nat) (st : Decomposition) : Prop where
  length : st.quotientDistributions.length = m.getNumberOfChoices
  keys : ∀ c, (st.distribution c).keys.Nodup
  zeroFree : ∀ c, (st.distribution c).ZeroFree
  mass : ∀ c k, (st.distribution c).mass k = m.blockMass g c k

/-- The block function between two predecessor updates of one split: the states of the
new blocks in `done` are counted for their new block, all others for their old one. -/
def Partition.movedBlock (p p' : Partition) (done : List Nat) (s : Nat) : Nat :=
  if p'.getBlock s ∈ done then p'.getBlock s else p.getBlock s

/-- Lines 175-195: `checkBlockStable(newBlock)`; the result is `false` where the code
leaves through `exit(-1)`. -/
def checkBlockStable (cmp : ConstantsComparator) (m : Model) (st : Decomposition)
    (newBlock : Nat) : Bool :=
  (st.partition.statesOf newBlock).all fun state1 =>
    (st.partition.statesOf newBlock).all fun state2 =>
      !(quotientDistributionsLess cmp m st state1 state2
        || quotientDistributionsLess cmp m st state2 state1)

/-- The invariant of the refinement loop, for a decomposition and its splitter queue:
the partition is valid, the signature lists are sorted and point to the choices of their
state, every block that is marked as a splitter is in the queue, and every block that is
neither marked nor absorbing is stable. -/
structure RefinementInvariant (cmp : ConstantsComparator) (m : Model)
    (s : Decomposition × List Nat) : Prop where
  valid : s.1.partition.Valid
  sorted : s.1.SignaturesSorted cmp m
  owned : s.1.Owned m
  queued : ∀ id, id < s.1.partition.blocks.length →
    (s.1.partition.block id).splitter = true → id ∈ s.2
  stable : ∀ id, id < s.1.partition.blocks.length →
    (s.1.partition.block id).splitter = false →
    (s.1.partition.block id).absorbing = false → checkBlockStable cmp m s.1 id = true

/-- The pointers in the range of every state are a permutation of the choices of the
state. -/
def Decomposition.RangesPermuted (m : Model) (st : Decomposition) : Prop :=
  ∀ s, s < m.getNumberOfStates →
    (st.orderedRange m s).Perm
      (List.range' (m.choiceIndex s) (m.choiceIndex (s + 1) - m.choiceIndex s))

/-- The vector `choiceToStateMapping` maps every choice of a state to the state. -/
def Decomposition.MappingCorrect (m : Model) (st : Decomposition) : Prop :=
  ∀ s, s < m.getNumberOfStates → ∀ c, m.choiceIndex s ≤ c → c < m.choiceIndex (s + 1) →
    st.choiceToStateMapping.getD c 0 = s

/-- The invariant of the loop of `updateQuotientDistributionsOfPredecessors`, relative to
the decomposition `st0` and the queue `q0` at entry: the partition changes in splitter
flags only and no flag is cleared, the queue only grows, every block that is marked is
marked at entry or in the queue, the block of `lastState` is marked, and the signature
list of every state whose block is not marked is the one at entry. -/
structure UpdateInvariant (m : Model) (st0 : Decomposition) (q0 : List Nat)
    (u : UpdateState) : Prop where
  layout : st0.partition.SameLayout u.dec.partition
  flags : ∀ id, (st0.partition.block id).splitter = true →
    (u.dec.partition.block id).splitter = true
  queue : ∀ id, id ∈ q0 → id ∈ u.queue
  queued : ∀ id, (u.dec.partition.block id).splitter = true →
    (st0.partition.block id).splitter = true ∨ id ∈ u.queue
  last : ∀ l, u.lastState = some l →
    (u.dec.partition.block (u.dec.partition.getBlock l)).splitter = true
  frame : ∀ s, (u.dec.partition.block (u.dec.partition.getBlock s)).splitter = false →
    u.dec.signature m s = st0.signature m s
  owned : u.dec.Owned m

/-- Modelled from the spec: a run of the decomposition (the driver of the base class is
not in the sources), section 4.5: the constructor and `initialize()`, "all such blocks
enqueued", then the refinement loop; `fuel` bounds the number of rounds.  The result is
the decomposition and the splitter queue at the end. -/
def runRefinement (cmp : ConstantsComparator) (m : Model) (p : Partition) (fuel : Nat) :
    Decomposition × List Nat :=
  refinementLoop cmp m fuel (enqueueAllBlocks (initializeDecomposition cmp m (construct m p)))

/-- The choices of a state: the choices from `rowGroupIndices[state]` up to
`rowGroupIndices[state + 1]`. -/
def Model.choicesOf (m : Model) (state : Nat) : List Nat :=
  List.range' (m.choiceIndex state) (m.choiceIndex (state + 1) - m.choiceIndex state)

/-- The matching of the choices of two states, in the words of the specification, section
1: "every choice available in one state has a matching choice in the other state whose
successor-probability mass, aggregated per target block, is identical"; `g` maps a state
to the id of its block. -/
def Model.Matches (m : Model) (g : Nat → Nat) (s1 s2 : Nat) : Prop :=
  (∀ c1 ∈ m.choicesOf s1, ∃ c2 ∈ m.choicesOf s2,
      ∀ k, m.blockMass g c1 k = m.blockMass g c2 k) ∧
  (∀ c2 ∈ m.choicesOf s2, ∃ c1 ∈ m.choicesOf s1,
      ∀ k, m.blockMass g c1 k = m.blockMass g c2 k)

/-- Every column of the transition matrix is a state of the model. -/
def Model.Closed (m : Model) : Prop :=
  ∀ row ∈ m.rows, ∀ e ∈ row, e.1 < m.getNumberOfStates

/-- The block assignment `g` of the states of the model is a stable refinement of the
partition `p0`: two states that share a block of `g` share a block of `p0` and have
matching choices. -/
def Model.StableRefinement (m : Model) (p0 : Partition) (g : Nat → Nat) : Prop :=
  ∀ s1, s1 < m.getNumberOfStates → ∀ s2, s2 < m.getNumberOfStates → g s1 = g s2 →
    p0.getBlock s1 = p0.getBlock s2 ∧ m.Matches g s1 s2

/-- The second invariant of the refinement loop, relative to the initial partition `p0`:
the quotient distributions are the rebuilt ones, the signature lists hold the choices of
their state, every state of the model is in the partition, no block is absorbing, the
partition refines `p0`, and every stable refinement of `p0` refines the partition. -/
structure QuotientInvariant (m : Model) (p0 : Partition) (s : Decomposition × List Nat) :
    Prop where
  tracks : s.1.Tracks m s.1.partition.getBlock
  ranges : s.1.RangesPermuted m
  members : ∀ t, t < m.getNumberOfStates → t ∈ s.1.partition.positions.map Prod.fst
  noAbsorbing : ∀ id, (s.1.partition.block id).absorbing = false
  refines : ∀ s1 s2, s.1.partition.getBlock s1 = s.1.partition.getBlock s2 →
    p0.getBlock s1 = p0.getBlock s2
  coarsest : ∀ g, m.StableRefinement p0 g →
    ∀ s1, s1 < m.getNumberOfStates → ∀ s2, s2 < m.getNumberOfStates → g s1 = g s2 →
      s.1.partition.getBlock s1 = s.1.partition.getBlock s2

/-- Every block with an id from `b0` on holds a state. -/
def Partition.FreshInhabited (b0 : Nat) (p : Partition) : Prop :=
  ∀ j, b0 ≤ j → j < p.blocks.length → ∃ s, (s, j) ∈ p.positions

/-- The invariant behind the termination of the refinement loop, for the number `b0` of
initial blocks and the number `n` of states: the partition is valid, it has `n`
states, and every block that is not an initial block holds a state. -/
structure TerminationInvariant (b0 n : Nat) (s : Decomposition × List Nat) : Prop where
  valid : s.1.partition.Valid
  size : s.1.partition.positions.length = n
  inhabited : s.1.partition.FreshInhabited b0

/-! ## Contracts of the operations -/

/-- The invariant of the partition in the words of the specification, section 3: "ranges
are disjoint, contiguous, and cover every state exactly once; every state belongs to
exactly one block": every position of the sequence lies in the range of exactly one
block, it carries the id of that block, no state occurs twice in the sequence, and every
state is a member of exactly one block. -/
structure Partition.Partitioned (p : Partition) : Prop where
  cover : ∀ i, i < p.positions.length →
    ∃! id, id < p.blocks.length ∧ (p.block id).beginIndex ≤ i ∧ i < (p.block id).endIndex
  carries : ∀ i id, i < p.positions.length → id < p.blocks.length →
    (p.block id).beginIndex ≤ i → i < (p.block id).endIndex →
    (p.positions.getD i (0, 0)).2 = id
  once : (p.positions.map Prod.fst).Nodup
  member : ∀ s ∈ p.positions.map Prod.fst,
    ∃! id, id < p.blocks.length ∧ s ∈ p.statesOf id

/-- The sum of the non-zero probabilities of the transitions of the choice `c` into the
states of the block `block`. -/
def Decomposition.massInto (cmp : ConstantsComparator) (m : Model) (st : Decomposition)
    (c block : Nat) : ℚ :=
  (((m.getRow c).filter
      (fun e => !cmp.isZero e.2 && decide (e.1 ∈ st.partition.statesOf block))).map
    Prod.snd).sum

/-- The range of every block lies within the sequence of states. -/
def Partition.InBounds (p : Partition) : Prop :=
  ∀ b ∈ p.blocks, b.beginIndex ≤ b.endIndex ∧ b.endIndex ≤ p.positions.length

/-- A decomposition at a fixpoint of the refinement loop: the partition is valid with
ranges within the sequence, the signature lists are sorted, no block is marked as a
splitter, and every block that is not absorbing is stable. -/
structure Decomposition.Fixpoint (cmp : ConstantsComparator) (m : Model)
    (st : Decomposition) : Prop where
  valid : st.partition.Valid
  inBounds : st.partition.InBounds
  sorted : st.SignaturesSorted cmp m
  unflagged : ∀ id, (st.partition.block id).splitter = false
  stable : ∀ id, id < st.partition.blocks.length →
    (st.partition.block id).absorbing = false → checkBlockStable cmp m st id = true

/-- The state of a second run of the refinement loop from the fixpoint `fix` after `k`
rounds: the queue holds the blocks from `k` on, these blocks are marked, and nothing else
differs from `fix`. -/
structure RerunState (fix : Decomposition) (k : Nat) (s : Decomposition × List Nat) :
    Prop where
  queue : s.2 = List.range' k (fix.partition.blocks.length - k)
  mapping : s.1.choiceToStateMapping = fix.choiceToStateMapping
  distributions : s.1.quotientDistributions = fix.quotientDistributions
  ordered : s.1.orderedQuotientDistributions = fix.orderedQuotientDistributions
  positions : s.1.partition.positions = fix.partition.positions
  length : s.1.partition.blocks.length = fix.partition.blocks.length
  blocks : ∀ i, s.1.partition.block i
    = if k ≤ i ∧ i < fix.partition.blocks.length then
        { fix.partition.block i with splitter := true }
      else fix.partition.block i

/-! ## Options, construction and the probability-0/1 query -/

/-- Modelled from the spec: the values of `options.type` (the declaration of
`BisimulationType` is not in the sources), section 6: "bisimulationType: Strong (only
supported value here)"; `Weak` is the value that section 4.5 has rejected. -/
inductive BisimulationType where
  | Strong
  | Weak
deriving DecidableEq

/-- Modelled from the spec: the values of `OptimizationDirection` (not in the sources),
section 6: "Minimize|Maximize". -/
inductive OptimizationDirection where
  | Minimize
  | Maximize
deriving DecidableEq

/-- A set of states (`storm::storage::BitVector`, not in the sources): the list of its
members. -/
abbrev StateSet := List Nat

/-- Modelled from the spec: the options object (not in the sources), section 6:
"bisimulationType, optimalityDirection: optional Minimize|Maximize, phiStates, psiStates".
The source reads `optimalityType`, `phiStates` and `psiStates` through `get()`, so the
three are optional values. -/
structure Options where
  type : BisimulationType
  optimalityType : Option OptimizationDirection
  phiStates : Option StateSet
  psiStates : Option StateSet
deriving DecidableEq

/-- The exceptions that the translation unit throws. -/
inductive Exception where
  | IllegalFunctionCallException
deriving DecidableEq

/-- The macro `STORM_LOG_THROW(cond, exception, message)` (`src/utility/macros.h`, not in
the sources), as its uses in lines 20 and 25 read: the exception is thrown unless the
condition holds.  The message is left out. -/
def STORM_LOG_THROW (cond : Bool) (exception : Exception) : Except Exception Unit :=
  if cond then Except.ok () else Except.error exception

/-- Lines 18-21: the constructor.  The constructor of the base class (not in the sources)
has run and has left the partition `p`; the member initialisers of line 19 build the three
vectors (`construct`); the body checks `options.type`. -/
def NondeterministicModelBisimulationDecomposition (m : Model) (p : Partition)
    (options : Options) : Except Exception Decomposition :=
  match STORM_LOG_THROW (decide (options.type = BisimulationType.Strong))
      Exception.IllegalFunctionCallException with
  | Except.error e => Except.error e
  | Except.ok _ => Except.ok (construct m p)

/-- Lines 23-31: `getStatesWithProbability01()`.  The graph algorithms
`performProb01Min` and `performProb01Max` (`src/utility/graph.h`) and the matrix
`model.getBackwardTransitions()` are not in the sources and are parameters.  A `get()` of
an empty `phiStates` or `psiStates` has no defined value: the result is then `none`. -/
def getStatesWithProbability01
    (performProb01Min performProb01Max :
      List (List (Nat × ℚ)) → List Nat → List (List (Nat × ℚ)) → StateSet → StateSet →
        StateSet × StateSet)
    (m : Model) (backwardTransitions : List (List (Nat × ℚ))) (options : Options) :
    Except Exception (Option (StateSet × StateSet)) :=
  match STORM_LOG_THROW options.optimalityType.isSome
      Exception.IllegalFunctionCallException with
  | Except.error e => Except.error e
  | Except.ok _ =>
      if options.optimalityType = some OptimizationDirection.Minimize then
        Except.ok
          (options.phiStates.bind fun phi =>
            options.psiStates.bind fun psi =>
              some (performProb01Min m.rows m.rowGroupIndices backwardTransitions phi psi))
      else
        Except.ok
          (options.phiStates.bind fun phi =>
            options.psiStates.bind fun psi =>
              some (performProb01Max m.rows m.rowGroupIndices backwardTransitions phi psi))

/-! ## Separation -/

/-- The third invariant of the refinement loop, relative to the initial partition `p0`:
the quotient distributions are the rebuilt ones, the signature lists hold the choices of
their state, every state of the model is in the partition, and two states of one block of
`p0` that lie in different blocks do not have matching choices. -/
structure SeparationInvariant (m : Model) (p0 : Partition) (s : Decomposition × List Nat) :
    Prop where
  tracks : s.1.Tracks m s.1.partition.getBlock
  ranges : s.1.RangesPermuted m
  members : ∀ t, t < m.getNumberOfStates → t ∈ s.1.partition.positions.map Prod.fst
  separated : ∀ s1, s1 < m.getNumberOfStates → ∀ s2, s2 < m.getNumberOfStates →
    p0.getBlock s1 = p0.getBlock s2 →
    s.1.partition.getBlock s1 ≠ s.1.partition.getBlock s2 →
    ¬ m.Matches s.1.partition.getBlock s1 s2

/-! ## The consistency hook -/

/-- Lines 134-137: the distribution that `checkQuotientDistributions` rebuilds for a
choice: every entry of the row adds its value to the mass of the block of its column. -/
def checkedDistribution (m : Model) (p : Partition) (choice : Nat) : Distribution :=
  (m.getRow choice).foldl
    (fun distribution element =>
      Distribution.addProbability distribution (p.getBlock element.1) element.2)
    []

/-- Lines 134-152: the checks of `checkQuotientDistributions` for one choice; the result
is `false` where the code leaves through `exit(-1)`. -/
def checkChoice (cmp : ConstantsComparator) (m : Model) (st : Decomposition)
    (choice : Nat) : Bool :=
  let distribution := checkedDistribution m st.partition choice
  if !Distribution.equals cmp distribution (st.distribution choice) then false
  else
    let less1 := Distribution.less cmp distribution (st.distribution choice)
    let less2 := Distribution.less cmp (st.distribution choice) distribution
    if Distribution.equals cmp distribution (st.distribution choice) && (less1 || less2) then
      false
    else true

/-- Lines 156-160: the check of two neighbours of `orderedQuotientDistributions`; the
result is `false` where the code leaves through `exit(-1)`. -/
def checkOrder (cmp : ConstantsComparator) (st : Decomposition) (choice : Nat) : Bool :=
  if Distribution.less cmp
      (st.distribution (st.orderedQuotientDistributions.getD (choice + 1) 0))
      (st.distribution (st.orderedQuotientDistributions.getD choice 0)) then false
  else true

/-- Lines 133-161: the body of the outer loop of `checkQuotientDistributions` for one
state.  The bound `nondeterministicChoiceIndices[state + 1] - 1` of the second loop is
computed in `uint_fast64_t`, of 64 bits. -/
def checkState (cmp : ConstantsComparator) (m : Model) (st : Decomposition)
    (state : Nat) : Bool :=
  (List.range' (m.choiceIndex state)
      (m.choiceIndex (state + 1) - m.choiceIndex state)).all (checkChoice cmp m st)
    && (List.range' (m.choiceIndex state)
      ((m.choiceIndex (state + 1) + 2 ^ 64 - 1) % 2 ^ 64 - m.choiceIndex state)).all
        (checkOrder cmp st)

/-- Lines 129-164: `checkQuotientDistributions()`; the result is `true` where the code
reaches `return true` and `false` where it leaves through `exit(-1)`. -/
def checkQuotientDistributions (cmp : ConstantsComparator) (m : Model)
    (st : Decomposition) : Bool :=
  (List.range m.getNumberOfStates).all (checkState cmp m st)

/-! ## The split with its callback -/

namespace Partition

/-- Modelled from the spec: the scan of `splitBlock` with its callback, section 4.3: "scan
for predicate-boundaries to carve contiguous sub-ranges, assigning each a fresh block id;
invoke `onNewBlock` once per newly created block".  The scan runs from left to right over
the sorted states; the predicate and the callback work on a state `s` of the caller;
where `a` is less than its successor `b` a new block with the id `next` starts at `b` and
the callback is invoked with it before the scan goes on, so the later comparisons see
what the callback has done.  The result is the runs and the state of the caller at the
end. -/
def runsFromWith {σ : Type} (less : σ → Nat → Nat → Bool) (onNewBlock : σ → Nat → σ) :
    σ → Nat → Nat → List Nat → List (List Nat) × σ
  | s, _, a, [] => ([[a]], s)
  | s, next, a, b :: rest =>
      if less s a b then
        let scanned := runsFromWith less onNewBlock (onNewBlock s next) (next + 1) b rest
        ([a] :: scanned.1, scanned.2)
      else
        let scanned := runsFromWith less onNewBlock s next b rest
        match scanned.1 with
        | [] => ([[a]], scanned.2)
        | r :: rs => ((a :: r) :: rs, scanned.2)

/-- The scan with the callback on a list of states. -/
def runsWith {σ : Type} (less : σ → Nat → Nat → Bool) (onNewBlock : σ → Nat → σ)
    (s : σ) (next : Nat) : List Nat → List (List Nat) × σ
  | [] => ([], s)
  | a :: rest => runsFromWith less onNewBlock s next a rest

/-- Modelled from the spec: `splitBlock(block, lessPredicate, onNewBlock)`, section 4.3,
with the callback invoked during the scan: the predicate and the callback share the state
`s` of the caller.  The result is the new partition, the state of the caller after the
last callback, and the returned flag. -/
def splitBlockWith {σ : Type} (p : Partition) (id : Nat) (less : σ → Nat → Nat → Bool)
    (onNewBlock : σ → Nat → σ) (s : σ) : Partition × σ × Bool :=
  let b := p.block id
  let sorted := (p.statesOf id).insertionSort (fun x y => less s y x = false)
  let scanned := runsWith less onNewBlock s p.blocks.length sorted
  match scanned.1 with
  | [] => (p, scanned.2, false)
  | first :: others =>
      let fresh := p.blocks.length
      let positions :=
        p.positions.take b.beginIndex
          ++ (first.map (fun x => (x, id)) ++ carvePositions fresh others)
          ++ p.positions.drop (b.beginIndex + sorted.length)
      let blocks :=
        p.blocks.set id { b with endIndex := b.beginIndex + first.length }
          ++ carveBlocks (b.beginIndex + first.length) others
      ({ positions := positions, blocks := blocks }, scanned.2, decide (others ≠ []))

end Partition

/-- Lines 224-230: the callback that `splitBlockAccordingToCurrentQuotientDistributions`
hands to `splitBlock`: `newBlocks.push_back(&newBlock)`; the state of the caller is the
decomposition and the list `newBlocks`. -/
def recordNewBlock (s : Decomposition × List Nat) (newBlock : Nat) :
    Decomposition × List Nat :=
  (s.1, s.2 ++ [newBlock])
/-! ## Construction of the quotient model -/

/-- The failure of an assertion, with the message of the assertion. -/
structure AssertionFailure where
  message : String
deriving DecidableEq

/-- The macro `STORM_LOG_ASSERT(cond, message)` (`src/utility/macros.h`, not in the
sources).  In a build with assertions (`assertions = true`) a condition that does not hold
ends the run with the message; in a build without assertions the macro expands to
nothing. -/
def STORM_LOG_ASSERT (assertions : Bool) (cond : Bool) (message : String) :
    Except AssertionFailure Unit :=
  if assertions && !cond then Except.error (AssertionFailure.mk message) else Except.ok ()

/-- The object that `buildQuotient` works on: the decomposition and the quotient model of
the base class (a pointer that is empty until a quotient has been built; the type `Q` of
quotient models is not in the sources). -/
structure QuotientState (Q : Type) where
  decomposition : Decomposition
  quotient : Option Q

/-- Lines 75-79: `buildQuotient()`.  The body is the assertion of line 77 and the comment
of line 78; nothing is assigned. -/
def buildQuotient {Q : Type} (assertions : Bool) (s : QuotientState Q) :
    Except AssertionFailure (QuotientState Q) :=
  match STORM_LOG_ASSERT assertions false "Not yet implemented" with
  | Except.error e => Except.error e
  | Except.ok _ => Except.ok s

/-! ## The sortedness scan with the positions that it reads -/

/-- Lines 155-161: the rounds of the second loop of `checkQuotientDistributions` over the
choices given, with the positions of `orderedQuotientDistributions` that are read in the
order of the reads (line 156 reads `choice + 1` and `choice`; lines 157-158 print the same
two entries).  The first component is `false` where the code leaves through `exit(-1)`. -/
def scanOrder (cmp : ConstantsComparator) (st : Decomposition) : List Nat → Bool × List Nat
  | [] => (true, [])
  | choice :: rest =>
      if Distribution.less cmp
          (st.distribution (st.orderedQuotientDistributions.getD (choice + 1) 0))
          (st.distribution (st.orderedQuotientDistributions.getD choice 0)) then
        (false, [choice + 1, choice])
      else ((scanOrder cmp st rest).1, [choice + 1, choice] ++ (scanOrder cmp st rest).2)

/-- Line 155: the bound `nondeterministicChoiceIndices[state + 1] - 1` of the second loop,
computed in `uint_fast64_t`, of 64 bits. -/
def Model.scanBound (m : Model) (state : Nat) : Nat :=
  (m.choiceIndex (state + 1) + 2 ^ 64 - 1) % 2 ^ 64

/-- Lines 155-161: the second loop of `checkQuotientDistributions` for one state: `choice`
runs from `nondeterministicChoiceIndices[state]` while it is below the bound. -/
def sortednessScan (cmp : ConstantsComparator) (m : Model) (st : Decomposition)
    (state : Nat) : Bool × List Nat :=
  scanOrder cmp st
    (List.range' (m.choiceIndex state) (m.scanBound state - m.choiceIndex state))

/-! ## The comparison of two states on iterator positions -/

/-- The test `(*it1)->less(**it2, comparator)` of `quotientDistributionsLess` on the
entries at the positions `i` and `j` of `orderedQuotientDistributions`. -/
def Decomposition.lessAt (cmp : ConstantsComparator) (st : Decomposition) (i j : Nat) :
    Bool :=
  Distribution.less cmp (st.distribution (st.orderedQuotientDistributions.getD i 0))
    (st.distribution (st.orderedQuotientDistributions.getD j 0))

/-- Lines 274-276 and 277-279: one `while` loop of `quotientDistributionsLess`,
`while (it != ite && std::next(it) != ite && !(*it)->less(**std::next(it))) ++it;`,
on iterator positions.  The result is the position at which the loop stops (`none` when
`fuel` rounds do not reach the end of the loop) and the positions that are dereferenced,
in the order of the reads. -/
def skipEqualRunAt (cmp : ConstantsComparator) (st : Decomposition) (ite : Nat) :
    Nat → Nat → Option Nat × List Nat
  | 0, _ => (none, [])
  | fuel + 1, it =>
      if it ≠ ite ∧ it + 1 ≠ ite then
        if !st.lessAt cmp it (it + 1) then
          ((skipEqualRunAt cmp st ite fuel (it + 1)).1,
            it :: (it + 1) :: (skipEqualRunAt cmp st ite fuel (it + 1)).2)
        else (some it, [it, it + 1])
      else (some it, [])

/-- Lines 264-285: the main loop of `quotientDistributionsLess` and the final test, on
iterator positions.  The result is the value returned (`none` when `fuel` rounds do not
reach a `return`) and the positions that are dereferenced, in the order of the reads. -/
def lessLoopAt (cmp : ConstantsComparator) (st : Decomposition) (firstIte secondIte : Nat) :
    Nat → Nat → Nat → Option Bool × List Nat
  | 0, _, _ => (none, [])
  | fuel + 1, firstIt, secondIt =>
      if firstIt ≠ firstIte ∧ secondIt ≠ secondIte then
        if st.lessAt cmp firstIt secondIt then (some true, [firstIt, secondIt])
        else if st.lessAt cmp secondIt firstIt then
          (some false, [firstIt, secondIt, secondIt, firstIt])
        else
          match (skipEqualRunAt cmp st firstIte fuel firstIt).1 with
          | none =>
              (none, [firstIt, secondIt, secondIt, firstIt]
                ++ (skipEqualRunAt cmp st firstIte fuel firstIt).2)
          | some firstIt1 =>
              match (skipEqualRunAt cmp st secondIte fuel secondIt).1 with
              | none =>
                  (none, [firstIt, secondIt, secondIt, firstIt]
                    ++ (skipEqualRunAt cmp st firstIte fuel firstIt).2
                    ++ (skipEqualRunAt cmp st secondIte fuel secondIt).2)
              | some secondIt1 =>
                  ((lessLoopAt cmp st firstIte secondIte fuel (firstIt1 + 1)
                      (secondIt1 + 1)).1,
                    [firstIt, secondIt, secondIt, firstIt]
                      ++ (skipEqualRunAt cmp st firstIte fuel firstIt).2
                      ++ (skipEqualRunAt cmp st secondIte fuel secondIt).2
                      ++ (lessLoopAt cmp st firstIte secondIte fuel (firstIt1 + 1)
                          (secondIt1 + 1)).2)
      else if firstIt = firstIte ∧ secondIt ≠ secondIte then (some true, [])
      else (some false, [])

/-- Lines 249-286: `quotientDistributionsLess(state1, state2)` on iterator positions: the
four iterators of lines 259-262 are positions of `orderedQuotientDistributions`.  The
result is the value returned (`none` when `fuel` rounds do not reach a `return`) and the
positions that are dereferenced. -/
def quotientDistributionsLessAt (cmp : ConstantsComparator) (m : Model) (st : Decomposition)
    (state1 state2 : Nat) (fuel : Nat) : Option Bool × List Nat :=
  lessLoopAt cmp st (m.choiceIndex (state1 + 1)) (m.choiceIndex (state2 + 1)) fuel
    (m.choiceIndex state1) (m.choiceIndex state2)

/-! ## The predecessor updates of the new blocks of one split -/

/-- Lines 240-242: the loop of `splitBlockAccordingToCurrentQuotientDistributions` over
the list `newBlocks`: one call of `updateQuotientDistributionsOfPredecessors` for every
new block, in the order of the list. -/
def updatePredecessorsOfNewBlocks (cmp : ConstantsComparator) (m : Model)
    (st : Decomposition) (block : Nat) (newBlocks : List Nat) (splitterQueue : List Nat) :
    Decomposition × List Nat :=
  newBlocks.foldl
    (fun (acc : Decomposition × List Nat) el =>
      updateQuotientDistributionsOfPredecessors cmp m acc.1 el block acc.2)
    (st, splitterQueue)


/-! ## Example inputs -/

/-- A model with two states: state 0 has two choices, state 1 has one; every choice
moves to state 0 with probability one. -/
def duplicateChoiceModel : Model where
  rowGroupIndices := [0, 2, 3]
  rows := [[(0, 1)], [(0, 1)], [(0, 1)]]

/-- The partition of two states into a single block. -/
def singleBlockPartition : Partition where
  positions := [(0, 0), (1, 0)]
  blocks := [{ beginIndex := 0, endIndex := 2, absorbing := false, splitter := false }]

/-- The decomposition of `duplicateChoiceModel` after `initialize()`. -/
def duplicateChoiceDecomposition : Decomposition :=
  initializeDecomposition exactComparator duplicateChoiceModel
    (construct duplicateChoiceModel singleBlockPartition)


/-- The three-state model of the specification: state 0 moves to state 1 and to state 2
with probability one half each, states 1 and 2 loop. -/
def threeStateModel : Model where
  rowGroupIndices := [0, 1, 2, 3]
  rows := [[(1, 1 / 2), (2, 1 / 2)], [(1, 1)], [(2, 1)]]

/-- The initial partition of the three-state model: block 0 holds the states 0 and 2,
block 1 holds the target state 1. -/
def threeStatePartition : Partition where
  positions := [(0, 0), (2, 0), (1, 1)]
  blocks :=
    [{ beginIndex := 0, endIndex := 2, absorbing := false, splitter := false },
     { beginIndex := 2, endIndex := 3, absorbing := false, splitter := false }]

/-- The decomposition of the three-state model after `initialize()`. -/
def threeStateDecomposition : Decomposition :=
  initializeDecomposition exactComparator threeStateModel
    (construct threeStateModel threeStatePartition)

/-- A model with four states, one choice each: state 0 moves to state 3, state 1 moves to
state 2, state 2 moves to state 3 and state 3 loops. -/
def absorbingModel : Model where
  rowGroupIndices := [0, 1, 2, 3, 4]
  rows := [[(3, 1)], [(2, 1)], [(3, 1)], [(3, 1)]]

/-- An initial partition of the four states: the states 0 and 1 form a block that is
flagged absorbing, the states 2 and 3 have a block each. -/
def absorbingPartition : Partition where
  positions := [(0, 0), (1, 0), (2, 1), (3, 2)]
  blocks :=
    [{ beginIndex := 0, endIndex := 2, absorbing := true, splitter := false },
     { beginIndex := 2, endIndex := 3, absorbing := false, splitter := false },
     { beginIndex := 3, endIndex := 4, absorbing := false, splitter := false }]

/-- The decomposition of the three-state model after `initialize()` with block 0 marked
as a splitter; its queue is `[0]`. -/
def threeStateMarked : Decomposition :=
  { threeStateDecomposition with
    partition := threeStateDecomposition.partition.setSplitter 0 true }

/-- A model with three states, one choice each: the states 0 and 1 move to state 2 with
probability one, state 2 loops. -/
def twinModel : Model where
  rowGroupIndices := [0, 1, 2, 3]
  rows := [[(2, 1)], [(2, 1)], [(2, 1)]]

/-- An initial partition of the three states of `twinModel` into three blocks of one state
each. -/
def twinPartition : Partition where
  positions := [(0, 0), (1, 1), (2, 2)]
  blocks :=
    [{ beginIndex := 0, endIndex := 1, absorbing := false, splitter := false },
     { beginIndex := 1, endIndex := 2, absorbing := false, splitter := false },
     { beginIndex := 2, endIndex := 3, absorbing := false, splitter := false }]


/-- A model with two states, one choice each: both states loop with probability one. -/
def selfLoopModel : Model where
  rowGroupIndices := [0, 1, 2]
  rows := [[(0, 1)], [(1, 1)]]

/-- The partition of two states into a single block that is flagged absorbing. -/
def absorbingPairPartition : Partition where
  positions := [(0, 0), (1, 0)]
  blocks := [{ beginIndex := 0, endIndex := 2, absorbing := true, splitter := false }]

/-- A model with two states, one choice each: state 0 loops with probability one and has a
stored entry of probability zero to state 1, state 1 loops. -/
def zeroEntryModel : Model where
  rowGroupIndices := [0, 1, 2]
  rows := [[(0, 1), (1, 0)], [(1, 1)]]

/-- The partition of two states into two blocks of one state each. -/
def pairPartition : Partition where
  positions := [(0, 0), (1, 1)]
  blocks :=
    [{ beginIndex := 0, endIndex := 1, absorbing := false, splitter := false },
     { beginIndex := 1, endIndex := 2, absorbing := false, splitter := false }]
/-! ## A model with a state without choices -/

/-- A model with three states: state 0 has two choices (to state 0 and to state 2),
state 1 has no choice, state 2 has one choice (to state 0). -/
def gapModel : Model where
  rowGroupIndices := [0, 2, 2, 3]
  rows := [[(0, 1)], [(2, 1)], [(0, 1)]]

/-- The partition of the three states of `gapModel` into a single block. -/
def gapPartition : Partition where
  positions := [(0, 0), (1, 0), (2, 0)]
  blocks := [{ beginIndex := 0, endIndex := 3, absorbing := false, splitter := false }]

/-- The decomposition of `gapModel` after `initialize()`. -/
def gapDecomposition : Decomposition :=
  initializeDecomposition exactComparator gapModel (construct gapModel gapPartition)

/-! ## A block that splits into three -/

/-- A model with five states, one choice each: state 0 moves to state 4, state 1 moves to
state 3 and to state 2 with probability one half each, state 2 moves to state 1, state 3
moves to state 1 and to state 2 with probability one half each, and state 4 loops. -/
def siblingModel : Model where
  rowGroupIndices := [0, 1, 2, 3, 4, 5]
  rows := [[(4, 1)], [(3, 1 / 2), (2, 1 / 2)], [(1, 1)], [(1, 1 / 2), (2, 1 / 2)], [(4, 1)]]

/-- The initial partition of `siblingModel`: block 0 holds the states 0, 1 and 2, the
states 3 and 4 have a block each. -/
def siblingPartition : Partition where
  positions := [(0, 0), (1, 0), (2, 0), (3, 1), (4, 2)]
  blocks :=
    [{ beginIndex := 0, endIndex := 3, absorbing := false, splitter := false },
     { beginIndex := 3, endIndex := 4, absorbing := false, splitter := false },
     { beginIndex := 4, endIndex := 5, absorbing := false, splitter := false }]

/-- The decomposition of `siblingModel` after `initialize()` and the call of `splitBlock`
for block 0 (lines 217-229), before the predecessor updates of the new blocks 3 and 4. -/
def siblingSplit : Decomposition :=
  { initializeDecomposition exactComparator siblingModel
      (construct siblingModel siblingPartition) with
    partition :=
      (siblingPartition.splitBlock 0
        (quotientDistributionsLess exactComparator siblingModel
          (initializeDecomposition exactComparator siblingModel
            (construct siblingModel siblingPartition)))).1 }

/-! ## A comparator with a tolerance -/

/-- Modelled from the spec: the comparator of an approximate value type, section 4.1:
"equality uses an absolute/relative tolerance and `isLess` must be defined so that
`isEqual(a,b) ⇒ ¬isLess(a,b) ∧ ¬isLess(b,a)`".  The tolerance `eps` is absolute: two
values are equal when they differ by at most `eps`, and `a` is less than `b` when it is
smaller by more than `eps`. -/
def toleranceComparator (eps : ℚ) : ConstantsComparator where
  isZero := fun v => decide (v ≤ eps ∧ 0 - v ≤ eps)
  isEqual := fun a b => decide (a - b ≤ eps ∧ b - a ≤ eps)
  isLess := fun a b => decide (a + eps < b)

/-- A model with five states, one choice each: the states 0, 1 and 2 move to state 3 with
the probabilities 1/2, 5/8 and 3/4 and to state 4 with the rest; the states 3 and 4
loop.  With the tolerance 1/8 the probabilities of neighbours are equal and those of the
states 0 and 2 are not. -/
def tolModel : Model where
  rowGroupIndices := [0, 1, 2, 3, 4, 5]
  rows :=
    [[(3, 1 / 2), (4, 1 / 2)], [(3, 5 / 8), (4, 3 / 8)], [(3, 3 / 4), (4, 1 / 4)],
      [(3, 1)], [(4, 1)]]

/-- The initial partition of `tolModel` and of `sepModel`: block 0 holds the states 0, 1
and 2, the states 3 and 4 have a block each; no block is flagged absorbing. -/
def tolPartition : Partition where
  positions := [(0, 0), (1, 0), (2, 0), (3, 1), (4, 2)]
  blocks :=
    [{ beginIndex := 0, endIndex := 3, absorbing := false, splitter := false },
     { beginIndex := 3, endIndex := 4, absorbing := false, splitter := false },
     { beginIndex := 4, endIndex := 5, absorbing := false, splitter := false }]

/-- The model `tolModel` with the rows of the states 0 and 1 exchanged: the states 0, 1
and 2 move to state 3 with the probabilities 5/8, 1/2 and 3/4. -/
def sepModel : Model where
  rowGroupIndices := [0, 1, 2, 3, 4, 5]
  rows :=
    [[(3, 5 / 8), (4, 3 / 8)], [(3, 1 / 2), (4, 1 / 2)], [(3, 3 / 4), (4, 1 / 4)],
      [(3, 1)], [(4, 1)]]

/-- The decomposition of `tolModel` after `initialize()` with the tolerance 1/8. -/
def tolDecomposition : Decomposition :=
  initializeDecomposition (toleranceComparator (1 / 8)) tolModel
    (construct tolModel tolPartition)

/-- A model with four states: state 0 has three choices, which move to state 2 with the
probabilities 1/2, 5/8 and 3/4 and to state 3 with the rest; state 1 has one choice,
which moves to state 2 with probability 5/8 and to state 3 with the rest; the states 2
and 3 loop. -/
def chainModel : Model where
  rowGroupIndices := [0, 3, 4, 5, 6]
  rows :=
    [[(2, 1 / 2), (3, 1 / 2)], [(2, 5 / 8), (3, 3 / 8)], [(2, 3 / 4), (3, 1 / 4)],
      [(2, 5 / 8), (3, 3 / 8)], [(2, 1)], [(3, 1)]]

/-- The initial partition of `chainModel`: block 0 holds the states 0 and 1, the states
2 and 3 have a block each. -/
def chainPartition : Partition where
  positions := [(0, 0), (1, 0), (2, 1), (3, 2)]
  blocks :=
    [{ beginIndex := 0, endIndex := 2, absorbing := false, splitter := false },
     { beginIndex := 2, endIndex := 3, absorbing := false, splitter := false },
     { beginIndex := 3, endIndex := 4, absorbing := false, splitter := false }]

/-- The decomposition of `chainModel` after `initialize()` with the tolerance 1/8. -/
def chainDecomposition : Decomposition :=
  initializeDecomposition (toleranceComparator (1 / 8)) chainModel
    (construct chainModel chainPartition)

/-- A model with three states that move to state 0 in every choice: state 0 has two
choices, state 1 has one and state 2 has three. -/
def storedZeroModel : Model where
  rowGroupIndices := [0, 2, 3, 6]
  rows := [[(0, 1)], [(0, 1)], [(0, 1)], [(0, 1)], [(0, 1)], [(0, 1)]]

/-- The partition of the three states of `storedZeroModel` into a single block. -/
def storedZeroPartition : Partition where
  positions := [(0, 0), (1, 0), (2, 0)]
  blocks := [{ beginIndex := 0, endIndex := 3, absorbing := false, splitter := false }]

/-- A decomposition of `storedZeroModel` in which the distributions of the choices 1, 4
and 5 hold, next to the mass 1 on block 0, an entry of mass zero for block 1 (the entry
that `addProbability(1, 0)` creates): the signature list of state 0 is `{0: 1}`,
`{0: 1, 1: 0}`, that of state 1 is `{0: 1}` and that of state 2 is `{0: 1}`,
`{0: 1, 1: 0}`, `{0: 1, 1: 0}`. -/
def storedZeroDecomposition : Decomposition where
  partition := storedZeroPartition
  choiceToStateMapping := [0, 0, 1, 2, 2, 2]
  quotientDistributions :=
    [[(0, 1)], [(0, 1), (1, 0)], [(0, 1)], [(0, 1)], [(0, 1), (1, 0)], [(0, 1), (1, 0)]]
  orderedQuotientDistributions := [0, 1, 2, 3, 4, 5]

/-! ## The arithmetic of the value type -/

/-- The arithmetic of the value type of the model (the template parameter `ValueType`;
line 299 instantiates `double`, line 302 an exact type): the sum and the difference of
two values.  A value is the rational number that it denotes. -/
structure Arithmetic where
  add : ℚ → ℚ → ℚ
  sub : ℚ → ℚ → ℚ

/-- The arithmetic of an exact value type. -/
def exactArithmetic : Arithmetic where
  add := fun a b => a + b
  sub := fun a b => a - b

/-- The power `2 ^ k` for an integer `k`. -/
def twoPow (k : ℤ) : ℚ :=
  if 0 ≤ k then ((2 ^ k.toNat : ℕ) : ℚ) else 1 / ((2 ^ (-k).toNat : ℕ) : ℚ)

/-- The number of halvings that take `n` below 2, at most `fuel` of them. -/
def halvings : Nat → Nat → Nat
  | 0, _ => 0
  | fuel + 1, n => if 2 ≤ n then halvings fuel (n / 2) + 1 else 0

/-- The binary logarithm of a natural number, rounded down (0 for 0). -/
def binaryLog (n : Nat) : Nat := halvings n n

/-- The exponent `e` of a positive rational `q`: `2 ^ e ≤ q < 2 ^ (e + 1)`. -/
def binaryExponent (q : ℚ) : ℤ :=
  let e : ℤ := (binaryLog q.num.natAbs : ℤ) - (binaryLog q.den : ℤ)
  if twoPow e ≤ q then e else e - 1

/-- Rounding of a rational that is not negative to the nearest integer, a tie to the even
one. -/
def roundHalfEven (q : ℚ) : ℤ :=
  if q - (⌊q⌋ : ℚ) < 1 / 2 then ⌊q⌋
  else if 1 / 2 < q - (⌊q⌋ : ℚ) then ⌊q⌋ + 1
  else if ⌊q⌋ % 2 = 0 then ⌊q⌋ else ⌊q⌋ + 1

/-- Rounding of a positive rational to 53 significant binary digits, to the nearest
value, a tie to the even significand. -/
def roundPositive (q : ℚ) : ℚ :=
  (roundHalfEven (q * twoPow (52 - binaryExponent q)) : ℚ) * twoPow (binaryExponent q - 52)

/-- The rounding of IEEE 754 binary64 (`double`) in the default rounding mode, for the
results that lie in the range of the normal numbers (no overflow, no subnormal
result). -/
def roundBinary64 (q : ℚ) : ℚ :=
  if q = 0 then 0 else if 0 < q then roundPositive q else 0 - roundPositive (0 - q)

/-- The arithmetic of `double`: the exact result, rounded. -/
def binary64 : Arithmetic where
  add := fun a b => roundBinary64 (a + b)
  sub := fun a b => roundBinary64 (a - b)

/-! ## The program with the arithmetic of the value type as a parameter

The functions below are the functions of the same name without the suffix `In`, with the
sum of `addProbability` and the difference of `shiftProbability` taken from the
arithmetic of the value type.  With `exactArithmetic` they are the functions above; with
`binary64` they are the instantiation of line 299. -/

namespace Distribution

/-- Modelled from the spec: `addProbability(blockId, value)`, section 4.2, with the sum
of the value type. -/
def addProbabilityIn (ar : Arithmetic) : Distribution → Nat → ℚ → Distribution
  | [], b, v => [(b, v)]
  | (k, m) :: rest, b, v =>
      if k = b then (k, ar.add m v) :: rest else (k, m) :: addProbabilityIn ar rest b v

/-- Modelled from the spec: the first half of `shiftProbability`, section 4.2, with the
difference of the value type: the entry is removed when the difference is zero. -/
def removeProbabilityIn (ar : Arithmetic) : Distribution → Nat → ℚ → Distribution
  | [], b, v => if ar.sub 0 v = 0 then [] else [(b, ar.sub 0 v)]
  | (k, m) :: rest, b, v =>
      if k = b then (if ar.sub m v = 0 then rest else (k, ar.sub m v) :: rest)
      else (k, m) :: removeProbabilityIn ar rest b v

/-- Modelled from the spec: `shiftProbability(fromBlockId, toBlockId, value)`, section
4.2, with the arithmetic of the value type. -/
def shiftProbabilityIn (ar : Arithmetic) (d : Distribution) (fromBlock toBlock : Nat)
    (v : ℚ) : Distribution :=
  addProbabilityIn ar (removeProbabilityIn ar d fromBlock v) toBlock v

end Distribution

/-- Lines 53-57: the replay of the row of a choice against the partition, with the
arithmetic of the value type. -/
def replayRowIn (ar : Arithmetic) (cmp : ConstantsComparator) (m : Model) (p : Partition)
    (choice : Nat) (d : Distribution) : Distribution :=
  (m.getRow choice).foldl
    (fun d entry =>
      if !cmp.isZero entry.2 then
        Distribution.addProbabilityIn ar d (p.getBlock entry.1) entry.2
      else d)
    d

/-- The distribution of a choice rebuilt from scratch, as `initializeQuotientDistributions`
builds it, with the arithmetic of the value type. -/
def rebuildDistributionIn (ar : Arithmetic) (cmp : ConstantsComparator) (m : Model)
    (p : Partition) (choice : Nat) : Distribution :=
  replayRowIn ar cmp m p choice []

/-- Lines 53-58: the body of the first loop of `initializeQuotientDistributions` for one
choice, with the arithmetic of the value type. -/
def initializeChoiceIn (ar : Arithmetic) (cmp : ConstantsComparator) (m : Model)
    (st : Decomposition) (choice : Nat) : Decomposition :=
  { st with
    quotientDistributions :=
      st.quotientDistributions.set choice
        (replayRowIn ar cmp m st.partition choice (st.distribution choice))
    orderedQuotientDistributions := st.orderedQuotientDistributions.set choice choice }

/-- Lines 49-64: `initializeQuotientDistributions`, with the arithmetic of the value
type. -/
def initializeQuotientDistributionsIn (ar : Arithmetic) (cmp : ConstantsComparator)
    (m : Model) (st : Decomposition) : Decomposition :=
  (List.range m.getNumberOfStates).foldl (updateOrderedQuotientDistributions cmp m)
    ((List.range (m.rowGroupIndices.getLastD 0)).foldl (initializeChoiceIn ar cmp m) st)

/-- Lines 33-37: the member function `initialize()`, with the arithmetic of the value
type. -/
def initializeDecompositionIn (ar : Arithmetic) (cmp : ConstantsComparator) (m : Model)
    (st : Decomposition) : Decomposition :=
  initializeQuotientDistributionsIn ar cmp m
    { st with choiceToStateMapping := createChoiceToStateMapping m st.choiceToStateMapping }

/-- Lines 119-120: the call of `shiftProbability`, with the arithmetic of the value
type. -/
def shiftChoiceIn (ar : Arithmetic) (st : Decomposition)
    (predecessorChoice oldBlock newBlock : Nat) (value : ℚ) : Decomposition :=
  { st with
    quotientDistributions :=
      st.quotientDistributions.set predecessorChoice
        (Distribution.shiftProbabilityIn ar (st.distribution predecessorChoice)
          oldBlock newBlock value) }

/-- Lines 93-120: the body of the inner loop of
`updateQuotientDistributionsOfPredecessors` for one entry of a backward row, with the
arithmetic of the value type. -/
def updatePredecessorEntryIn (ar : Arithmetic) (cmp : ConstantsComparator) (m : Model)
    (newBlock oldBlock : Nat) (u : UpdateState) (predecessorEntry : Nat × ℚ) : UpdateState :=
  if cmp.isZero predecessorEntry.2 then u
  else
    let predecessorChoice := predecessorEntry.1
    let predecessorState := u.dec.choiceToStateMapping.getD predecessorChoice 0
    let predecessorBlock := u.dec.partition.getBlock predecessorState
    let flagged := markSplitter u.dec.partition u.queue predecessorBlock
    let repaired :=
      repairOrder cmp m { u.dec with partition := flagged.1 } u.lastState predecessorState
    { dec := shiftChoiceIn ar repaired predecessorChoice oldBlock newBlock predecessorEntry.2
      queue := flagged.2
      lastState := some predecessorState }

/-- Lines 86-127: `updateQuotientDistributionsOfPredecessors(newBlock, oldBlock,
splitterQueue)`, with the arithmetic of the value type. -/
def updateQuotientDistributionsOfPredecessorsIn (ar : Arithmetic)
    (cmp : ConstantsComparator) (m : Model) (st : Decomposition) (newBlock oldBlock : Nat)
    (splitterQueue : List Nat) : Decomposition × List Nat :=
  finishUpdate cmp m
    ((predecessorEntries m st newBlock).foldl
      (updatePredecessorEntryIn ar cmp m newBlock oldBlock)
      { dec := st, queue := splitterQueue, lastState := none })

/-- Lines 215-247: `splitBlockAccordingToCurrentQuotientDistributions(block,
splitterQueue)`, with the arithmetic of the value type. -/
def splitBlockAccordingToCurrentQuotientDistributionsIn (ar : Arithmetic)
    (cmp : ConstantsComparator) (m : Model) (st : Decomposition) (block : Nat)
    (splitterQueue : List Nat) : Decomposition × List Nat × Bool :=
  let result := st.partition.splitBlock block (quotientDistributionsLess cmp m st)
  let updated := result.2.1.foldl
    (fun (acc : Decomposition × List Nat) el =>
      updateQuotientDistributionsOfPredecessorsIn ar cmp m acc.1 el block acc.2)
    ({ st with partition := result.1 }, splitterQueue)
  (updated.1, updated.2, result.2.2)

/-- Every quotient distribution equals (`Distribution.equals`) the distribution that is
rebuilt from the row of its choice against the current partition, with the arithmetic of
the value type. -/
def Decomposition.ConsistentIn (ar : Arithmetic) (cmp : ConstantsComparator) (m : Model)
    (st : Decomposition) : Prop :=
  ∀ c, c < m.getNumberOfChoices →
    Distribution.equals cmp (st.distribution c)
      (rebuildDistributionIn ar cmp m st.partition c) = true

/-! ## A model over `double` -/

/-- A model over `double` with five states, one choice each: state 0 moves to the states
1, 2 and 4 with the probabilities `0.1`, `0.2` and `0.7` (the nearest values of
`double`), the states 1 and 2 move to state 4, and the states 3 and 4 loop. -/
def doubleModel : Model where
  rowGroupIndices := [0, 1, 2, 3, 4, 5]
  rows :=
    [[(1, roundBinary64 (1 / 10)), (2, roundBinary64 (2 / 10)), (4, roundBinary64 (7 / 10))],
      [(4, 1)], [(4, 1)], [(3, 1)], [(4, 1)]]

/-- The initial partition of `doubleModel`: block 0 holds state 4, block 1 holds the
states 3, 1 and 2, block 2 holds state 0. -/
def doublePartition : Partition where
  positions := [(4, 0), (3, 1), (1, 1), (2, 1), (0, 2)]
  blocks :=
    [{ beginIndex := 0, endIndex := 1, absorbing := false, splitter := false },
     { beginIndex := 1, endIndex := 4, absorbing := false, splitter := false },
     { beginIndex := 4, endIndex := 5, absorbing := false, splitter := false }]

/-- The comparator that the examples over `double` use: the tolerance `1e-6`. -/
def doubleComparator : ConstantsComparator := toleranceComparator (1 / 1000000)

/-- The decomposition of `doubleModel` after `initialize()` in the arithmetic of
`double`. -/
def doubleDecomposition : Decomposition :=
  initializeDecompositionIn binary64 doubleComparator doubleModel
    (construct doubleModel doublePartition)

/-- The decomposition of `doubleModel` after `initialize()` and the call of `splitBlock`
for block 1 (lines 217-229), before the predecessor update of the new block 3. -/
def doubleSplit : Decomposition :=
  { doubleDecomposition with
    partition :=
      (doublePartition.splitBlock 1
        (quotientDistributionsLess doubleComparator doubleModel doubleDecomposition)).1 }


/-- A model over `double` with six states: state 0 has two choices, the first moves to the
states 1, 2 and 4 with the probabilities `0.1`, `0.2` and `0.7`, the second to the states
1 and 4 with the probabilities `0.3` and `0.7`; state 5 has one choice, which moves to
the states 1 and 4 with the probabilities `0.3` and `0.7`; the states 1 and 2 move to
state 4, and the states 3 and 4 loop. -/
def residueModel : Model where
  rowGroupIndices := [0, 2, 3, 4, 5, 6, 7]
  rows :=
    [[(1, roundBinary64 (1 / 10)), (2, roundBinary64 (2 / 10)), (4, roundBinary64 (7 / 10))],
      [(1, roundBinary64 (3 / 10)), (4, roundBinary64 (7 / 10))],
      [(4, 1)], [(4, 1)], [(3, 1)], [(4, 1)],
      [(1, roundBinary64 (3 / 10)), (4, roundBinary64 (7 / 10))]]

/-- The initial partition of `residueModel`: block 0 holds state 4, block 1 holds the
states 3, 1 and 2, block 2 holds the states 0 and 5. -/
def residuePartition : Partition where
  positions := [(4, 0), (3, 1), (1, 1), (2, 1), (0, 2), (5, 2)]
  blocks :=
    [{ beginIndex := 0, endIndex := 1, absorbing := false, splitter := false },
     { beginIndex := 1, endIndex := 4, absorbing := false, splitter := false },
     { beginIndex := 4, endIndex := 6, absorbing := false, splitter := false }]

/-- The decomposition of `residueModel` in the arithmetic of `double` after `initialize()`
and the call of `splitBlockAccordingToCurrentQuotientDistributions` for block 1. -/
def residueDecomposition : Decomposition :=
  (splitBlockAccordingToCurrentQuotientDistributionsIn binary64 doubleComparator residueModel
    (initializeDecompositionIn binary64 doubleComparator residueModel
      (construct residueModel residuePartition)) 1 []).1


/-! ## Strict weak orders -/

section OrderTheory

variable {D : Type} {less : D → D → Bool}

theorem equivOf_iff (a b : D) :
    equivOf less a b = true ↔ less a b = false ∧ less b a = false := by
  simp [equivOf]

theorem StrictWeakOrder.asymm (h : StrictWeakOrder less) {a b : D}
    (hab : less a b = true) : less b a = false := by
  cases hba : less b a with
  | false => rfl
  | true =>
    have h1 := h.trans a b a hab hba
    rw [h.irrefl] at h1
    cases h1

theorem StrictWeakOrder.equiv_refl (h : StrictWeakOrder less) (a : D) :
    equivOf less a a = true := by
  simp [equivOf, h.irrefl]

theorem StrictWeakOrder.equiv_symm {a b : D}
    (hab : equivOf less a b = true) : equivOf less b a = true := by
  simp [equivOf] at hab ⊢
  exact ⟨hab.2, hab.1⟩

theorem StrictWeakOrder.less_of_less_equiv (h : StrictWeakOrder less) {a b c : D}
    (hab : less a b = true) (hbc : equivOf less b c = true) : less a c = true := by
  cases hac : less a c with
  | true => rfl
  | false =>
    exfalso
    cases hca : less c a with
    | true =>
      have hcb := h.trans c a b hca hab
      simp [equivOf] at hbc
      rw [hbc.2] at hcb
      cases hcb
    | false =>
      have hac2 : equivOf less a c = true := by simp [equivOf, hac, hca]
      have hab2 := h.incomp_trans a c b hac2 (StrictWeakOrder.equiv_symm hbc)
      simp [equivOf] at hab2
      rw [hab2.1] at hab
      cases hab

theorem StrictWeakOrder.less_of_equiv_less (h : StrictWeakOrder less) {a b c : D}
    (hab : equivOf less a b = true) (hbc : less b c = true) : less a c = true := by
  cases hac : less a c with
  | true => rfl
  | false =>
    exfalso
    cases hca : less c a with
    | true =>
      have hba := h.trans b c a hbc hca
      simp [equivOf] at hab
      rw [hab.2] at hba
      cases hba
    | false =>
      have hac2 : equivOf less a c = true := by simp [equivOf, hac, hca]
      have hbc2 := h.incomp_trans b a c (StrictWeakOrder.equiv_symm hab) hac2
      simp [equivOf] at hbc2
      rw [hbc2.1] at hbc
      cases hbc

theorem StrictWeakOrder.notLess_trans (h : StrictWeakOrder less) {a b c : D}
    (hab : less b a = false) (hbc : less c b = false) : less c a = false := by
  cases hca : less c a with
  | false => rfl
  | true =>
    exfalso
    cases hab2 : less a b with
    | true =>
      have := h.trans c a b hca hab2
      rw [hbc] at this
      cases this
    | false =>
      have he : equivOf less a b = true := by simp [equivOf, hab, hab2]
      have := h.less_of_less_equiv hca he
      rw [hbc] at this
      cases this

theorem SignatureSorted.pairwise (h : StrictWeakOrder less) {l : List D}
    (hl : SignatureSorted less l) : l.Pairwise (fun a b => less b a = false) := by
  haveI : IsTrans D (fun a b => less b a = false) :=
    ⟨fun _ _ _ hab hbc => h.notLess_trans hab hbc⟩
  exact List.chain'_iff_pairwise.mp hl

theorem SignatureSorted.tail {l : List D} (hl : SignatureSorted less l) :
    SignatureSorted less l.tail :=
  List.Chain'.tail hl

theorem SignatureSorted.of_suffix {l l' : List D} (hl : SignatureSorted less l)
    (hs : l' <:+ l) : SignatureSorted less l' :=
  List.Chain'.suffix hl hs

end OrderTheory

/-! ## The loop of `quotientDistributionsLess` against the reference comparison -/

section LoopTheory

variable {D : Type} {less : D → D → Bool}

theorem skipEqualRun_suffix (l : List D) : skipEqualRun less l <:+ l := by
  induction l with
  | nil => simp [skipEqualRun]
  | cons a l ih =>
    cases l with
    | nil => simp [skipEqualRun]
    | cons b rest =>
      simp only [skipEqualRun]
      split
      · exact List.IsSuffix.trans ih (List.suffix_cons a (b :: rest))
      · exact List.suffix_refl _

theorem skipEqualRun_ne_nil (a : D) (l : List D) : skipEqualRun less (a :: l) ≠ [] := by
  induction l generalizing a with
  | nil => simp [skipEqualRun]
  | cons b rest ih =>
    simp only [skipEqualRun]
    split
    · exact ih b
    · simp

theorem skipEqualRun_tail_suffix (a : D) (l : List D) :
    (skipEqualRun less (a :: l)).tail <:+ l := by
  induction l generalizing a with
  | nil => simp [skipEqualRun]
  | cons b rest ih =>
    simp only [skipEqualRun]
    split
    · exact List.IsSuffix.trans (ih b) (List.suffix_cons b rest)
    · simp

theorem skipEqualRun_tail_length (a : D) (l : List D) :
    (skipEqualRun less (a :: l)).tail.length ≤ l.length :=
  List.IsSuffix.length_le (skipEqualRun_tail_suffix a l)

/-- The run collapse only looks at the class of the entry it starts from. -/
theorem collapseFrom_equiv (h : StrictWeakOrder less) {a b : D}
    (hab : equivOf less a b = true) (l : List D) :
    collapseFrom (equivOf less) a l = a :: (collapseFrom (equivOf less) b l).tail := by
  induction l with
  | nil => simp [collapseFrom]
  | cons c rest ih =>
    have hc : equivOf less a c = equivOf less b c := by
      cases hbc : equivOf less b c with
      | true => exact h.incomp_trans a b c hab hbc
      | false =>
        cases hac : equivOf less a c with
        | false => rfl
        | true =>
          have := h.incomp_trans b a c (StrictWeakOrder.equiv_symm hab) hac
          rw [hbc] at this
          cases this
    simp only [collapseFrom, hc]
    split
    · exact ih
    · simp

/-- On a sorted list the run that the inner loop skips is the run that the reference
comparison collapses. -/
theorem collapseFrom_eq_skip (h : StrictWeakOrder less) (x : D) (xs : List D)
    (hs : SignatureSorted less (x :: xs)) :
    collapseFrom (equivOf less) x xs
      = x :: collapseRuns (equivOf less) (skipEqualRun less (x :: xs)).tail := by
  induction xs generalizing x with
  | nil => simp [collapseFrom, skipEqualRun, collapseRuns]
  | cons b rest ih =>
    have hbx : less b x = false := (List.chain'_cons.mp hs).1
    have hs' : SignatureSorted less (b :: rest) := (List.chain'_cons.mp hs).2
    cases hxb : less x b with
    | true =>
      have he : equivOf less x b = false := by simp [equivOf, hxb]
      simp [collapseFrom, skipEqualRun, hxb, he, collapseRuns]
    | false =>
      have he : equivOf less x b = true := by simp [equivOf, hxb, hbx]
      simp only [collapseFrom, skipEqualRun, hxb, he, Bool.not_false, if_true]
      rw [collapseFrom_equiv h he rest, ih b hs']
      simp

theorem lessLoop_eq_lexLess (h : StrictWeakOrder less) :
    ∀ (fuel : Nat) (xs ys : List D), xs.length < fuel →
      SignatureSorted less xs → SignatureSorted less ys →
      lessLoop less fuel xs ys
        = lexLess less (collapseRuns (equivOf less) xs) (collapseRuns (equivOf less) ys) := by
  intro fuel
  induction fuel with
  | zero => intro xs ys hlen; omega
  | succ n ih =>
    intro xs ys hlen hxs hys
    cases xs with
    | nil =>
      cases ys with
      | nil => simp [lessLoop, collapseRuns, lexLess]
      | cons y ys =>
        rw [show collapseRuns (equivOf less) (y :: ys) = collapseFrom (equivOf less) y ys from rfl,
          collapseFrom_eq_skip h y ys hys]
        simp [lessLoop, collapseRuns, lexLess]
    | cons x xs =>
      cases ys with
      | nil =>
        rw [show collapseRuns (equivOf less) (x :: xs) = collapseFrom (equivOf less) x xs from rfl,
          collapseFrom_eq_skip h x xs hxs]
        simp [lessLoop, collapseRuns, lexLess]
      | cons y ys =>
        rw [show collapseRuns (equivOf less) (x :: xs) = collapseFrom (equivOf less) x xs from rfl,
          show collapseRuns (equivOf less) (y :: ys) = collapseFrom (equivOf less) y ys from rfl,
          collapseFrom_eq_skip h x xs hxs, collapseFrom_eq_skip h y ys hys]
        simp only [lessLoop, lexLess]
        have hlen' : (skipEqualRun less (x :: xs)).tail.length < n := by
          have := @skipEqualRun_tail_length D less x xs
          simp at hlen
          omega
        rw [ih _ _ hlen'
          (SignatureSorted.of_suffix hxs
            (List.IsSuffix.trans (skipEqualRun_tail_suffix x xs) (List.suffix_cons x xs)))
          (SignatureSorted.of_suffix hys
            (List.IsSuffix.trans (skipEqualRun_tail_suffix y ys) (List.suffix_cons y ys)))]

theorem signatureLess_eq_lexLess (h : StrictWeakOrder less) (xs ys : List D)
    (hxs : SignatureSorted less xs) (hys : SignatureSorted less ys) :
    signatureLess less xs ys
      = lexLess less (collapseRuns (equivOf less) xs) (collapseRuns (equivOf less) ys) :=
  lessLoop_eq_lexLess h _ xs ys (Nat.lt_succ_self _) hxs hys

end LoopTheory

/-! ## The reference comparison is a strict weak order on signature lists -/

section LexTheory

variable {D : Type} {less : D → D → Bool}

theorem lexLess_irrefl (h : StrictWeakOrder less) (l : List D) : lexLess less l l = false := by
  induction l with
  | nil => rfl
  | cons a l ih => simp [lexLess, h.irrefl, ih]

theorem lexLess_trans (h : StrictWeakOrder less) :
    ∀ xs ys zs : List D, lexLess less xs ys = true → lexLess less ys zs = true →
      lexLess less xs zs = true := by
  intro xs
  induction xs with
  | nil =>
    intro ys zs h1 h2
    cases ys with
    | nil => simp [lexLess] at h1
    | cons y ys =>
      cases zs with
      | nil => simp [lexLess] at h2
      | cons z zs => rfl
  | cons x xs ih =>
    intro ys zs h1 h2
    cases ys with
    | nil => simp [lexLess] at h1
    | cons y ys =>
      cases zs with
      | nil => simp [lexLess] at h2
      | cons z zs =>
        simp only [lexLess] at h1 h2 ⊢
        cases hxy : less x y with
        | true =>
          cases hyz : less y z with
          | true => simp [h.trans x y z hxy hyz]
          | false =>
            cases hzy : less z y with
            | true => simp [hyz, hzy] at h2
            | false =>
              have he : equivOf less y z = true := by simp [equivOf, hyz, hzy]
              simp [h.less_of_less_equiv hxy he]
        | false =>
          cases hyx : less y x with
          | true => simp [hxy, hyx] at h1
          | false =>
            have hexy : equivOf less x y = true := by simp [equivOf, hxy, hyx]
            simp only [hxy, hyx, Bool.false_eq_true, if_false] at h1
            cases hyz : less y z with
            | true => simp [h.less_of_equiv_less hexy hyz]
            | false =>
              cases hzy : less z y with
              | true => simp [hyz, hzy] at h2
              | false =>
                have heyz : equivOf less y z = true := by simp [equivOf, hyz, hzy]
                simp only [hyz, hzy, Bool.false_eq_true, if_false] at h2
                have hexz := h.incomp_trans x y z hexy heyz
                simp only [equivOf_iff] at hexz
                simp only [hexz.1, hexz.2, Bool.false_eq_true, if_false]
                exact ih ys zs h1 h2

theorem lexLess_asymm (h : StrictWeakOrder less) {xs ys : List D}
    (h1 : lexLess less xs ys = true) : lexLess less ys xs = false := by
  cases h2 : lexLess less ys xs with
  | false => rfl
  | true =>
    have := lexLess_trans h xs ys xs h1 h2
    rw [lexLess_irrefl h] at this
    cases this

theorem lexLess_incomp_iff :
    ∀ xs ys : List D, (lexLess less xs ys = false ∧ lexLess less ys xs = false) ↔
      List.Forall₂ (fun a b => equivOf less a b = true) xs ys := by
  intro xs
  induction xs with
  | nil =>
    intro ys
    cases ys with
    | nil => simp [lexLess]
    | cons y ys => simp [lexLess]
  | cons x xs ih =>
    intro ys
    cases ys with
    | nil => simp [lexLess]
    | cons y ys =>
      simp only [lexLess, List.forall₂_cons]
      cases hxy : less x y with
      | true => simp [equivOf, hxy]
      | false =>
        cases hyx : less y x with
        | true => simp [equivOf, hyx]
        | false =>
          rw [show equivOf less x y = true from by simp [equivOf, hxy, hyx]]
          simpa using ih ys

theorem forall₂_equiv_trans (h : StrictWeakOrder less) :
    ∀ xs ys zs : List D, List.Forall₂ (fun a b => equivOf less a b = true) xs ys →
      List.Forall₂ (fun a b => equivOf less a b = true) ys zs →
      List.Forall₂ (fun a b => equivOf less a b = true) xs zs := by
  intro xs ys zs h1
  induction h1 generalizing zs with
  | nil => intro h2; cases h2; exact List.Forall₂.nil
  | cons hab _ ih =>
    intro h2
    cases h2 with
    | cons hbc hrest => exact List.Forall₂.cons (h.incomp_trans _ _ _ hab hbc) (ih _ hrest)

/-! ## Collapsed signature lists -/

theorem collapseFrom_head (eq : D → D → Bool) (a : D) (l : List D) :
    ∃ t, collapseFrom eq a l = a :: t := by
  induction l generalizing a with
  | nil => exact ⟨[], rfl⟩
  | cons b rest ih =>
    simp only [collapseFrom]
    split
    · exact ih a
    · exact ⟨_, rfl⟩

theorem collapseFrom_subset (eq : D → D → Bool) (a : D) (l : List D) :
    ∀ r ∈ collapseFrom eq a l, r ∈ a :: l := by
  induction l generalizing a with
  | nil => simp [collapseFrom]
  | cons b rest ih =>
    intro r hr
    simp only [collapseFrom] at hr
    split at hr
    · have := ih a r hr
      simp at this ⊢
      tauto
    · cases List.mem_cons.mp hr with
      | inl h1 => simp [h1]
      | inr h1 =>
        have := ih b r h1
        simp at this ⊢
        tauto

theorem collapseRuns_subset (eq : D → D → Bool) (l : List D) :
    ∀ r ∈ collapseRuns eq l, r ∈ l := by
  cases l with
  | nil => simp [collapseRuns]
  | cons a l => exact collapseFrom_subset eq a l

theorem collapseFrom_cover (h : StrictWeakOrder less) (a : D) (l : List D) :
    ∀ c ∈ a :: l, ∃ r ∈ collapseFrom (equivOf less) a l, equivOf less r c = true := by
  induction l generalizing a with
  | nil =>
    intro c hc
    simp at hc
    subst hc
    exact ⟨c, by simp [collapseFrom], h.equiv_refl c⟩
  | cons b rest ih =>
    intro c hc
    simp only [collapseFrom]
    cases he : equivOf less a b with
    | true =>
      simp only [if_true]
      rcases List.mem_cons.mp hc with h1 | h1
      · exact ih a c (by simp [h1])
      · rcases List.mem_cons.mp h1 with h2 | h2
        · subst h2
          obtain ⟨t, ht⟩ := collapseFrom_head (equivOf less) a rest
          exact ⟨a, by simp [ht], he⟩
        · exact ih a c (by simp [h2])
    | false =>
      simp only [Bool.false_eq_true, if_false]
      rcases List.mem_cons.mp hc with h1 | h1
      · subst h1
        exact ⟨c, by simp, h.equiv_refl c⟩
      · obtain ⟨r, hr, hrc⟩ := ih b c h1
        exact ⟨r, List.mem_cons_of_mem _ hr, hrc⟩

theorem collapseRuns_cover (h : StrictWeakOrder less) (l : List D) :
    ∀ c ∈ l, ∃ r ∈ collapseRuns (equivOf less) l, equivOf less r c = true := by
  cases l with
  | nil => simp
  | cons a l => exact collapseFrom_cover h a l

theorem collapseFrom_chain (a : D) (l : List D)
    (hs : (a :: l).Pairwise (fun u v => less v u = false)) :
    List.Chain' (fun u v => less u v = true) (collapseFrom (equivOf less) a l) := by
  induction l generalizing a with
  | nil => simp [collapseFrom]
  | cons b rest ih =>
    simp only [collapseFrom]
    have hab : less b a = false := (List.pairwise_cons.mp hs).1 b (by simp)
    cases he : equivOf less a b with
    | true =>
      simp only [if_true]
      apply ih a
      have h1 := List.pairwise_cons.mp hs
      have h2 := List.pairwise_cons.mp h1.2
      exact List.pairwise_cons.mpr ⟨fun c hc => h1.1 c (List.mem_cons_of_mem _ hc), h2.2⟩
    | false =>
      simp only [Bool.false_eq_true, if_false]
      obtain ⟨t, ht⟩ := collapseFrom_head (equivOf less) b rest
      have hch := ih b (List.pairwise_cons.mp hs).2
      rw [ht] at hch ⊢
      refine List.Chain'.cons ?_ hch
      cases hlt : less a b with
      | true => rfl
      | false => simp [equivOf, hlt, hab] at he

theorem collapseRuns_strict (h : StrictWeakOrder less) (l : List D)
    (hs : SignatureSorted less l) :
    (collapseRuns (equivOf less) l).Pairwise (fun u v => less u v = true) := by
  haveI : IsTrans D (fun u v => less u v = true) := ⟨fun a b c => h.trans a b c⟩
  apply List.chain'_iff_pairwise.mp
  cases l with
  | nil => simp [collapseRuns]
  | cons a l => exact collapseFrom_chain a l (SignatureSorted.pairwise h hs)

/-- Two strictly increasing lists with the same classes agree entry by entry. -/
theorem forall₂_of_same_classes (h : StrictWeakOrder less) :
    ∀ X Y : List D, X.Pairwise (fun u v => less u v = true) →
      Y.Pairwise (fun u v => less u v = true) →
      (∀ a ∈ X, ∃ b ∈ Y, equivOf less a b = true) →
      (∀ b ∈ Y, ∃ a ∈ X, equivOf less a b = true) →
      List.Forall₂ (fun a b => equivOf less a b = true) X Y := by
  intro X
  induction X with
  | nil =>
    intro Y _ _ _ h2
    cases Y with
    | nil => exact List.Forall₂.nil
    | cons y Y =>
      obtain ⟨a, ha, _⟩ := h2 y (by simp)
      simp at ha
  | cons x X ih =>
    intro Y hX hY h1 h2
    cases Y with
    | nil =>
      obtain ⟨b, hb, _⟩ := h1 x (by simp)
      simp at hb
    | cons y Y =>
      have hXc := List.pairwise_cons.mp hX
      have hYc := List.pairwise_cons.mp hY
      have hxy : equivOf less x y = true := by
        obtain ⟨y', hy', hxy'⟩ := h1 x (by simp)
        obtain ⟨x', hx', hx'y⟩ := h2 y (by simp)
        rcases List.mem_cons.mp hy' with e1 | e1
        · rw [e1] at hxy'; exact hxy'
        · rcases List.mem_cons.mp hx' with e2 | e2
          · rw [e2] at hx'y; exact hx'y
          · exfalso
            have hlt1 : less x y = true := h.less_of_less_equiv (hXc.1 x' e2) hx'y
            have hlt2 : less y x = true :=
              h.less_of_less_equiv (hYc.1 y' e1) (StrictWeakOrder.equiv_symm hxy')
            rw [h.asymm hlt1] at hlt2
            cases hlt2
      refine List.Forall₂.cons hxy (ih Y hXc.2 hYc.2 ?_ ?_)
      · intro a ha
        obtain ⟨b, hb, hab⟩ := h1 a (List.mem_cons_of_mem _ ha)
        rcases List.mem_cons.mp hb with e | e
        · exfalso
          rw [e] at hab
          have hxa : less x a = true := hXc.1 a ha
          have hxy' := h.incomp_trans x y a hxy (StrictWeakOrder.equiv_symm hab)
          simp only [equivOf_iff] at hxy'
          rw [hxy'.1] at hxa
          cases hxa
        · exact ⟨b, e, hab⟩
      · intro b hb
        obtain ⟨a, ha, hab⟩ := h2 b (List.mem_cons_of_mem _ hb)
        rcases List.mem_cons.mp ha with e | e
        · exfalso
          rw [e] at hab
          have hyb : less y b = true := hYc.1 b hb
          have hyb' := h.incomp_trans y x b (StrictWeakOrder.equiv_symm hxy) hab
          simp only [equivOf_iff] at hyb'
          rw [hyb'.1] at hyb
          cases hyb
        · exact ⟨a, e, hab⟩

theorem same_classes_of_forall₂ :
    ∀ X Y : List D, List.Forall₂ (fun a b => equivOf less a b = true) X Y →
      (∀ a ∈ X, ∃ b ∈ Y, equivOf less a b = true) ∧
      (∀ b ∈ Y, ∃ a ∈ X, equivOf less a b = true) := by
  intro X Y hf
  induction hf with
  | nil => simp
  | cons hab _ ih =>
    constructor
    · intro a ha
      rcases List.mem_cons.mp ha with e | e
      · subst e; exact ⟨_, by simp, hab⟩
      · obtain ⟨b, hb, h3⟩ := ih.1 a e
        exact ⟨b, List.mem_cons_of_mem _ hb, h3⟩
    · intro b hb
      rcases List.mem_cons.mp hb with e | e
      · subst e; exact ⟨_, by simp, hab⟩
      · obtain ⟨a, ha, h3⟩ := ih.2 b e
        exact ⟨a, List.mem_cons_of_mem _ ha, h3⟩

/-- Two sorted signature lists are incomparable exactly if they have the same classes. -/
theorem signatureLess_incomp_iff (h : StrictWeakOrder less) (xs ys : List D)
    (hxs : SignatureSorted less xs) (hys : SignatureSorted less ys) :
    (signatureLess less xs ys = false ∧ signatureLess less ys xs = false) ↔
      ((∀ a ∈ xs, ∃ b ∈ ys, equivOf less a b = true) ∧
       (∀ b ∈ ys, ∃ a ∈ xs, equivOf less a b = true)) := by
  rw [signatureLess_eq_lexLess h xs ys hxs hys, signatureLess_eq_lexLess h ys xs hys hxs,
    lexLess_incomp_iff]
  constructor
  · intro hf
    obtain ⟨h1, h2⟩ := same_classes_of_forall₂ _ _ hf
    constructor
    · intro a ha
      obtain ⟨r, hr, hra⟩ := collapseRuns_cover h xs a ha
      obtain ⟨b, hb, hrb⟩ := h1 r hr
      exact ⟨b, collapseRuns_subset _ ys b hb,
        h.incomp_trans a r b (StrictWeakOrder.equiv_symm hra) hrb⟩
    · intro b hb
      obtain ⟨r, hr, hrb⟩ := collapseRuns_cover h ys b hb
      obtain ⟨a, ha, har⟩ := h2 r hr
      exact ⟨a, collapseRuns_subset _ xs a ha, h.incomp_trans a r b har hrb⟩
  · intro ⟨h1, h2⟩
    apply forall₂_of_same_classes h _ _ (collapseRuns_strict h xs hxs)
      (collapseRuns_strict h ys hys)
    · intro a ha
      obtain ⟨b, hb, hab⟩ := h1 a (collapseRuns_subset _ xs a ha)
      obtain ⟨r, hr, hrb⟩ := collapseRuns_cover h ys b hb
      exact ⟨r, hr, h.incomp_trans a b r hab (StrictWeakOrder.equiv_symm hrb)⟩
    · intro b hb
      obtain ⟨a, ha, hab⟩ := h2 b (collapseRuns_subset _ ys b hb)
      obtain ⟨r, hr, hra⟩ := collapseRuns_cover h xs a ha
      exact ⟨r, hr, h.incomp_trans r a b hra hab⟩

end LexTheory

/-! ## Distributions -/

namespace Distribution

theorem mass_nil (k : Nat) : mass [] k = 0 := rfl

theorem mass_cons (e : Nat × ℚ) (d : Distribution) (k : Nat) :
    mass (e :: d) k = (if e.1 = k then e.2 else 0) + mass d k := by
  unfold mass
  by_cases h : e.1 = k
  · simp [List.filter_cons, h]
  · simp [List.filter_cons, h]

theorem mass_eq_zero_of_not_mem (d : Distribution) (k : Nat) (h : k ∉ d.keys) :
    mass d k = 0 := by
  induction d with
  | nil => rfl
  | cons e d ih =>
    simp only [keys, List.map_cons, List.mem_cons, not_or] at h
    rw [mass_cons, ih h.2, if_neg (fun he => h.1 he.symm)]
    simp

theorem mem_keys_of_mass_ne_zero (d : Distribution) (k : Nat) (h : mass d k ≠ 0) :
    k ∈ d.keys := by
  by_contra hk
  exact h (mass_eq_zero_of_not_mem d k hk)

theorem mass_addProbability (d : Distribution) (b : Nat) (v : ℚ) (k : Nat) :
    mass (addProbability d b v) k = mass d k + (if b = k then v else 0) := by
  induction d with
  | nil => simp [addProbability, mass_cons, mass_nil]
  | cons e d ih =>
    obtain ⟨j, w⟩ := e
    simp only [addProbability]
    by_cases hj : j = b
    · subst hj
      simp only [if_true, mass_cons]
      by_cases hk : j = k
      · simp [hk]; ring
      · simp [hk]
    · simp only [if_neg hj, mass_cons, ih]
      ring

theorem mass_removeProbability (d : Distribution) (b : Nat) (v : ℚ) (k : Nat) :
    mass (removeProbability d b v) k = mass d k - (if b = k then v else 0) := by
  induction d with
  | nil =>
    simp only [removeProbability]
    by_cases hv : (0 : ℚ) - v = 0
    · have : v = 0 := by linarith
      simp [hv, mass_nil, this]
    · simp only [if_neg hv, mass_cons, mass_nil]
      by_cases hk : b = k <;> simp [hk]
  | cons e d ih =>
    obtain ⟨j, w⟩ := e
    simp only [removeProbability]
    by_cases hj : j = b
    · subst hj
      simp only [if_true]
      by_cases hz : w - v = 0
      · simp only [if_pos hz, mass_cons]
        by_cases hk : j = k
        · simp [hk]; linarith
        · simp [hk]
      · simp only [if_neg hz, mass_cons]
        by_cases hk : j = k
        · simp [hk]; ring
        · simp [hk]
    · simp only [if_neg hj, mass_cons, ih]
      ring

theorem mass_shiftProbability (d : Distribution) (f t : Nat) (v : ℚ) (k : Nat) :
    mass (shiftProbability d f t v) k
      = mass d k - (if f = k then v else 0) + (if t = k then v else 0) := by
  simp [shiftProbability, mass_addProbability, mass_removeProbability]

theorem total_addProbability (d : Distribution) (b : Nat) (v : ℚ) :
    total (addProbability d b v) = total d + v := by
  induction d with
  | nil => simp [addProbability, total]
  | cons e d ih =>
    obtain ⟨j, w⟩ := e
    simp only [addProbability]
    by_cases hj : j = b
    · simp [hj, total]; ring
    · simp only [if_neg hj]
      simp only [total, List.map_cons, List.sum_cons] at ih ⊢
      rw [ih]; ring

theorem total_removeProbability (d : Distribution) (b : Nat) (v : ℚ) :
    total (removeProbability d b v) = total d - v := by
  induction d with
  | nil =>
    simp only [removeProbability]
    by_cases hv : (0 : ℚ) - v = 0
    · rw [if_pos hv]
      simp only [total, List.map_nil, List.sum_nil]
      linarith
    · rw [if_neg hv]
      simp [total]
  | cons e d ih =>
    obtain ⟨j, w⟩ := e
    simp only [removeProbability]
    by_cases hj : j = b
    · simp only [if_pos hj]
      by_cases hz : w - v = 0
      · simp [hz, total]; linarith
      · simp [hz, total]; ring
    · simp only [if_neg hj]
      simp only [total, List.map_cons, List.sum_cons] at ih ⊢
      rw [ih]; ring

theorem total_shiftProbability (d : Distribution) (f t : Nat) (v : ℚ) :
    total (shiftProbability d f t v) = total d := by
  simp [shiftProbability, total_addProbability, total_removeProbability]

/-! ### The order of distributions over an exact value type -/

theorem lessOn_exact_iff (d1 d2 : Distribution) (ks : List Nat)
    (hs : ks.Pairwise (fun a b => a ≤ b)) :
    lessOn exactComparator d1 d2 ks = true ↔
      ∃ k ∈ ks, mass d1 k < mass d2 k ∧ ∀ j ∈ ks, j < k → mass d1 j = mass d2 j := by
  induction ks with
  | nil => simp [lessOn]
  | cons a rest ih =>
    have hle := (List.pairwise_cons.mp hs).1
    have ih' := ih (List.pairwise_cons.mp hs).2
    simp only [lessOn, exactComparator, decide_eq_true_eq]
    by_cases he : mass d1 a = mass d2 a
    · simp only [if_pos he]
      change lessOn exactComparator d1 d2 rest = true ↔ _
      rw [ih']
      constructor
      · rintro ⟨k, hk, hlt, hall⟩
        refine ⟨k, List.mem_cons_of_mem _ hk, hlt, ?_⟩
        intro j hj hjk
        rcases List.mem_cons.mp hj with e | e
        · rw [e]; exact he
        · exact hall j e hjk
      · rintro ⟨k, hk, hlt, hall⟩
        rcases List.mem_cons.mp hk with e | e
        · rw [e, he] at hlt; exact absurd hlt (lt_irrefl _)
        · exact ⟨k, e, hlt, fun j hj hjk => hall j (List.mem_cons_of_mem _ hj) hjk⟩
    · simp only [if_neg he, decide_eq_true_eq]
      constructor
      · intro hlt
        refine ⟨a, by simp, hlt, ?_⟩
        intro j hj hja
        rcases List.mem_cons.mp hj with e | e
        · omega
        · have := hle j e; omega
      · rintro ⟨k, hk, hlt, hall⟩
        rcases List.mem_cons.mp hk with e | e
        · rw [e] at hlt; exact hlt
        · have hak : a ≤ k := hle k e
          rcases Nat.lt_or_eq_of_le hak with h1 | h1
          · exact absurd (hall a (by simp) h1) he
          · rw [h1]; exact hlt

theorem blockIds_pairwise (d1 d2 : Distribution) :
    (blockIds d1 d2).Pairwise (fun a b => a ≤ b) :=
  List.sorted_insertionSort (fun a b : Nat => a ≤ b) _

theorem mem_blockIds (d1 d2 : Distribution) (k : Nat) :
    k ∈ blockIds d1 d2 ↔ k ∈ d1.keys ∨ k ∈ d2.keys := by
  unfold blockIds
  rw [(List.perm_insertionSort (fun a b : Nat => a ≤ b) _).mem_iff]
  simp

/-- Over an exact value type `less` is the lexicographic order of the mass functions:
the least block id on which the masses differ decides. -/
theorem less_exact_iff (d1 d2 : Distribution) :
    less exactComparator d1 d2 = true ↔
      ∃ k, mass d1 k < mass d2 k ∧ ∀ j, j < k → mass d1 j = mass d2 j := by
  unfold less
  rw [lessOn_exact_iff d1 d2 _ (blockIds_pairwise d1 d2)]
  constructor
  · rintro ⟨k, _, hlt, hall⟩
    refine ⟨k, hlt, fun j hjk => ?_⟩
    by_cases hj : j ∈ blockIds d1 d2
    · exact hall j hj hjk
    · rw [mem_blockIds, not_or] at hj
      rw [mass_eq_zero_of_not_mem d1 j hj.1, mass_eq_zero_of_not_mem d2 j hj.2]
  · rintro ⟨k, hlt, hall⟩
    refine ⟨k, ?_, hlt, fun j _ hjk => hall j hjk⟩
    rw [mem_blockIds]
    by_contra hk
    rw [not_or] at hk
    rw [mass_eq_zero_of_not_mem d1 k hk.1, mass_eq_zero_of_not_mem d2 k hk.2] at hlt
    exact lt_irrefl _ hlt

/-- Over an exact value type two distributions are equivalent under `less` exactly if
they have the same mass function. -/
theorem equivOf_less_exact_iff (d1 d2 : Distribution) :
    equivOf (less exactComparator) d1 d2 = true ↔ ∀ k, mass d1 k = mass d2 k := by
  rw [equivOf_iff]
  constructor
  · rintro ⟨h1, h2⟩
    by_contra hne
    push_neg at hne
    classical
    let k := Nat.find hne
    have hk : mass d1 k ≠ mass d2 k := Nat.find_spec hne
    have hmin : ∀ j, j < k → mass d1 j = mass d2 j := fun j hj => by
      by_contra hj'
      exact Nat.find_min hne hj hj'
    rcases lt_or_gt_of_ne hk with hlt | hgt
    · have := (less_exact_iff d1 d2).mpr ⟨k, hlt, hmin⟩
      rw [h1] at this; cases this
    · have := (less_exact_iff d2 d1).mpr ⟨k, hgt, fun j hj => (hmin j hj).symm⟩
      rw [h2] at this; cases this
  · intro h
    constructor
    · cases hl : less exactComparator d1 d2 with
      | false => rfl
      | true =>
        obtain ⟨k, hlt, _⟩ := (less_exact_iff d1 d2).mp hl
        rw [h k] at hlt
        exact absurd hlt (lt_irrefl _)
    · cases hl : less exactComparator d2 d1 with
      | false => rfl
      | true =>
        obtain ⟨k, hlt, _⟩ := (less_exact_iff d2 d1).mp hl
        rw [h k] at hlt
        exact absurd hlt (lt_irrefl _)

/-- Over an exact value type `less` is a strict weak order. -/
theorem less_exact_strictWeakOrder : StrictWeakOrder (less exactComparator) where
  irrefl := by
    intro a
    cases hl : less exactComparator a a with
    | false => rfl
    | true =>
      obtain ⟨k, hlt, _⟩ := (less_exact_iff a a).mp hl
      exact absurd hlt (lt_irrefl _)
  trans := by
    intro a b c hab hbc
    obtain ⟨k1, hlt1, hall1⟩ := (less_exact_iff a b).mp hab
    obtain ⟨k2, hlt2, hall2⟩ := (less_exact_iff b c).mp hbc
    rw [less_exact_iff]
    rcases Nat.lt_trichotomy k1 k2 with h | h | h
    · exact ⟨k1, by rw [← hall2 k1 h]; exact hlt1,
        fun j hj => (hall1 j hj).trans (hall2 j (by omega))⟩
    · subst h
      exact ⟨k1, lt_trans hlt1 hlt2, fun j hj => (hall1 j hj).trans (hall2 j hj)⟩
    · exact ⟨k2, by rw [hall1 k2 h]; exact hlt2,
        fun j hj => (hall1 j (by omega)).trans (hall2 j hj)⟩
  incomp_trans := by
    intro a b c hab hbc
    rw [equivOf_less_exact_iff] at hab hbc ⊢
    exact fun k => (hab k).trans (hbc k)

end Distribution

/-! ## The signature comparison of two states -/

section SignatureLists

variable {D : Type} {less : D → D → Bool}

theorem collapseFrom_congr (eq1 eq2 : D → D → Bool) (a : D) (l : List D)
    (h : ∀ x ∈ a :: l, ∀ y ∈ a :: l, eq1 x y = eq2 x y) :
    collapseFrom eq1 a l = collapseFrom eq2 a l := by
  induction l generalizing a with
  | nil => rfl
  | cons b rest ih =>
    have hab : eq1 a b = eq2 a b := h a (by simp) b (by simp)
    simp only [collapseFrom, hab]
    split
    · apply ih a
      intro x hx y hy
      apply h x _ y _
      · simp at hx ⊢; tauto
      · simp at hy ⊢; tauto
    · rw [ih b]
      intro x hx y hy
      exact h x (List.mem_cons_of_mem _ hx) y (List.mem_cons_of_mem _ hy)

theorem collapseRuns_congr (eq1 eq2 : D → D → Bool) (l : List D)
    (h : ∀ x ∈ l, ∀ y ∈ l, eq1 x y = eq2 x y) :
    collapseRuns eq1 l = collapseRuns eq2 l := by
  cases l with
  | nil => rfl
  | cons a l => exact collapseFrom_congr eq1 eq2 a l h

theorem dropWhile_congr_mem (p q : D → Bool) (l : List D) (h : ∀ x ∈ l, p x = q x) :
    l.dropWhile p = l.dropWhile q := by
  induction l with
  | nil => rfl
  | cons a l ih =>
    simp only [List.dropWhile_cons, h a (by simp)]
    split
    · exact ih (fun x hx => h x (List.mem_cons_of_mem _ hx))
    · rfl

/-- On a sorted list the inner loop, followed by the increment of the main loop, passes
exactly the entries that are equivalent to the current one. -/
theorem skipEqualRun_tail_eq_dropWhile (h : StrictWeakOrder less) (d' d : D) (rest : List D)
    (hs : SignatureSorted less (d :: rest)) (hdd : equivOf less d' d = true) :
    (skipEqualRun less (d :: rest)).tail = rest.dropWhile (fun b => equivOf less d' b) := by
  induction rest generalizing d with
  | nil => simp [skipEqualRun]
  | cons b r ih =>
    have hbd : less b d = false := (List.chain'_cons.mp hs).1
    have hs' : SignatureSorted less (b :: r) := (List.chain'_cons.mp hs).2
    cases hdb : less d b with
    | true =>
      have hlt : less d' b = true := h.less_of_equiv_less hdd hdb
      have he : equivOf less d' b = false := by simp [equivOf, hlt]
      simp [skipEqualRun, hdb, he]
    | false =>
      have he : equivOf less d b = true := by simp [equivOf, hdb, hbd]
      have he' : equivOf less d' b = true := h.incomp_trans d' d b hdd he
      simp only [skipEqualRun, hdb, Bool.not_false, if_true, List.dropWhile_cons, he']
      exact ih b hs' he'

end SignatureLists

/-- C5, amended: for two states whose signature lists are sorted, when
`Distribution.less` is a strict weak order and `Distribution.equals` is its equivalence
on the entries of the two lists, `quotientDistributionsLess` returns what the reference
comparison of the specification returns: collapse every run
of consecutive equal distributions (`Distribution.equals`) to one entry and compare the
collapsed lists lexicographically with `Distribution.less`, where a proper prefix is
strictly smaller and two lists without a difference are not less. -/
theorem quotientDistributionsLess_eq_referenceLess (cmp : ConstantsComparator) (m : Model)
    (st : Decomposition) (state1 state2 : Nat)
    (hswo : StrictWeakOrder (Distribution.less cmp))
    (heq : ∀ a ∈ st.signature m state1 ++ st.signature m state2,
      ∀ b ∈ st.signature m state1 ++ st.signature m state2,
        Distribution.equals cmp a b = equivOf (Distribution.less cmp) a b)
    (h1 : SignatureSorted (Distribution.less cmp) (st.signature m state1))
    (h2 : SignatureSorted (Distribution.less cmp) (st.signature m state2)) :
    quotientDistributionsLess cmp m st state1 state2
      = referenceLess (Distribution.less cmp) (Distribution.equals cmp)
          (st.signature m state1) (st.signature m state2) := by
  unfold quotientDistributionsLess referenceLess
  rw [signatureLess_eq_lexLess hswo _ _ h1 h2,
    collapseRuns_congr (Distribution.equals cmp) (equivOf (Distribution.less cmp))
      (st.signature m state1)
      (fun x hx y hy => heq x (List.mem_append_left _ hx) y (List.mem_append_left _ hy)),
    collapseRuns_congr (Distribution.equals cmp) (equivOf (Distribution.less cmp))
      (st.signature m state2)
      (fun x hx y hy => heq x (List.mem_append_right _ hx) y (List.mem_append_right _ hy))]

theorem quotientDistributionsLess_eq_referenceLess_witness :
    quotientDistributionsLess exactComparator duplicateChoiceModel
        duplicateChoiceDecomposition 0 1
      = referenceLess (Distribution.less exactComparator)
          (Distribution.equals exactComparator)
          (duplicateChoiceDecomposition.signature duplicateChoiceModel 0)
          (duplicateChoiceDecomposition.signature duplicateChoiceModel 1) :=
  quotientDistributionsLess_eq_referenceLess exactComparator duplicateChoiceModel
    duplicateChoiceDecomposition 0 1 Distribution.less_exact_strictWeakOrder
    (by decide!) (by decide!) (by decide!)

theorem signature_eq_nil_of_ge (m : Model) (st : Decomposition) (s : Nat)
    (h : m.getNumberOfStates ≤ s) : st.signature m s = [] := by
  have h0 : m.choiceIndex (s + 1) = 0 := by
    unfold Model.choiceIndex
    unfold Model.getNumberOfStates at h
    rw [List.getD_eq_default]
    omega
  simp [Decomposition.signature, Decomposition.orderedRange, h0]

theorem signatureSorted_of_states (cmp : ConstantsComparator) (m : Model)
    (st : Decomposition)
    (hsorted : ∀ s, s < m.getNumberOfStates →
      SignatureSorted (Distribution.less cmp) (st.signature m s)) (s : Nat) :
    SignatureSorted (Distribution.less cmp) (st.signature m s) := by
  by_cases h : s < m.getNumberOfStates
  · exact hsorted s h
  · rw [signature_eq_nil_of_ge m st s (by omega)]
    exact List.chain'_nil

/-- C6: whenever `Distribution.less` is a strict weak order and the signature list of
every state is sorted, `quotientDistributionsLess` is a strict weak order over the
states: irreflexive, asymmetric, transitive, and with a transitive incomparability
relation. -/
theorem quotientDistributionsLess_strictWeakOrder (cmp : ConstantsComparator) (m : Model)
    (st : Decomposition) (hswo : StrictWeakOrder (Distribution.less cmp))
    (hsorted : ∀ s, s < m.getNumberOfStates →
      SignatureSorted (Distribution.less cmp) (st.signature m s)) :
    (∀ s, quotientDistributionsLess cmp m st s s = false) ∧
    (∀ s t, quotientDistributionsLess cmp m st s t = true →
      quotientDistributionsLess cmp m st t s = false) ∧
    (∀ s t u, quotientDistributionsLess cmp m st s t = true →
      quotientDistributionsLess cmp m st t u = true →
      quotientDistributionsLess cmp m st s u = true) ∧
    (∀ s t u,
      (quotientDistributionsLess cmp m st s t = false ∧
        quotientDistributionsLess cmp m st t s = false) →
      (quotientDistributionsLess cmp m st t u = false ∧
        quotientDistributionsLess cmp m st u t = false) →
      (quotientDistributionsLess cmp m st s u = false ∧
        quotientDistributionsLess cmp m st u s = false)) := by
  have hall := signatureSorted_of_states cmp m st hsorted
  have key : ∀ s t, quotientDistributionsLess cmp m st s t
      = lexLess (Distribution.less cmp)
          (collapseRuns (equivOf (Distribution.less cmp)) (st.signature m s))
          (collapseRuns (equivOf (Distribution.less cmp)) (st.signature m t)) :=
    fun s t => signatureLess_eq_lexLess hswo _ _ (hall s) (hall t)
  refine ⟨?_, ?_, ?_, ?_⟩
  · intro s
    rw [key]
    exact lexLess_irrefl hswo _
  · intro s t hst
    rw [key] at hst ⊢
    exact lexLess_asymm hswo hst
  · intro s t u hst htu
    rw [key] at hst htu ⊢
    exact lexLess_trans hswo _ _ _ hst htu
  · intro s t u hst htu
    rw [key s t, key t s] at hst
    rw [key t u, key u t] at htu
    rw [key s u, key u s]
    rw [lexLess_incomp_iff] at hst htu ⊢
    exact forall₂_equiv_trans hswo _ _ _ hst htu

theorem quotientDistributionsLess_strictWeakOrder_witness :
    (∀ s, quotientDistributionsLess exactComparator duplicateChoiceModel
      duplicateChoiceDecomposition s s = false) ∧
    (∀ s t, quotientDistributionsLess exactComparator duplicateChoiceModel
        duplicateChoiceDecomposition s t = true →
      quotientDistributionsLess exactComparator duplicateChoiceModel
        duplicateChoiceDecomposition t s = false) ∧
    (∀ s t u, quotientDistributionsLess exactComparator duplicateChoiceModel
        duplicateChoiceDecomposition s t = true →
      quotientDistributionsLess exactComparator duplicateChoiceModel
        duplicateChoiceDecomposition t u = true →
      quotientDistributionsLess exactComparator duplicateChoiceModel
        duplicateChoiceDecomposition s u = true) ∧
    (∀ s t u,
      (quotientDistributionsLess exactComparator duplicateChoiceModel
          duplicateChoiceDecomposition s t = false ∧
        quotientDistributionsLess exactComparator duplicateChoiceModel
          duplicateChoiceDecomposition t s = false) →
      (quotientDistributionsLess exactComparator duplicateChoiceModel
          duplicateChoiceDecomposition t u = false ∧
        quotientDistributionsLess exactComparator duplicateChoiceModel
          duplicateChoiceDecomposition u t = false) →
      (quotientDistributionsLess exactComparator duplicateChoiceModel
          duplicateChoiceDecomposition s u = false ∧
        quotientDistributionsLess exactComparator duplicateChoiceModel
          duplicateChoiceDecomposition u s = false)) :=
  quotientDistributionsLess_strictWeakOrder exactComparator duplicateChoiceModel
    duplicateChoiceDecomposition Distribution.less_exact_strictWeakOrder (by decide!)

/-- C8, amended: duplicate distributions do not discriminate, when `Distribution.less` is
a strict weak order and `Distribution.equals` is its equivalence on the entries of the
two lists.  For two states with sorted
signature lists that contain the same distinct distributions (every entry of one list
is `Distribution.equals` to an entry of the other, whatever the multiplicities),
`quotientDistributionsLess` is false in both directions; and from every position of
either list the run-collapsing loop, together with the increment that follows it, passes
exactly the consecutive entries that are `Distribution.equals` to the current one. -/
theorem quotientDistributionsLess_duplicates (cmp : ConstantsComparator) (m : Model)
    (st : Decomposition) (state1 state2 : Nat)
    (hswo : StrictWeakOrder (Distribution.less cmp))
    (heq : ∀ a ∈ st.signature m state1 ++ st.signature m state2,
      ∀ b ∈ st.signature m state1 ++ st.signature m state2,
        Distribution.equals cmp a b = equivOf (Distribution.less cmp) a b)
    (h1 : SignatureSorted (Distribution.less cmp) (st.signature m state1))
    (h2 : SignatureSorted (Distribution.less cmp) (st.signature m state2))
    (hsame1 : ∀ d1 ∈ st.signature m state1, ∃ d2 ∈ st.signature m state2,
      Distribution.equals cmp d1 d2 = true)
    (hsame2 : ∀ d2 ∈ st.signature m state2, ∃ d1 ∈ st.signature m state1,
      Distribution.equals cmp d1 d2 = true) :
    quotientDistributionsLess cmp m st state1 state2 = false ∧
    quotientDistributionsLess cmp m st state2 state1 = false ∧
    (∀ d rest, (d :: rest <:+ st.signature m state1 ∨ d :: rest <:+ st.signature m state2) →
      (skipEqualRun (Distribution.less cmp) (d :: rest)).tail
        = rest.dropWhile (fun b => Distribution.equals cmp d b)) := by
  have hboth := (signatureLess_incomp_iff hswo (st.signature m state1) (st.signature m state2)
      h1 h2).mpr
    ⟨fun d1 hd1 => by
        obtain ⟨d2, hd2, he⟩ := hsame1 d1 hd1
        refine ⟨d2, hd2, ?_⟩
        rw [← heq d1 (List.mem_append_left _ hd1) d2 (List.mem_append_right _ hd2)]
        exact he,
      fun d2 hd2 => by
        obtain ⟨d1, hd1, he⟩ := hsame2 d2 hd2
        refine ⟨d1, hd1, ?_⟩
        rw [← heq d1 (List.mem_append_left _ hd1) d2 (List.mem_append_right _ hd2)]
        exact he⟩
  refine ⟨hboth.1, hboth.2, ?_⟩
  intro d rest hsuf
  have hmem : ∀ x ∈ d :: rest, x ∈ st.signature m state1 ++ st.signature m state2 := by
    intro x hx
    rcases hsuf with hs | hs
    · exact List.mem_append_left _ (hs.subset hx)
    · exact List.mem_append_right _ (hs.subset hx)
  have hsorted : SignatureSorted (Distribution.less cmp) (d :: rest) := by
    rcases hsuf with hs | hs
    · exact SignatureSorted.of_suffix h1 hs
    · exact SignatureSorted.of_suffix h2 hs
  rw [skipEqualRun_tail_eq_dropWhile hswo d d rest hsorted (hswo.equiv_refl d)]
  apply dropWhile_congr_mem
  intro x hx
  exact (heq d (hmem d (by simp)) x (hmem x (List.mem_cons_of_mem _ hx))).symm

theorem quotientDistributionsLess_duplicates_witness :
    quotientDistributionsLess exactComparator duplicateChoiceModel
      duplicateChoiceDecomposition 0 1 = false ∧
    quotientDistributionsLess exactComparator duplicateChoiceModel
      duplicateChoiceDecomposition 1 0 = false ∧
    (∀ d rest,
      (d :: rest <:+ duplicateChoiceDecomposition.signature duplicateChoiceModel 0 ∨
        d :: rest <:+ duplicateChoiceDecomposition.signature duplicateChoiceModel 1) →
      (skipEqualRun (Distribution.less exactComparator) (d :: rest)).tail
        = rest.dropWhile (fun b => Distribution.equals exactComparator d b)) :=
  quotientDistributionsLess_duplicates exactComparator duplicateChoiceModel
    duplicateChoiceDecomposition 0 1 Distribution.less_exact_strictWeakOrder
    (by decide!) (by decide!) (by decide!) (by decide!) (by decide!)

/-! ## Consistency of `equals` and `less` -/

namespace Distribution

theorem lessOn_eq_false (cmp : ConstantsComparator) (d1 d2 : Distribution) (ks : List Nat)
    (h : ∀ k ∈ ks, cmp.isEqual (mass d1 k) (mass d2 k) = true) :
    lessOn cmp d1 d2 ks = false := by
  induction ks with
  | nil => rfl
  | cons k ks ih =>
    simp only [lessOn, h k (by simp), if_true]
    exact ih (fun j hj => h j (List.mem_cons_of_mem _ hj))

/-- C10: for all distributions `d1`, `d2` it is never the case that `d1.equals(d2)`
holds together with `d1.less(d2)` or `d2.less(d1)`; this holds for every comparator
whose `isEqual` is symmetric. -/
theorem equals_not_less (cmp : ConstantsComparator)
    (hsym : ∀ a b, cmp.isEqual a b = cmp.isEqual b a) (d1 d2 : Distribution) :
    ¬(equals cmp d1 d2 = true ∧ (less cmp d1 d2 = true ∨ less cmp d2 d1 = true)) := by
  rintro ⟨he, hl⟩
  simp only [equals, Bool.and_eq_true, List.all_eq_true, decide_eq_true_eq] at he
  obtain ⟨⟨_, h21⟩, hm⟩ := he
  have hall : ∀ k ∈ blockIds d1 d2, cmp.isEqual (mass d1 k) (mass d2 k) = true := by
    intro k hk
    rcases (mem_blockIds d1 d2 k).mp hk with h | h
    · exact hm k h
    · exact hm k (h21 k h)
  have hall' : ∀ k ∈ blockIds d2 d1, cmp.isEqual (mass d2 k) (mass d1 k) = true := by
    intro k hk
    rw [hsym]
    apply hall
    rw [mem_blockIds] at hk ⊢
    tauto
  rcases hl with hl | hl
  · rw [less, lessOn_eq_false cmp d1 d2 _ hall] at hl
    cases hl
  · rw [less, lessOn_eq_false cmp d2 d1 _ hall'] at hl
    cases hl

theorem equals_not_less_witness :
    ¬(equals exactComparator [(0, 1 / 2), (1, 1 / 2)] [(1, 1 / 2), (0, 1 / 2)] = true ∧
      (less exactComparator [(0, 1 / 2), (1, 1 / 2)] [(1, 1 / 2), (0, 1 / 2)] = true ∨
        less exactComparator [(1, 1 / 2), (0, 1 / 2)] [(0, 1 / 2), (1, 1 / 2)] = true)) :=
  equals_not_less exactComparator
    (fun a b => by simp [exactComparator, eq_comm])
    [(0, 1 / 2), (1, 1 / 2)] [(1, 1 / 2), (0, 1 / 2)]

end Distribution

/-! ## Mass conservation -/

theorem distribution_of_set (st st' : Decomposition) (c : Nat) (d : Distribution)
    (h : st'.quotientDistributions = st.quotientDistributions.set c d) (c' : Nat) :
    st'.distribution c'
      = if c' = c ∧ c < st.quotientDistributions.length then d else st.distribution c' := by
  simp only [Decomposition.distribution, h, List.getD_eq_getElem?_getD, List.getElem?_set]
  by_cases h : c = c'
  · subst h
    by_cases hl : c < st.quotientDistributions.length
    · simp [hl]
    · simp [hl, List.getElem?_eq_none (Nat.le_of_not_lt hl)]
  · have h' : ¬ c' = c := fun e => h e.symm
    simp [h, h']

theorem total_replayRow_aux (p : Partition) (l : List (Nat × ℚ)) (d : Distribution) :
    (l.foldl
        (fun d entry =>
          if !exactComparator.isZero entry.2 then
            Distribution.addProbability d (p.getBlock entry.1) entry.2
          else d) d).total
      = d.total + (l.map Prod.snd).sum := by
  induction l generalizing d with
  | nil => simp
  | cons e l ih =>
    simp only [List.foldl_cons, List.map_cons, List.sum_cons]
    rw [ih]
    by_cases hz : e.2 = 0
    · simp [exactComparator, hz]
    · simp [exactComparator, hz, Distribution.total_addProbability]
      ring

theorem total_replayRow (m : Model) (p : Partition) (c : Nat) (d : Distribution) :
    (replayRow exactComparator m p c d).total = d.total + m.rowSum c :=
  total_replayRow_aux p (m.getRow c) d

theorem initializeChoice_partition (cmp : ConstantsComparator) (m : Model)
    (st : Decomposition) (c : Nat) : (initializeChoice cmp m st c).partition = st.partition :=
  rfl

theorem initializeChoice_length (cmp : ConstantsComparator) (m : Model)
    (st : Decomposition) (c : Nat) :
    (initializeChoice cmp m st c).quotientDistributions.length
      = st.quotientDistributions.length := by
  simp [initializeChoice]

theorem foldl_initializeChoice_invariants (cmp : ConstantsComparator) (m : Model)
    (st : Decomposition) (n : Nat) :
    ((List.range n).foldl (initializeChoice cmp m) st).partition = st.partition ∧
    ((List.range n).foldl (initializeChoice cmp m) st).quotientDistributions.length
      = st.quotientDistributions.length ∧
    ∀ c, ((List.range n).foldl (initializeChoice cmp m) st).distribution c
      = if c < n ∧ c < st.quotientDistributions.length then
          replayRow cmp m st.partition c (st.distribution c)
        else st.distribution c := by
  induction n with
  | zero => simp
  | succ n ih =>
    obtain ⟨hp, hl, hd⟩ := ih
    rw [List.range_succ, List.foldl_append]
    simp only [List.foldl_cons, List.foldl_nil]
    refine ⟨by rw [initializeChoice_partition, hp], by rw [initializeChoice_length, hl], ?_⟩
    intro c
    rw [distribution_of_set _ (initializeChoice cmp m _ n) n _ rfl c, hl, hp, hd c, hd n]
    by_cases hcn : c = n
    · subst hcn
      by_cases hlen : c < st.quotientDistributions.length
      · simp [hlen]
      · simp [hlen]
    · by_cases hlt : c < n
      · have : c < n + 1 := by omega
        simp [hcn, hlt, this]
      · have : ¬ c < n + 1 := by omega
        simp [hcn, hlt, this]

theorem updateOrdered_quotientDistributions (cmp : ConstantsComparator) (m : Model)
    (st : Decomposition) (s : Nat) :
    (updateOrderedQuotientDistributions cmp m st s).quotientDistributions
      = st.quotientDistributions :=
  rfl

theorem updateOrdered_distribution (cmp : ConstantsComparator) (m : Model)
    (st : Decomposition) (s c : Nat) :
    (updateOrderedQuotientDistributions cmp m st s).distribution c = st.distribution c :=
  rfl

theorem updateOrdered_partition (cmp : ConstantsComparator) (m : Model)
    (st : Decomposition) (s : Nat) :
    (updateOrderedQuotientDistributions cmp m st s).partition = st.partition :=
  rfl

theorem updateOrdered_mapping (cmp : ConstantsComparator) (m : Model)
    (st : Decomposition) (s : Nat) :
    (updateOrderedQuotientDistributions cmp m st s).choiceToStateMapping
      = st.choiceToStateMapping :=
  rfl

theorem foldl_updateOrdered_frame (cmp : ConstantsComparator) (m : Model)
    (l : List Nat) (st : Decomposition) :
    (l.foldl (updateOrderedQuotientDistributions cmp m) st).quotientDistributions
        = st.quotientDistributions ∧
    (l.foldl (updateOrderedQuotientDistributions cmp m) st).partition = st.partition ∧
    (l.foldl (updateOrderedQuotientDistributions cmp m) st).choiceToStateMapping
        = st.choiceToStateMapping := by
  induction l generalizing st with
  | nil => simp
  | cons s l ih =>
    simp only [List.foldl_cons]
    obtain ⟨h1, h2, h3⟩ := ih (updateOrderedQuotientDistributions cmp m st s)
    exact ⟨h1, h2, h3⟩

theorem initializeQuotientDistributions_distribution (cmp : ConstantsComparator) (m : Model)
    (st : Decomposition) (c : Nat) :
    (initializeQuotientDistributions cmp m st).distribution c
      = if c < m.rowGroupIndices.getLastD 0 ∧ c < st.quotientDistributions.length then
          replayRow cmp m st.partition c (st.distribution c)
        else st.distribution c := by
  unfold initializeQuotientDistributions
  have h := (foldl_updateOrdered_frame cmp m (List.range m.getNumberOfStates)
    ((List.range (m.rowGroupIndices.getLastD 0)).foldl (initializeChoice cmp m) st)).1
  unfold Decomposition.distribution at *
  rw [h]
  exact (foldl_initializeChoice_invariants cmp m st _).2.2 c

theorem initializeQuotientDistributions_partition (cmp : ConstantsComparator) (m : Model)
    (st : Decomposition) :
    (initializeQuotientDistributions cmp m st).partition = st.partition := by
  unfold initializeQuotientDistributions
  rw [(foldl_updateOrdered_frame cmp m _ _).2.1]
  exact (foldl_initializeChoice_invariants cmp m st _).1

theorem construct_distribution (m : Model) (p : Partition) (c : Nat) :
    (construct m p).distribution c = [] := by
  simp only [Decomposition.distribution, construct, List.getD_eq_getElem?_getD]
  by_cases h : c < m.getNumberOfChoices
  · simp [List.getElem?_replicate, h]
  · simp [List.getElem?_replicate, h]

theorem repairOrder_frame (cmp : ConstantsComparator) (m : Model) (st : Decomposition)
    (last : Option Nat) (ps : Nat) :
    (repairOrder cmp m st last ps).quotientDistributions = st.quotientDistributions ∧
    (repairOrder cmp m st last ps).partition = st.partition ∧
    (repairOrder cmp m st last ps).choiceToStateMapping = st.choiceToStateMapping := by
  unfold repairOrder
  cases last with
  | none => exact ⟨rfl, rfl, rfl⟩
  | some l =>
    show (if l ≠ ps then updateOrderedQuotientDistributions cmp m st l else st).quotientDistributions
        = st.quotientDistributions ∧
      (if l ≠ ps then updateOrderedQuotientDistributions cmp m st l else st).partition
        = st.partition ∧
      (if l ≠ ps then updateOrderedQuotientDistributions cmp m st l else st).choiceToStateMapping
        = st.choiceToStateMapping
    by_cases h : l ≠ ps
    · rw [if_pos h]
      exact ⟨rfl, rfl, rfl⟩
    · rw [if_neg h]
      exact ⟨rfl, rfl, rfl⟩

theorem repairOrder_distribution (cmp : ConstantsComparator) (m : Model) (st : Decomposition)
    (last : Option Nat) (ps c : Nat) :
    (repairOrder cmp m st last ps).distribution c = st.distribution c := by
  unfold Decomposition.distribution
  rw [(repairOrder_frame cmp m st last ps).1]

theorem shiftChoice_distribution (st : Decomposition) (pc oldBlock newBlock : Nat) (v : ℚ)
    (c : Nat) :
    (shiftChoice st pc oldBlock newBlock v).distribution c
      = if c = pc ∧ pc < st.quotientDistributions.length then
          Distribution.shiftProbability (st.distribution c) oldBlock newBlock v
        else st.distribution c := by
  rw [distribution_of_set st (shiftChoice st pc oldBlock newBlock v) pc _ rfl c]
  by_cases hc : c = pc
  · subst hc; rfl
  · simp [hc]

theorem updatePredecessorEntry_distribution (cmp : ConstantsComparator) (m : Model)
    (newBlock oldBlock : Nat) (u : UpdateState) (e : Nat × ℚ) (c : Nat) :
    (updatePredecessorEntry cmp m newBlock oldBlock u e).dec.distribution c
      = if cmp.isZero e.2 = false ∧ c = e.1 ∧ e.1 < u.dec.quotientDistributions.length then
          Distribution.shiftProbability (u.dec.distribution c) oldBlock newBlock e.2
        else u.dec.distribution c := by
  unfold updatePredecessorEntry
  by_cases hz : cmp.isZero e.2 = true
  · simp [hz]
  · have hz' : cmp.isZero e.2 = false := by simpa using hz
    simp only [hz, Bool.false_eq_true, if_false]
    rw [shiftChoice_distribution, repairOrder_distribution, (repairOrder_frame _ _ _ _ _).1]
    simp only [hz', true_and]
    rfl

theorem updatePredecessorEntry_massConserved (cmp : ConstantsComparator) (m : Model)
    (newBlock oldBlock : Nat) (u : UpdateState) (e : Nat × ℚ)
    (h : u.dec.MassConserved m) :
    (updatePredecessorEntry cmp m newBlock oldBlock u e).dec.MassConserved m := by
  intro c
  rw [updatePredecessorEntry_distribution]
  split
  · rw [Distribution.total_shiftProbability]
    exact h c
  · exact h c

theorem foldl_updatePredecessorEntry_massConserved (cmp : ConstantsComparator) (m : Model)
    (newBlock oldBlock : Nat) (l : List (Nat × ℚ)) (u : UpdateState)
    (h : u.dec.MassConserved m) :
    (l.foldl (updatePredecessorEntry cmp m newBlock oldBlock) u).dec.MassConserved m := by
  induction l generalizing u with
  | nil => exact h
  | cons e l ih =>
    exact ih _ (updatePredecessorEntry_massConserved cmp m newBlock oldBlock u e h)

theorem finishUpdate_distribution (cmp : ConstantsComparator) (m : Model) (u : UpdateState)
    (c : Nat) : (finishUpdate cmp m u).1.distribution c = u.dec.distribution c := by
  unfold finishUpdate
  cases u.lastState <;> rfl

/-- C4: mass conservation over exact arithmetic.  For a model whose row-group indices
end at the number of choices, after `initializeQuotientDistributions` the masses of
`quotientDistributions[c]` add up to the sum of the probabilities in the row of `c`, for
every choice `c`; and when that holds on entry to
`updateQuotientDistributionsOfPredecessors`, it holds after every iteration of its inner
loop, that is after every single `shiftProbability`, and on exit. -/
theorem mass_conservation (m : Model) (p : Partition)
    (hrows : m.rowGroupIndices.getLastD 0 = m.getNumberOfChoices) :
    (initializeQuotientDistributions exactComparator m (construct m p)).MassConserved m ∧
    (∀ (cmp : ConstantsComparator) (st : Decomposition) (newBlock oldBlock : Nat)
      (queue : List Nat), st.MassConserved m →
      (∀ k, (((predecessorEntries m st newBlock).take k).foldl
          (updatePredecessorEntry cmp m newBlock oldBlock)
          { dec := st, queue := queue, lastState := none }).dec.MassConserved m) ∧
      (updateQuotientDistributionsOfPredecessors cmp m st newBlock oldBlock queue).1.MassConserved
        m) := by
  constructor
  · intro c
    rw [initializeQuotientDistributions_distribution, construct_distribution]
    have hlen : (construct m p).quotientDistributions.length = m.getNumberOfChoices := by
      simp [construct]
    rw [hlen, hrows]
    by_cases hc : c < m.getNumberOfChoices
    · simp only [hc, and_self, if_true]
      rw [total_replayRow]
      simp [Distribution.total]
    · simp only [hc, and_self, if_false]
      have : m.getRow c = [] := by
        unfold Model.getRow
        rw [List.getD_eq_default]
        unfold Model.getNumberOfChoices at hc
        omega
      simp [Model.rowSum, this, Distribution.total]
  · intro cmp st newBlock oldBlock queue hst
    constructor
    · intro k
      exact foldl_updatePredecessorEntry_massConserved cmp m newBlock oldBlock _ _ hst
    · intro c
      unfold updateQuotientDistributionsOfPredecessors
      rw [finishUpdate_distribution]
      exact foldl_updatePredecessorEntry_massConserved cmp m newBlock oldBlock _ _ hst c

theorem mass_conservation_witness :
    (initializeQuotientDistributions exactComparator duplicateChoiceModel
        (construct duplicateChoiceModel singleBlockPartition)).MassConserved
      duplicateChoiceModel ∧
    (∀ (cmp : ConstantsComparator) (st : Decomposition) (newBlock oldBlock : Nat)
      (queue : List Nat), st.MassConserved duplicateChoiceModel →
      (∀ k, (((predecessorEntries duplicateChoiceModel st newBlock).take k).foldl
          (updatePredecessorEntry cmp duplicateChoiceModel newBlock oldBlock)
          { dec := st, queue := queue, lastState := none }).dec.MassConserved
            duplicateChoiceModel) ∧
      (updateQuotientDistributionsOfPredecessors cmp duplicateChoiceModel st newBlock oldBlock
        queue).1.MassConserved duplicateChoiceModel) :=
  mass_conservation duplicateChoiceModel singleBlockPartition (by decide)

/-! ## Sorting the range of one state -/

section Slices

variable {α : Type}

theorem slice_replace_same (l x : List α) (b k : Nat)
    (hx : x.length = ((l.drop b).take k).length) :
    ((l.take b ++ x ++ l.drop (b + x.length)).drop b).take k = x := by
  by_cases hb : b ≤ l.length
  · have hA : (l.take b).length = b := by simp [hb]
    have hdrop : (l.take b ++ x ++ l.drop (b + x.length)).drop b
        = x ++ l.drop (b + x.length) := by
      rw [List.append_assoc]
      rw [List.drop_append_of_le_length (by omega)]
      rw [List.drop_of_length_le (by omega)]
      simp
    rw [hdrop]
    have hn : x.length = min k (l.length - b) := by simp [hx]
    by_cases hk : k ≤ l.length - b
    · have hxk : x.length = k := by omega
      rw [List.take_append_of_le_length (by omega), List.take_of_length_le (by omega)]
    · have hxk : x.length = l.length - b := by omega
      have hnil : l.drop (b + x.length) = [] := List.drop_of_length_le (by omega)
      rw [hnil, List.append_nil, List.take_of_length_le (by omega)]
  · have hnil : l.drop b = [] := List.drop_of_length_le (by omega)
    have hx0 : x = [] := by
      rw [hnil] at hx
      simpa using hx
    subst hx0
    simp [hnil]

theorem slice_replace_eq_self (l x : List α) (b k : Nat)
    (hx : x.length = ((l.drop b).take k).length) (hb : l.length < b) :
    l.take b ++ x ++ l.drop (b + x.length) = l := by
  have hnil : l.drop b = [] := List.drop_of_length_le (by omega)
  have hx0 : x = [] := by
    rw [hnil] at hx
    simpa using hx
  subst hx0
  simp [hnil, List.take_of_length_le (Nat.le_of_lt hb)]

theorem slice_replace_before (l x : List α) (b k b' k' : Nat)
    (hx : x.length = ((l.drop b).take k).length) (h : b' + k' ≤ b) :
    ((l.take b ++ x ++ l.drop (b + x.length)).drop b').take k' = (l.drop b').take k' := by
  by_cases hb : b ≤ l.length
  · have hA : (l.take b).length = b := by simp [hb]
    rw [List.append_assoc, List.drop_append_of_le_length (by omega),
      List.take_append_of_le_length (by simp; omega)]
    rw [List.drop_take, List.take_take]
    congr 1
    omega
  · rw [slice_replace_eq_self l x b k hx (by omega)]

theorem slice_replace_after (l x : List α) (b k b' k' : Nat)
    (hx : x.length = ((l.drop b).take k).length) (h : b + x.length ≤ b') :
    ((l.take b ++ x ++ l.drop (b + x.length)).drop b').take k' = (l.drop b').take k' := by
  by_cases hb : b ≤ l.length
  · have hA : (l.take b).length = b := by simp [hb]
    have hlen : (l.take b ++ x).length = b + x.length := by simp [hA]
    rw [List.drop_append_eq_append_drop, List.drop_of_length_le (by omega), hlen,
      List.nil_append, List.drop_drop]
    congr 2
    omega
  · rw [slice_replace_eq_self l x b k hx (by omega)]

end Slices

theorem choiceIndex_mono (m : Model) (hm : m.Monotone) (s t : Nat) (hst : s ≤ t)
    (ht : t < m.rowGroupIndices.length) : m.choiceIndex s ≤ m.choiceIndex t := by
  unfold Model.choiceIndex
  rw [List.getD_eq_getElem _ _ (by omega), List.getD_eq_getElem _ _ ht]
  rcases Nat.lt_or_eq_of_le hst with h | h
  · exact (List.pairwise_iff_getElem.mp hm) s t (by omega) ht h
  · subst h; exact Nat.le_refl _

theorem orderedRange_eq_nil_of_ge (m : Model) (st : Decomposition) (s : Nat)
    (h : m.getNumberOfStates ≤ s) : st.orderedRange m s = [] := by
  have h0 : m.choiceIndex (s + 1) = 0 := by
    unfold Model.choiceIndex
    unfold Model.getNumberOfStates at h
    rw [List.getD_eq_default]
    omega
  simp [Decomposition.orderedRange, h0]

theorem insertionSort_length {α : Type} (r : α → α → Prop) [DecidableRel r] (l : List α) :
    (l.insertionSort r).length = l.length :=
  (List.perm_insertionSort r l).length_eq

/-- After `updateOrderedQuotientDistributions(state)` the range of the state holds the
sorted pointers. -/
theorem updateOrdered_orderedRange_same (cmp : ConstantsComparator) (m : Model)
    (st : Decomposition) (s : Nat) :
    (updateOrderedQuotientDistributions cmp m st s).orderedRange m s
      = (st.orderedRange m s).insertionSort
          (fun c1 c2 =>
            Distribution.less cmp (st.distribution c2) (st.distribution c1) = false) := by
  unfold updateOrderedQuotientDistributions
  simp only [Decomposition.orderedRange]
  rw [← insertionSort_length
    (fun c1 c2 => Distribution.less cmp (st.distribution c2) (st.distribution c1) = false)
    ((st.orderedQuotientDistributions.drop (m.choiceIndex s)).take
      (m.choiceIndex (s + 1) - m.choiceIndex s))]
  exact slice_replace_same _ _ _ _ (insertionSort_length _ _)

/-- The ranges of the other states are not touched. -/
theorem updateOrdered_orderedRange_other (cmp : ConstantsComparator) (m : Model)
    (hm : m.Monotone) (st : Decomposition) (s t : Nat) (hst : t ≠ s) :
    (updateOrderedQuotientDistributions cmp m st s).orderedRange m t = st.orderedRange m t := by
  by_cases htN : m.getNumberOfStates ≤ t
  · rw [orderedRange_eq_nil_of_ge m _ t htN, orderedRange_eq_nil_of_ge m _ t htN]
  have htlen : t + 1 < m.rowGroupIndices.length := by
    unfold Model.getNumberOfStates at htN; omega
  unfold updateOrderedQuotientDistributions
  simp only [Decomposition.orderedRange]
  rw [← insertionSort_length
    (fun c1 c2 => Distribution.less cmp (st.distribution c2) (st.distribution c1) = false)
    ((st.orderedQuotientDistributions.drop (m.choiceIndex s)).take
      (m.choiceIndex (s + 1) - m.choiceIndex s))]
  by_cases hsN : m.getNumberOfStates ≤ s
  · have h0 : m.choiceIndex (s + 1) = 0 := by
      unfold Model.choiceIndex
      unfold Model.getNumberOfStates at hsN
      rw [List.getD_eq_default]
      omega
    simp [h0]
  have hslen : s + 1 < m.rowGroupIndices.length := by
    unfold Model.getNumberOfStates at hsN; omega
  rcases Nat.lt_or_gt_of_ne hst with hlt | hgt
  · apply slice_replace_before _ _ _ _ _ _ (insertionSort_length _ _)
    have h1 := choiceIndex_mono m hm t (t + 1) (by omega) htlen
    have h2 := choiceIndex_mono m hm (t + 1) s (by omega) (by omega)
    omega
  · apply slice_replace_after _ _ _ _ _ _ (insertionSort_length _ _)
    have h1 := choiceIndex_mono m hm s (s + 1) (by omega) hslen
    have h2 := choiceIndex_mono m hm (s + 1) t (by omega) (by omega)
    have h3 : ((st.orderedQuotientDistributions.drop (m.choiceIndex s)).take
        (m.choiceIndex (s + 1) - m.choiceIndex s)).length
          ≤ m.choiceIndex (s + 1) - m.choiceIndex s := by
      simp
    rw [insertionSort_length]
    omega

theorem insertionSort_signatureSorted (cmp : ConstantsComparator)
    (hswo : StrictWeakOrder (Distribution.less cmp)) (dist : Nat → Distribution)
    (l : List Nat) :
    SignatureSorted (Distribution.less cmp)
      ((l.insertionSort
        (fun c1 c2 => Distribution.less cmp (dist c2) (dist c1) = false)).map dist) := by
  haveI : IsTotal Nat (fun c1 c2 => Distribution.less cmp (dist c2) (dist c1) = false) :=
    ⟨fun a b => by
      cases h : Distribution.less cmp (dist b) (dist a) with
      | false => exact Or.inl rfl
      | true => exact Or.inr (hswo.asymm h)⟩
  haveI : IsTrans Nat (fun c1 c2 => Distribution.less cmp (dist c2) (dist c1) = false) :=
    ⟨fun a b c hab hbc => hswo.notLess_trans hab hbc⟩
  have hs := List.sorted_insertionSort
    (fun c1 c2 => Distribution.less cmp (dist c2) (dist c1) = false) l
  unfold SignatureSorted
  rw [List.chain'_map]
  exact List.Pairwise.chain' hs

theorem updateOrdered_signature_same (cmp : ConstantsComparator) (m : Model)
    (hswo : StrictWeakOrder (Distribution.less cmp)) (st : Decomposition) (s : Nat) :
    SignatureSorted (Distribution.less cmp)
      ((updateOrderedQuotientDistributions cmp m st s).signature m s) := by
  unfold Decomposition.signature
  rw [updateOrdered_orderedRange_same]
  exact insertionSort_signatureSorted cmp hswo _ _

theorem updateOrdered_signature_other (cmp : ConstantsComparator) (m : Model)
    (hm : m.Monotone) (st : Decomposition) (s t : Nat) (hst : t ≠ s) :
    (updateOrderedQuotientDistributions cmp m st s).signature m t = st.signature m t := by
  unfold Decomposition.signature
  rw [updateOrdered_orderedRange_other cmp m hm st s t hst]
  rfl

theorem updateOrdered_mem_orderedRange (cmp : ConstantsComparator) (m : Model)
    (hm : m.Monotone) (st : Decomposition) (s t c : Nat) :
    c ∈ (updateOrderedQuotientDistributions cmp m st s).orderedRange m t ↔
      c ∈ st.orderedRange m t := by
  by_cases hst : t = s
  · subst hst
    rw [updateOrdered_orderedRange_same]
    exact (List.perm_insertionSort _ _).mem_iff
  · rw [updateOrdered_orderedRange_other cmp m hm st s t hst]

/-! ## Sortedness of the signature lists -/

theorem foldl_updateOrdered_sorted (cmp : ConstantsComparator) (m : Model)
    (hswo : StrictWeakOrder (Distribution.less cmp)) (hm : m.Monotone)
    (st : Decomposition) (n : Nat) :
    ∀ s, s < n → SignatureSorted (Distribution.less cmp)
      (((List.range n).foldl (updateOrderedQuotientDistributions cmp m) st).signature m s) := by
  induction n with
  | zero => intro s hs; omega
  | succ n ih =>
    intro s hs
    rw [List.range_succ, List.foldl_append]
    simp only [List.foldl_cons, List.foldl_nil]
    by_cases hsn : s = n
    · subst hsn
      exact updateOrdered_signature_same cmp m hswo _ s
    · rw [updateOrdered_signature_other cmp m hm _ n s hsn]
      exact ih s (by omega)

theorem initializeQuotientDistributions_sorted (cmp : ConstantsComparator) (m : Model)
    (hswo : StrictWeakOrder (Distribution.less cmp)) (hm : m.Monotone)
    (st : Decomposition) :
    (initializeQuotientDistributions cmp m st).SignaturesSorted cmp m := by
  intro s
  by_cases hs : s < m.getNumberOfStates
  · exact foldl_updateOrdered_sorted cmp m hswo hm _ _ s hs
  · rw [signature_eq_nil_of_ge m _ s (by omega)]
    exact List.chain'_nil

theorem updateOrdered_owned (cmp : ConstantsComparator) (m : Model) (hm : m.Monotone)
    (st : Decomposition) (s : Nat) (h : st.Owned m) :
    (updateOrderedQuotientDistributions cmp m st s).Owned m := by
  intro t ht c hc
  rw [updateOrdered_mem_orderedRange cmp m hm] at hc
  exact h t ht c hc

theorem shiftChoice_signature (m : Model) (st : Decomposition) (pc oldBlock newBlock : Nat)
    (v : ℚ) (s : Nat) (h : pc ∉ st.orderedRange m s) :
    (shiftChoice st pc oldBlock newBlock v).signature m s = st.signature m s := by
  unfold Decomposition.signature
  have hr : (shiftChoice st pc oldBlock newBlock v).orderedRange m s = st.orderedRange m s :=
    rfl
  rw [hr]
  apply List.map_congr_left
  intro c hc
  rw [shiftChoice_distribution]
  have : c ≠ pc := fun e => h (e ▸ hc)
  simp [this]

/-- The invariant of the inner loop of `updateQuotientDistributionsOfPredecessors`: the
signature list of every state but `lastState` is sorted. -/
theorem updatePredecessorEntry_sorted (cmp : ConstantsComparator) (m : Model)
    (hswo : StrictWeakOrder (Distribution.less cmp)) (hm : m.Monotone)
    (newBlock oldBlock : Nat) (u : UpdateState) (e : Nat × ℚ)
    (hown : u.dec.Owned m)
    (hsorted : ∀ s, u.lastState ≠ some s →
      SignatureSorted (Distribution.less cmp) (u.dec.signature m s)) :
    (updatePredecessorEntry cmp m newBlock oldBlock u e).dec.Owned m ∧
    ∀ s, (updatePredecessorEntry cmp m newBlock oldBlock u e).lastState ≠ some s →
      SignatureSorted (Distribution.less cmp)
        ((updatePredecessorEntry cmp m newBlock oldBlock u e).dec.signature m s) := by
  unfold updatePredecessorEntry
  by_cases hz : cmp.isZero e.2 = true
  · simp only [hz, if_true]
    exact ⟨hown, hsorted⟩
  · simp only [hz, Bool.false_eq_true, if_false]
    -- the decomposition after the flag has been set and the order repaired
    have hrep : ∀ (p : Partition),
        (repairOrder cmp m { u.dec with partition := p } u.lastState
            (u.dec.choiceToStateMapping.getD e.1 0)).Owned m ∧
        ∀ s, s ≠ u.dec.choiceToStateMapping.getD e.1 0 →
          SignatureSorted (Distribution.less cmp)
            ((repairOrder cmp m { u.dec with partition := p } u.lastState
              (u.dec.choiceToStateMapping.getD e.1 0)).signature m s) := by
      intro p
      have hown0 : Decomposition.Owned m { u.dec with partition := p } := hown
      have hsig0 : ∀ s, Decomposition.signature m { u.dec with partition := p } s
          = u.dec.signature m s := fun _ => rfl
      cases hl : u.lastState with
      | none =>
        refine ⟨hown0, fun s _ => ?_⟩
        show SignatureSorted _ (Decomposition.signature m { u.dec with partition := p } s)
        rw [hsig0]
        exact hsorted s (by rw [hl]; simp)
      | some last =>
        show (if last ≠ u.dec.choiceToStateMapping.getD e.1 0 then
            updateOrderedQuotientDistributions cmp m { u.dec with partition := p } last
          else { u.dec with partition := p }).Owned m ∧
          ∀ s, s ≠ u.dec.choiceToStateMapping.getD e.1 0 →
            SignatureSorted (Distribution.less cmp)
              ((if last ≠ u.dec.choiceToStateMapping.getD e.1 0 then
                updateOrderedQuotientDistributions cmp m { u.dec with partition := p } last
              else { u.dec with partition := p }).signature m s)
        by_cases hne : last ≠ u.dec.choiceToStateMapping.getD e.1 0
        · rw [if_pos hne]
          refine ⟨updateOrdered_owned cmp m hm _ last hown0, fun s _ => ?_⟩
          by_cases hsl : s = last
          · subst hsl
            exact updateOrdered_signature_same cmp m hswo _ s
          · rw [updateOrdered_signature_other cmp m hm _ last s hsl, hsig0]
            exact hsorted s (by rw [hl]; simpa using fun h => hsl h.symm)
        · rw [if_neg hne]
          refine ⟨hown0, fun s hs => ?_⟩
          rw [hsig0]
          apply hsorted s
          rw [hl]
          have hlast : last = u.dec.choiceToStateMapping.getD e.1 0 := by
            by_contra h; exact hne h
          intro h
          exact hs ((Option.some.inj h).symm.trans hlast)
    obtain ⟨hown1, hsorted1⟩ := hrep (markSplitter u.dec.partition u.queue
      (u.dec.partition.getBlock (u.dec.choiceToStateMapping.getD e.1 0))).1
    refine ⟨hown1, ?_⟩
    intro s hs
    have hs' : s ≠ u.dec.choiceToStateMapping.getD e.1 0 := by
      intro h
      apply hs
      simp [h]
    by_cases hsN : s < m.getNumberOfStates
    · rw [shiftChoice_signature]
      · exact hsorted1 s hs'
      · intro hmem
        have := hown1 s hsN e.1 hmem
        rw [(repairOrder_frame _ _ _ _ _).2.2] at this
        exact hs' this.symm
    · rw [signature_eq_nil_of_ge m _ s (by omega)]
      exact List.chain'_nil

theorem foldl_updatePredecessorEntry_sorted (cmp : ConstantsComparator) (m : Model)
    (hswo : StrictWeakOrder (Distribution.less cmp)) (hm : m.Monotone)
    (newBlock oldBlock : Nat) (l : List (Nat × ℚ)) (u : UpdateState)
    (hown : u.dec.Owned m)
    (hsorted : ∀ s, u.lastState ≠ some s →
      SignatureSorted (Distribution.less cmp) (u.dec.signature m s)) :
    (l.foldl (updatePredecessorEntry cmp m newBlock oldBlock) u).dec.Owned m ∧
    ∀ s, (l.foldl (updatePredecessorEntry cmp m newBlock oldBlock) u).lastState ≠ some s →
      SignatureSorted (Distribution.less cmp)
        ((l.foldl (updatePredecessorEntry cmp m newBlock oldBlock) u).dec.signature m s) := by
  induction l generalizing u with
  | nil => exact ⟨hown, hsorted⟩
  | cons e l ih =>
    simp only [List.foldl_cons]
    obtain ⟨h1, h2⟩ :=
      updatePredecessorEntry_sorted cmp m hswo hm newBlock oldBlock u e hown hsorted
    exact ih _ h1 h2

theorem finishUpdate_sorted (cmp : ConstantsComparator) (m : Model)
    (hswo : StrictWeakOrder (Distribution.less cmp)) (hm : m.Monotone) (u : UpdateState)
    (hown : u.dec.Owned m)
    (hsorted : ∀ s, u.lastState ≠ some s →
      SignatureSorted (Distribution.less cmp) (u.dec.signature m s)) :
    (finishUpdate cmp m u).1.Owned m ∧ (finishUpdate cmp m u).1.SignaturesSorted cmp m := by
  unfold finishUpdate
  cases hl : u.lastState with
  | none => exact ⟨hown, fun s => hsorted s (by rw [hl]; simp)⟩
  | some last =>
    refine ⟨updateOrdered_owned cmp m hm _ last hown, fun s => ?_⟩
    show SignatureSorted _ ((updateOrderedQuotientDistributions cmp m u.dec last).signature m s)
    by_cases hsl : s = last
    · subst hsl
      exact updateOrdered_signature_same cmp m hswo _ s
    · rw [updateOrdered_signature_other cmp m hm _ last s hsl]
      exact hsorted s (by rw [hl]; simpa using fun h => hsl h.symm)

theorem updateQuotientDistributionsOfPredecessors_sorted (cmp : ConstantsComparator)
    (m : Model) (hswo : StrictWeakOrder (Distribution.less cmp)) (hm : m.Monotone)
    (st : Decomposition) (newBlock oldBlock : Nat) (queue : List Nat)
    (hown : st.Owned m) (hsorted : st.SignaturesSorted cmp m) :
    (updateQuotientDistributionsOfPredecessors cmp m st newBlock oldBlock queue).1.Owned m ∧
    (updateQuotientDistributionsOfPredecessors cmp m st newBlock oldBlock
      queue).1.SignaturesSorted cmp m := by
  unfold updateQuotientDistributionsOfPredecessors
  obtain ⟨h1, h2⟩ := foldl_updatePredecessorEntry_sorted cmp m hswo hm newBlock oldBlock
    (predecessorEntries m st newBlock) { dec := st, queue := queue, lastState := none }
    hown (fun s _ => hsorted s)
  exact finishUpdate_sorted cmp m hswo hm _ h1 h2

/-- C9: signature sortedness is an invariant.  With `Distribution.less` a strict weak
order and non-decreasing row-group indices, after `initializeQuotientDistributions` no
entry of the signature list of any state is less than its predecessor; and every call of
`updateQuotientDistributionsOfPredecessors` that starts from sorted lists (whose
pointers lie in the ranges of the states that `choiceToStateMapping` names) ends with
sorted lists: every state whose distribution was shifted has been sorted again after its
last shift, in whatever order its predecessor entries were met. -/
theorem signatures_sorted_invariant (cmp : ConstantsComparator) (m : Model)
    (hswo : StrictWeakOrder (Distribution.less cmp)) (hm : m.Monotone) :
    (∀ st : Decomposition, (initializeQuotientDistributions cmp m st).SignaturesSorted cmp m) ∧
    (∀ (st : Decomposition) (newBlock oldBlock : Nat) (queue : List Nat),
      st.Owned m → st.SignaturesSorted cmp m →
      (updateQuotientDistributionsOfPredecessors cmp m st newBlock oldBlock
        queue).1.SignaturesSorted cmp m) :=
  ⟨fun st => initializeQuotientDistributions_sorted cmp m hswo hm st,
    fun st newBlock oldBlock queue hown hsorted =>
      (updateQuotientDistributionsOfPredecessors_sorted cmp m hswo hm st newBlock oldBlock
        queue hown hsorted).2⟩

theorem signatures_sorted_invariant_witness :
    (∀ st : Decomposition,
      (initializeQuotientDistributions exactComparator duplicateChoiceModel
        st).SignaturesSorted exactComparator duplicateChoiceModel) ∧
    (∀ (st : Decomposition) (newBlock oldBlock : Nat) (queue : List Nat),
      st.Owned duplicateChoiceModel →
      st.SignaturesSorted exactComparator duplicateChoiceModel →
      (updateQuotientDistributionsOfPredecessors exactComparator duplicateChoiceModel st
        newBlock oldBlock queue).1.SignaturesSorted exactComparator duplicateChoiceModel) :=
  signatures_sorted_invariant exactComparator duplicateChoiceModel
    Distribution.less_exact_strictWeakOrder
    (by simp [Model.Monotone, duplicateChoiceModel])

/-! ## Partitions -/

section Lookup

variable {β : Type}

theorem lookup_eq_some_iff_mem (l : List (Nat × β)) (h : (l.map Prod.fst).Nodup)
    (x : Nat) (v : β) : l.lookup x = some v ↔ (x, v) ∈ l := by
  induction l with
  | nil => simp
  | cons e l ih =>
    obtain ⟨k, w⟩ := e
    simp only [List.map_cons, List.nodup_cons] at h
    by_cases hk : x = k
    · subst hk
      simp only [List.lookup_cons_self, Option.some.injEq, List.mem_cons, Prod.mk.injEq,
        true_and]
      constructor
      · intro e; exact Or.inl e.symm
      · rintro (e | e)
        · exact e.symm
        · exact absurd (List.mem_map_of_mem Prod.fst e) h.1
    · have hk' : (x == k) = false := by simpa using hk
      rw [List.lookup_cons, hk']
      simp only [List.mem_cons, Prod.mk.injEq, hk, false_and, false_or]
      exact ih h.2

theorem lookup_eq_none_iff_not_mem (l : List (Nat × β)) (x : Nat) :
    l.lookup x = none ↔ x ∉ l.map Prod.fst := by
  induction l with
  | nil => simp
  | cons e l ih =>
    obtain ⟨k, w⟩ := e
    by_cases hk : x = k
    · subst hk; simp
    · have hk' : (x == k) = false := by simpa using hk
      rw [List.lookup_cons, hk']
      simp only [List.map_cons, List.mem_cons, hk, false_or]
      exact ih

end Lookup

namespace Partition

theorem getBlock_eq_of_mem (p : Partition) (h : (p.positions.map Prod.fst).Nodup)
    (s id : Nat) (hm : (s, id) ∈ p.positions) : p.getBlock s = id := by
  unfold getBlock
  rw [(lookup_eq_some_iff_mem p.positions h s id).mpr hm]
  rfl

theorem mem_of_getBlock (p : Partition) (h : (p.positions.map Prod.fst).Nodup)
    (s : Nat) (hs : s ∈ p.positions.map Prod.fst) : (s, p.getBlock s) ∈ p.positions := by
  obtain ⟨e, he, hes⟩ := List.mem_map.mp hs
  have : (s, e.2) ∈ p.positions := by rw [← hes]; exact he
  rw [getBlock_eq_of_mem p h s e.2 this]
  exact this

theorem getBlock_of_not_mem (p : Partition) (s : Nat) (hs : s ∉ p.positions.map Prod.fst) :
    p.getBlock s = 0 := by
  unfold getBlock
  rw [(lookup_eq_none_iff_not_mem p.positions s).mpr hs]
  rfl

theorem mem_statesOf_iff (p : Partition) (hv : p.Valid) (id : Nat)
    (hid : id < p.blocks.length) (s : Nat) :
    s ∈ p.statesOf id ↔ (s, id) ∈ p.positions := by
  unfold statesOf
  rw [hv.slices id hid]
  simp only [List.mem_map, List.mem_filter, decide_eq_true_eq]
  constructor
  · rintro ⟨e, ⟨he, hid⟩, hs⟩
    rw [← hs, ← hid]
    exact he
  · intro h
    exact ⟨(s, id), ⟨h, rfl⟩, rfl⟩

theorem statesOf_nodup (p : Partition) (hv : p.Valid) (id : Nat)
    (hid : id < p.blocks.length) : (p.statesOf id).Nodup := by
  unfold statesOf
  rw [hv.slices id hid]
  exact List.Nodup.sublist (List.Sublist.map _ (List.filter_sublist _)) hv.nodup

theorem getBlock_of_mem_statesOf (p : Partition) (hv : p.Valid) (id : Nat)
    (hid : id < p.blocks.length) (s : Nat) (hs : s ∈ p.statesOf id) : p.getBlock s = id :=
  getBlock_eq_of_mem p hv.nodup s id ((mem_statesOf_iff p hv id hid s).mp hs)

/-! ### Runs -/

theorem runsFrom_ne_nil (less : Nat → Nat → Bool) (a : Nat) (l : List Nat) :
    runsFrom less a l ≠ [] := by
  cases l with
  | nil => simp [runsFrom]
  | cons b rest =>
    simp only [runsFrom]
    split
    · simp
    · split <;> simp

theorem flatten_runsFrom (less : Nat → Nat → Bool) (a : Nat) (l : List Nat) :
    (runsFrom less a l).flatten = a :: l := by
  induction l generalizing a with
  | nil => simp [runsFrom]
  | cons b rest ih =>
    have hb := ih b
    simp only [runsFrom]
    split
    · rename_i h
      exact absurd h (runsFrom_ne_nil less b rest)
    · rename_i r rs h
      rw [h] at hb
      split
      · simp only [List.flatten_cons, List.singleton_append]
        rw [← hb]; simp
      · simp only [List.flatten_cons, List.cons_append]
        rw [← hb]; simp

theorem flatten_runs (less : Nat → Nat → Bool) (l : List Nat) : (runs less l).flatten = l := by
  cases l with
  | nil => rfl
  | cons a l => exact flatten_runsFrom less a l

theorem runs_eq_nil_iff (less : Nat → Nat → Bool) (l : List Nat) :
    runs less l = [] ↔ l = [] := by
  cases l with
  | nil => simp [runs]
  | cons a l => simp [runs, runsFrom_ne_nil]

/-- The runs of a sorted list under a strict weak order: the first run starts with the
first state, the states of a run are pairwise equivalent, and the states of a run are
less than the states of every later run. -/
theorem runsFrom_spec (less : Nat → Nat → Bool) (hswo : StrictWeakOrder less)
    (a : Nat) (l : List Nat) (hs : (a :: l).Chain' (fun x y => less y x = false)) :
    (∃ r rs, runsFrom less a l = r :: rs ∧ a ∈ r) ∧
    (∀ r ∈ runsFrom less a l, ∀ x ∈ r, ∀ y ∈ r, equivOf less x y = true) ∧
    (runsFrom less a l).Pairwise (fun r r' => ∀ x ∈ r, ∀ y ∈ r', less x y = true) := by
  induction l generalizing a with
  | nil =>
    refine ⟨⟨[a], [], rfl, by simp⟩, ?_, ?_⟩
    · intro r hr x hx y hy
      simp [runsFrom] at hr
      subst hr
      simp at hx hy
      subst hx; subst hy
      exact hswo.equiv_refl _
    · simp [runsFrom]
  | cons b rest ih =>
    have hba : less b a = false := (List.chain'_cons.mp hs).1
    obtain ⟨⟨r, rs, hr, hbr⟩, hin, hpw⟩ := ih b (List.chain'_cons.mp hs).2
    simp only [runsFrom, hr]
    rw [hr] at hin hpw
    have hpw' := List.pairwise_cons.mp hpw
    cases hab : less a b with
    | true =>
      simp only [if_true]
      have hlt : ∀ q ∈ r :: rs, ∀ y ∈ q, less a y = true := by
        intro q hq y hy
        rcases List.mem_cons.mp hq with e | e
        · subst e
          exact hswo.less_of_less_equiv hab (hin _ (by simp) b hbr y hy)
        · exact hswo.trans a b y hab (hpw'.1 q e b hbr y hy)
      refine ⟨⟨[a], r :: rs, rfl, by simp⟩, ?_, ?_⟩
      · intro q hq x hx y hy
        rcases List.mem_cons.mp hq with e | e
        · subst e
          simp at hx hy
          subst hx; subst hy
          exact hswo.equiv_refl _
        · exact hin q e x hx y hy
      · refine List.pairwise_cons.mpr ⟨?_, hpw⟩
        intro q hq x hx y hy
        simp at hx
        subst hx
        exact hlt q hq y hy
    | false =>
      simp only [Bool.false_eq_true, if_false]
      have heab : equivOf less a b = true := by simp [equivOf, hab, hba]
      have hea : ∀ y ∈ r, equivOf less a y = true := fun y hy =>
        hswo.incomp_trans a b y heab (hin r (by simp) b hbr y hy)
      refine ⟨⟨a :: r, rs, rfl, by simp⟩, ?_, ?_⟩
      · intro q hq x hx y hy
        rcases List.mem_cons.mp hq with e | e
        · subst e
          rcases List.mem_cons.mp hx with ex | ex
          · rcases List.mem_cons.mp hy with ey | ey
            · rw [ex, ey]; exact hswo.equiv_refl _
            · rw [ex]; exact hea y ey
          · rcases List.mem_cons.mp hy with ey | ey
            · rw [ey]; exact StrictWeakOrder.equiv_symm (hea x ex)
            · exact hin r (by simp) x ex y ey
        · exact hin q (List.mem_cons_of_mem _ e) x hx y hy
      · refine List.pairwise_cons.mpr ⟨?_, hpw'.2⟩
        intro q hq x hx y hy
        rcases List.mem_cons.mp hx with ex | ex
        · rw [ex]
          exact hswo.less_of_equiv_less heab (hpw'.1 q hq b hbr y hy)
        · exact hpw'.1 q hq x ex y hy

end Partition

/-! ### Ranges of a sequence -/

section Regions

variable {α : Type}

theorem take_append_slice_append_drop (L : List α) (bg k : Nat) :
    L = L.take bg ++ (L.drop bg).take k ++ L.drop (bg + ((L.drop bg).take k).length) := by
  rw [List.append_assoc, ← List.drop_drop]
  have h : (L.drop bg).take k ++ (L.drop bg).drop ((L.drop bg).take k).length = L.drop bg := by
    by_cases hk : k ≤ (L.drop bg).length
    · rw [List.length_take, Nat.min_eq_left hk, List.take_append_drop]
    · rw [List.take_of_length_le (by omega), List.drop_length, List.append_nil]
  rw [h, List.take_append_drop]

theorem filter_eq_nil_of_append (A S C : List α) (q : α → Bool)
    (h : (A ++ S ++ C).filter q = S) : A.filter q = [] ∧ C.filter q = [] := by
  have hS : S.filter q = S := by
    apply List.filter_eq_self.mpr
    intro x hx
    have : x ∈ (A ++ S ++ C).filter q := by rw [h]; exact hx
    exact (List.mem_filter.mp this).2
  have hlen := congrArg List.length h
  simp only [List.filter_append, List.length_append, hS] at hlen
  constructor
  · apply List.eq_nil_of_length_eq_zero; omega
  · apply List.eq_nil_of_length_eq_zero; omega

/-- Two ranges of a sequence have a common position unless one of them is empty or ends
before the other begins. -/
theorem ranges_disjoint (L : List α) (bg k bg' k' : Nat) (q : α → Prop)
    (hne : (L.drop bg).take k ≠ [])
    (hS : ∀ x ∈ (L.drop bg).take k, q x)
    (hT : ∀ x ∈ (L.drop bg').take k', ¬ q x) :
    k' = 0 ∨ bg' + k' ≤ bg ∨ bg + ((L.drop bg).take k).length ≤ bg' := by
  by_contra hcon
  simp only [not_or] at hcon
  obtain ⟨h0, h1, h2⟩ := hcon
  have hlen : ((L.drop bg).take k).length = min k (L.length - bg) := by simp
  have hpos : 0 < ((L.drop bg).take k).length := List.length_pos.mpr hne
  have hi : max bg bg' < L.length := by
    rcases Nat.le_total bg bg' with h | h
    · rw [Nat.max_eq_right h]; omega
    · rw [Nat.max_eq_left h]; omega
  have hmemS : L[max bg bg'] ∈ (L.drop bg).take k := by
    apply List.mem_iff_getElem.mpr
    refine ⟨max bg bg' - bg, ?_, ?_⟩
    · rcases Nat.le_total bg bg' with h | h
      · rw [Nat.max_eq_right h]; omega
      · rw [Nat.max_eq_left h]; omega
    · rw [List.getElem_take, List.getElem_drop]
      congr 1
      omega
  have hmemT : L[max bg bg'] ∈ (L.drop bg').take k' := by
    apply List.mem_iff_getElem.mpr
    refine ⟨max bg bg' - bg', ?_, ?_⟩
    · simp only [List.length_take, List.length_drop]
      rcases Nat.le_total bg bg' with h | h
      · rw [Nat.max_eq_right h]; omega
      · rw [Nat.max_eq_left h]; omega
    · rw [List.getElem_take, List.getElem_drop]
      congr 1
      omega
  exact hT _ hmemT (hS _ hmemS)

theorem slice_of_append (A B C : List α) (bg k : Nat) (hbg : bg = A.length)
    (hk : k = B.length) : ((A ++ B ++ C).drop bg).take k = B := by
  subst hbg; subst hk
  rw [List.append_assoc, List.drop_left, List.take_left]

end Regions

namespace Partition

/-! ### The carved ranges -/

theorem map_fst_carvePositions (next : Nat) (rs : List (List Nat)) :
    (carvePositions next rs).map Prod.fst = rs.flatten := by
  induction rs generalizing next with
  | nil => rfl
  | cons r rs ih =>
    simp only [carvePositions, List.map_append, List.map_map, List.flatten_cons, ih]
    congr 1
    simp [Function.comp_def]

theorem length_carvePositions (next : Nat) (rs : List (List Nat)) :
    (carvePositions next rs).length = rs.flatten.length := by
  rw [← map_fst_carvePositions next rs, List.length_map]

theorem mem_carvePositions (next : Nat) (rs : List (List Nat)) (e : Nat × Nat) :
    e ∈ carvePositions next rs ↔
      ∃ i, ∃ h : i < rs.length, e.1 ∈ rs[i] ∧ e.2 = next + i := by
  induction rs generalizing next with
  | nil => simp [carvePositions]
  | cons r rs ih =>
    simp only [carvePositions, List.mem_append, List.mem_map, ih]
    constructor
    · rintro (⟨s, hs, he⟩ | ⟨i, hi, h1, h2⟩)
      · exact ⟨0, by simp, by simp [← he, hs], by simp [← he]⟩
      · exact ⟨i + 1, by simp; omega, by simpa using h1, by omega⟩
    · rintro ⟨i, hi, h1, h2⟩
      cases i with
      | zero =>
        left
        exact ⟨e.1, by simpa using h1, by
          apply Prod.ext
          · rfl
          · simp at h2; exact h2.symm⟩
      | succ i =>
        right
        exact ⟨i, by simp at hi; omega, by simpa using h1, by omega⟩

theorem length_carveBlocks (start : Nat) (rs : List (List Nat)) :
    (carveBlocks start rs).length = rs.length := by
  induction rs generalizing start with
  | nil => rfl
  | cons r rs ih => simp [carveBlocks, ih]

theorem carveBlocks_flags (start : Nat) (rs : List (List Nat)) :
    ∀ b ∈ carveBlocks start rs, b.absorbing = false ∧ b.splitter = false := by
  induction rs generalizing start with
  | nil => simp [carveBlocks]
  | cons r rs ih =>
    intro b hb
    simp only [carveBlocks, List.mem_cons] at hb
    rcases hb with e | e
    · subst e; exact ⟨rfl, rfl⟩
    · exact ih _ b e

theorem filter_carvePositions (next : Nat) (rs : List (List Nat)) (i : Nat)
    (hi : i < rs.length) :
    (carvePositions next rs).filter (fun e => e.2 = next + i)
      = (rs[i]).map (fun s => (s, next + i)) := by
  induction rs generalizing next i with
  | nil => simp at hi
  | cons r rs ih =>
    simp only [carvePositions, List.filter_append]
    cases i with
    | zero =>
      have h1 : (r.map (fun s => (s, next))).filter (fun e => decide (e.2 = next + 0))
          = r.map (fun s => (s, next)) := by
        apply List.filter_eq_self.mpr
        intro e he
        obtain ⟨s, _, hs⟩ := List.mem_map.mp he
        simp [← hs]
      have h2 : (carvePositions (next + 1) rs).filter (fun e => decide (e.2 = next + 0))
          = [] := by
        apply List.filter_eq_nil_iff.mpr
        intro e he
        obtain ⟨j, _, _, hj⟩ := (mem_carvePositions (next + 1) rs e).mp he
        simp only [decide_eq_true_eq]
        omega
      rw [h1, h2]
      simp
    | succ i =>
      have h1 : (r.map (fun s => (s, next))).filter (fun e => decide (e.2 = next + (i + 1)))
          = [] := by
        apply List.filter_eq_nil_iff.mpr
        intro e he
        obtain ⟨s, _, hs⟩ := List.mem_map.mp he
        simp only [decide_eq_true_eq, ← hs]
        omega
      have h2 := ih (next + 1) i (by simp at hi; omega)
      have h3 : next + 1 + i = next + (i + 1) := by omega
      rw [h3] at h2
      rw [h1, h2]
      simp

/-- The range of a carved block holds the states of its run. -/
theorem slice_carved (rs : List (List Nat)) :
    ∀ (A C : List (Nat × Nat)) (table : List Block) (next start : Nat),
      A.length = start → table.length = next →
      ∀ i (hi : i < rs.length),
        ((A ++ carvePositions next rs ++ C).drop
            ((table ++ carveBlocks start rs).getD (next + i) default).beginIndex).take
          (((table ++ carveBlocks start rs).getD (next + i) default).endIndex
            - ((table ++ carveBlocks start rs).getD (next + i) default).beginIndex)
        = (rs[i]).map (fun s => (s, next + i)) := by
  induction rs with
  | nil => intro A C table next start _ _ i hi; simp at hi
  | cons r rs ih =>
    intro A C table next start hA ht i hi
    cases i with
    | zero =>
      have hb : (table ++ carveBlocks start (r :: rs)).getD (next + 0) default
          = { beginIndex := start, endIndex := start + r.length, absorbing := false,
              splitter := false } := by
        rw [List.getD_eq_getElem?_getD, List.getElem?_append_right (by omega)]
        simp [carveBlocks, ht]
      rw [hb]
      simp only [carvePositions, List.getElem_cons_zero, Nat.add_zero]
      rw [← List.append_assoc A, List.append_assoc (A ++ _)]
      exact slice_of_append A _ _ start _ hA.symm (by simp)
    | succ i =>
      have h := ih (A ++ r.map (fun s => (s, next))) C
        (table ++ [(⟨start, start + r.length, false, false⟩ : Block)])
        (next + 1) (start + r.length) (by simp [hA]) (by simp [ht]) i
        (by simp at hi; omega)
      have e1 : A ++ r.map (fun s => (s, next)) ++ carvePositions (next + 1) rs ++ C
          = A ++ carvePositions next (r :: rs) ++ C := by
        simp [carvePositions, List.append_assoc]
      have e2 : table ++ [(⟨start, start + r.length, false, false⟩ : Block)]
            ++ carveBlocks (start + r.length) rs
          = table ++ carveBlocks start (r :: rs) := by
        simp [carveBlocks, List.append_assoc]
      have e3 : next + 1 + i = next + (i + 1) := by omega
      rw [e1, e2, e3] at h
      simpa using h

end Partition

namespace Partition

/-! ### The result of `splitBlock` -/

theorem splitBlock_of_runs_nil (p : Partition) (id : Nat) (less : Nat → Nat → Bool)
    (h : runs less ((p.statesOf id).insertionSort (fun s t => less t s = false)) = []) :
    p.splitBlock id less = (p, [], false) := by
  unfold splitBlock
  simp only [h]

theorem splitBlock_of_runs_cons (p : Partition) (id : Nat) (less : Nat → Nat → Bool)
    (first : List Nat) (others : List (List Nat))
    (h : runs less ((p.statesOf id).insertionSort (fun s t => less t s = false))
      = first :: others) :
    p.splitBlock id less =
      ({ positions :=
            p.positions.take (p.block id).beginIndex
              ++ (first.map (fun s => (s, id)) ++ carvePositions p.blocks.length others)
              ++ p.positions.drop ((p.block id).beginIndex
                  + ((p.statesOf id).insertionSort (fun s t => less t s = false)).length),
          blocks :=
            p.blocks.set id
                { p.block id with endIndex := (p.block id).beginIndex + first.length }
              ++ carveBlocks ((p.block id).beginIndex + first.length) others },
        List.range' p.blocks.length others.length, decide (others ≠ [])) := by
  unfold splitBlock
  simp only [h]

theorem block_eq_default_of_ge (p : Partition) (id : Nat) (h : p.blocks.length ≤ id) :
    p.block id = default := by
  unfold block
  exact List.getD_eq_default _ _ h

theorem slice_eq_nil_of_ge (p : Partition) (id : Nat) (h : p.blocks.length ≤ id) :
    p.slice id = [] := by
  unfold slice
  rw [block_eq_default_of_ge p id h]
  simp [default, instInhabitedBlock]

theorem splitSpec_of_unchanged (p : Partition) (hv : p.Valid) (id : Nat)
    (less : Nat → Nat → Bool) (hnil : p.statesOf id = []) :
    p.SplitSpec id less (p, [], false) where
  valid := hv
  states := List.Perm.refl _
  news := by simp
  grow := Nat.le_refl _
  flag := by simp
  inTable := by intro h; simp at h
  frame := fun e he _ => he
  members := by
    intro e he
    by_cases h : e.2 = id
    · right
      refine ⟨?_, Or.inl h⟩
      rw [← h]
      exact he
    · exact Or.inl ⟨he, h⟩
  classes := by
    intro _ e1 _ e2 _ h1 _
    have hid : id < p.blocks.length := hv.bound _ h1
    have := (mem_statesOf_iff p hv id hid e1.1).mpr h1
    rw [hnil] at this
    simp at this
  oldData := fun j _ => ⟨rfl, rfl⟩
  newData := by intro j hj; simp at hj

end Partition

section ReplaceRange

variable {α : Type}

theorem mem_replace_range (A S C X : List α) (q : α → Bool)
    (hA : A.filter q = []) (hC : C.filter q = []) (hS : ∀ x ∈ S, q x = true) (e : α) :
    e ∈ A ++ X ++ C ↔ (e ∈ A ++ S ++ C ∧ q e = false) ∨ e ∈ X := by
  have hA' : ∀ x ∈ A, q x = false := fun x hx => by
    have := List.filter_eq_nil_iff.mp hA x hx
    simpa using this
  have hC' : ∀ x ∈ C, q x = false := fun x hx => by
    have := List.filter_eq_nil_iff.mp hC x hx
    simpa using this
  simp only [List.mem_append]
  constructor
  · rintro ((h | h) | h)
    · exact Or.inl ⟨Or.inl (Or.inl h), hA' e h⟩
    · exact Or.inr h
    · exact Or.inl ⟨Or.inr h, hC' e h⟩
  · rintro (⟨(h | h) | h, hq⟩ | h)
    · exact Or.inl (Or.inl h)
    · rw [hS e h] at hq; cases hq
    · exact Or.inr h
    · exact Or.inl (Or.inr h)

end ReplaceRange

namespace Partition

theorem block_append_set_of_ne (blocks extra : List Block) (id j : Nat) (b : Block)
    (hj : j < blocks.length) (hne : j ≠ id) :
    (blocks.set id b ++ extra).getD j default = blocks.getD j default := by
  have hne' : ¬ id = j := fun h => hne h.symm
  rw [List.getD_eq_getElem?_getD, List.getD_eq_getElem?_getD,
    List.getElem?_append_left (by simpa using hj), List.getElem?_set]
  simp [hne']

theorem block_append_set_self (blocks extra : List Block) (id : Nat) (b : Block)
    (hid : id < blocks.length) :
    (blocks.set id b ++ extra).getD id default = b := by
  rw [List.getD_eq_getElem?_getD, List.getElem?_append_left (by simpa using hid),
    List.getElem?_set]
  simp [hid]

theorem splitSpec_of_runs_cons (p : Partition) (hv : p.Valid) (id : Nat)
    (less : Nat → Nat → Bool) (first : List Nat) (others : List (List Nat))
    (h : runs less ((p.statesOf id).insertionSort (fun s t => less t s = false))
      = first :: others) :
    p.SplitSpec id less (p.splitBlock id less) := by
  rw [splitBlock_of_runs_cons p id less first others h]
  have hsortedne : (p.statesOf id).insertionSort (fun s t => less t s = false) ≠ [] := by
    intro hnil
    rw [hnil] at h
    simp [runs] at h
  have hid : id < p.blocks.length := by
    by_contra hge
    apply hsortedne
    simp [statesOf, slice_eq_nil_of_ge p id (Nat.le_of_not_lt hge)]
  have hS : p.slice id = p.positions.filter (fun e => e.2 = id) := hv.slices id hid
  have hlen : ((p.statesOf id).insertionSort (fun s t => less t s = false)).length
      = (p.slice id).length := by
    rw [insertionSort_length, statesOf, List.length_map]
  have hflat : first ++ others.flatten
      = (p.statesOf id).insertionSort (fun s t => less t s = false) := by
    have := flatten_runs less ((p.statesOf id).insertionSort (fun s t => less t s = false))
    rw [h] at this
    simpa using this
  have hXfst : (first.map (fun s => (s, id)) ++ carvePositions p.blocks.length others).map
      Prod.fst = (p.statesOf id).insertionSort (fun s t => less t s = false) := by
    rw [List.map_append, map_fst_carvePositions, ← hflat]
    congr 1
    simp [Function.comp_def]
  have hXlen : (first.map (fun s => (s, id)) ++ carvePositions p.blocks.length others).length
      = (p.slice id).length := by
    rw [← hlen, ← hXfst, List.length_map]
  have hSne : p.slice id ≠ [] := by
    intro hnil
    rw [hnil] at hlen
    exact hsortedne (List.eq_nil_of_length_eq_zero (by simpa using hlen))
  have hbg : (p.block id).beginIndex < p.positions.length := by
    by_contra hge
    apply hSne
    unfold slice
    rw [List.drop_of_length_le (by omega)]
    simp
  have hAlen : (p.positions.take (p.block id).beginIndex).length = (p.block id).beginIndex := by
    simp; omega
  have hL : p.positions = p.positions.take (p.block id).beginIndex ++ p.slice id
      ++ p.positions.drop ((p.block id).beginIndex + (p.slice id).length) :=
    take_append_slice_append_drop p.positions _ _
  have hAC := filter_eq_nil_of_append (p.positions.take (p.block id).beginIndex) (p.slice id)
    (p.positions.drop ((p.block id).beginIndex + (p.slice id).length))
    (fun e => decide (e.2 = id)) (by rw [← hL]; exact hS.symm)
  have hSid : ∀ x ∈ p.slice id, decide (x.2 = id) = true := by
    intro x hx
    rw [hS] at hx
    exact (List.mem_filter.mp hx).2
  rw [hlen]
  -- membership in the new sequence
  have hmem : ∀ e, e ∈ p.positions.take (p.block id).beginIndex
        ++ (first.map (fun s => (s, id)) ++ carvePositions p.blocks.length others)
        ++ p.positions.drop ((p.block id).beginIndex + (p.slice id).length) ↔
      (e ∈ p.positions ∧ decide (e.2 = id) = false) ∨
        e ∈ first.map (fun s => (s, id)) ++ carvePositions p.blocks.length others := by
    intro e
    rw [mem_replace_range _ (p.slice id) _ _ (fun e => decide (e.2 = id)) hAC.1 hAC.2 hSid e,
      ← hL]
  have hXid : ∀ e ∈ first.map (fun s => (s, id)) ++ carvePositions p.blocks.length others,
      (e.1, id) ∈ p.positions ∧
        (e.2 = id ∨ e.2 ∈ List.range' p.blocks.length others.length) := by
    intro e he
    have h1 : e.1 ∈ p.statesOf id := by
      have : e.1 ∈ (first.map (fun s => (s, id))
          ++ carvePositions p.blocks.length others).map Prod.fst :=
        List.mem_map_of_mem Prod.fst he
      rw [hXfst] at this
      exact (List.perm_insertionSort _ _).mem_iff.mp this
    refine ⟨(mem_statesOf_iff p hv id hid e.1).mp h1, ?_⟩
    rcases List.mem_append.mp he with h2 | h2
    · obtain ⟨s, _, hs⟩ := List.mem_map.mp h2
      left; rw [← hs]
    · obtain ⟨i, hi, _, hj⟩ := (mem_carvePositions _ _ e).mp h2
      right
      rw [List.mem_range', hj]
      exact ⟨i, hi, by omega⟩
  have hXbound : ∀ e ∈ first.map (fun s => (s, id)) ++ carvePositions p.blocks.length others,
      e.2 < p.blocks.length + others.length := by
    intro e he
    rcases (hXid e he).2 with h1 | h1
    · omega
    · rw [List.mem_range'] at h1
      obtain ⟨i, hi, he⟩ := h1
      omega
  have hblen : (p.blocks.set id
        { p.block id with endIndex := (p.block id).beginIndex + first.length }
      ++ carveBlocks ((p.block id).beginIndex + first.length) others).length
      = p.blocks.length + others.length := by
    simp [length_carveBlocks]
  refine
    { valid := ?_, states := ?_, news := ?_, grow := ?_, flag := ?_, inTable := fun _ => hid,
      frame := ?_, members := ?_, classes := ?_, oldData := ?_, newData := ?_ }
  · -- validity
    refine { nodup := ?_, bound := ?_, slices := ?_ }
    · show ((p.positions.take (p.block id).beginIndex
        ++ (first.map (fun s => (s, id)) ++ carvePositions p.blocks.length others)
        ++ p.positions.drop ((p.block id).beginIndex + (p.slice id).length)).map
          Prod.fst).Nodup
      have hperm : ((p.positions.take (p.block id).beginIndex
          ++ (first.map (fun s => (s, id)) ++ carvePositions p.blocks.length others)
          ++ p.positions.drop ((p.block id).beginIndex + (p.slice id).length)).map
            Prod.fst).Perm (p.positions.map Prod.fst) := by
        conv_rhs => rw [hL]
        simp only [List.map_append]
        apply List.Perm.append_right
        apply List.Perm.append_left
        rw [← List.map_append, hXfst]
        exact List.perm_insertionSort _ _
      exact hperm.nodup_iff.mpr hv.nodup
    · intro e he
      show e.2 < (p.blocks.set id _ ++ carveBlocks _ others).length
      rw [hblen]
      rcases (hmem e).mp he with ⟨h1, _⟩ | h1
      · have := hv.bound e h1; omega
      · exact hXbound e h1
    · intro j hj
      change j < (p.blocks.set id _ ++ carveBlocks _ others).length at hj
      rw [hblen] at hj
      show ((p.positions.take (p.block id).beginIndex
          ++ (first.map (fun s => (s, id)) ++ carvePositions p.blocks.length others)
          ++ p.positions.drop ((p.block id).beginIndex + (p.slice id).length)).drop
            ((p.blocks.set id
                { p.block id with endIndex := (p.block id).beginIndex + first.length }
              ++ carveBlocks ((p.block id).beginIndex + first.length) others).getD j
                default).beginIndex).take
          (((p.blocks.set id
                { p.block id with endIndex := (p.block id).beginIndex + first.length }
              ++ carveBlocks ((p.block id).beginIndex + first.length) others).getD j
                default).endIndex
            - ((p.blocks.set id
                { p.block id with endIndex := (p.block id).beginIndex + first.length }
              ++ carveBlocks ((p.block id).beginIndex + first.length) others).getD j
                default).beginIndex)
        = (p.positions.take (p.block id).beginIndex
          ++ (first.map (fun s => (s, id)) ++ carvePositions p.blocks.length others)
          ++ p.positions.drop ((p.block id).beginIndex + (p.slice id).length)).filter
            (fun e => decide (e.2 = j))
      have hAj : ∀ (j : Nat), p.blocks.length ≤ j →
          (p.positions.take (p.block id).beginIndex).filter (fun e => decide (e.2 = j)) = []
            ∧ (p.positions.drop ((p.block id).beginIndex + (p.slice id).length)).filter
              (fun e => decide (e.2 = j)) = [] := by
        intro j hj
        constructor
        · apply List.filter_eq_nil_iff.mpr
          intro e he
          have := hv.bound e (List.mem_of_mem_take he)
          simp only [decide_eq_true_eq]; omega
        · apply List.filter_eq_nil_iff.mpr
          intro e he
          have := hv.bound e (List.mem_of_mem_drop he)
          simp only [decide_eq_true_eq]; omega
      by_cases hjid : j = id
      · -- the block that keeps the id
        subst hjid
        rw [block_append_set_self _ _ _ _ hid]
        simp only [Nat.add_sub_cancel_left]
        have hfC : (carvePositions p.blocks.length others).filter
            (fun e => decide (e.2 = j)) = [] := by
          apply List.filter_eq_nil_iff.mpr
          intro e he
          obtain ⟨i, _, _, hi⟩ := (mem_carvePositions _ _ e).mp he
          simp only [decide_eq_true_eq]; omega
        have hfF : (first.map (fun s => (s, j))).filter (fun e => decide (e.2 = j))
            = first.map (fun s => (s, j)) := by
          apply List.filter_eq_self.mpr
          intro e he
          obtain ⟨s, _, hs⟩ := List.mem_map.mp he
          simp [← hs]
        rw [List.filter_append, List.filter_append, List.filter_append, hAC.1, hAC.2, hfC,
          hfF]
        simp only [List.nil_append, List.append_nil]
        rw [← List.append_assoc, List.append_assoc]
        exact slice_of_append _ _ _ _ _ hAlen.symm (by simp)
      · by_cases hjold : j < p.blocks.length
        · -- another old block
          rw [block_append_set_of_ne _ _ _ _ _ hjold hjid]
          have hsl := hv.slices j hjold
          unfold slice block at hsl
          have hfX : (first.map (fun s => (s, id))
              ++ carvePositions p.blocks.length others).filter
                (fun e => decide (e.2 = j)) = [] := by
            apply List.filter_eq_nil_iff.mpr
            intro e he
            simp only [decide_eq_true_eq]
            rcases (hXid e he).2 with h1 | h1
            · omega
            · rw [List.mem_range'] at h1
              obtain ⟨i, _, hi⟩ := h1
              omega
          have hfS : (p.slice id).filter (fun e => decide (e.2 = j)) = [] := by
            apply List.filter_eq_nil_iff.mpr
            intro e he
            have := hSid e he
            simp only [decide_eq_true_eq] at this ⊢
            omega
          have hfilter : (p.positions.take (p.block id).beginIndex
              ++ (first.map (fun s => (s, id)) ++ carvePositions p.blocks.length others)
              ++ p.positions.drop ((p.block id).beginIndex + (p.slice id).length)).filter
                (fun e => decide (e.2 = j))
              = p.positions.filter (fun e => decide (e.2 = j)) := by
            have hfX2 := hfX
            rw [List.filter_append, List.append_eq_nil] at hfX2
            conv_rhs => rw [hL]
            simp only [List.filter_append, hfX2.1, hfX2.2, hfS, List.append_nil,
              List.nil_append]
          rw [hfilter, ← hsl]
          have hdis := ranges_disjoint p.positions (p.block id).beginIndex
            ((p.block id).endIndex - (p.block id).beginIndex)
            (p.blocks.getD j default).beginIndex
            ((p.blocks.getD j default).endIndex - (p.blocks.getD j default).beginIndex)
            (fun e => e.2 = id) hSne
            (fun x hx => by simpa using hSid x hx)
            (fun x hx => by
              rw [hsl] at hx
              have := (List.mem_filter.mp hx).2
              simp only [decide_eq_true_eq] at this
              omega)
          rw [← hXlen]
          rcases hdis with h0 | hbefore | hafter
          · rw [h0]; simp
          · exact slice_replace_before _ _ _
              ((p.block id).endIndex - (p.block id).beginIndex) _ _ hXlen hbefore
          · refine slice_replace_after _ _ _
              ((p.block id).endIndex - (p.block id).beginIndex) _ _ hXlen ?_
            rw [hXlen]
            exact hafter
        · -- a new block
          obtain ⟨i, hi⟩ : ∃ i, j = p.blocks.length + i := ⟨j - p.blocks.length, by omega⟩
          subst hi
          have hil : i < others.length := by omega
          have hfA := hAj (p.blocks.length + i) (by omega)
          have hfF : (first.map (fun s => (s, id))).filter
              (fun e => decide (e.2 = p.blocks.length + i)) = [] := by
            apply List.filter_eq_nil_iff.mpr
            intro e he
            obtain ⟨s, _, hs⟩ := List.mem_map.mp he
            simp only [decide_eq_true_eq, ← hs]
            omega
          rw [List.filter_append, List.filter_append, List.filter_append, hfA.1, hfA.2, hfF,
            filter_carvePositions _ _ i hil]
          simp only [List.nil_append, List.append_nil]
          have hsc := slice_carved others
            (p.positions.take (p.block id).beginIndex ++ first.map (fun s => (s, id)))
            (p.positions.drop ((p.block id).beginIndex + (p.slice id).length))
            (p.blocks.set id
              { p.block id with endIndex := (p.block id).beginIndex + first.length })
            p.blocks.length ((p.block id).beginIndex + first.length)
            (by simp [hAlen]) (by simp) i hil
          rw [← hsc]
          simp only [List.append_assoc]
  · -- the states
    show ((p.positions.take (p.block id).beginIndex
        ++ (first.map (fun s => (s, id)) ++ carvePositions p.blocks.length others)
        ++ p.positions.drop ((p.block id).beginIndex + (p.slice id).length)).map
          Prod.fst).Perm (p.positions.map Prod.fst)
    conv_rhs => rw [hL]
    simp only [List.map_append]
    apply List.Perm.append_right
    apply List.Perm.append_left
    rw [← List.map_append, hXfst]
    exact List.perm_insertionSort _ _
  · show List.range' p.blocks.length others.length
      = List.range' p.blocks.length
          ((p.blocks.set id _ ++ carveBlocks _ others).length - p.blocks.length)
    rw [hblen]
    simp
  · show p.blocks.length ≤ (p.blocks.set id _ ++ carveBlocks _ others).length
    rw [hblen]; omega
  · show decide (others ≠ []) = decide (List.range' p.blocks.length others.length ≠ [])
    cases others <;> simp [List.range'_succ]
  · intro e he hne
    exact (hmem e).mpr (Or.inl ⟨he, by simpa using hne⟩)
  · intro e he
    rcases (hmem e).mp he with ⟨h1, h2⟩ | h1
    · exact Or.inl ⟨h1, by simpa using h2⟩
    · exact Or.inr (hXid e h1)
  · -- the classes
    intro hswo e1 he1 e2 he2 h1 h2
    haveI : IsTotal Nat (fun s t => less t s = false) :=
      ⟨fun a b => by
        cases hba : less b a with
        | false => exact Or.inl rfl
        | true => exact Or.inr (hswo.asymm hba)⟩
    haveI : IsTrans Nat (fun s t => less t s = false) :=
      ⟨fun a b c hab hbc => hswo.notLess_trans hab hbc⟩
    have hchain : ((p.statesOf id).insertionSort (fun s t => less t s = false)).Chain'
        (fun x y => less y x = false) :=
      List.Pairwise.chain' (List.sorted_insertionSort (fun s t => less t s = false) _)
    -- the runs of the sorted range
    have hspec : (∀ r ∈ first :: others, ∀ x ∈ r, ∀ y ∈ r, equivOf less x y = true) ∧
        (first :: others).Pairwise (fun r r' => ∀ x ∈ r, ∀ y ∈ r', less x y = true) := by
      cases hso : (p.statesOf id).insertionSort (fun s t => less t s = false) with
      | nil => exact absurd hso hsortedne
      | cons a l =>
        rw [hso] at h hchain
        have := runsFrom_spec less hswo a l hchain
        rw [show runsFrom less a l = first :: others from h] at this
        exact ⟨this.2.1, this.2.2⟩
    have hidx : ∀ e, e ∈ p.positions.take (p.block id).beginIndex
          ++ (first.map (fun s => (s, id)) ++ carvePositions p.blocks.length others)
          ++ p.positions.drop ((p.block id).beginIndex + (p.slice id).length) →
        (e.1, id) ∈ p.positions →
        ∃ i, ∃ hi : i < (first :: others).length, e.1 ∈ (first :: others)[i] ∧
          (e.2 = if i = 0 then id else p.blocks.length + (i - 1)) := by
      intro e he hin
      rcases (hmem e).mp he with ⟨h3, h4⟩ | h3
      · exfalso
        have hb1 := getBlock_eq_of_mem p hv.nodup e.1 e.2 h3
        have hb2 := getBlock_eq_of_mem p hv.nodup e.1 id hin
        simp only [decide_eq_false_iff_not] at h4
        omega
      · rcases List.mem_append.mp h3 with h5 | h5
        · obtain ⟨s, hs, hse⟩ := List.mem_map.mp h5
          refine ⟨0, by simp, ?_, ?_⟩
          · simp [← hse, hs]
          · simp [← hse]
        · obtain ⟨i, hi, hmemi, hj⟩ := (mem_carvePositions _ _ e).mp h5
          refine ⟨i + 1, by simp; omega, ?_, ?_⟩
          · simpa using hmemi
          · simp [hj]
    obtain ⟨i1, hi1, hm1, hj1⟩ := hidx e1 he1 h1
    obtain ⟨i2, hi2, hm2, hj2⟩ := hidx e2 he2 h2
    have hpw := List.pairwise_iff_getElem.mp hspec.2
    constructor
    · intro heq
      have hii : i1 = i2 := by
        rw [hj1, hj2] at heq
        by_cases h10 : i1 = 0
        · by_cases h20 : i2 = 0
          · omega
          · simp [h10, h20] at heq; omega
        · by_cases h20 : i2 = 0
          · simp [h10, h20] at heq; omega
          · simp [h10, h20] at heq; omega
      subst hii
      exact hspec.1 _ (List.getElem_mem _) _ hm1 _ hm2
    · intro hequiv
      rw [equivOf_iff] at hequiv
      rcases Nat.lt_trichotomy i1 i2 with hlt | heq | hgt
      · have := hpw i1 i2 hi1 hi2 hlt _ hm1 _ hm2
        rw [hequiv.1] at this; cases this
      · subst heq; rw [hj1, hj2]
      · have := hpw i2 i1 hi2 hi1 hgt _ hm2 _ hm1
        rw [hequiv.2] at this; cases this
  · intro j hj
    show ((p.blocks.set id _ ++ carveBlocks _ others).getD j default).absorbing
        = (p.blocks.getD j default).absorbing ∧
      ((p.blocks.set id _ ++ carveBlocks _ others).getD j default).splitter
        = (p.blocks.getD j default).splitter
    by_cases hjid : j = id
    · subst hjid
      rw [block_append_set_self _ _ _ _ hid]
      exact ⟨rfl, rfl⟩
    · rw [block_append_set_of_ne _ _ _ _ _ hj hjid]
      exact ⟨rfl, rfl⟩
  · intro j hj
    change j ∈ List.range' p.blocks.length others.length at hj
    rw [List.mem_range'] at hj
    obtain ⟨i, hi, hj⟩ := hj
    show ((p.blocks.set id _ ++ carveBlocks _ others).getD j default).absorbing = false ∧
      ((p.blocks.set id _ ++ carveBlocks _ others).getD j default).splitter = false
    have hget : (p.blocks.set id
          { p.block id with endIndex := (p.block id).beginIndex + first.length }
        ++ carveBlocks ((p.block id).beginIndex + first.length) others).getD j default
        ∈ carveBlocks ((p.block id).beginIndex + first.length) others := by
      rw [List.getD_eq_getElem?_getD, List.getElem?_append_right (by simp; omega)]
      have hlt : j - (p.blocks.set id
          { p.block id with endIndex := (p.block id).beginIndex + first.length }).length
          < (carveBlocks ((p.block id).beginIndex + first.length) others).length := by
        rw [length_carveBlocks]; simp; omega
      rw [List.getElem?_eq_getElem hlt]
      exact List.getElem_mem _
    exact carveBlocks_flags _ _ _ hget

/-- The contract of `splitBlock` on a valid partition. -/
theorem splitBlock_spec (p : Partition) (hv : p.Valid) (id : Nat) (less : Nat → Nat → Bool) :
    p.SplitSpec id less (p.splitBlock id less) := by
  cases h : runs less ((p.statesOf id).insertionSort (fun s t => less t s = false)) with
  | nil =>
    rw [splitBlock_of_runs_nil p id less h]
    apply splitSpec_of_unchanged p hv id less
    have h1 := (runs_eq_nil_iff less _).mp h
    have h2 := insertionSort_length (fun s t => less t s = false) (p.statesOf id)
    rw [h1] at h2
    exact List.eq_nil_of_length_eq_zero h2.symm
  | cons first others => exact splitSpec_of_runs_cons p hv id less first others h

end Partition

/-! ## Keys of distributions -/

namespace Distribution

theorem mem_keys_addProbability (d : Distribution) (b : Nat) (v : ℚ) (k : Nat) :
    k ∈ (addProbability d b v).keys ↔ k ∈ d.keys ∨ k = b := by
  induction d with
  | nil => simp [addProbability, keys]
  | cons e d ih =>
    obtain ⟨j, w⟩ := e
    simp only [addProbability]
    by_cases hj : j = b
    · subst hj
      simp only [if_true, keys, List.map_cons, List.mem_cons]
      tauto
    · simp only [if_neg hj]
      simp only [keys, List.map_cons, List.mem_cons] at ih ⊢
      rw [ih]
      tauto

theorem nodup_keys_addProbability (d : Distribution) (b : Nat) (v : ℚ) (h : d.keys.Nodup) :
    (addProbability d b v).keys.Nodup := by
  induction d with
  | nil => simp [addProbability, keys]
  | cons e d ih =>
    obtain ⟨j, w⟩ := e
    simp only [keys, List.map_cons, List.nodup_cons] at h
    simp only [addProbability]
    by_cases hj : j = b
    · simp only [if_pos hj, keys, List.map_cons, List.nodup_cons]
      exact h
    · simp only [if_neg hj]
      show (j :: (addProbability d b v).keys).Nodup
      rw [List.nodup_cons]
      refine ⟨?_, ih h.2⟩
      rw [mem_keys_addProbability]
      rintro (h1 | h1)
      · exact h.1 h1
      · exact hj h1

theorem mem_keys_removeProbability (d : Distribution) (b : Nat) (v : ℚ) (k : Nat)
    (h : k ∈ (removeProbability d b v).keys) : k ∈ d.keys ∨ k = b := by
  induction d with
  | nil =>
    simp only [removeProbability] at h
    split at h
    · simp [keys] at h
    · simp [keys] at h
      exact Or.inr h
  | cons e d ih =>
    obtain ⟨j, w⟩ := e
    simp only [removeProbability] at h
    by_cases hj : j = b
    · simp only [if_pos hj] at h
      split at h
      · left
        simp only [keys, List.map_cons, List.mem_cons]
        exact Or.inr h
      · left
        simpa [keys] using h
    · simp only [if_neg hj] at h
      simp only [keys, List.map_cons, List.mem_cons] at h ih ⊢
      rcases h with h | h
      · exact Or.inl (Or.inl h)
      · rcases ih h with h1 | h1
        · exact Or.inl (Or.inr h1)
        · exact Or.inr h1

theorem mem_keys_removeProbability_of_ne (d : Distribution) (b : Nat) (v : ℚ) (k : Nat)
    (hk : k ≠ b) (h : k ∈ d.keys) : k ∈ (removeProbability d b v).keys := by
  induction d with
  | nil => simp [keys] at h
  | cons e d ih =>
    obtain ⟨j, w⟩ := e
    simp only [keys, List.map_cons, List.mem_cons] at h
    simp only [removeProbability]
    by_cases hj : j = b
    · simp only [if_pos hj]
      rcases h with h | h
      · omega
      · split
        · exact h
        · simp only [keys, List.map_cons, List.mem_cons]
          exact Or.inr h
    · simp only [if_neg hj, keys, List.map_cons, List.mem_cons]
      rcases h with h | h
      · exact Or.inl h
      · exact Or.inr (ih h)

theorem nodup_keys_removeProbability (d : Distribution) (b : Nat) (v : ℚ)
    (h : d.keys.Nodup) : (removeProbability d b v).keys.Nodup := by
  induction d with
  | nil =>
    simp only [removeProbability]
    split <;> simp [keys]
  | cons e d ih =>
    obtain ⟨j, w⟩ := e
    simp only [keys, List.map_cons, List.nodup_cons] at h
    simp only [removeProbability]
    by_cases hj : j = b
    · simp only [if_pos hj]
      split
      · exact h.2
      · simp only [keys, List.map_cons, List.nodup_cons]
        exact h
    · simp only [if_neg hj]
      show (j :: (removeProbability d b v).keys).Nodup
      rw [List.nodup_cons]
      refine ⟨?_, ih h.2⟩
      intro hmem
      rcases mem_keys_removeProbability d b v j hmem with h1 | h1
      · exact h.1 h1
      · exact hj h1

/-- After the subtraction the key of the source block is present only with a mass that
is not zero. -/
theorem mass_removeProbability_ne_zero (d : Distribution) (b : Nat) (v : ℚ)
    (h : d.keys.Nodup) (hb : b ∈ (removeProbability d b v).keys) :
    mass (removeProbability d b v) b ≠ 0 := by
  induction d with
  | nil =>
    simp only [removeProbability] at hb ⊢
    by_cases hv : (0 : ℚ) - v = 0
    · simp [hv, keys] at hb
    · simp only [if_neg hv, mass_cons, mass_nil, if_true, add_zero]
      exact hv
  | cons e d ih =>
    obtain ⟨j, w⟩ := e
    simp only [keys, List.map_cons, List.nodup_cons] at h
    simp only [removeProbability] at hb ⊢
    by_cases hj : j = b
    · subst hj
      simp only [if_true] at hb ⊢
      have hd0 : mass d j = 0 := mass_eq_zero_of_not_mem d j h.1
      by_cases hz : w - v = 0
      · simp only [if_pos hz] at hb
        exact absurd hb h.1
      · simp only [if_neg hz, mass_cons, if_true, hd0, add_zero]
        exact hz
    · simp only [if_neg hj] at hb ⊢
      simp only [keys, List.map_cons, List.mem_cons] at hb
      rcases hb with hb | hb
      · exact absurd hb.symm hj
      · rw [mass_cons, if_neg hj, zero_add]
        exact ih h.2 hb

theorem zeroFree_shiftProbability (d : Distribution) (f t : Nat) (v : ℚ)
    (hnodup : d.keys.Nodup) (hzf : d.ZeroFree) (hft : f ≠ t) (hv : 0 < v)
    (ht : 0 ≤ mass d t) :
    (shiftProbability d f t v).ZeroFree ∧ 0 ≤ mass (shiftProbability d f t v) t := by
  constructor
  · intro k hk
    rw [mass_shiftProbability]
    unfold shiftProbability at hk
    rw [mem_keys_addProbability] at hk
    by_cases hkt : k = t
    · subst hkt
      simp only [if_neg hft, if_true, sub_zero]
      have : 0 < mass d k + v := by linarith
      exact ne_of_gt this
    · have hkt' : ¬ t = k := fun e => hkt e.symm
      rcases hk with hk | hk
      · by_cases hkf : k = f
        · subst hkf
          have := mass_removeProbability_ne_zero d k v hnodup hk
          rw [mass_removeProbability] at this
          simpa [hkt'] using this
        · have hkf' : ¬ f = k := fun e => hkf e.symm
          simp only [if_neg hkf', if_neg hkt', sub_zero, add_zero]
          rcases mem_keys_removeProbability d f v k hk with h1 | h1
          · exact hzf k h1
          · exact absurd h1 hkf
      · exact absurd hk hkt
  · rw [mass_shiftProbability]
    simp only [if_neg hft, if_true, sub_zero]
    linarith

theorem nodup_keys_shiftProbability (d : Distribution) (f t : Nat) (v : ℚ)
    (h : d.keys.Nodup) : (shiftProbability d f t v).keys.Nodup :=
  nodup_keys_addProbability _ t v (nodup_keys_removeProbability d f v h)

/-- Over an exact value type `equals` says that the key sets and the mass functions
coincide. -/
theorem equals_exact_iff (d1 d2 : Distribution) :
    equals exactComparator d1 d2 = true ↔
      (∀ k, k ∈ d1.keys ↔ k ∈ d2.keys) ∧ ∀ k, mass d1 k = mass d2 k := by
  simp only [equals, exactComparator, Bool.and_eq_true, List.all_eq_true, decide_eq_true_eq]
  constructor
  · rintro ⟨⟨h12, h21⟩, hm⟩
    refine ⟨fun k => ⟨h12 k, h21 k⟩, fun k => ?_⟩
    by_cases hk : k ∈ d1.keys
    · exact hm k hk
    · have hk2 : k ∉ d2.keys := fun h => hk (h21 k h)
      rw [mass_eq_zero_of_not_mem d1 k hk, mass_eq_zero_of_not_mem d2 k hk2]
  · rintro ⟨hk, hm⟩
    exact ⟨⟨fun k h => (hk k).mp h, fun k h => (hk k).mpr h⟩, fun k _ => hm k⟩

end Distribution

/-! ## Rebuilding a distribution from its row -/

namespace Distribution

theorem mass_append (d1 d2 : Distribution) (k : Nat) :
    mass (d1 ++ d2) k = mass d1 k + mass d2 k := by
  simp [mass, List.filter_append]

theorem mass_flatMap {α : Type} (l : List α) (f : α → Distribution) (k : Nat) :
    mass (l.flatMap f) k = (l.map (fun x => mass (f x) k)).sum := by
  induction l with
  | nil => simp [mass]
  | cons a l ih =>
    rw [List.flatMap_cons, mass_append, ih]
    simp

theorem sum_indicator_nodup (L : List Nat) (hL : L.Nodup) (a : Nat) (f : Nat → ℚ) :
    (L.map (fun x => if x = a then f x else 0)).sum = if a ∈ L then f a else 0 := by
  induction L with
  | nil => simp
  | cons b L ih =>
    rw [List.nodup_cons] at hL
    simp only [List.map_cons, List.sum_cons, ih hL.2, List.mem_cons]
    by_cases hb : b = a
    · subst hb
      simp [hL.1]
    · have hb' : ¬ a = b := fun e => hb e.symm
      simp [hb, hb']

theorem positive_addProbability (d : Distribution) (b : Nat) (v : ℚ) (hd : d.Positive)
    (hv : 0 < v) : (addProbability d b v).Positive := by
  intro k hk
  rw [mass_addProbability]
  rw [mem_keys_addProbability] at hk
  have h0 : 0 ≤ mass d k := by
    by_cases hmem : k ∈ d.keys
    · exact le_of_lt (hd k hmem)
    · rw [mass_eq_zero_of_not_mem d k hmem]
  by_cases hbk : b = k
  · simp only [if_pos hbk]
    linarith
  · simp only [if_neg hbk, add_zero]
    rcases hk with hk | hk
    · exact hd k hk
    · exact absurd hk.symm hbk

end Distribution

theorem mass_replay_aux (g : Nat → Nat) (l : List (Nat × ℚ)) (d : Distribution) (k : Nat) :
    Distribution.mass
        (l.foldl
          (fun d entry =>
            if !exactComparator.isZero entry.2 then
              Distribution.addProbability d (g entry.1) entry.2
            else d) d) k
      = Distribution.mass d k + Distribution.mass (l.map (fun e => (g e.1, e.2))) k := by
  induction l generalizing d with
  | nil => simp [Distribution.mass_nil]
  | cons e l ih =>
    simp only [List.foldl_cons, List.map_cons]
    rw [ih, Distribution.mass_cons]
    by_cases hz : e.2 = 0
    · simp [exactComparator, hz]
    · simp only [exactComparator, hz, decide_False, Bool.not_false, if_true,
        Distribution.mass_addProbability]
      ring

theorem mass_rebuildDistribution (m : Model) (p : Partition) (c k : Nat) :
    Distribution.mass (rebuildDistribution exactComparator m p c) k
      = m.blockMass p.getBlock c k := by
  unfold rebuildDistribution replayRow Model.blockMass
  rw [mass_replay_aux p.getBlock (m.getRow c) [] k]
  simp [Distribution.mass_nil]

theorem positive_replay_aux (g : Nat → Nat) (l : List (Nat × ℚ)) (d : Distribution)
    (hd : d.Positive) (hl : ∀ e ∈ l, 0 ≤ e.2) :
    (l.foldl
      (fun d entry =>
        if !exactComparator.isZero entry.2 then
          Distribution.addProbability d (g entry.1) entry.2
        else d) d).Positive := by
  induction l generalizing d with
  | nil => exact hd
  | cons e l ih =>
    simp only [List.foldl_cons]
    apply ih
    · by_cases hz : e.2 = 0
      · simpa [exactComparator, hz] using hd
      · simp only [exactComparator, hz, decide_False, Bool.not_false, if_true]
        apply Distribution.positive_addProbability d _ _ hd
        have := hl e (by simp)
        exact lt_of_le_of_ne this (fun h => hz h.symm)
    · exact fun x hx => hl x (List.mem_cons_of_mem _ hx)

theorem getRow_nonneg (m : Model) (hm : m.Nonnegative) (c : Nat) :
    ∀ e ∈ m.getRow c, 0 ≤ e.2 := by
  intro e he
  unfold Model.getRow at he
  by_cases hc : c < m.rows.length
  · rw [List.getD_eq_getElem _ _ hc] at he
    exact hm _ (List.getElem_mem _) e he
  · rw [List.getD_eq_default _ _ (by omega)] at he
    simp at he

theorem positive_rebuildDistribution (m : Model) (hm : m.Nonnegative) (p : Partition)
    (c : Nat) : (rebuildDistribution exactComparator m p c).Positive := by
  unfold rebuildDistribution replayRow
  apply positive_replay_aux
  · intro k hk
    simp [Distribution.keys] at hk
  · exact getRow_nonneg m hm c

/-- The backward transitions are the transposed rows. -/
theorem mass_backwardRow (m : Model) (s c : Nat) :
    Distribution.mass (m.backwardRow s) c = Distribution.mass (m.getRow c) s := by
  unfold Model.backwardRow
  rw [Distribution.mass_flatMap]
  have hinner : ∀ c', Distribution.mass
      (((m.getRow c').filter (fun e => decide (e.1 = s))).map (fun e => (c', e.2))) c
        = if c' = c then Distribution.mass (m.getRow c') s else 0 := by
    intro c'
    by_cases hc : c' = c
    · subst hc
      simp [Distribution.mass, List.filter_map, Function.comp_def]
    · simp only [if_neg hc]
      apply Distribution.mass_eq_zero_of_not_mem
      simp only [Distribution.keys, List.map_map, List.mem_map, Function.comp_apply,
        not_exists, not_and]
      intro x _ hx
      exact hc hx
  simp only [hinner]
  rw [Distribution.sum_indicator_nodup _ (List.nodup_range _) c
    (fun c' => Distribution.mass (m.getRow c') s)]
  by_cases hc : c < m.getNumberOfChoices
  · simp [hc]
  · simp only [List.mem_range, hc, if_false]
    have : m.getRow c = [] := by
      unfold Model.getRow
      rw [List.getD_eq_default]
      unfold Model.getNumberOfChoices at hc
      omega
    rw [this]; rfl

/-- Moving the states of `N` from block `b` to the fresh block `j` moves their mass. -/
theorem blockMass_move (row : List (Nat × ℚ)) (g g' : Nat → Nat) (N : List Nat)
    (hN : N.Nodup) (b j : Nat)
    (hg' : ∀ s, g' s = if s ∈ N then j else g s) (hb : ∀ s ∈ N, g s = b) (k : Nat) :
    Distribution.mass (row.map (fun e => (g' e.1, e.2))) k
      = Distribution.mass (row.map (fun e => (g e.1, e.2))) k
        - (if b = k then (N.map (fun s => Distribution.mass row s)).sum else 0)
        + (if j = k then (N.map (fun s => Distribution.mass row s)).sum else 0) := by
  induction row with
  | nil => simp [Distribution.mass_nil]
  | cons e row ih =>
    have hsum : (N.map (fun s => Distribution.mass (e :: row) s)).sum
        = (if e.1 ∈ N then e.2 else 0) + (N.map (fun s => Distribution.mass row s)).sum := by
      have h1 : (N.map (fun s => Distribution.mass (e :: row) s))
          = N.map (fun s => (if s = e.1 then e.2 else 0) + Distribution.mass row s) := by
        apply List.map_congr_left
        intro s _
        rw [Distribution.mass_cons]
        by_cases hs : e.1 = s
        · simp [hs]
        · have hs' : ¬ s = e.1 := fun h => hs h.symm
          simp [hs, hs']
      rw [h1, List.sum_map_add]
      congr 1
      exact Distribution.sum_indicator_nodup N hN e.1 (fun _ => e.2)
    rw [hsum]
    simp only [List.map_cons, Distribution.mass_cons, ih, hg' e.1]
    by_cases hmem : e.1 ∈ N
    · simp only [if_pos hmem, hb e.1 hmem]
      by_cases hbk : b = k <;> by_cases hjk : j = k <;> simp [hbk, hjk] <;> ring
    · simp only [if_neg hmem]
      by_cases hbk : b = k <;> by_cases hjk : j = k <;> simp [hbk, hjk] <;> ring

/-! ## Partitions that differ in flags only -/

namespace Partition

theorem SameLayout.refl (p : Partition) : p.SameLayout p :=
  ⟨rfl, rfl, fun _ => ⟨rfl, rfl, rfl⟩⟩

theorem SameLayout.trans {p q r : Partition} (h1 : p.SameLayout q) (h2 : q.SameLayout r) :
    p.SameLayout r :=
  ⟨h2.1.trans h1.1, h2.2.1.trans h1.2.1, fun i =>
    ⟨(h2.2.2 i).1.trans (h1.2.2 i).1, (h2.2.2 i).2.1.trans (h1.2.2 i).2.1,
      (h2.2.2 i).2.2.trans (h1.2.2 i).2.2⟩⟩

theorem block_setSplitter (p : Partition) (id : Nat) (flag : Bool) (i : Nat) :
    (p.setSplitter id flag).block i
      = if i = id ∧ id < p.blocks.length then { p.block id with splitter := flag }
        else p.block i := by
  unfold setSplitter block
  simp only [List.getD_eq_getElem?_getD, List.getElem?_set]
  by_cases hi : id = i
  · subst hi
    by_cases hl : id < p.blocks.length
    · simp [hl]
    · simp [hl, List.getElem?_eq_none (Nat.le_of_not_lt hl)]
  · have hi' : ¬ i = id := fun e => hi e.symm
    simp [hi, hi']

theorem sameLayout_setSplitter (p : Partition) (id : Nat) (flag : Bool) :
    p.SameLayout (p.setSplitter id flag) := by
  refine ⟨rfl, by simp [setSplitter], fun i => ?_⟩
  rw [block_setSplitter]
  split
  · rename_i h
    rw [h.1]
    exact ⟨rfl, rfl, rfl⟩
  · exact ⟨rfl, rfl, rfl⟩

theorem SameLayout.getBlock {p q : Partition} (h : p.SameLayout q) (s : Nat) :
    q.getBlock s = p.getBlock s := by
  unfold Partition.getBlock
  rw [h.1]

theorem SameLayout.slice {p q : Partition} (h : p.SameLayout q) (id : Nat) :
    q.slice id = p.slice id := by
  unfold Partition.slice
  rw [h.1, (h.2.2 id).1, (h.2.2 id).2.1]

theorem SameLayout.statesOf {p q : Partition} (h : p.SameLayout q) (id : Nat) :
    q.statesOf id = p.statesOf id := by
  unfold Partition.statesOf
  rw [h.slice]

theorem SameLayout.valid {p q : Partition} (h : p.SameLayout q) (hv : p.Valid) : q.Valid where
  nodup := by rw [h.1]; exact hv.nodup
  bound := by
    intro e he
    rw [h.1] at he
    rw [h.2.1]
    exact hv.bound e he
  slices := by
    intro id hid
    rw [h.2.1] at hid
    rw [h.slice, h.1]
    exact hv.slices id hid

end Partition

theorem rebuildDistribution_congr (cmp : ConstantsComparator) (m : Model) (p q : Partition)
    (h : ∀ s, q.getBlock s = p.getBlock s) (c : Nat) :
    rebuildDistribution cmp m q c = rebuildDistribution cmp m p c := by
  unfold rebuildDistribution replayRow
  congr 1
  funext d e
  rw [h]

/-! ## One call of `updateQuotientDistributionsOfPredecessors` -/

theorem markSplitter_sameLayout (p : Partition) (queue : List Nat) (b : Nat) :
    p.SameLayout (markSplitter p queue b).1 := by
  unfold markSplitter
  split
  · exact Partition.sameLayout_setSplitter p b true
  · exact Partition.SameLayout.refl p

theorem updatePredecessorEntry_partition (cmp : ConstantsComparator) (m : Model)
    (newBlock oldBlock : Nat) (u : UpdateState) (e : Nat × ℚ) :
    u.dec.partition.SameLayout (updatePredecessorEntry cmp m newBlock oldBlock u e).dec.partition
      ∧ (updatePredecessorEntry cmp m newBlock oldBlock u e).dec.quotientDistributions.length
        = u.dec.quotientDistributions.length
      ∧ (updatePredecessorEntry cmp m newBlock oldBlock u e).dec.choiceToStateMapping
        = u.dec.choiceToStateMapping := by
  unfold updatePredecessorEntry
  by_cases hz : cmp.isZero e.2 = true
  · rw [if_pos hz]
    exact ⟨Partition.SameLayout.refl _, rfl, rfl⟩
  · rw [if_neg hz]
    refine ⟨?_, ?_, ?_⟩
    · show u.dec.partition.SameLayout (repairOrder cmp m _ _ _).partition
      rw [(repairOrder_frame _ _ _ _ _).2.1]
      exact markSplitter_sameLayout _ _ _
    · show (List.set (repairOrder cmp m _ _ _).quotientDistributions _ _).length = _
      rw [List.length_set, (repairOrder_frame _ _ _ _ _).1]
    · show (repairOrder cmp m _ _ _).choiceToStateMapping = _
      rw [(repairOrder_frame _ _ _ _ _).2.2]

theorem foldl_updatePredecessorEntry_partition (cmp : ConstantsComparator) (m : Model)
    (newBlock oldBlock : Nat) (es : List (Nat × ℚ)) (u : UpdateState) :
    u.dec.partition.SameLayout
        (es.foldl (updatePredecessorEntry cmp m newBlock oldBlock) u).dec.partition
      ∧ (es.foldl (updatePredecessorEntry cmp m newBlock oldBlock) u).dec.quotientDistributions.length
        = u.dec.quotientDistributions.length
      ∧ (es.foldl (updatePredecessorEntry cmp m newBlock oldBlock) u).dec.choiceToStateMapping
        = u.dec.choiceToStateMapping := by
  induction es generalizing u with
  | nil => exact ⟨Partition.SameLayout.refl _, rfl, rfl⟩
  | cons e es ih =>
    simp only [List.foldl_cons]
    obtain ⟨h1, h2, h3⟩ := updatePredecessorEntry_partition cmp m newBlock oldBlock u e
    obtain ⟨h4, h5, h6⟩ := ih (updatePredecessorEntry cmp m newBlock oldBlock u e)
    exact ⟨h1.trans h4, h5.trans h2, h6.trans h3⟩

theorem finishUpdate_frame (cmp : ConstantsComparator) (m : Model) (u : UpdateState) :
    (finishUpdate cmp m u).1.partition = u.dec.partition ∧
    (finishUpdate cmp m u).1.quotientDistributions = u.dec.quotientDistributions ∧
    (finishUpdate cmp m u).1.choiceToStateMapping = u.dec.choiceToStateMapping ∧
    (finishUpdate cmp m u).2 = u.queue := by
  obtain ⟨dec, queue, last⟩ := u
  cases last with
  | none => exact ⟨rfl, rfl, rfl, rfl⟩
  | some l => exact ⟨rfl, rfl, rfl, rfl⟩

/-- The masses after a run of the inner loop over the entries `es`. -/
theorem foldl_updatePredecessorEntry_mass (m : Model) (newBlock oldBlock : Nat)
    (es : List (Nat × ℚ)) (u : UpdateState)
    (hes : ∀ e ∈ es, e.1 < u.dec.quotientDistributions.length) (c k : Nat) :
    Distribution.mass
        ((es.foldl (updatePredecessorEntry exactComparator m newBlock oldBlock) u).dec.distribution
          c) k
      = Distribution.mass (u.dec.distribution c) k
        - (if oldBlock = k then Distribution.mass es c else 0)
        + (if newBlock = k then Distribution.mass es c else 0) := by
  induction es generalizing u with
  | nil => simp [Distribution.mass_nil]
  | cons e es ih =>
    simp only [List.foldl_cons]
    have hlen := (updatePredecessorEntry_partition exactComparator m newBlock oldBlock u e).2.1
    rw [ih _ (fun x hx => by rw [hlen]; exact hes x (List.mem_cons_of_mem _ hx)),
      updatePredecessorEntry_distribution, Distribution.mass_cons]
    have he := hes e (by simp)
    by_cases hz : e.2 = 0
    · have : exactComparator.isZero e.2 = true := by simp [exactComparator, hz]
      simp only [this, Bool.true_eq_false, false_and, if_false]
      rw [hz]
      by_cases hc : e.1 = c <;> simp [hc]
    · have hz' : exactComparator.isZero e.2 = false := by simp [exactComparator, hz]
      by_cases hc : c = e.1
      · subst hc
        simp only [hz', he, and_self, if_true, Distribution.mass_shiftProbability]
        by_cases h1 : oldBlock = k <;> by_cases h2 : newBlock = k <;> simp [h1, h2] <;> ring
      · have hc' : ¬ e.1 = c := fun h => hc h.symm
        simp [hc, hc']

/-- The keys after a run of the inner loop: they stay unique, no zero mass is stored,
and the mass of the new block is not negative. -/
theorem foldl_updatePredecessorEntry_keys (m : Model) (newBlock oldBlock : Nat)
    (hne : oldBlock ≠ newBlock) (es : List (Nat × ℚ)) (hes : ∀ e ∈ es, 0 ≤ e.2)
    (u : UpdateState) (hkeys : ∀ c, (u.dec.distribution c).keys.Nodup)
    (hzf : ∀ c, (u.dec.distribution c).ZeroFree)
    (hnew : ∀ c, 0 ≤ Distribution.mass (u.dec.distribution c) newBlock) :
    (∀ c, ((es.foldl (updatePredecessorEntry exactComparator m newBlock oldBlock)
      u).dec.distribution c).keys.Nodup) ∧
    (∀ c, ((es.foldl (updatePredecessorEntry exactComparator m newBlock oldBlock)
      u).dec.distribution c).ZeroFree) ∧
    (∀ c, 0 ≤ Distribution.mass
      ((es.foldl (updatePredecessorEntry exactComparator m newBlock oldBlock)
        u).dec.distribution c) newBlock) := by
  induction es generalizing u with
  | nil => exact ⟨hkeys, hzf, hnew⟩
  | cons e es ih =>
    simp only [List.foldl_cons]
    have he : 0 ≤ e.2 := hes e (by simp)
    apply ih (fun x hx => hes x (List.mem_cons_of_mem _ hx))
    · intro c
      rw [updatePredecessorEntry_distribution]
      split
      · exact Distribution.nodup_keys_shiftProbability _ _ _ _ (hkeys c)
      · exact hkeys c
    · intro c
      rw [updatePredecessorEntry_distribution]
      split
      · rename_i h
        have hz : e.2 ≠ 0 := by
          have := h.1
          simpa [exactComparator] using this
        exact (Distribution.zeroFree_shiftProbability _ _ _ _ (hkeys c) (hzf c) hne
          (lt_of_le_of_ne he (fun h => hz h.symm)) (hnew c)).1
      · exact hzf c
    · intro c
      rw [updatePredecessorEntry_distribution]
      split
      · rename_i h
        have hz : e.2 ≠ 0 := by
          have := h.1
          simpa [exactComparator] using this
        exact (Distribution.zeroFree_shiftProbability _ _ _ _ (hkeys c) (hzf c) hne
          (lt_of_le_of_ne he (fun h => hz h.symm)) (hnew c)).2
      · exact hnew c

/-! ## Incremental update against a rebuild -/

theorem blockMass_eq_zero (m : Model) (g : Nat → Nat) (c j : Nat) (hg : ∀ s, g s ≠ j) :
    m.blockMass g c j = 0 := by
  unfold Model.blockMass
  apply Distribution.mass_eq_zero_of_not_mem
  simp only [Distribution.keys, List.map_map, List.mem_map, Function.comp_apply, not_exists,
    not_and]
  intro e _
  exact hg e.1

theorem mem_backwardRow (m : Model) (hm : m.Nonnegative) (s : Nat) (e : Nat × ℚ)
    (he : e ∈ m.backwardRow s) : e.1 < m.getNumberOfChoices ∧ 0 ≤ e.2 := by
  unfold Model.backwardRow at he
  simp only [List.mem_flatMap, List.mem_range, List.mem_map, List.mem_filter] at he
  obtain ⟨c, hc, x, ⟨hx, _⟩, hxe⟩ := he
  rw [← hxe]
  exact ⟨hc, getRow_nonneg m hm c x hx⟩

theorem distribution_eq_nil_of_ge (st : Decomposition) (c : Nat)
    (h : st.quotientDistributions.length ≤ c) : st.distribution c = [] := by
  unfold Decomposition.distribution
  exact List.getD_eq_default _ _ h

theorem rebuildDistribution_eq_nil_of_ge (cmp : ConstantsComparator) (m : Model)
    (p : Partition) (c : Nat) (h : m.getNumberOfChoices ≤ c) :
    rebuildDistribution cmp m p c = [] := by
  have : m.getRow c = [] := by
    unfold Model.getRow
    exact List.getD_eq_default _ _ h
  simp [rebuildDistribution, replayRow, this]

theorem uniqueKeys_apply (st : Decomposition) (h : st.UniqueKeys) (c : Nat) :
    (st.distribution c).keys.Nodup := by
  by_cases hc : c < st.quotientDistributions.length
  · unfold Decomposition.distribution
    rw [List.getD_eq_getElem _ _ hc]
    exact h _ (List.getElem_mem _)
  · rw [distribution_eq_nil_of_ge st c (by omega)]
    simp [Distribution.keys]

theorem tracks_of_consistent (m : Model) (hm : m.Nonnegative) (st : Decomposition)
    (hlen : st.quotientDistributions.length = m.getNumberOfChoices) (hkeys : st.UniqueKeys)
    (hcons : st.Consistent exactComparator m) : st.Tracks m st.partition.getBlock := by
  have hall : ∀ c, (∀ k, k ∈ (st.distribution c).keys ↔
        k ∈ (rebuildDistribution exactComparator m st.partition c).keys) ∧
      ∀ k, Distribution.mass (st.distribution c) k
        = Distribution.mass (rebuildDistribution exactComparator m st.partition c) k := by
    intro c
    by_cases hc : c < m.getNumberOfChoices
    · exact (Distribution.equals_exact_iff _ _).mp (hcons c hc)
    · rw [distribution_eq_nil_of_ge st c (by omega),
        rebuildDistribution_eq_nil_of_ge _ m _ c (by omega)]
      exact ⟨fun _ => Iff.rfl, fun _ => rfl⟩
  refine { length := hlen, keys := uniqueKeys_apply st hkeys, zeroFree := ?_, mass := ?_ }
  · intro c k hk
    have hpos := positive_rebuildDistribution m hm st.partition c k (((hall c).1 k).mp hk)
    rw [(hall c).2 k]
    exact ne_of_gt hpos
  · intro c k
    rw [(hall c).2 k, mass_rebuildDistribution]

theorem consistent_of_tracks (m : Model) (hm : m.Nonnegative) (st : Decomposition)
    (ht : st.Tracks m st.partition.getBlock) : st.Consistent exactComparator m := by
  intro c _
  rw [Distribution.equals_exact_iff]
  have hmass : ∀ k, Distribution.mass (st.distribution c) k
      = Distribution.mass (rebuildDistribution exactComparator m st.partition c) k := by
    intro k
    rw [ht.mass, mass_rebuildDistribution]
  refine ⟨fun k => ⟨fun hk => ?_, fun hk => ?_⟩, hmass⟩
  · apply Distribution.mem_keys_of_mass_ne_zero
    rw [← hmass]
    exact ht.zeroFree c k hk
  · apply Distribution.mem_keys_of_mass_ne_zero
    rw [hmass]
    exact ne_of_gt (positive_rebuildDistribution m hm st.partition c k hk)

/-- One call of `updateQuotientDistributionsOfPredecessors(newBlock, oldBlock, queue)`
moves the mass of the states of `newBlock` from the id of `oldBlock` to the id of
`newBlock`. -/
theorem update_tracks (m : Model) (hm : m.Nonnegative) (st : Decomposition) (g : Nat → Nat)
    (j b : Nat) (queue : List Nat) (ht : st.Tracks m g) (hbj : b ≠ j)
    (hN : (st.partition.statesOf j).Nodup) (hgb : ∀ s ∈ st.partition.statesOf j, g s = b)
    (hgj : ∀ s, g s ≠ j) :
    (updateQuotientDistributionsOfPredecessors exactComparator m st j b queue).1.Tracks m
        (fun s => if s ∈ st.partition.statesOf j then j else g s) ∧
    st.partition.SameLayout
      (updateQuotientDistributionsOfPredecessors exactComparator m st j b queue).1.partition := by
  unfold updateQuotientDistributionsOfPredecessors
  have hfin := finishUpdate_frame exactComparator m
    ((predecessorEntries m st j).foldl (updatePredecessorEntry exactComparator m j b)
      { dec := st, queue := queue, lastState := none })
  have hpart := foldl_updatePredecessorEntry_partition exactComparator m j b
    (predecessorEntries m st j) { dec := st, queue := queue, lastState := none }
  have hentries : ∀ e ∈ predecessorEntries m st j,
      e.1 < m.getNumberOfChoices ∧ 0 ≤ e.2 := by
    intro e he
    unfold predecessorEntries at he
    obtain ⟨s, _, hs⟩ := List.mem_flatMap.mp he
    exact mem_backwardRow m hm s e hs
  have hkeys := foldl_updatePredecessorEntry_keys m j b hbj (predecessorEntries m st j)
    (fun e he => (hentries e he).2) { dec := st, queue := queue, lastState := none }
    ht.keys ht.zeroFree
    (fun c => by
      show 0 ≤ Distribution.mass (st.distribution c) j
      rw [ht.mass, blockMass_eq_zero m g c j hgj])
  have hdist : ∀ c, (finishUpdate exactComparator m
      ((predecessorEntries m st j).foldl (updatePredecessorEntry exactComparator m j b)
        { dec := st, queue := queue, lastState := none })).1.distribution c
      = ((predecessorEntries m st j).foldl (updatePredecessorEntry exactComparator m j b)
        { dec := st, queue := queue, lastState := none }).dec.distribution c :=
    fun c => finishUpdate_distribution exactComparator m _ c
  constructor
  · refine { length := ?_, keys := ?_, zeroFree := ?_, mass := ?_ }
    · rw [hfin.2.1, hpart.2.1]
      exact ht.length
    · intro c
      rw [hdist]
      exact hkeys.1 c
    · intro c
      rw [hdist]
      exact hkeys.2.1 c
    · intro c k
      rw [hdist, foldl_updatePredecessorEntry_mass m j b _ _
        (fun e he => by
          show e.1 < st.quotientDistributions.length
          rw [ht.length]
          exact (hentries e he).1) c k]
      show Distribution.mass (st.distribution c) k - _ + _ = _
      have hT : Distribution.mass (predecessorEntries m st j) c
          = ((st.partition.statesOf j).map (fun s => Distribution.mass (m.getRow c) s)).sum := by
        unfold predecessorEntries
        rw [Distribution.mass_flatMap]
        congr 1
        apply List.map_congr_left
        intro s _
        exact mass_backwardRow m s c
      rw [hT, ht.mass]
      unfold Model.blockMass
      rw [blockMass_move (m.getRow c) g
        (fun s => if s ∈ st.partition.statesOf j then j else g s)
        (st.partition.statesOf j) hN b j (fun _ => rfl) hgb k]
  · rw [hfin.1]
    exact hpart.1

theorem tracks_congr (m : Model) (g g' : Nat → Nat) (st : Decomposition) (h : ∀ s, g s = g' s)
    (ht : st.Tracks m g) : st.Tracks m g' := by
  have : g = g' := funext h
  rw [← this]
  exact ht

namespace Partition

theorem mem_states_of_mem_statesOf (p : Partition) (id s : Nat) (h : s ∈ p.statesOf id) :
    s ∈ p.positions.map Prod.fst := by
  unfold statesOf slice at h
  obtain ⟨e, he, hes⟩ := List.mem_map.mp h
  exact List.mem_map.mpr ⟨e, List.mem_of_mem_drop (List.mem_of_mem_take he), hes⟩

theorem getBlock_lt (p : Partition) (hv : p.Valid) (s : Nat)
    (hs : s ∈ p.positions.map Prod.fst) : p.getBlock s < p.blocks.length :=
  hv.bound _ (mem_of_getBlock p hv.nodup s hs)

/-- After a split a state is in its old block, or it was in the split block and is in one
of the new blocks. -/
theorem SplitSpec.getBlock_cases {p : Partition} {id : Nat} {less : Nat → Nat → Bool}
    {r : Partition × List Nat × Bool} (h : p.SplitSpec id less r) (hv : p.Valid) (s : Nat) :
    r.1.getBlock s = p.getBlock s ∨ (p.getBlock s = id ∧ r.1.getBlock s ∈ r.2.1) := by
  by_cases hs : s ∈ r.1.positions.map Prod.fst
  · have hmem := mem_of_getBlock r.1 h.valid.nodup s hs
    rcases h.members _ hmem with ⟨h1, _⟩ | ⟨h1, h2⟩
    · left
      exact (getBlock_eq_of_mem p hv.nodup s _ h1).symm
    · have hp : p.getBlock s = id := getBlock_eq_of_mem p hv.nodup s id h1
      rcases h2 with h2 | h2
      · left
        rw [hp]
        exact h2
      · exact Or.inr ⟨hp, h2⟩
  · left
    rw [getBlock_of_not_mem r.1 s hs,
      getBlock_of_not_mem p s (fun h' => hs (h.states.mem_iff.mpr h'))]

end Partition

theorem uniqueKeys_of_tracks (m : Model) (g : Nat → Nat) (st : Decomposition)
    (ht : st.Tracks m g) : st.UniqueKeys := by
  intro d hd
  obtain ⟨c, hc, hcd⟩ := List.mem_iff_getElem.mp hd
  have := ht.keys c
  unfold Decomposition.distribution at this
  rw [List.getD_eq_getElem _ _ hc, hcd] at this
  exact this

namespace Partition

theorem getBlock_lt_of_pos (p : Partition) (hv : p.Valid) (hpos : 0 < p.blocks.length)
    (s : Nat) : p.getBlock s < p.blocks.length := by
  by_cases hs : s ∈ p.positions.map Prod.fst
  · exact getBlock_lt p hv s hs
  · rw [getBlock_of_not_mem p s hs]
    exact hpos

theorem mem_statesOf_iff_getBlock (p : Partition) (hv : p.Valid) (j : Nat)
    (hj : j < p.blocks.length) (hpos : 0 < j) (s : Nat) :
    s ∈ p.statesOf j ↔ p.getBlock s = j := by
  constructor
  · exact getBlock_of_mem_statesOf p hv j hj s
  · intro h
    have hs : s ∈ p.positions.map Prod.fst := by
      by_contra hn
      rw [getBlock_of_not_mem p s hn] at h
      omega
    rw [mem_statesOf_iff p hv j hj, ← h]
    exact mem_of_getBlock p hv.nodup s hs

end Partition

/-- The predecessor updates for the new blocks of one split, one after the other. -/
theorem foldl_update_tracks (m : Model) (hm : m.Nonnegative) (p p' : Partition) (id : Nat)
    (hv : p.Valid) (hv' : p'.Valid) (hid : id < p.blocks.length) :
    ∀ (todo done : List Nat) (acc : Decomposition × List Nat),
      (done ++ todo).Nodup →
      (∀ j ∈ done ++ todo, p.blocks.length ≤ j ∧ j < p'.blocks.length) →
      (∀ s, p'.getBlock s ∈ done ++ todo → p.getBlock s = id) →
      p'.SameLayout acc.1.partition → acc.1.Tracks m (p.movedBlock p' done) →
      p'.SameLayout
          (todo.foldl
            (fun (acc : Decomposition × List Nat) el =>
              updateQuotientDistributionsOfPredecessors exactComparator m acc.1 el id acc.2)
            acc).1.partition ∧
        (todo.foldl
          (fun (acc : Decomposition × List Nat) el =>
            updateQuotientDistributionsOfPredecessors exactComparator m acc.1 el id acc.2)
          acc).1.Tracks m (p.movedBlock p' (done ++ todo)) := by
  intro todo
  induction todo with
  | nil =>
    intro done acc _ _ _ hlay ht
    simpa using ⟨hlay, ht⟩
  | cons j todo ih =>
    intro done acc hnodup hrange hold hlay ht
    simp only [List.foldl_cons]
    have hj := hrange j (by simp)
    have hjdone : j ∉ done := by
      intro hmem
      have := List.nodup_append.mp hnodup
      exact this.2.2 hmem (by simp) 
    have hstates : acc.1.partition.statesOf j = p'.statesOf j := hlay.statesOf j
    have hmemj : ∀ s, s ∈ p'.statesOf j ↔ p'.getBlock s = j :=
      Partition.mem_statesOf_iff_getBlock p' hv' j hj.2 (by omega)
    have hstep := update_tracks m hm acc.1 (p.movedBlock p' done) j id acc.2 ht (by omega)
      (by rw [hstates]; exact Partition.statesOf_nodup p' hv' j hj.2)
      (by
        intro s hs
        rw [hstates, hmemj] at hs
        unfold Partition.movedBlock
        rw [hs, if_neg hjdone]
        exact hold s (by rw [hs]; simp))
      (by
        intro s
        unfold Partition.movedBlock
        split
        · rename_i h
          intro he
          rw [he] at h
          exact hjdone h
        · have := Partition.getBlock_lt_of_pos p hv (by omega) s
          omega)
    have hfun : ∀ s, (if s ∈ acc.1.partition.statesOf j then j else p.movedBlock p' done s)
        = p.movedBlock p' (done ++ [j]) s := by
      intro s
      rw [hstates]
      unfold Partition.movedBlock
      by_cases hs : s ∈ p'.statesOf j
      · have hb := (hmemj s).mp hs
        simp [hs, hb]
      · have hb : ¬ p'.getBlock s = j := fun h => hs ((hmemj s).mpr h)
        simp [hs, hb]
    have ht' := tracks_congr m _ _ _ hfun hstep.1
    have := ih (done ++ [j])
      (updateQuotientDistributionsOfPredecessors exactComparator m acc.1 j id acc.2)
      (by simpa using hnodup) (by simpa using hrange) (by simpa using hold)
      (hlay.trans hstep.2) ht'
    simpa using this

/-- The decomposition after `splitBlockAccordingToCurrentQuotientDistributions`: its
partition is the split partition up to flags and its distributions are the rebuilt
ones. -/
theorem splitBlockAccording_tracks (m : Model) (hm : m.Nonnegative) (st : Decomposition)
    (block : Nat) (queue : List Nat) (hv : st.partition.Valid)
    (ht : st.Tracks m st.partition.getBlock) :
    (st.partition.splitBlock block (quotientDistributionsLess exactComparator m st)).1.SameLayout
        (splitBlockAccordingToCurrentQuotientDistributions exactComparator m st block
          queue).1.partition ∧
      (splitBlockAccordingToCurrentQuotientDistributions exactComparator m st block
          queue).1.Tracks m
        (splitBlockAccordingToCurrentQuotientDistributions exactComparator m st block
          queue).1.partition.getBlock := by
  have spec := Partition.splitBlock_spec st.partition hv block
    (quotientDistributionsLess exactComparator m st)
  have hcases := spec.getBlock_cases hv
  have hst1 : Decomposition.Tracks m
      (st.partition.movedBlock
        (st.partition.splitBlock block (quotientDistributionsLess exactComparator m st)).1 [])
      { st with
        partition :=
          (st.partition.splitBlock block (quotientDistributionsLess exactComparator m st)).1 } :=
    { length := ht.length, keys := ht.keys, zeroFree := ht.zeroFree,
      mass := by
        intro c k
        have : st.partition.movedBlock
            (st.partition.splitBlock block
              (quotientDistributionsLess exactComparator m st)).1 [] = st.partition.getBlock := by
          funext s
          simp [Partition.movedBlock]
        rw [this]
        exact ht.mass c k }
  unfold splitBlockAccordingToCurrentQuotientDistributions
  dsimp only
  by_cases hnews : (st.partition.splitBlock block
      (quotientDistributionsLess exactComparator m st)).2.1 = []
  · rw [hnews]
    simp only [List.foldl_nil]
    refine ⟨Partition.SameLayout.refl _, ?_⟩
    apply tracks_congr m _ _ _ _ hst1
    intro s
    rcases hcases s with h | h
    · simp [Partition.movedBlock, h]
    · rw [hnews] at h
      simp at h
  · have hid := spec.inTable hnews
    have hmemnews : ∀ j, j ∈ (st.partition.splitBlock block
          (quotientDistributionsLess exactComparator m st)).2.1 →
        st.partition.blocks.length ≤ j ∧
          j < (st.partition.splitBlock block
            (quotientDistributionsLess exactComparator m st)).1.blocks.length := by
      intro j hj
      rw [spec.news, List.mem_range'] at hj
      obtain ⟨i, hi, hji⟩ := hj
      have := spec.grow
      omega
    have hold : ∀ s, (st.partition.splitBlock block
          (quotientDistributionsLess exactComparator m st)).1.getBlock s
            ∈ (st.partition.splitBlock block
              (quotientDistributionsLess exactComparator m st)).2.1 →
        st.partition.getBlock s = block := by
      intro s hs
      rcases hcases s with h | h
      · have h1 := (hmemnews _ hs).1
        have h2 := Partition.getBlock_lt_of_pos st.partition hv (by omega) s
        omega
      · exact h.1
    have hfold := foldl_update_tracks m hm st.partition
      (st.partition.splitBlock block (quotientDistributionsLess exactComparator m st)).1
      block hv spec.valid hid
      (st.partition.splitBlock block (quotientDistributionsLess exactComparator m st)).2.1 []
      ({ st with
          partition :=
            (st.partition.splitBlock block
              (quotientDistributionsLess exactComparator m st)).1 }, queue)
      (by
        rw [List.nil_append, spec.news]
        exact List.nodup_range' _ _)
      (by simpa using hmemnews) (by simpa using hold)
      (Partition.SameLayout.refl _) hst1
    refine ⟨hfold.1, ?_⟩
    apply tracks_congr m _ _ _ _ hfold.2
    intro s
    rw [hfold.1.getBlock s]
    unfold Partition.movedBlock
    simp only [List.nil_append]
    split
    · rfl
    · rename_i hnot
      rcases hcases s with h | h
      · exact h.symm
      · exact absurd h.2 hnot

/-- C3, amended: the incremental update agrees with a from-scratch rebuild over exact
arithmetic.  For an exact value type with the exact comparator, a model without negative
probabilities and a valid partition: if before a call of
`splitBlockAccordingToCurrentQuotientDistributions` every `quotientDistributions[c]`
(one per choice, with unique keys) equals the distribution obtained by replaying row `c`
against the current partition, then after the call, that is after the split and all calls
of `updateQuotientDistributionsOfPredecessors`, every `quotientDistributions[c]` again
equals the distribution rebuilt from row `c` against the new partition; no update is run
for the sub-block that keeps the original id. -/
theorem incremental_update_agrees_with_rebuild (m : Model) (st : Decomposition)
    (block : Nat) (splitterQueue : List Nat) (hm : m.Nonnegative) (hv : st.partition.Valid)
    (hlen : st.quotientDistributions.length = m.getNumberOfChoices) (hkeys : st.UniqueKeys)
    (hcons : st.Consistent exactComparator m) :
    (splitBlockAccordingToCurrentQuotientDistributions exactComparator m st block
      splitterQueue).1.Consistent exactComparator m :=
  consistent_of_tracks m hm _
    (splitBlockAccording_tracks m hm st block splitterQueue hv
      (tracks_of_consistent m hm st hlen hkeys hcons)).2

theorem incremental_update_agrees_with_rebuild_witness :
    (splitBlockAccordingToCurrentQuotientDistributions exactComparator threeStateModel
      threeStateDecomposition 0 []).1.Consistent exactComparator threeStateModel :=
  incremental_update_agrees_with_rebuild threeStateModel threeStateDecomposition 0 []
    (by unfold Model.Nonnegative; decide!) ⟨by decide!, by decide!, by decide!⟩ (by decide!)
    (by unfold Decomposition.UniqueKeys; decide!)
    (by unfold Decomposition.Consistent; decide!)

/-! ## Stability of blocks -/

/-- With sorted signature lists, `quotientDistributionsLess` is a strict weak order on the
states. -/
theorem quotientDistributionsLess_swo (cmp : ConstantsComparator) (m : Model)
    (st : Decomposition) (hswo : StrictWeakOrder (Distribution.less cmp))
    (hsorted : st.SignaturesSorted cmp m) :
    StrictWeakOrder (quotientDistributionsLess cmp m st) := by
  have key : ∀ s t, quotientDistributionsLess cmp m st s t
      = lexLess (Distribution.less cmp)
          (collapseRuns (equivOf (Distribution.less cmp)) (st.signature m s))
          (collapseRuns (equivOf (Distribution.less cmp)) (st.signature m t)) :=
    fun s t => signatureLess_eq_lexLess hswo _ _ (hsorted s) (hsorted t)
  refine ⟨?_, ?_, ?_⟩
  · intro s
    rw [key]
    exact lexLess_irrefl hswo _
  · intro s t u hst htu
    rw [key] at hst htu ⊢
    exact lexLess_trans hswo _ _ _ hst htu
  · intro s t u hst htu
    rw [equivOf_iff] at hst htu ⊢
    rw [key s t, key t s] at hst
    rw [key t u, key u t] at htu
    rw [key s u, key u s]
    rw [lexLess_incomp_iff] at hst htu ⊢
    exact forall₂_equiv_trans hswo _ _ _ hst htu

theorem checkBlockStable_iff (cmp : ConstantsComparator) (m : Model) (st : Decomposition)
    (id : Nat) :
    checkBlockStable cmp m st id = true ↔
      ∀ s1 ∈ st.partition.statesOf id, ∀ s2 ∈ st.partition.statesOf id,
        quotientDistributionsLess cmp m st s1 s2 = false := by
  unfold checkBlockStable
  simp only [List.all_eq_true, Bool.not_eq_true', Bool.or_eq_false_iff]
  constructor
  · intro h s1 h1 s2 h2
    exact (h s1 h1 s2 h2).1
  · intro h s1 h1 s2 h2
    exact ⟨h s1 h1 s2 h2, h s2 h2 s1 h1⟩

/-- The stability of a block depends on the member states and their signature lists
only. -/
theorem checkBlockStable_congr (cmp : ConstantsComparator) (m : Model)
    (st st' : Decomposition) (id id' : Nat)
    (hstates : ∀ s, s ∈ st'.partition.statesOf id' → s ∈ st.partition.statesOf id)
    (hsig : ∀ s ∈ st'.partition.statesOf id', st'.signature m s = st.signature m s)
    (h : checkBlockStable cmp m st id = true) : checkBlockStable cmp m st' id' = true := by
  rw [checkBlockStable_iff] at h ⊢
  intro s1 h1 s2 h2
  have := h s1 (hstates s1 h1) s2 (hstates s2 h2)
  unfold quotientDistributionsLess at this ⊢
  rw [hsig s1 h1, hsig s2 h2]
  exact this

/-- A block with at most one state is stable. -/
theorem checkBlockStable_of_small (cmp : ConstantsComparator) (m : Model)
    (st : Decomposition) (hswo : StrictWeakOrder (Distribution.less cmp))
    (hsorted : st.SignaturesSorted cmp m) (id : Nat)
    (h : st.partition.getNumberOfStates id ≤ 1) : checkBlockStable cmp m st id = true := by
  rw [checkBlockStable_iff]
  intro s1 h1 s2 h2
  have hlen : (st.partition.statesOf id).length ≤ 1 := by
    unfold Partition.statesOf Partition.slice
    unfold Partition.getNumberOfStates at h
    rw [List.length_map, List.length_take]
    omega
  have : s1 = s2 := by
    match hl : st.partition.statesOf id, hlen with
    | [], _ => rw [hl] at h1; simp at h1
    | [a], _ =>
        rw [hl] at h1 h2
        simp at h1 h2
        rw [h1, h2]
    | _ :: _ :: _, hlen => simp at hlen
  rw [this]
  exact (quotientDistributionsLess_swo cmp m st hswo hsorted).irrefl s2
theorem getD_set_nat (l : List Nat) (a v c : Nat) :
    (l.set a v).getD c 0 = if c = a ∧ a < l.length then v else l.getD c 0 := by
  simp only [List.getD_eq_getElem?_getD, List.getElem?_set]
  by_cases h : a = c
  · subst h
    by_cases h2 : a < l.length
    · simp [h2]
    · have : l[a]? = none := List.getElem?_eq_none (by omega)
      simp [h2, this]
  · have h' : ¬ c = a := fun e => h e.symm
    simp [h, h']

theorem foldl_set_range' (s : Nat) : ∀ (n a : Nat) (mp : List Nat),
    ((List.range' a n).foldl (fun mapping choice => mapping.set choice s) mp).length
        = mp.length ∧
    ∀ c, ((List.range' a n).foldl (fun mapping choice => mapping.set choice s) mp).getD c 0
      = if a ≤ c ∧ c < a + n ∧ c < mp.length then s else mp.getD c 0 := by
  intro n
  induction n with
  | zero =>
    intro a mp
    refine ⟨rfl, fun c => ?_⟩
    have : ¬ (a ≤ c ∧ c < a + 0 ∧ c < mp.length) := by omega
    simp only [List.range'_zero, List.foldl_nil]
    rw [if_neg this]
  | succ n ih =>
    intro a mp
    simp only [List.range'_succ, List.foldl_cons]
    obtain ⟨h1, h2⟩ := ih (a + 1) (mp.set a s)
    refine ⟨by rw [h1, List.length_set], fun c => ?_⟩
    rw [h2 c, getD_set_nat, List.length_set]
    by_cases hc : c = a
    · subst hc
      by_cases hl : c < mp.length
      · have e1 : ¬ (c + 1 ≤ c ∧ c < c + 1 + n ∧ c < mp.length) := by omega
        have e2 : c ≤ c ∧ c < c + (n + 1) ∧ c < mp.length := by omega
        rw [if_neg e1, if_pos ⟨rfl, hl⟩, if_pos e2]
      · have e1 : ¬ (c + 1 ≤ c ∧ c < c + 1 + n ∧ c < mp.length) := by omega
        have e2 : ¬ (c ≤ c ∧ c < c + (n + 1) ∧ c < mp.length) := by omega
        have e3 : ¬ (c = c ∧ c < mp.length) := by omega
        rw [if_neg e1, if_neg e3, if_neg e2]
    · have e3 : ¬ (c = a ∧ a < mp.length) := by omega
      rw [if_neg e3]
      by_cases hr : a + 1 ≤ c ∧ c < a + 1 + n ∧ c < mp.length
      · have e2 : a ≤ c ∧ c < a + (n + 1) ∧ c < mp.length := by omega
        rw [if_pos hr, if_pos e2]
      · have e2 : ¬ (a ≤ c ∧ c < a + (n + 1) ∧ c < mp.length) := by omega
        rw [if_neg hr, if_neg e2]

theorem choiceIndex_last (m : Model) :
    m.choiceIndex m.getNumberOfStates = m.rowGroupIndices.getLastD 0 := by
  unfold Model.choiceIndex Model.getNumberOfStates
  rw [List.getLastD_eq_getLast?, List.getLast?_eq_getElem?, List.getD_eq_getElem?_getD]

theorem choiceIndex_le_last (m : Model) (hm : m.Monotone) (s : Nat)
    (hs : s ≤ m.getNumberOfStates) : m.choiceIndex s ≤ m.rowGroupIndices.getLastD 0 := by
  rw [← choiceIndex_last]
  by_cases h0 : m.rowGroupIndices.length = 0
  · have : s = m.getNumberOfStates := by
      unfold Model.getNumberOfStates at hs ⊢
      omega
    rw [this]
  · apply choiceIndex_mono m hm s _ hs
    unfold Model.getNumberOfStates
    omega

theorem createChoiceToStateMapping_spec (m : Model) (hm : m.Monotone) (mp : List Nat)
    (hlast : m.rowGroupIndices.getLastD 0 ≤ mp.length) (n : Nat)
    (hn : n ≤ m.getNumberOfStates) :
    ((List.range n).foldl
        (fun mapping state =>
          (List.range' (m.choiceIndex state)
              (m.choiceIndex (state + 1) - m.choiceIndex state)).foldl
            (fun mapping choice => mapping.set choice state) mapping)
        mp).length = mp.length ∧
    ∀ s, s < n → ∀ c, m.choiceIndex s ≤ c → c < m.choiceIndex (s + 1) →
      ((List.range n).foldl
        (fun mapping state =>
          (List.range' (m.choiceIndex state)
              (m.choiceIndex (state + 1) - m.choiceIndex state)).foldl
            (fun mapping choice => mapping.set choice state) mapping)
        mp).getD c 0 = s := by
  induction n with
  | zero =>
    refine ⟨rfl, ?_⟩
    intro s hs
    omega
  | succ n ih =>
    obtain ⟨ihl, ihs⟩ := ih (by omega)
    rw [List.range_succ, List.foldl_append]
    simp only [List.foldl_cons, List.foldl_nil]
    obtain ⟨h1, h2⟩ := foldl_set_range' n (m.choiceIndex (n + 1) - m.choiceIndex n)
      (m.choiceIndex n)
      ((List.range n).foldl
        (fun mapping state =>
          (List.range' (m.choiceIndex state)
              (m.choiceIndex (state + 1) - m.choiceIndex state)).foldl
            (fun mapping choice => mapping.set choice state) mapping)
        mp)
    refine ⟨by rw [h1, ihl], ?_⟩
    intro s hs c hc1 hc2
    rw [h2 c, ihl]
    have hlen : n + 1 < m.rowGroupIndices.length := by
      unfold Model.getNumberOfStates at hn
      omega
    by_cases hsn : s = n
    · subst hsn
      have hle := choiceIndex_le_last m hm (s + 1) hn
      rw [if_pos (by omega)]
    · have hmono := choiceIndex_mono m hm (s + 1) n (by omega) (by omega)
      rw [if_neg (by omega)]
      exact ihs s (by omega) c hc1 hc2

theorem initializeDecomposition_mapping (cmp : ConstantsComparator) (m : Model)
    (hm : m.Monotone) (st : Decomposition)
    (hlast : m.rowGroupIndices.getLastD 0 ≤ st.choiceToStateMapping.length) :
    (initializeDecomposition cmp m st).MappingCorrect m := by
  intro s hs c hc1 hc2
  unfold initializeDecomposition initializeQuotientDistributions
  rw [(foldl_updateOrdered_frame cmp m _ _).2.2]
  have : ∀ (n : Nat) (st' : Decomposition),
      ((List.range n).foldl (initializeChoice cmp m) st').choiceToStateMapping
        = st'.choiceToStateMapping := by
    intro n
    induction n with
    | zero => intro st'; rfl
    | succ n ih =>
      intro st'
      rw [List.range_succ, List.foldl_append]
      simp only [List.foldl_cons, List.foldl_nil]
      exact ih st'
  rw [this]
  exact (createChoiceToStateMapping_spec m hm _ hlast _ (le_refl _)).2 s hs c hc1 hc2
theorem slice_eq_range' (l : List Nat) (a k : Nat) (h : a + k ≤ l.length)
    (hl : ∀ c, c < a + k → l.getD c 0 = c) : (l.drop a).take k = List.range' a k := by
  apply List.ext_getElem?
  intro i
  by_cases hi : i < k
  · have h1 := hl (a + i) (by omega)
    rw [List.getD_eq_getElem?_getD] at h1
    have h2 : l[a + i]? = some l[a + i] := List.getElem?_eq_getElem (by omega)
    rw [h2] at h1
    simp only [Option.getD_some] at h1
    rw [List.getElem?_take_of_lt hi, List.getElem?_drop, h2, h1]
    rw [List.getElem?_range' _ _ hi]
    simp
  · rw [List.getElem?_eq_none (by simp; omega), List.getElem?_eq_none (by simp; omega)]

theorem foldl_initializeChoice_ordered (cmp : ConstantsComparator) (m : Model)
    (st : Decomposition) (n : Nat) :
    ((List.range n).foldl (initializeChoice cmp m) st).orderedQuotientDistributions.length
      = st.orderedQuotientDistributions.length ∧
    ∀ c, ((List.range n).foldl (initializeChoice cmp m) st).orderedQuotientDistributions.getD c 0
      = if c < n ∧ c < st.orderedQuotientDistributions.length then c
        else st.orderedQuotientDistributions.getD c 0 := by
  induction n with
  | zero =>
    refine ⟨rfl, fun c => ?_⟩
    rw [if_neg (by omega)]
    rfl
  | succ n ih =>
    obtain ⟨h1, h2⟩ := ih
    rw [List.range_succ, List.foldl_append]
    simp only [List.foldl_cons, List.foldl_nil]
    refine ⟨?_, fun c => ?_⟩
    · show (List.set _ _ _).length = _
      rw [List.length_set, h1]
    · show (List.set _ _ _).getD c 0 = _
      rw [getD_set_nat, h1, h2 c]
      by_cases hc : c = n
      · subst hc
        by_cases hl : c < st.orderedQuotientDistributions.length
        · rw [if_pos ⟨rfl, hl⟩, if_pos (by omega)]
        · rw [if_neg (by omega), if_neg (by omega), if_neg (by omega)]
      · rw [if_neg (by omega)]
        by_cases hr : c < n ∧ c < st.orderedQuotientDistributions.length
        · rw [if_pos hr, if_pos (by omega)]
        · rw [if_neg hr, if_neg (by omega)]

theorem updateOrdered_rangesPermuted (cmp : ConstantsComparator) (m : Model)
    (hm : m.Monotone) (st : Decomposition) (s : Nat) (h : st.RangesPermuted m) :
    (updateOrderedQuotientDistributions cmp m st s).RangesPermuted m := by
  intro t ht
  by_cases hts : t = s
  · subst hts
    rw [updateOrdered_orderedRange_same]
    exact (List.perm_insertionSort _ _).trans (h t ht)
  · rw [updateOrdered_orderedRange_other cmp m hm st s t hts]
    exact h t ht

theorem foldl_updateOrdered_rangesPermuted (cmp : ConstantsComparator) (m : Model)
    (hm : m.Monotone) (l : List Nat) :
    ∀ st : Decomposition, st.RangesPermuted m →
      (l.foldl (updateOrderedQuotientDistributions cmp m) st).RangesPermuted m := by
  induction l with
  | nil => intro st h; exact h
  | cons a l ih =>
    intro st h
    exact ih _ (updateOrdered_rangesPermuted cmp m hm st a h)

theorem initializeDecomposition_rangesPermuted (cmp : ConstantsComparator) (m : Model)
    (hm : m.Monotone) (st : Decomposition)
    (hlast : m.rowGroupIndices.getLastD 0 ≤ st.orderedQuotientDistributions.length) :
    (initializeDecomposition cmp m st).RangesPermuted m := by
  unfold initializeDecomposition initializeQuotientDistributions
  apply foldl_updateOrdered_rangesPermuted cmp m hm
  intro s hs
  obtain ⟨h1, h2⟩ := foldl_initializeChoice_ordered cmp m
    { st with choiceToStateMapping := createChoiceToStateMapping m st.choiceToStateMapping }
    (m.rowGroupIndices.getLastD 0)
  have hle := choiceIndex_le_last m hm (s + 1) hs
  have hmono : m.choiceIndex s ≤ m.choiceIndex (s + 1) := by
    apply choiceIndex_mono m hm s (s + 1) (by omega)
    unfold Model.getNumberOfStates at hs
    omega
  unfold Decomposition.orderedRange
  rw [slice_eq_range']
  · rw [h1]
    show _ ≤ st.orderedQuotientDistributions.length
    omega
  · intro c hc
    rw [h2 c]
    rw [if_pos]
    constructor
    · omega
    · show c < st.orderedQuotientDistributions.length
      omega

theorem owned_of_rangesPermuted (m : Model) (st : Decomposition) (h1 : st.RangesPermuted m)
    (h2 : st.MappingCorrect m) : st.Owned m := by
  intro s hs c hc
  have := (h1 s hs).mem_iff.mp hc
  rw [List.mem_range'] at this
  obtain ⟨i, hi, rfl⟩ := this
  exact h2 s hs _ (by omega) (by omega)

/-! ## Frame of the predecessor update -/

theorem updateOrdered_orderedRange_perm (cmp : ConstantsComparator) (m : Model)
    (hm : m.Monotone) (st : Decomposition) (s t : Nat) :
    ((updateOrderedQuotientDistributions cmp m st s).orderedRange m t).Perm
      (st.orderedRange m t) := by
  by_cases hts : t = s
  · subst hts
    rw [updateOrdered_orderedRange_same]
    exact List.perm_insertionSort _ _
  · rw [updateOrdered_orderedRange_other cmp m hm st s t hts]

theorem repairOrder_orderedRange_perm (cmp : ConstantsComparator) (m : Model)
    (hm : m.Monotone) (st : Decomposition) (last : Option Nat) (ps t : Nat) :
    ((repairOrder cmp m st last ps).orderedRange m t).Perm (st.orderedRange m t) := by
  cases last with
  | none => exact List.Perm.refl _
  | some l =>
    show ((if l ≠ ps then updateOrderedQuotientDistributions cmp m st l
      else st).orderedRange m t).Perm _
    by_cases h : l ≠ ps
    · rw [if_pos h]
      exact updateOrdered_orderedRange_perm cmp m hm st l t
    · rw [if_neg h]

theorem repairOrder_signature (cmp : ConstantsComparator) (m : Model)
    (hm : m.Monotone) (st : Decomposition) (last : Option Nat) (ps s : Nat)
    (hs : last ≠ some s) :
    (repairOrder cmp m st last ps).signature m s = st.signature m s := by
  cases last with
  | none => rfl
  | some l =>
    show (if l ≠ ps then updateOrderedQuotientDistributions cmp m st l
      else st).signature m s = _
    by_cases h : l ≠ ps
    · rw [if_pos h]
      apply updateOrdered_signature_other cmp m hm st l s
      intro e
      exact hs (by rw [e])
    · rw [if_neg h]

theorem updatePredecessorEntry_orderedRange_perm (cmp : ConstantsComparator) (m : Model)
    (hm : m.Monotone) (newBlock oldBlock : Nat) (u : UpdateState) (e : Nat × ℚ) (t : Nat) :
    ((updatePredecessorEntry cmp m newBlock oldBlock u e).dec.orderedRange m t).Perm
      (u.dec.orderedRange m t) := by
  unfold updatePredecessorEntry
  by_cases hz : cmp.isZero e.2 = true
  · rw [if_pos hz]
  · rw [if_neg hz]
    exact repairOrder_orderedRange_perm cmp m hm _ _ _ t

theorem foldl_updatePredecessorEntry_orderedRange_perm (cmp : ConstantsComparator)
    (m : Model) (hm : m.Monotone) (newBlock oldBlock : Nat) (es : List (Nat × ℚ)) (t : Nat) :
    ∀ u : UpdateState,
      ((es.foldl (updatePredecessorEntry cmp m newBlock oldBlock) u).dec.orderedRange m t).Perm
        (u.dec.orderedRange m t) := by
  induction es with
  | nil => intro u; exact List.Perm.refl _
  | cons e es ih =>
    intro u
    exact (ih _).trans (updatePredecessorEntry_orderedRange_perm cmp m hm _ _ u e t)

theorem updateQuotientDistributionsOfPredecessors_orderedRange_perm
    (cmp : ConstantsComparator) (m : Model) (hm : m.Monotone) (st : Decomposition)
    (newBlock oldBlock : Nat) (queue : List Nat) (t : Nat) :
    ((updateQuotientDistributionsOfPredecessors cmp m st newBlock oldBlock
      queue).1.orderedRange m t).Perm (st.orderedRange m t) := by
  unfold updateQuotientDistributionsOfPredecessors finishUpdate
  split
  · exact (updateOrdered_orderedRange_perm cmp m hm _ _ t).trans
      (foldl_updatePredecessorEntry_orderedRange_perm cmp m hm _ _ _ t _)
  · exact foldl_updatePredecessorEntry_orderedRange_perm cmp m hm _ _ _ t _

theorem updateQuotientDistributionsOfPredecessors_mapping
    (cmp : ConstantsComparator) (m : Model) (st : Decomposition)
    (newBlock oldBlock : Nat) (queue : List Nat) :
    (updateQuotientDistributionsOfPredecessors cmp m st newBlock oldBlock
      queue).1.choiceToStateMapping = st.choiceToStateMapping := by
  unfold updateQuotientDistributionsOfPredecessors
  rw [(finishUpdate_frame cmp m _).2.2.1]
  exact (foldl_updatePredecessorEntry_partition cmp m _ _ _ _).2.2

/-- The signature list of a state that is neither the predecessor state of the entry nor
`lastState` is not touched by one round of the loop. -/
theorem updatePredecessorEntry_signature (cmp : ConstantsComparator) (m : Model)
    (hm : m.Monotone) (newBlock oldBlock : Nat) (u : UpdateState) (e : Nat × ℚ)
    (hown : u.dec.Owned m) (s : Nat) (hs : s ≠ u.dec.choiceToStateMapping.getD e.1 0)
    (hlast : u.lastState ≠ some s) :
    (updatePredecessorEntry cmp m newBlock oldBlock u e).dec.signature m s
      = u.dec.signature m s := by
  unfold updatePredecessorEntry
  by_cases hz : cmp.isZero e.2 = true
  · rw [if_pos hz]
  · rw [if_neg hz]
    by_cases hsN : s < m.getNumberOfStates
    · show (shiftChoice _ _ _ _ _).signature m s = _
      rw [shiftChoice_signature, repairOrder_signature cmp m hm _ _ _ s hlast]
      · rfl
      · intro hmem
        have hp := (repairOrder_orderedRange_perm cmp m hm _ _ _ s).mem_iff.mp hmem
        exact hs (hown s hsN e.1 hp).symm
    · rw [signature_eq_nil_of_ge m _ s (by omega), signature_eq_nil_of_ge m _ s (by omega)]

theorem markSplitter_splitter (p : Partition) (queue : List Nat) (b i : Nat) :
    ((markSplitter p queue b).1.block i).splitter
      = if i = b ∧ b < p.blocks.length then true else (p.block i).splitter := by
  unfold markSplitter
  by_cases hf : (p.block b).splitter = true
  · simp only [hf, Bool.not_true, Bool.false_eq_true, if_false]
    by_cases hi : i = b ∧ b < p.blocks.length
    · rw [if_pos hi, hi.1, hf]
    · rw [if_neg hi]
  · simp only [hf, Bool.not_false, if_true]
    rw [Partition.block_setSplitter]
    by_cases hi : i = b ∧ b < p.blocks.length
    · rw [if_pos hi, if_pos hi]
    · rw [if_neg hi, if_neg hi]

theorem markSplitter_queue (p : Partition) (queue : List Nat) (b : Nat) :
    (markSplitter p queue b).2
      = if (p.block b).splitter = true then queue else queue ++ [b] := by
  unfold markSplitter
  by_cases hf : (p.block b).splitter = true
  · simp [hf]
  · simp [hf]

theorem updatePredecessorEntry_flags (cmp : ConstantsComparator) (m : Model)
    (newBlock oldBlock : Nat) (u : UpdateState) (e : Nat × ℚ) (hz : ¬ cmp.isZero e.2 = true) :
    (updatePredecessorEntry cmp m newBlock oldBlock u e).dec.partition
        = (markSplitter u.dec.partition u.queue
            (u.dec.partition.getBlock (u.dec.choiceToStateMapping.getD e.1 0))).1 ∧
    (updatePredecessorEntry cmp m newBlock oldBlock u e).queue
        = (markSplitter u.dec.partition u.queue
            (u.dec.partition.getBlock (u.dec.choiceToStateMapping.getD e.1 0))).2 ∧
    (updatePredecessorEntry cmp m newBlock oldBlock u e).lastState
        = some (u.dec.choiceToStateMapping.getD e.1 0) := by
  unfold updatePredecessorEntry
  rw [if_neg hz]
  refine ⟨?_, rfl, rfl⟩
  show (repairOrder cmp m _ _ _).partition = _
  rw [(repairOrder_frame _ _ _ _ _).2.1]

theorem updatePredecessorEntry_owned (cmp : ConstantsComparator) (m : Model)
    (hm : m.Monotone) (newBlock oldBlock : Nat) (u : UpdateState) (e : Nat × ℚ)
    (hown : u.dec.Owned m) : (updatePredecessorEntry cmp m newBlock oldBlock u e).dec.Owned m := by
  intro s hs c hc
  rw [(updatePredecessorEntry_partition cmp m newBlock oldBlock u e).2.2]
  exact hown s hs c
    ((updatePredecessorEntry_orderedRange_perm cmp m hm newBlock oldBlock u e s).mem_iff.mp hc)

theorem updatePredecessorEntry_invariant (cmp : ConstantsComparator) (m : Model)
    (hm : m.Monotone) (newBlock oldBlock : Nat) (st0 : Decomposition) (q0 : List Nat)
    (hpos : ∀ s, st0.partition.getBlock s < st0.partition.blocks.length)
    (u : UpdateState) (e : Nat × ℚ) (h : UpdateInvariant m st0 q0 u) :
    UpdateInvariant m st0 q0 (updatePredecessorEntry cmp m newBlock oldBlock u e) := by
  by_cases hz : cmp.isZero e.2 = true
  · have : updatePredecessorEntry cmp m newBlock oldBlock u e = u := by
      unfold updatePredecessorEntry
      rw [if_pos hz]
    rw [this]
    exact h
  · obtain ⟨hp, hq, hl⟩ := updatePredecessorEntry_flags cmp m newBlock oldBlock u e hz
    have hlay := markSplitter_sameLayout u.dec.partition u.queue
      (u.dec.partition.getBlock (u.dec.choiceToStateMapping.getD e.1 0))
    have hpb : u.dec.partition.getBlock (u.dec.choiceToStateMapping.getD e.1 0)
        < u.dec.partition.blocks.length := by
      rw [h.layout.getBlock, h.layout.2.1]
      exact hpos _
    refine ⟨?_, ?_, ?_, ?_, ?_, ?_, updatePredecessorEntry_owned cmp m hm _ _ u e h.owned⟩
    · rw [hp]
      exact h.layout.trans hlay
    · intro id hid
      rw [hp, markSplitter_splitter]
      split
      · rfl
      · exact h.flags id hid
    · intro id hid
      rw [hq, markSplitter_queue]
      split
      · exact h.queue id hid
      · exact List.mem_append_left _ (h.queue id hid)
    · intro id hid
      rw [hp, markSplitter_splitter] at hid
      rw [hq, markSplitter_queue]
      by_cases hc : id = u.dec.partition.getBlock (u.dec.choiceToStateMapping.getD e.1 0)
          ∧ u.dec.partition.getBlock (u.dec.choiceToStateMapping.getD e.1 0)
            < u.dec.partition.blocks.length
      · by_cases hf : (u.dec.partition.block (u.dec.partition.getBlock
            (u.dec.choiceToStateMapping.getD e.1 0))).splitter = true
        · rw [if_pos hf]
          rw [← hc.1] at hf
          exact h.queued id hf
        · rw [if_neg hf]
          right
          rw [hc.1]
          simp
      · rw [if_neg hc] at hid
        rcases h.queued id hid with h1 | h1
        · exact Or.inl h1
        · right
          split
          · exact h1
          · exact List.mem_append_left _ h1
    · intro l hl'
      rw [hl] at hl'
      have hl'' := Option.some.inj hl'
      rw [hp, hlay.getBlock, markSplitter_splitter, ← hl'']
      rw [if_pos ⟨rfl, hpb⟩]
    · intro s hs
      rw [hp, hlay.getBlock, markSplitter_splitter] at hs
      by_cases hc : u.dec.partition.getBlock s
            = u.dec.partition.getBlock (u.dec.choiceToStateMapping.getD e.1 0)
          ∧ u.dec.partition.getBlock (u.dec.choiceToStateMapping.getD e.1 0)
            < u.dec.partition.blocks.length
      · rw [if_pos hc] at hs
        exact absurd hs (by simp)
      · rw [if_neg hc] at hs
        have hne : s ≠ u.dec.choiceToStateMapping.getD e.1 0 := by
          intro heq
          apply hc
          rw [← heq]
          exact ⟨rfl, heq ▸ hpb⟩
        have hlast : u.lastState ≠ some s := by
          intro heq
          have := h.last s heq
          rw [this] at hs
          exact absurd hs (by simp)
        rw [updatePredecessorEntry_signature cmp m hm _ _ u e h.owned s hne hlast]
        exact h.frame s hs

theorem foldl_updatePredecessorEntry_invariant (cmp : ConstantsComparator) (m : Model)
    (hm : m.Monotone) (newBlock oldBlock : Nat) (st0 : Decomposition) (q0 : List Nat)
    (hpos : ∀ s, st0.partition.getBlock s < st0.partition.blocks.length)
    (es : List (Nat × ℚ)) :
    ∀ u : UpdateState, UpdateInvariant m st0 q0 u →
      UpdateInvariant m st0 q0 (es.foldl (updatePredecessorEntry cmp m newBlock oldBlock) u) := by
  induction es with
  | nil => intro u h; exact h
  | cons e es ih =>
    intro u h
    exact ih _ (updatePredecessorEntry_invariant cmp m hm _ _ st0 q0 hpos u e h)

theorem finishUpdate_signature (cmp : ConstantsComparator) (m : Model) (hm : m.Monotone)
    (u : UpdateState) (s : Nat) (hs : u.lastState ≠ some s) :
    (finishUpdate cmp m u).1.signature m s = u.dec.signature m s := by
  obtain ⟨dec, queue, last⟩ := u
  cases last with
  | none => rfl
  | some l =>
    show (updateOrderedQuotientDistributions cmp m dec l).signature m s = _
    apply updateOrdered_signature_other cmp m hm dec l s
    intro e
    apply hs
    show some l = some s
    rw [e]

/-- One call of `updateQuotientDistributionsOfPredecessors` keeps the invariant of the
refinement loop. -/
theorem updateQuotientDistributionsOfPredecessors_invariant (cmp : ConstantsComparator)
    (m : Model) (hswo : StrictWeakOrder (Distribution.less cmp)) (hm : m.Monotone)
    (st : Decomposition) (newBlock oldBlock : Nat) (queue : List Nat)
    (h : RefinementInvariant cmp m (st, queue)) :
    RefinementInvariant cmp m
      (updateQuotientDistributionsOfPredecessors cmp m st newBlock oldBlock queue) := by
  have hso := updateQuotientDistributionsOfPredecessors_sorted cmp m hswo hm st newBlock
    oldBlock queue h.owned h.sorted
  have hlay : st.partition.SameLayout
      (updateQuotientDistributionsOfPredecessors cmp m st newBlock oldBlock
        queue).1.partition := by
    unfold updateQuotientDistributionsOfPredecessors
    rw [(finishUpdate_frame cmp m _).1]
    exact (foldl_updatePredecessorEntry_partition cmp m _ _ _ _).1
  by_cases hlen : st.partition.blocks.length = 0
  · refine ⟨hlay.valid h.valid, hso.2, hso.1, ?_, ?_⟩
    · intro id hid
      rw [hlay.2.1] at hid
      omega
    · intro id hid
      rw [hlay.2.1] at hid
      omega
  · have hpos : ∀ s, st.partition.getBlock s < st.partition.blocks.length :=
      Partition.getBlock_lt_of_pos st.partition h.valid (by omega)
    have h0 : UpdateInvariant m st queue { dec := st, queue := queue, lastState := none } :=
      { layout := Partition.SameLayout.refl _
        flags := fun _ hid => hid
        queue := fun _ hid => hid
        queued := fun _ hid => Or.inl hid
        last := fun l hl => by simp at hl
        frame := fun _ _ => rfl
        owned := h.owned }
    have hJ := foldl_updatePredecessorEntry_invariant cmp m hm newBlock oldBlock st queue hpos
      (predecessorEntries m st newBlock) _ h0
    have hpart : (updateQuotientDistributionsOfPredecessors cmp m st newBlock oldBlock
        queue).1.partition
        = ((predecessorEntries m st newBlock).foldl
            (updatePredecessorEntry cmp m newBlock oldBlock)
            { dec := st, queue := queue, lastState := none }).dec.partition := by
      unfold updateQuotientDistributionsOfPredecessors
      exact (finishUpdate_frame cmp m _).1
    have hqueue : (updateQuotientDistributionsOfPredecessors cmp m st newBlock oldBlock
        queue).2
        = ((predecessorEntries m st newBlock).foldl
            (updatePredecessorEntry cmp m newBlock oldBlock)
            { dec := st, queue := queue, lastState := none }).queue := by
      unfold updateQuotientDistributionsOfPredecessors
      exact (finishUpdate_frame cmp m _).2.2.2
    have hsig : ∀ s, ((updateQuotientDistributionsOfPredecessors cmp m st newBlock oldBlock
          queue).1.partition.block
          ((updateQuotientDistributionsOfPredecessors cmp m st newBlock oldBlock
            queue).1.partition.getBlock s)).splitter = false →
        (updateQuotientDistributionsOfPredecessors cmp m st newBlock oldBlock
          queue).1.signature m s = st.signature m s := by
      intro s hs
      rw [hpart] at hs
      have hne : ((predecessorEntries m st newBlock).foldl
            (updatePredecessorEntry cmp m newBlock oldBlock)
            { dec := st, queue := queue, lastState := none }).lastState ≠ some s := by
        intro heq
        have := hJ.last s heq
        rw [this] at hs
        exact absurd hs (by simp)
      unfold updateQuotientDistributionsOfPredecessors
      rw [finishUpdate_signature cmp m hm _ s hne]
      exact hJ.frame s hs
    refine ⟨hlay.valid h.valid, hso.2, hso.1, ?_, ?_⟩
    · intro id hid hflag
      rw [hpart] at hflag
      rw [hqueue]
      rcases hJ.queued id hflag with h1 | h1
      · apply hJ.queue
        apply h.queued id _ h1
        rw [hlay.2.1] at hid
        exact hid
      · exact h1
    · intro id hid hflag habs
      have hid0 : id < st.partition.blocks.length := by
        rw [hlay.2.1] at hid
        exact hid
      have hflag0 : (st.partition.block id).splitter = false := by
        cases hf : (st.partition.block id).splitter with
        | false => rfl
        | true =>
          have := hJ.flags id hf
          rw [← hpart, hflag] at this
          exact absurd this (by simp)
      have habs0 : (st.partition.block id).absorbing = false := by
        rw [← (hlay.2.2 id).2.2]
        exact habs
      apply checkBlockStable_congr cmp m st _ id id _ _ (h.stable id hid0 hflag0 habs0)
      · intro s hs
        rw [hlay.statesOf] at hs
        exact hs
      · intro s hs
        apply hsig s
        rw [Partition.getBlock_of_mem_statesOf _ (hlay.valid h.valid) id hid s hs]
        exact hflag

/-! ## The invariant of the refinement loop -/

theorem foldl_update_invariant (cmp : ConstantsComparator) (m : Model)
    (hswo : StrictWeakOrder (Distribution.less cmp)) (hm : m.Monotone) (oldBlock : Nat)
    (news : List Nat) :
    ∀ acc : Decomposition × List Nat, RefinementInvariant cmp m acc →
      RefinementInvariant cmp m
        (news.foldl
          (fun (acc : Decomposition × List Nat) el =>
            updateQuotientDistributionsOfPredecessors cmp m acc.1 el oldBlock acc.2)
          acc) := by
  induction news with
  | nil => intro acc h; exact h
  | cons el news ih =>
    intro acc h
    exact ih _ (updateQuotientDistributionsOfPredecessors_invariant cmp m hswo hm acc.1 el
      oldBlock acc.2 h)

/-- The split of a block followed by the predecessor updates establishes the invariant of
the refinement loop, whatever the state of the block that is split. -/
theorem splitBlockAccording_invariant (cmp : ConstantsComparator) (m : Model)
    (hswo : StrictWeakOrder (Distribution.less cmp)) (hm : m.Monotone)
    (st : Decomposition) (block : Nat) (queue : List Nat)
    (hv : st.partition.Valid) (hsorted : st.SignaturesSorted cmp m) (hown : st.Owned m)
    (hq : ∀ id, id < st.partition.blocks.length →
      (st.partition.block id).splitter = true → id ∈ queue)
    (hstable : ∀ id, id < st.partition.blocks.length → id ≠ block →
      (st.partition.block id).splitter = false →
      (st.partition.block id).absorbing = false → checkBlockStable cmp m st id = true) :
    RefinementInvariant cmp m
      ((splitBlockAccordingToCurrentQuotientDistributions cmp m st block queue).1,
        (splitBlockAccordingToCurrentQuotientDistributions cmp m st block queue).2.1) := by
  have spec := Partition.splitBlock_spec st.partition hv block
    (quotientDistributionsLess cmp m st)
  have hless := quotientDistributionsLess_swo cmp m st hswo hsorted
  unfold splitBlockAccordingToCurrentQuotientDistributions
  dsimp only
  apply foldl_update_invariant cmp m hswo hm block
  have hnews : ∀ id, id < (st.partition.splitBlock block
        (quotientDistributionsLess cmp m st)).1.blocks.length →
      st.partition.blocks.length ≤ id →
      id ∈ (st.partition.splitBlock block (quotientDistributionsLess cmp m st)).2.1 := by
    intro id h1 h2
    rw [spec.news, List.mem_range']
    exact ⟨id - st.partition.blocks.length, by omega, by omega⟩
  refine ⟨spec.valid, hsorted, hown, ?_, ?_⟩
  · intro id hid hflag
    by_cases hold : id < st.partition.blocks.length
    · apply hq id hold
      rw [← (spec.oldData id hold).2]
      exact hflag
    · have := (spec.newData id (hnews id hid (by omega))).2
      rw [this] at hflag
      exact absurd hflag (by simp)
  · intro id hid hflag habs
    by_cases hold : id < st.partition.blocks.length ∧ id ≠ block
    · have h0 := hstable id hold.1 hold.2
        (by rw [← (spec.oldData id hold.1).2]; exact hflag)
        (by rw [← (spec.oldData id hold.1).1]; exact habs)
      apply checkBlockStable_congr cmp m st _ id id _ _ h0
      · intro s hs
        rw [Partition.mem_statesOf_iff _ spec.valid id hid] at hs
        rw [Partition.mem_statesOf_iff _ hv id hold.1]
        rcases spec.members _ hs with h1 | h1
        · exact h1.1
        · rcases h1.2 with h2 | h2
          · exact absurd h2 hold.2
          · rw [spec.news, List.mem_range'] at h2
            obtain ⟨i, _, hi⟩ := h2
            have := hold.1
            omega
      · intro s _
        rfl
    · rw [checkBlockStable_iff]
      intro s1 h1 s2 h2
      rw [Partition.mem_statesOf_iff _ spec.valid id hid] at h1 h2
      have hin : ∀ s, (s, id) ∈ (st.partition.splitBlock block
          (quotientDistributionsLess cmp m st)).1.positions → (s, block) ∈ st.partition.positions := by
        intro s hs
        rcases spec.members _ hs with h3 | h3
        · exfalso
          apply hold
          exact ⟨hv.bound _ h3.1, h3.2⟩
        · exact h3.1
      have hcl := (spec.classes hless _ h1 _ h2 (hin s1 h1) (hin s2 h2)).mp rfl
      rw [equivOf_iff] at hcl
      exact hcl.1

theorem refinementStep_invariant (cmp : ConstantsComparator) (m : Model)
    (hswo : StrictWeakOrder (Distribution.less cmp)) (hm : m.Monotone)
    (s : Decomposition × List Nat) (h : RefinementInvariant cmp m s) :
    RefinementInvariant cmp m (refinementStep cmp m s) := by
  obtain ⟨st, queue⟩ := s
  cases queue with
  | nil => exact h
  | cons splitter rest =>
    have hlay := Partition.sameLayout_setSplitter st.partition splitter false
    have hv1 := hlay.valid h.valid
    have hq1 : ∀ id, id < (st.partition.setSplitter splitter false).blocks.length →
        ((st.partition.setSplitter splitter false).block id).splitter = true → id ∈ rest := by
      intro id hid hflag
      rw [hlay.2.1] at hid
      rw [Partition.block_setSplitter] at hflag
      by_cases hc : id = splitter ∧ splitter < st.partition.blocks.length
      · rw [if_pos hc] at hflag
        exact absurd hflag (by simp)
      · rw [if_neg hc] at hflag
        have hmem := h.queued id hid hflag
        have hne : id ≠ splitter := fun e => hc ⟨e, e ▸ hid⟩
        simpa [hne] using hmem
    have hstable1 : ∀ id, id < (st.partition.setSplitter splitter false).blocks.length →
        id ≠ splitter →
        ((st.partition.setSplitter splitter false).block id).splitter = false →
        ((st.partition.setSplitter splitter false).block id).absorbing = false →
        checkBlockStable cmp m { st with partition := st.partition.setSplitter splitter false }
          id = true := by
      intro id hid hne hflag habs
      rw [hlay.2.1] at hid
      rw [Partition.block_setSplitter, if_neg (fun hc => hne hc.1)] at hflag habs
      apply checkBlockStable_congr cmp m st _ id id _ _ (h.stable id hid hflag habs)
      · intro s hs
        have : Partition.statesOf (st.partition.setSplitter splitter false) id
            = st.partition.statesOf id := hlay.statesOf id
        rw [← this]
        exact hs
      · intro s _
        rfl
    show RefinementInvariant cmp m
      (refinePartitionBasedOnSplitter cmp m
        { st with partition := st.partition.setSplitter splitter false } splitter rest)
    unfold refinePartitionBasedOnSplitter
    by_cases hneed : possiblyNeedsRefinement
        { st with partition := st.partition.setSplitter splitter false } splitter = true
    · simp only [hneed, Bool.not_true, Bool.false_eq_true, if_false]
      exact splitBlockAccording_invariant cmp m hswo hm _ splitter rest hv1 h.sorted h.owned
        hq1 hstable1
    · simp only [hneed, Bool.not_false, if_true]
      refine ⟨hv1, h.sorted, h.owned, hq1, ?_⟩
      intro id hid hflag habs
      by_cases hne : id = splitter
      · apply checkBlockStable_of_small cmp m
          { st with partition := st.partition.setSplitter splitter false } hswo h.sorted
        unfold possiblyNeedsRefinement at hneed
        rw [hne] at habs
        simp only [Bool.and_eq_true, decide_eq_true_eq, Bool.not_eq_true', not_and,
          Bool.not_eq_false] at hneed
        by_contra hbig
        subst hne
        have := hneed (Nat.lt_of_not_le hbig)
        rw [habs] at this
        exact absurd this (by simp)
      · exact hstable1 id hid hne hflag habs

theorem refinementLoop_invariant (cmp : ConstantsComparator) (m : Model)
    (hswo : StrictWeakOrder (Distribution.less cmp)) (hm : m.Monotone) (fuel : Nat) :
    ∀ s : Decomposition × List Nat, RefinementInvariant cmp m s →
      RefinementInvariant cmp m (refinementLoop cmp m fuel s) := by
  induction fuel with
  | zero => intro s h; exact h
  | succ fuel ih =>
    intro s h
    obtain ⟨st, queue⟩ := s
    cases queue with
    | nil => exact h
    | cons splitter rest =>
      exact ih _ (refinementStep_invariant cmp m hswo hm _ h)

theorem enqueueAllBlocks_block (st : Decomposition) (i : Nat) :
    (enqueueAllBlocks st).1.partition.block i
      = if i < st.partition.blocks.length then { st.partition.block i with splitter := true }
        else st.partition.block i := by
  unfold enqueueAllBlocks Partition.block
  simp only [List.getD_eq_getElem?_getD, List.getElem?_map]
  by_cases hi : i < st.partition.blocks.length
  · rw [if_pos hi, List.getElem?_eq_getElem hi]
    rfl
  · rw [if_neg hi, List.getElem?_eq_none (by omega)]
    rfl

theorem enqueueAllBlocks_sameLayout (st : Decomposition) :
    st.partition.SameLayout (enqueueAllBlocks st).1.partition := by
  refine ⟨rfl, by simp [enqueueAllBlocks], fun i => ?_⟩
  rw [enqueueAllBlocks_block]
  split
  · exact ⟨rfl, rfl, rfl⟩
  · exact ⟨rfl, rfl, rfl⟩

/-- The invariant of the refinement loop holds at its start: after `initialize()`, with
all blocks enqueued. -/
theorem enqueueAllBlocks_invariant (cmp : ConstantsComparator) (m : Model)
    (hswo : StrictWeakOrder (Distribution.less cmp)) (hm : m.Monotone)
    (hrows : m.rowGroupIndices.getLastD 0 ≤ m.getNumberOfChoices)
    (p : Partition) (hv : p.Valid) :
    RefinementInvariant cmp m
      (enqueueAllBlocks (initializeDecomposition cmp m (construct m p))) := by
  have hpart : (initializeDecomposition cmp m (construct m p)).partition = p := by
    unfold initializeDecomposition
    rw [initializeQuotientDistributions_partition]
    rfl
  have hlay := enqueueAllBlocks_sameLayout (initializeDecomposition cmp m (construct m p))
  have hlen : (construct m p).choiceToStateMapping.length = m.getNumberOfChoices := by
    simp [construct]
  have hlen2 : (construct m p).orderedQuotientDistributions.length = m.getNumberOfChoices := by
    simp [construct]
  have hv0 : (initializeDecomposition cmp m (construct m p)).partition.Valid := by
    rw [hpart]
    exact hv
  refine ⟨hlay.valid hv0, ?_, ?_, ?_, ?_⟩
  · exact initializeQuotientDistributions_sorted cmp m hswo hm _
  · exact owned_of_rangesPermuted m _
      (initializeDecomposition_rangesPermuted cmp m hm _ (by rw [hlen2]; exact hrows))
      (initializeDecomposition_mapping cmp m hm _ (by rw [hlen]; exact hrows))
  · intro id hid _
    rw [hlay.2.1] at hid
    show id ∈ List.range _
    rw [List.mem_range]
    exact hid
  · intro id hid hflag
    rw [hlay.2.1] at hid
    rw [enqueueAllBlocks_block, if_pos hid] at hflag
    exact absurd hflag (by simp)

/-! ## Termination of the refinement loop -/

namespace Partition

theorem runsFrom_mem_ne_nil (less : Nat → Nat → Bool) (a : Nat) (l : List Nat) :
    ∀ r ∈ runsFrom less a l, r ≠ [] := by
  induction l generalizing a with
  | nil =>
    intro r hr
    simp [runsFrom] at hr
    rw [hr]
    simp
  | cons b rest ih =>
    intro r hr
    have hb := ih b
    simp only [runsFrom] at hr
    split at hr
    · simp at hr
      rw [hr]
      simp
    · rename_i r' rs h
      rw [h] at hb
      split at hr
      · rcases List.mem_cons.mp hr with h1 | h1
        · rw [h1]
          simp
        · exact hb r h1
      · rcases List.mem_cons.mp hr with h1 | h1
        · rw [h1]
          simp
        · exact hb r (List.mem_cons_of_mem _ h1)

theorem runs_mem_ne_nil (less : Nat → Nat → Bool) (l : List Nat) :
    ∀ r ∈ runs less l, r ≠ [] := by
  cases l with
  | nil =>
    intro r hr
    simp [runs] at hr
  | cons a l => exact runsFrom_mem_ne_nil less a l

/-- After `splitBlock` every new block holds a state, and the block that was split holds a
state if it held one before. -/
theorem splitBlock_nonempty (p : Partition) (id : Nat) (less : Nat → Nat → Bool) :
    (∀ j ∈ (p.splitBlock id less).2.1, ∃ s, (s, j) ∈ (p.splitBlock id less).1.positions) ∧
    (∀ s, (s, id) ∈ p.positions → ∃ t, (t, id) ∈ (p.splitBlock id less).1.positions) := by
  cases h : runs less ((p.statesOf id).insertionSort (fun s t => less t s = false)) with
  | nil =>
    rw [splitBlock_of_runs_nil p id less h]
    refine ⟨?_, fun s hs => ⟨s, hs⟩⟩
    intro j hj
    simp at hj
  | cons first others =>
    rw [splitBlock_of_runs_cons p id less first others h]
    have hne := runs_mem_ne_nil less
      ((p.statesOf id).insertionSort (fun s t => less t s = false))
    rw [h] at hne
    constructor
    · intro j hj
      rw [List.mem_range'] at hj
      obtain ⟨i, hi, rfl⟩ := hj
      have hmemr : others[i] ∈ first :: others :=
        List.mem_cons_of_mem _ (List.getElem_mem hi)
      obtain ⟨s, hs⟩ := List.exists_mem_of_ne_nil _ (hne _ hmemr)
      refine ⟨s, ?_⟩
      apply List.mem_append_left
      apply List.mem_append_right
      apply List.mem_append_right
      rw [mem_carvePositions]
      exact ⟨i, hi, hs, by simp⟩
    · intro _ _
      obtain ⟨t, ht⟩ := List.exists_mem_of_ne_nil _ (hne first (List.mem_cons_self _ _))
      refine ⟨t, ?_⟩
      apply List.mem_append_left
      apply List.mem_append_right
      apply List.mem_append_left
      exact List.mem_map_of_mem (fun s => (s, id)) ht

theorem FreshInhabited.blocks_le {b0 : Nat} {p : Partition} (h : p.FreshInhabited b0) :
    p.blocks.length ≤ b0 + p.positions.length := by
  have hsub : List.range' b0 (p.blocks.length - b0) ⊆ p.positions.map Prod.snd := by
    intro j hj
    rw [List.mem_range'] at hj
    obtain ⟨i, hi, rfl⟩ := hj
    obtain ⟨s, hs⟩ := h (b0 + 1 * i) (by omega) (by omega)
    exact List.mem_map_of_mem Prod.snd hs
  have := ((List.nodup_range' b0 (p.blocks.length - b0)).subperm hsub).length_le
  simp only [List.length_range', List.length_map] at this
  omega

theorem FreshInhabited.transfer {b0 : Nat} {p q : Partition} (h : p.FreshInhabited b0)
    (hlay : p.SameLayout q) : q.FreshInhabited b0 := by
  intro j h1 h2
  rw [hlay.2.1] at h2
  rw [hlay.1]
  exact h j h1 h2

theorem FreshInhabited.splitBlock {b0 : Nat} {p : Partition} (h : p.FreshInhabited b0)
    (hv : p.Valid) (id : Nat) (less : Nat → Nat → Bool) :
    (p.splitBlock id less).1.FreshInhabited b0 := by
  have spec := splitBlock_spec p hv id less
  have hne := splitBlock_nonempty p id less
  intro j h1 h2
  by_cases hold : j < p.blocks.length
  · obtain ⟨s, hs⟩ := h j h1 hold
    by_cases hj : j = id
    · subst hj
      exact hne.2 s hs
    · exact ⟨s, spec.frame _ hs hj⟩
  · apply hne.1
    rw [spec.news, List.mem_range']
    exact ⟨j - p.blocks.length, by omega, by omega⟩

end Partition

theorem updateQuotientDistributionsOfPredecessors_sameLayout (cmp : ConstantsComparator)
    (m : Model) (st : Decomposition) (newBlock oldBlock : Nat) (queue : List Nat) :
    st.partition.SameLayout
      (updateQuotientDistributionsOfPredecessors cmp m st newBlock oldBlock
        queue).1.partition := by
  unfold updateQuotientDistributionsOfPredecessors
  rw [(finishUpdate_frame cmp m _).1]
  exact (foldl_updatePredecessorEntry_partition cmp m _ _ _ _).1

theorem foldl_update_sameLayout (cmp : ConstantsComparator) (m : Model) (oldBlock : Nat)
    (news : List Nat) :
    ∀ acc : Decomposition × List Nat,
      acc.1.partition.SameLayout
        (news.foldl
          (fun (acc : Decomposition × List Nat) el =>
            updateQuotientDistributionsOfPredecessors cmp m acc.1 el oldBlock acc.2)
          acc).1.partition := by
  induction news with
  | nil => intro acc; exact Partition.SameLayout.refl _
  | cons el news ih =>
    intro acc
    exact (updateQuotientDistributionsOfPredecessors_sameLayout cmp m acc.1 el oldBlock
      acc.2).trans (ih _)

/-- One round of the refinement loop keeps the termination invariant and either creates a
block or only pops the queue. -/
theorem refinementStep_progress (cmp : ConstantsComparator) (m : Model) (b0 n : Nat)
    (st : Decomposition) (splitter : Nat) (rest : List Nat)
    (h : TerminationInvariant b0 n (st, splitter :: rest)) :
    TerminationInvariant b0 n (refinementStep cmp m (st, splitter :: rest)) ∧
    (st.partition.blocks.length
        < (refinementStep cmp m (st, splitter :: rest)).1.partition.blocks.length ∨
      ((refinementStep cmp m (st, splitter :: rest)).1.partition.blocks.length
          = st.partition.blocks.length ∧
        (refinementStep cmp m (st, splitter :: rest)).2 = rest)) := by
  have hlay := Partition.sameLayout_setSplitter st.partition splitter false
  have hv1 := hlay.valid h.valid
  have hlen1 : (st.partition.setSplitter splitter false).blocks.length
      = st.partition.blocks.length := hlay.2.1
  have hin1 : (st.partition.setSplitter splitter false).FreshInhabited b0 :=
    h.inhabited.transfer hlay
  show TerminationInvariant b0 n
      (refinePartitionBasedOnSplitter cmp m
        { st with partition := st.partition.setSplitter splitter false } splitter rest) ∧
    (st.partition.blocks.length
        < (refinePartitionBasedOnSplitter cmp m
          { st with partition := st.partition.setSplitter splitter false } splitter
          rest).1.partition.blocks.length ∨
      ((refinePartitionBasedOnSplitter cmp m
          { st with partition := st.partition.setSplitter splitter false } splitter
          rest).1.partition.blocks.length = st.partition.blocks.length ∧
        (refinePartitionBasedOnSplitter cmp m
          { st with partition := st.partition.setSplitter splitter false } splitter
          rest).2 = rest))
  unfold refinePartitionBasedOnSplitter
  by_cases hneed : possiblyNeedsRefinement
      { st with partition := st.partition.setSplitter splitter false } splitter = true
  · simp only [hneed, Bool.not_true, Bool.false_eq_true, if_false]
    unfold splitBlockAccordingToCurrentQuotientDistributions
    dsimp only
    have spec := Partition.splitBlock_spec (st.partition.setSplitter splitter false) hv1
      splitter
      (quotientDistributionsLess cmp m
        { st with partition := st.partition.setSplitter splitter false })
    have hlay2 := foldl_update_sameLayout cmp m splitter
      ((st.partition.setSplitter splitter false).splitBlock splitter
        (quotientDistributionsLess cmp m
          { st with partition := st.partition.setSplitter splitter false })).2.1
      ({ st with
          partition :=
            ((st.partition.setSplitter splitter false).splitBlock splitter
              (quotientDistributionsLess cmp m
                { st with partition := st.partition.setSplitter splitter false })).1 },
        rest)
    refine ⟨⟨hlay2.valid spec.valid, ?_, ?_⟩, ?_⟩
    · rw [hlay2.1]
      have := spec.states.length_eq
      simp only [List.length_map] at this
      show (Partition.positions _).length = n
      rw [this]
      exact h.size
    · exact (hin1.splitBlock hv1 splitter _).transfer hlay2
    · rw [hlay2.2.1]
      by_cases hnews : ((st.partition.setSplitter splitter false).splitBlock splitter
          (quotientDistributionsLess cmp m
            { st with partition := st.partition.setSplitter splitter false })).2.1 = []
      · right
        have hlen : ((st.partition.setSplitter splitter false).splitBlock splitter
            (quotientDistributionsLess cmp m
              { st with partition := st.partition.setSplitter splitter false })).1.blocks.length
            = st.partition.blocks.length := by
          have h1 := spec.news
          rw [hnews] at h1
          have h2 := congrArg List.length h1
          simp only [List.length_nil, List.length_range'] at h2
          have h3 := spec.grow
          show (Partition.blocks _).length = _
          omega
        refine ⟨hlen, ?_⟩
        rw [hnews]
        rfl
      · left
        have h1 := spec.news
        have h2 : 0 < ((st.partition.setSplitter splitter false).splitBlock splitter
            (quotientDistributionsLess cmp m
              { st with partition := st.partition.setSplitter splitter false })).2.1.length :=
          List.length_pos.mpr hnews
        rw [h1, List.length_range'] at h2
        have h3 : st.partition.blocks.length
            < ((st.partition.setSplitter splitter false).splitBlock splitter
              (quotientDistributionsLess cmp m
                { st with
                  partition := st.partition.setSplitter splitter false })).1.blocks.length := by
          omega
        exact h3
  · simp only [hneed, Bool.not_false, if_true]
    exact ⟨⟨hv1, h.size, hin1⟩, Or.inr ⟨hlen1, trivial⟩⟩

/-- The refinement loop empties the splitter queue: enough fuel exists. -/
theorem refinementLoop_terminates (cmp : ConstantsComparator) (m : Model) (b0 n : Nat) :
    ∀ (d k : Nat) (s : Decomposition × List Nat), TerminationInvariant b0 n s →
      b0 + n - s.1.partition.blocks.length ≤ d → s.2.length ≤ k →
      ∃ fuel, (refinementLoop cmp m fuel s).2 = [] := by
  intro d
  induction d using Nat.strong_induction_on with
  | _ d ihd =>
    intro k
    induction k with
    | zero =>
      intro s _ _ hk
      refine ⟨0, ?_⟩
      show s.2 = []
      exact List.eq_nil_of_length_eq_zero (by omega)
    | succ k ihk =>
      intro s h hd hk
      obtain ⟨st, queue⟩ := s
      cases queue with
      | nil => exact ⟨0, rfl⟩
      | cons splitter rest =>
        obtain ⟨hinv, hprog⟩ := refinementStep_progress cmp m b0 n st splitter rest h
        have hbound := hinv.inhabited.blocks_le
        rw [hinv.size] at hbound
        have hnext : ∃ fuel, (refinementLoop cmp m fuel
            (refinementStep cmp m (st, splitter :: rest))).2 = [] := by
          rcases hprog with hgrow | ⟨hsame, hq⟩
          · apply ihd (b0 + n
                - (refinementStep cmp m (st, splitter :: rest)).1.partition.blocks.length)
              _ _ _ hinv (le_refl _) (le_refl _)
            have : b0 + n - st.partition.blocks.length ≤ d := hd
            omega
          · apply ihk _ hinv
            · rw [hsame]
              exact hd
            · rw [hq]
              simp only [List.length_cons] at hk
              omega
        obtain ⟨fuel, hf⟩ := hnext
        exact ⟨fuel + 1, hf⟩

/-- A run of the decomposition on a valid initial partition empties the splitter queue. -/
theorem runRefinement_terminates (cmp : ConstantsComparator) (m : Model) (p : Partition)
    (hv : p.Valid) : ∃ fuel, (runRefinement cmp m p fuel).2 = [] := by
  have hpart : (initializeDecomposition cmp m (construct m p)).partition = p := by
    unfold initializeDecomposition
    rw [initializeQuotientDistributions_partition]
    rfl
  have hlay := enqueueAllBlocks_sameLayout (initializeDecomposition cmp m (construct m p))
  rw [hpart] at hlay
  have h0 : TerminationInvariant p.blocks.length p.positions.length
      (enqueueAllBlocks (initializeDecomposition cmp m (construct m p))) :=
    { valid := hlay.valid hv
      size := by rw [hlay.1]
      inhabited := by
        intro j h1 h2
        rw [hlay.2.1] at h2
        omega }
  exact refinementLoop_terminates cmp m p.blocks.length p.positions.length _ _ _ h0
    (le_refl _) (le_refl _)

/-! ## Stability of the fixpoint -/

/-- C1, as stated, fails in two ways.  First, with exact arithmetic, in the four-state
model whose states 0 and 1 form a block that is flagged absorbing (a well-formed model
and a valid initial partition): the refinement loop ends with an empty queue, the states
0 and 1 still share a block, and `quotientDistributionsLess(0, 1)` is true.  Second, with
the tolerance 1/8, in `tolModel` (a well-formed model and a valid initial partition
without absorbing blocks): the refinement loop ends with an empty queue, the states 0 and
2 still share block 0, and `quotientDistributionsLess(0, 2)` is true; the order
`Distribution.less` with a tolerance is not a strict weak order. -/
theorem stability_fails_as_stated :
    (absorbingModel.Monotone ∧
      absorbingModel.rowGroupIndices.getLastD 0 = absorbingModel.getNumberOfChoices ∧
      absorbingPartition.Valid ∧
      (runRefinement exactComparator absorbingModel absorbingPartition 3).2 = [] ∧
      (runRefinement exactComparator absorbingModel absorbingPartition
          3).1.partition.getBlock 0
        = (runRefinement exactComparator absorbingModel absorbingPartition
            3).1.partition.getBlock 1 ∧
      quotientDistributionsLess exactComparator absorbingModel
        (runRefinement exactComparator absorbingModel absorbingPartition 3).1 0 1 = true) ∧
    (tolModel.Monotone ∧
      tolModel.rowGroupIndices.getLastD 0 = tolModel.getNumberOfChoices ∧
      tolPartition.Valid ∧
      (∀ b ∈ tolPartition.blocks, b.absorbing = false) ∧
      (runRefinement (toleranceComparator (1 / 8)) tolModel tolPartition 3).2 = [] ∧
      (runRefinement (toleranceComparator (1 / 8)) tolModel tolPartition
          3).1.partition.getBlock 0 = 0 ∧
      (runRefinement (toleranceComparator (1 / 8)) tolModel tolPartition
          3).1.partition.getBlock 2 = 0 ∧
      ((runRefinement (toleranceComparator (1 / 8)) tolModel tolPartition
          3).1.partition.block 0).absorbing = false ∧
      quotientDistributionsLess (toleranceComparator (1 / 8)) tolModel
        (runRefinement (toleranceComparator (1 / 8)) tolModel tolPartition 3).1 0 2 = true) := by
  refine ⟨⟨by simp [Model.Monotone, absorbingModel], by decide!,
    ⟨by decide!, by decide!, by decide!⟩, by decide!, by decide!, by decide!⟩,
    ⟨by simp [Model.Monotone, tolModel], by decide!,
    ⟨by decide!, by decide!, by decide!⟩, by decide!, by decide!, by decide!, by decide!,
    by decide!, by decide!⟩⟩

/-- C1, amended: stability of the fixpoint for the blocks that are not flagged absorbing.
For a strict weak order `Distribution.less`, a model whose row-group indices are
non-decreasing and end at the number of choices, and a valid initial partition with all
initial blocks enqueued: the refinement loop empties the splitter queue, and once the
splitter queue is empty, for all states `s1`, `s2` that lie in the same final block, if
that block is not flagged absorbing then `quotientDistributionsLess(s1, s2)` and
`quotientDistributionsLess(s2, s1)` are false, and `checkBlockStable` holds for every
block that is not flagged absorbing. -/
theorem stability_of_fixpoint (cmp : ConstantsComparator) (m : Model) (p : Partition)
    (hswo : StrictWeakOrder (Distribution.less cmp)) (hm : m.Monotone)
    (hrows : m.rowGroupIndices.getLastD 0 = m.getNumberOfChoices) (hv : p.Valid) :
    (∃ fuel, (runRefinement cmp m p fuel).2 = []) ∧
    ∀ fuel, (runRefinement cmp m p fuel).2 = [] →
    (∀ s1 ∈ (runRefinement cmp m p fuel).1.partition.positions.map Prod.fst,
      ∀ s2 ∈ (runRefinement cmp m p fuel).1.partition.positions.map Prod.fst,
        (runRefinement cmp m p fuel).1.partition.getBlock s1
          = (runRefinement cmp m p fuel).1.partition.getBlock s2 →
        ((runRefinement cmp m p fuel).1.partition.block
          ((runRefinement cmp m p fuel).1.partition.getBlock s1)).absorbing = false →
        quotientDistributionsLess cmp m (runRefinement cmp m p fuel).1 s1 s2 = false ∧
        quotientDistributionsLess cmp m (runRefinement cmp m p fuel).1 s2 s1 = false) ∧
    (∀ id, id < (runRefinement cmp m p fuel).1.partition.blocks.length →
      ((runRefinement cmp m p fuel).1.partition.block id).absorbing = false →
      checkBlockStable cmp m (runRefinement cmp m p fuel).1 id = true) := by
  refine ⟨runRefinement_terminates cmp m p hv, ?_⟩
  intro fuel hempty
  have inv : RefinementInvariant cmp m (runRefinement cmp m p fuel) :=
    refinementLoop_invariant cmp m hswo hm fuel _
      (enqueueAllBlocks_invariant cmp m hswo hm (le_of_eq hrows) p hv)
  have hblocks : ∀ id, id < (runRefinement cmp m p fuel).1.partition.blocks.length →
      ((runRefinement cmp m p fuel).1.partition.block id).absorbing = false →
      checkBlockStable cmp m (runRefinement cmp m p fuel).1 id = true := by
    intro id hid habs
    apply inv.stable id hid _ habs
    cases hf : ((runRefinement cmp m p fuel).1.partition.block id).splitter with
    | false => rfl
    | true =>
      have := inv.queued id hid hf
      rw [hempty] at this
      exact absurd this (List.not_mem_nil _)
  refine ⟨?_, hblocks⟩
  intro s1 h1 s2 h2 hsame habs
  have hid := Partition.getBlock_lt _ inv.valid s1 h1
  have hst := (checkBlockStable_iff cmp m _ _).mp (hblocks _ hid habs)
  have hm1 : s1 ∈ (runRefinement cmp m p fuel).1.partition.statesOf
      ((runRefinement cmp m p fuel).1.partition.getBlock s1) := by
    rw [Partition.mem_statesOf_iff _ inv.valid _ hid]
    exact Partition.mem_of_getBlock _ inv.valid.nodup s1 h1
  have hm2 : s2 ∈ (runRefinement cmp m p fuel).1.partition.statesOf
      ((runRefinement cmp m p fuel).1.partition.getBlock s1) := by
    rw [Partition.mem_statesOf_iff _ inv.valid _ hid, hsame]
    exact Partition.mem_of_getBlock _ inv.valid.nodup s2 h2
  exact ⟨hst s1 hm1 s2 hm2, hst s2 hm2 s1 hm1⟩

theorem stability_of_fixpoint_witness :
    (∃ fuel, (runRefinement exactComparator duplicateChoiceModel singleBlockPartition
      fuel).2 = []) ∧
    ∀ fuel, (runRefinement exactComparator duplicateChoiceModel singleBlockPartition
        fuel).2 = [] →
    (∀ s1 ∈ (runRefinement exactComparator duplicateChoiceModel singleBlockPartition
        fuel).1.partition.positions.map Prod.fst,
      ∀ s2 ∈ (runRefinement exactComparator duplicateChoiceModel singleBlockPartition
          fuel).1.partition.positions.map Prod.fst,
        (runRefinement exactComparator duplicateChoiceModel singleBlockPartition
            fuel).1.partition.getBlock s1
          = (runRefinement exactComparator duplicateChoiceModel singleBlockPartition
            fuel).1.partition.getBlock s2 →
        ((runRefinement exactComparator duplicateChoiceModel singleBlockPartition
            fuel).1.partition.block
          ((runRefinement exactComparator duplicateChoiceModel singleBlockPartition
            fuel).1.partition.getBlock s1)).absorbing = false →
        quotientDistributionsLess exactComparator duplicateChoiceModel
          (runRefinement exactComparator duplicateChoiceModel singleBlockPartition fuel).1
          s1 s2 = false ∧
        quotientDistributionsLess exactComparator duplicateChoiceModel
          (runRefinement exactComparator duplicateChoiceModel singleBlockPartition fuel).1
          s2 s1 = false) ∧
    (∀ id, id < (runRefinement exactComparator duplicateChoiceModel singleBlockPartition
        fuel).1.partition.blocks.length →
      ((runRefinement exactComparator duplicateChoiceModel singleBlockPartition
        fuel).1.partition.block id).absorbing = false →
      checkBlockStable exactComparator duplicateChoiceModel
        (runRefinement exactComparator duplicateChoiceModel singleBlockPartition fuel).1
        id = true) :=
  stability_of_fixpoint exactComparator duplicateChoiceModel singleBlockPartition
    Distribution.less_exact_strictWeakOrder (by simp [Model.Monotone, duplicateChoiceModel])
    (by decide!) ⟨by decide!, by decide!, by decide!⟩

/-! ## Coarser partitions keep matching choices -/

theorem massBy_coarsen_aux (R : List (Nat × ℚ)) (g f : Nat → Nat) (j : Nat)
    (hgf : ∀ e ∈ R, ∀ e' ∈ R, g e.1 = g e'.1 → f e.1 = f e'.1) :
    ∀ r : List (Nat × ℚ), (∀ e ∈ r, e ∈ R) →
      Distribution.mass (r.map (fun e => (f e.1, e.2))) j
        = (((R.map (fun e => g e.1)).dedup).map
            (fun k => if (∃ e ∈ R, g e.1 = k ∧ f e.1 = j) then
              Distribution.mass (r.map (fun e => (g e.1, e.2))) k else 0)).sum := by
  intro r
  induction r with
  | nil =>
    intro _
    simp [Distribution.mass_nil]
  | cons e r ih =>
    intro hsub
    have ih' := ih (fun e' he' => hsub e' (List.mem_cons_of_mem _ he'))
    have heR : e ∈ R := hsub e (List.mem_cons_self _ _)
    simp only [List.map_cons, Distribution.mass_cons]
    rw [ih']
    have hsplit : ∀ k, (if (∃ e ∈ R, g e.1 = k ∧ f e.1 = j) then
          (if g e.1 = k then e.2 else 0)
            + Distribution.mass (r.map (fun e => (g e.1, e.2))) k else 0)
        = (if k = g e.1 then (if f e.1 = j then e.2 else 0) else 0)
          + (if (∃ e ∈ R, g e.1 = k ∧ f e.1 = j) then
              Distribution.mass (r.map (fun e => (g e.1, e.2))) k else 0) := by
      intro k
      by_cases hk : k = g e.1
      · subst hk
        have hiff : (∃ e' ∈ R, g e'.1 = g e.1 ∧ f e'.1 = j) ↔ f e.1 = j := by
          constructor
          · rintro ⟨e', he', h1, h2⟩
            rw [← h2]
            exact hgf e heR e' he' h1.symm
          · intro h
            exact ⟨e, heR, rfl, h⟩
        by_cases hf : f e.1 = j
        · simp [hiff, hf]
        · simp [hiff, hf]
      · have hk' : ¬ g e.1 = k := fun h => hk h.symm
        simp [hk, hk']
    simp only [hsplit]
    rw [List.sum_map_add, Distribution.sum_indicator_nodup _ (List.nodup_dedup _)]
    have hmem : g e.1 ∈ (R.map (fun e => g e.1)).dedup := by
      rw [List.mem_dedup]
      exact List.mem_map_of_mem (fun e => g e.1) heR
    rw [if_pos hmem]

/-- If two rows have the same masses per block of `g` and `g` refines `f` on the columns
of the rows, then the rows have the same masses per block of `f`. -/
theorem massBy_coarsen (r1 r2 : List (Nat × ℚ)) (g f : Nat → Nat)
    (hgf : ∀ e ∈ r1 ++ r2, ∀ e' ∈ r1 ++ r2, g e.1 = g e'.1 → f e.1 = f e'.1)
    (h : ∀ k, Distribution.mass (r1.map (fun e => (g e.1, e.2))) k
      = Distribution.mass (r2.map (fun e => (g e.1, e.2))) k) (j : Nat) :
    Distribution.mass (r1.map (fun e => (f e.1, e.2))) j
      = Distribution.mass (r2.map (fun e => (f e.1, e.2))) j := by
  rw [massBy_coarsen_aux (r1 ++ r2) g f j hgf r1 (fun e he => List.mem_append_left _ he),
    massBy_coarsen_aux (r1 ++ r2) g f j hgf r2 (fun e he => List.mem_append_right _ he)]
  simp only [h]

/-! ## Matching choices and signature lists -/

theorem getRow_closed (m : Model) (hc : m.Closed) (c : Nat) :
    ∀ e ∈ m.getRow c, e.1 < m.getNumberOfStates := by
  intro e he
  unfold Model.getRow at he
  rw [List.getD_eq_getElem?_getD] at he
  by_cases h : c < m.rows.length
  · rw [List.getElem?_eq_getElem h] at he
    exact hc _ (List.getElem_mem h) e he
  · rw [List.getElem?_eq_none (by omega)] at he
    simp at he

/-- Matching choices stay matching when the partition gets coarser. -/
theorem matches_coarsen (m : Model) (hc : m.Closed) (g f : Nat → Nat)
    (hgf : ∀ s1, s1 < m.getNumberOfStates → ∀ s2, s2 < m.getNumberOfStates →
      g s1 = g s2 → f s1 = f s2)
    (s1 s2 : Nat) (h : m.Matches g s1 s2) : m.Matches f s1 s2 := by
  have key : ∀ c1 c2, (∀ k, m.blockMass g c1 k = m.blockMass g c2 k) →
      ∀ k, m.blockMass f c1 k = m.blockMass f c2 k := by
    intro c1 c2 hk k
    apply massBy_coarsen (m.getRow c1) (m.getRow c2) g f _ hk k
    intro e he e' he'
    have hlt : ∀ x ∈ m.getRow c1 ++ m.getRow c2, x.1 < m.getNumberOfStates := by
      intro x hx
      rcases List.mem_append.mp hx with h1 | h1
      · exact getRow_closed m hc c1 x h1
      · exact getRow_closed m hc c2 x h1
    exact hgf _ (hlt e he) _ (hlt e' he')
  constructor
  · intro c1 h1
    obtain ⟨c2, h2, hk⟩ := h.1 c1 h1
    exact ⟨c2, h2, key c1 c2 hk⟩
  · intro c2 h2
    obtain ⟨c1, h1, hk⟩ := h.2 c2 h2
    exact ⟨c1, h1, key c1 c2 hk⟩

theorem orderedRange_perm_choicesOf (m : Model) (st : Decomposition)
    (h : st.RangesPermuted m) (s : Nat) : (st.orderedRange m s).Perm (m.choicesOf s) := by
  by_cases hs : s < m.getNumberOfStates
  · exact h s hs
  · rw [orderedRange_eq_nil_of_ge m st s (by omega)]
    have h0 : m.choiceIndex (s + 1) = 0 := by
      unfold Model.choiceIndex
      unfold Model.getNumberOfStates at hs
      rw [List.getD_eq_default]
      omega
    unfold Model.choicesOf
    rw [h0]
    simp

/-- With the rebuilt distributions, two states are incomparable for
`quotientDistributionsLess` exactly if their choices match. -/
theorem quotientDistributionsLess_incomp_iff_matches (m : Model) (st : Decomposition)
    (hsorted : st.SignaturesSorted exactComparator m)
    (ht : st.Tracks m st.partition.getBlock) (hr : st.RangesPermuted m) (s1 s2 : Nat) :
    (quotientDistributionsLess exactComparator m st s1 s2 = false ∧
      quotientDistributionsLess exactComparator m st s2 s1 = false) ↔
    m.Matches st.partition.getBlock s1 s2 := by
  unfold quotientDistributionsLess
  rw [signatureLess_incomp_iff Distribution.less_exact_strictWeakOrder _ _ (hsorted s1)
    (hsorted s2)]
  have hmem : ∀ s d, d ∈ st.signature m s ↔ ∃ c ∈ m.choicesOf s, st.distribution c = d := by
    intro s d
    unfold Decomposition.signature
    rw [List.mem_map]
    constructor
    · rintro ⟨c, hc, hd⟩
      exact ⟨c, (orderedRange_perm_choicesOf m st hr s).mem_iff.mp hc, hd⟩
    · rintro ⟨c, hc, hd⟩
      exact ⟨c, (orderedRange_perm_choicesOf m st hr s).mem_iff.mpr hc, hd⟩
  have heq : ∀ c1 c2, equivOf (Distribution.less exactComparator) (st.distribution c1)
      (st.distribution c2) = true ↔
      ∀ k, m.blockMass st.partition.getBlock c1 k = m.blockMass st.partition.getBlock c2 k := by
    intro c1 c2
    rw [Distribution.equivOf_less_exact_iff]
    constructor
    · intro h k
      rw [← ht.mass, ← ht.mass]
      exact h k
    · intro h k
      rw [ht.mass, ht.mass]
      exact h k
  unfold Model.Matches
  constructor
  · rintro ⟨h1, h2⟩
    constructor
    · intro c1 hc1
      obtain ⟨d2, hd2, he⟩ := h1 _ ((hmem s1 _).mpr ⟨c1, hc1, rfl⟩)
      obtain ⟨c2, hc2, rfl⟩ := (hmem s2 _).mp hd2
      exact ⟨c2, hc2, (heq c1 c2).mp he⟩
    · intro c2 hc2
      obtain ⟨d1, hd1, he⟩ := h2 _ ((hmem s2 _).mpr ⟨c2, hc2, rfl⟩)
      obtain ⟨c1, hc1, rfl⟩ := (hmem s1 _).mp hd1
      exact ⟨c1, hc1, (heq c1 c2).mp he⟩
  · rintro ⟨h1, h2⟩
    constructor
    · intro d1 hd1
      obtain ⟨c1, hc1, rfl⟩ := (hmem s1 _).mp hd1
      obtain ⟨c2, hc2, hk⟩ := h1 c1 hc1
      exact ⟨_, (hmem s2 _).mpr ⟨c2, hc2, rfl⟩, (heq c1 c2).mpr hk⟩
    · intro d2 hd2
      obtain ⟨c2, hc2, rfl⟩ := (hmem s2 _).mp hd2
      obtain ⟨c1, hc1, hk⟩ := h2 c2 hc2
      exact ⟨_, (hmem s1 _).mpr ⟨c1, hc1, rfl⟩, (heq c1 c2).mpr hk⟩

/-! ## The quotient invariant -/

theorem QuotientInvariant.of_sameLayout (m : Model) (p0 : Partition)
    (st st' : Decomposition) (q q' : List Nat) (h : QuotientInvariant m p0 (st, q))
    (hlay : st.partition.SameLayout st'.partition)
    (hqd : st'.quotientDistributions = st.quotientDistributions)
    (hord : ∀ s, (st'.orderedRange m s).Perm (st.orderedRange m s)) :
    QuotientInvariant m p0 (st', q') := by
  have hg : st'.partition.getBlock = st.partition.getBlock := funext hlay.getBlock
  have hd : ∀ c, st'.distribution c = st.distribution c := by
    intro c
    unfold Decomposition.distribution
    rw [hqd]
  refine ⟨?_, ?_, ?_, ?_, ?_, ?_⟩
  · show Decomposition.Tracks m st'.partition.getBlock st'
    rw [hg]
    exact
      { length := by rw [hqd]; exact h.tracks.length
        keys := fun c => by rw [hd]; exact h.tracks.keys c
        zeroFree := fun c => by rw [hd]; exact h.tracks.zeroFree c
        mass := fun c k => by rw [hd]; exact h.tracks.mass c k }
  · intro s hs
    exact (hord s).trans (h.ranges s hs)
  · intro t ht
    show t ∈ st'.partition.positions.map Prod.fst
    rw [hlay.1]
    exact h.members t ht
  · intro id
    show (st'.partition.block id).absorbing = false
    rw [(hlay.2.2 id).2.2]
    exact h.noAbsorbing id
  · intro s1 s2 h12
    apply h.refines s1 s2
    show st.partition.getBlock s1 = st.partition.getBlock s2
    rw [← hg]
    exact h12
  · intro g hgs s1 h1 s2 h2 h12
    show st'.partition.getBlock s1 = st'.partition.getBlock s2
    rw [hg]
    exact h.coarsest g hgs s1 h1 s2 h2 h12

theorem foldl_update_orderedRange_perm (cmp : ConstantsComparator) (m : Model)
    (hm : m.Monotone) (oldBlock : Nat) (news : List Nat) (t : Nat) :
    ∀ acc : Decomposition × List Nat,
      ((news.foldl
          (fun (acc : Decomposition × List Nat) el =>
            updateQuotientDistributionsOfPredecessors cmp m acc.1 el oldBlock acc.2)
          acc).1.orderedRange m t).Perm (acc.1.orderedRange m t) := by
  induction news with
  | nil => intro acc; exact List.Perm.refl _
  | cons el news ih =>
    intro acc
    exact (ih _).trans
      (updateQuotientDistributionsOfPredecessors_orderedRange_perm cmp m hm acc.1 el oldBlock
        acc.2 t)

/-- The split of a block followed by the predecessor updates keeps the quotient
invariant. -/
theorem splitBlockAccording_quotient (m : Model) (hm : m.Nonnegative) (hmono : m.Monotone)
    (hc : m.Closed) (p0 : Partition) (st : Decomposition) (block : Nat) (queue : List Nat)
    (hv : st.partition.Valid) (hsorted : st.SignaturesSorted exactComparator m)
    (h : QuotientInvariant m p0 (st, queue)) :
    QuotientInvariant m p0
      ((splitBlockAccordingToCurrentQuotientDistributions exactComparator m st block queue).1,
        (splitBlockAccordingToCurrentQuotientDistributions exactComparator m st block
          queue).2.1) := by
  have spec := Partition.splitBlock_spec st.partition hv block
    (quotientDistributionsLess exactComparator m st)
  have hcases := spec.getBlock_cases hv
  have hless := quotientDistributionsLess_swo exactComparator m st
    Distribution.less_exact_strictWeakOrder hsorted
  obtain ⟨hlay, htracks⟩ := splitBlockAccording_tracks m hm st block queue hv h.tracks
  have hg : ∀ s, (splitBlockAccordingToCurrentQuotientDistributions exactComparator m st block
      queue).1.partition.getBlock s
      = (st.partition.splitBlock block
          (quotientDistributionsLess exactComparator m st)).1.getBlock s := hlay.getBlock
  have hmemnews : ∀ j, j ∈ (st.partition.splitBlock block
        (quotientDistributionsLess exactComparator m st)).2.1 →
      st.partition.blocks.length ≤ j := by
    intro j hj
    rw [spec.news, List.mem_range'] at hj
    obtain ⟨i, _, hji⟩ := hj
    omega
  have hsame : ∀ s1 s2, (st.partition.splitBlock block
        (quotientDistributionsLess exactComparator m st)).1.getBlock s1
      = (st.partition.splitBlock block
        (quotientDistributionsLess exactComparator m st)).1.getBlock s2 →
      st.partition.getBlock s1 = st.partition.getBlock s2 := by
    intro s1 s2 h12
    rcases hcases s1 with h1 | h1
    · rcases hcases s2 with h2 | h2
      · rw [← h1, ← h2]
        exact h12
      · exfalso
        have hne : (st.partition.splitBlock block
            (quotientDistributionsLess exactComparator m st)).2.1 ≠ [] :=
          List.ne_nil_of_mem h2.2
        have hpos := spec.inTable hne
        have hlt := Partition.getBlock_lt_of_pos st.partition hv (by omega) s1
        have hge := hmemnews _ h2.2
        rw [← h12, h1] at hge
        omega
    · rcases hcases s2 with h2 | h2
      · exfalso
        have hne : (st.partition.splitBlock block
            (quotientDistributionsLess exactComparator m st)).2.1 ≠ [] :=
          List.ne_nil_of_mem h1.2
        have hpos := spec.inTable hne
        have hlt := Partition.getBlock_lt_of_pos st.partition hv (by omega) s2
        have hge := hmemnews _ h1.2
        rw [h12, h2] at hge
        omega
      · rw [h1.1, h2.1]
  have hmem' : ∀ t, t < m.getNumberOfStates →
      t ∈ (st.partition.splitBlock block
        (quotientDistributionsLess exactComparator m st)).1.positions.map Prod.fst := by
    intro t ht
    exact spec.states.mem_iff.mpr (h.members t ht)
  refine ⟨htracks, ?_, ?_, ?_, ?_, ?_⟩
  · intro s hs
    unfold splitBlockAccordingToCurrentQuotientDistributions
    dsimp only
    exact (foldl_update_orderedRange_perm exactComparator m hmono block _ s _).trans
      (h.ranges s hs)
  · intro t ht
    show t ∈ List.map Prod.fst _
    rw [hlay.1]
    exact hmem' t ht
  · intro id
    show (Partition.block _ id).absorbing = false
    rw [(hlay.2.2 id).2.2]
    by_cases h1 : id < st.partition.blocks.length
    · rw [(spec.oldData id h1).1]
      exact h.noAbsorbing id
    · by_cases h2 : id < (st.partition.splitBlock block
          (quotientDistributionsLess exactComparator m st)).1.blocks.length
      · apply (spec.newData id _).1
        rw [spec.news, List.mem_range']
        exact ⟨id - st.partition.blocks.length, by omega, by omega⟩
      · rw [Partition.block_eq_default_of_ge _ id (by omega)]
        rfl
  · intro s1 s2 h12
    apply h.refines s1 s2
    apply hsame
    rw [← hg, ← hg]
    exact h12
  · intro g hgs s1 h1 s2 h2 h12
    show Partition.getBlock _ s1 = Partition.getBlock _ s2
    rw [hg, hg]
    have hold := h.coarsest g hgs s1 h1 s2 h2 h12
    have hm1 := Partition.mem_of_getBlock _ hv.nodup s1 (h.members s1 h1)
    have hm2 := Partition.mem_of_getBlock _ hv.nodup s2 (h.members s2 h2)
    have hn1 := Partition.mem_of_getBlock _ spec.valid.nodup s1 (hmem' s1 h1)
    have hn2 := Partition.mem_of_getBlock _ spec.valid.nodup s2 (hmem' s2 h2)
    by_cases hb : st.partition.getBlock s1 = block
    · have hb2 : st.partition.getBlock s2 = block := by rw [← hold]; exact hb
      rw [hb] at hm1
      rw [hb2] at hm2
      apply (spec.classes hless _ hn1 _ hn2 hm1 hm2).mpr
      rw [equivOf_iff]
      apply (quotientDistributionsLess_incomp_iff_matches m st hsorted h.tracks h.ranges
        s1 s2).mpr
      exact matches_coarsen m hc g st.partition.getBlock (h.coarsest g hgs) s1 s2
        (hgs s1 h1 s2 h2 h12).2
    · have hb2 : st.partition.getBlock s2 ≠ block := by rw [← hold]; exact hb
      rw [Partition.getBlock_eq_of_mem _ spec.valid.nodup s1 _ (spec.frame _ hm1 hb),
        Partition.getBlock_eq_of_mem _ spec.valid.nodup s2 _ (spec.frame _ hm2 hb2)]
      exact hold

theorem refinementStep_quotient (m : Model) (hm : m.Nonnegative) (hmono : m.Monotone)
    (hc : m.Closed) (p0 : Partition) (s : Decomposition × List Nat)
    (hinv : RefinementInvariant exactComparator m s) (h : QuotientInvariant m p0 s) :
    QuotientInvariant m p0 (refinementStep exactComparator m s) := by
  obtain ⟨st, queue⟩ := s
  cases queue with
  | nil => exact h
  | cons splitter rest =>
    have hlay := Partition.sameLayout_setSplitter st.partition splitter false
    have h1 : QuotientInvariant m p0
        ({ st with partition := st.partition.setSplitter splitter false }, rest) :=
      QuotientInvariant.of_sameLayout m p0 st _ _ rest h hlay rfl (fun _ => List.Perm.refl _)
    show QuotientInvariant m p0
      (refinePartitionBasedOnSplitter exactComparator m
        { st with partition := st.partition.setSplitter splitter false } splitter rest)
    unfold refinePartitionBasedOnSplitter
    by_cases hneed : possiblyNeedsRefinement
        { st with partition := st.partition.setSplitter splitter false } splitter = true
    · simp only [hneed, Bool.not_true, Bool.false_eq_true, if_false]
      exact splitBlockAccording_quotient m hm hmono hc p0 _ splitter rest
        (hlay.valid hinv.valid) hinv.sorted h1
    · simp only [hneed, Bool.not_false, if_true]
      exact h1

theorem refinementLoop_quotient (m : Model) (hm : m.Nonnegative) (hmono : m.Monotone)
    (hc : m.Closed) (p0 : Partition) (fuel : Nat) :
    ∀ s : Decomposition × List Nat, RefinementInvariant exactComparator m s →
      QuotientInvariant m p0 s →
      QuotientInvariant m p0 (refinementLoop exactComparator m fuel s) := by
  induction fuel with
  | zero => intro s _ h; exact h
  | succ fuel ih =>
    intro s hinv h
    obtain ⟨st, queue⟩ := s
    cases queue with
    | nil => exact h
    | cons splitter rest =>
      exact ih _
        (refinementStep_invariant exactComparator m Distribution.less_exact_strictWeakOrder
          hmono _ hinv)
        (refinementStep_quotient m hm hmono hc p0 _ hinv h)

theorem nodup_keys_replay_aux (g : Nat → Nat) (l : List (Nat × ℚ)) :
    ∀ d : Distribution, d.keys.Nodup →
      (l.foldl
        (fun d entry =>
          if !exactComparator.isZero entry.2 then
            Distribution.addProbability d (g entry.1) entry.2
          else d) d).keys.Nodup := by
  induction l with
  | nil => intro d hd; exact hd
  | cons e l ih =>
    intro d hd
    simp only [List.foldl_cons]
    apply ih
    split
    · exact Distribution.nodup_keys_addProbability d _ _ hd
    · exact hd

theorem nodup_keys_rebuildDistribution (m : Model) (p : Partition) (c : Nat) :
    (rebuildDistribution exactComparator m p c).keys.Nodup :=
  nodup_keys_replay_aux p.getBlock (m.getRow c) [] List.nodup_nil

theorem initializeDecomposition_distribution (m : Model) (p : Partition)
    (hrows : m.rowGroupIndices.getLastD 0 = m.getNumberOfChoices) (c : Nat) :
    (initializeDecomposition exactComparator m (construct m p)).distribution c
      = rebuildDistribution exactComparator m p c := by
  unfold initializeDecomposition
  rw [initializeQuotientDistributions_distribution]
  by_cases hcl : c < m.getNumberOfChoices
  · rw [if_pos]
    · show replayRow exactComparator m p c ((construct m p).distribution c) = _
      rw [construct_distribution]
      rfl
    · refine ⟨by omega, ?_⟩
      show c < (construct m p).quotientDistributions.length
      simp [construct, hcl]
  · rw [if_neg (by omega), rebuildDistribution_eq_nil_of_ge _ m p c (by omega)]
    exact construct_distribution m p c

theorem initializeDecomposition_tracks (m : Model) (hm : m.Nonnegative) (p : Partition)
    (hrows : m.rowGroupIndices.getLastD 0 = m.getNumberOfChoices) :
    (initializeDecomposition exactComparator m (construct m p)).Tracks m p.getBlock where
  length := by
    unfold initializeDecomposition initializeQuotientDistributions
    rw [(foldl_updateOrdered_frame _ _ _ _).1, (foldl_initializeChoice_invariants _ _ _ _).2.1]
    simp [construct]
  keys := fun c => by
    rw [initializeDecomposition_distribution m p hrows]
    exact nodup_keys_rebuildDistribution m p c
  zeroFree := fun c k hk => by
    rw [initializeDecomposition_distribution m p hrows] at hk ⊢
    exact ne_of_gt (positive_rebuildDistribution m hm p c k hk)
  mass := fun c k => by
    rw [initializeDecomposition_distribution m p hrows, mass_rebuildDistribution]

/-- The quotient invariant holds at the start of the refinement loop. -/
theorem enqueueAllBlocks_quotient (m : Model) (hm : m.Nonnegative) (hmono : m.Monotone)
    (hrows : m.rowGroupIndices.getLastD 0 = m.getNumberOfChoices) (p : Partition)
    (hcover : ∀ t, t < m.getNumberOfStates → t ∈ p.positions.map Prod.fst)
    (hno : ∀ b ∈ p.blocks, b.absorbing = false) :
    QuotientInvariant m p
      (enqueueAllBlocks (initializeDecomposition exactComparator m (construct m p))) := by
  have hpart : (initializeDecomposition exactComparator m (construct m p)).partition = p := by
    unfold initializeDecomposition
    rw [initializeQuotientDistributions_partition]
    rfl
  have hlen2 : (construct m p).orderedQuotientDistributions.length = m.getNumberOfChoices := by
    simp [construct]
  have h0 : QuotientInvariant m p
      (initializeDecomposition exactComparator m (construct m p), []) := by
    refine ⟨?_, ?_, ?_, ?_, ?_, ?_⟩
    · show Decomposition.Tracks m (Partition.getBlock _) _
      rw [hpart]
      exact initializeDecomposition_tracks m hm p hrows
    · exact initializeDecomposition_rangesPermuted exactComparator m hmono _
        (by rw [hlen2]; exact le_of_eq hrows)
    · intro t ht
      show t ∈ List.map Prod.fst (Partition.positions _)
      rw [hpart]
      exact hcover t ht
    · intro id
      show (Partition.block _ id).absorbing = false
      rw [hpart]
      by_cases hid : id < p.blocks.length
      · apply hno
        unfold Partition.block
        rw [List.getD_eq_getElem?_getD, List.getElem?_eq_getElem hid]
        exact List.getElem_mem hid
      · rw [Partition.block_eq_default_of_ge p id (by omega)]
        rfl
    · intro s1 s2 h12
      rw [hpart] at h12
      exact h12
    · intro g hgs s1 h1 s2 h2 h12
      show Partition.getBlock _ s1 = Partition.getBlock _ s2
      rw [hpart]
      exact (hgs s1 h1 s2 h2 h12).1
  exact QuotientInvariant.of_sameLayout m p _ _ [] _ h0
    (enqueueAllBlocks_sameLayout _) rfl (fun _ => List.Perm.refl _)

/-! ## The fixpoint is the coarsest stable refinement -/

theorem matches_symm (m : Model) (g : Nat → Nat) (s1 s2 : Nat) (h : m.Matches g s1 s2) :
    m.Matches g s2 s1 := by
  constructor
  · intro c2 h2
    obtain ⟨c1, h1, hk⟩ := h.2 c2 h2
    exact ⟨c1, h1, fun k => (hk k).symm⟩
  · intro c1 h1
    obtain ⟨c2, h2, hk⟩ := h.1 c1 h1
    exact ⟨c2, h2, fun k => (hk k).symm⟩

theorem matches_trans (m : Model) (g : Nat → Nat) (s1 s2 s3 : Nat)
    (h12 : m.Matches g s1 s2) (h23 : m.Matches g s2 s3) : m.Matches g s1 s3 := by
  constructor
  · intro c1 h1
    obtain ⟨c2, h2, hk⟩ := h12.1 c1 h1
    obtain ⟨c3, h3, hk'⟩ := h23.1 c2 h2
    exact ⟨c3, h3, fun k => (hk k).trans (hk' k)⟩
  · intro c3 h3
    obtain ⟨c2, h2, hk⟩ := h23.2 c3 h3
    obtain ⟨c1, h1, hk'⟩ := h12.2 c2 h2
    exact ⟨c1, h1, fun k => (hk' k).trans (hk k)⟩

/-- In a stable refinement of `p0` that every stable refinement of `p0` refines, two
states of one block of `p0` with matching choices share a block. -/
theorem share_block_of_matches (m : Model) (hc : m.Closed) (p0 : Partition) (f : Nat → Nat)
    (hstable : m.StableRefinement p0 f)
    (hcoarsest : ∀ g, m.StableRefinement p0 g →
      ∀ s1, s1 < m.getNumberOfStates → ∀ s2, s2 < m.getNumberOfStates → g s1 = g s2 →
        f s1 = f s2)
    (s1 s2 : Nat) (h1 : s1 < m.getNumberOfStates) (h2 : s2 < m.getNumberOfStates)
    (hp : p0.getBlock s1 = p0.getBlock s2) (hmatch : m.Matches f s1 s2) : f s1 = f s2 := by
  have hg : m.StableRefinement p0 (fun s => if f s = f s2 then f s1 else f s) := by
    have hself : ∀ t, t < m.getNumberOfStates → m.Matches f t t :=
      fun t ht => (hstable t ht t ht rfl).2
    -- every state is related to the state that represents its merged block
    have hrep : ∀ t, t < m.getNumberOfStates →
        ∃ r, r < m.getNumberOfStates ∧ f r = (if f t = f s2 then f s1 else f t) ∧
          p0.getBlock t = p0.getBlock r ∧ m.Matches f t r := by
      intro t ht
      by_cases hts : f t = f s2
      · refine ⟨s1, h1, by rw [if_pos hts], ?_, ?_⟩
        · rw [(hstable t ht s2 h2 hts).1, hp]
        · exact matches_trans m f t s2 s1 (hstable t ht s2 h2 hts).2
            (matches_symm m f s1 s2 hmatch)
      · exact ⟨t, ht, by rw [if_neg hts], rfl, hself t ht⟩
    intro t1 ht1 t2 ht2 h12
    obtain ⟨r1, hr1, hf1, hp1, hm1⟩ := hrep t1 ht1
    obtain ⟨r2, hr2, hf2, hp2, hm2⟩ := hrep t2 ht2
    have hr : f r1 = f r2 := by
      rw [hf1, hf2]
      exact h12
    have hrs := hstable r1 hr1 r2 hr2 hr
    refine ⟨by rw [hp1, hp2, hrs.1], ?_⟩
    apply matches_coarsen m hc f _ _ t1 t2
      (matches_trans m f t1 r1 t2 hm1
        (matches_trans m f r1 r2 t2 hrs.2 (matches_symm m f t2 r2 hm2)))
    intro a _ b _ hab
    show (if f a = f s2 then f s1 else f a) = (if f b = f s2 then f s1 else f b)
    rw [hab]
  have := hcoarsest _ hg s1 h1 s2 h2 (by
    show (if f s1 = f s2 then f s1 else f s1) = (if f s2 = f s2 then f s1 else f s2)
    rw [if_pos rfl]
    split <;> rfl)
  exact this

/-- C2, as stated, fails: in the four-state model whose states 0 and 1 form a block that
is flagged absorbing, the refinement loop ends with an empty queue and the states 0 and 1
share a block although the choice of state 0 has no matching choice in state 1; and the
states 0 and 2, which lie in different initial blocks, have matching choices and do not
share a block. -/
theorem fixpoint_is_not_the_quotient :
    absorbingModel.Nonnegative ∧ absorbingModel.Monotone ∧ absorbingModel.Closed ∧
    absorbingModel.rowGroupIndices.getLastD 0 = absorbingModel.getNumberOfChoices ∧
    absorbingPartition.Valid ∧
    (runRefinement exactComparator absorbingModel absorbingPartition 3).2 = [] ∧
    ((runRefinement exactComparator absorbingModel absorbingPartition 3).1.partition.getBlock 0
        = (runRefinement exactComparator absorbingModel absorbingPartition
            3).1.partition.getBlock 1 ∧
      ¬ absorbingModel.Matches
        (runRefinement exactComparator absorbingModel absorbingPartition
          3).1.partition.getBlock 0 1) ∧
    ((runRefinement exactComparator absorbingModel absorbingPartition 3).1.partition.getBlock 0
        ≠ (runRefinement exactComparator absorbingModel absorbingPartition
            3).1.partition.getBlock 2 ∧
      absorbingModel.Matches
        (runRefinement exactComparator absorbingModel absorbingPartition
          3).1.partition.getBlock 0 2) := by
  refine ⟨by unfold Model.Nonnegative; decide!, by simp [Model.Monotone, absorbingModel],
    by unfold Model.Closed; decide!, by decide!, ⟨by decide!, by decide!, by decide!⟩,
    by decide!, ⟨by decide!, ?_⟩, ⟨by decide!, ?_⟩⟩
  · intro h
    obtain ⟨c2, hc2, hk⟩ := h.1 0 (by decide)
    have hc : absorbingModel.choicesOf 1 = [1] := by decide
    rw [hc, List.mem_singleton] at hc2
    subst hc2
    exact absurd (hk 2) (by decide!)
  · have h0 : absorbingModel.choicesOf 0 = [0] := by decide
    have h2 : absorbingModel.choicesOf 2 = [2] := by decide
    have hrow : ∀ g k, absorbingModel.blockMass g 0 k = absorbingModel.blockMass g 2 k :=
      fun _ _ => rfl
    unfold Model.Matches
    rw [h0, h2]
    constructor
    · intro c1 h1
      rw [List.mem_singleton] at h1
      subst h1
      exact ⟨2, by simp, hrow _⟩
    · intro c2 h2'
      rw [List.mem_singleton] at h2'
      subst h2'
      exact ⟨0, by simp, hrow _⟩

/-- C2, amended: the fixpoint is the bisimulation quotient relative to the initial
partition when no block is flagged absorbing.  For a model with exact, non-negative
probabilities, non-decreasing row-group indices that end at the number of choices and
columns that are states, and a valid initial partition of the states of the model without
absorbing blocks: the refinement loop empties the splitter queue; when the splitter queue
is empty, two states share a block of the final partition if and only if they share a
block of the initial partition and every choice of one has a matching choice of the other
with identical probability mass per target block; and at every round of the loop every
partition that refines the initial one and whose blocks hold only states with matching
choices refines the current partition, so the final partition is the coarsest such
partition and two strongly bisimilar states of the same initial block are never put into
different blocks. -/
theorem fixpoint_is_coarsest_stable_refinement (m : Model) (p : Partition)
    (hm : m.Nonnegative) (hmono : m.Monotone) (hc : m.Closed)
    (hrows : m.rowGroupIndices.getLastD 0 = m.getNumberOfChoices) (hv : p.Valid)
    (hcover : ∀ t, t < m.getNumberOfStates → t ∈ p.positions.map Prod.fst)
    (hno : ∀ b ∈ p.blocks, b.absorbing = false) :
    (∃ fuel, (runRefinement exactComparator m p fuel).2 = []) ∧
    ∀ fuel,
    ((runRefinement exactComparator m p fuel).2 = [] →
      ∀ s1, s1 < m.getNumberOfStates → ∀ s2, s2 < m.getNumberOfStates →
        ((runRefinement exactComparator m p fuel).1.partition.getBlock s1
            = (runRefinement exactComparator m p fuel).1.partition.getBlock s2 ↔
          p.getBlock s1 = p.getBlock s2 ∧
            m.Matches (runRefinement exactComparator m p fuel).1.partition.getBlock s1 s2)) ∧
    (∀ g, m.StableRefinement p g →
      ∀ s1, s1 < m.getNumberOfStates → ∀ s2, s2 < m.getNumberOfStates → g s1 = g s2 →
        (runRefinement exactComparator m p fuel).1.partition.getBlock s1
          = (runRefinement exactComparator m p fuel).1.partition.getBlock s2) := by
  refine ⟨runRefinement_terminates exactComparator m p hv, ?_⟩
  intro fuel
  have inv0 := enqueueAllBlocks_invariant exactComparator m
    Distribution.less_exact_strictWeakOrder hmono (le_of_eq hrows) p hv
  have inv : RefinementInvariant exactComparator m (runRefinement exactComparator m p fuel) :=
    refinementLoop_invariant exactComparator m Distribution.less_exact_strictWeakOrder hmono
      fuel _ inv0
  have qinv : QuotientInvariant m p (runRefinement exactComparator m p fuel) :=
    refinementLoop_quotient m hm hmono hc p fuel _ inv0
      (enqueueAllBlocks_quotient m hm hmono hrows p hcover hno)
  refine ⟨?_, qinv.coarsest⟩
  intro hempty
  have hstable : m.StableRefinement p
      (runRefinement exactComparator m p fuel).1.partition.getBlock := by
    intro s1 h1 s2 h2 h12
    refine ⟨qinv.refines s1 s2 h12, ?_⟩
    have hmem1 := qinv.members s1 h1
    have hmem2 := qinv.members s2 h2
    have hid := Partition.getBlock_lt _ inv.valid s1 hmem1
    have hflag : ((runRefinement exactComparator m p fuel).1.partition.block
        ((runRefinement exactComparator m p fuel).1.partition.getBlock s1)).splitter
        = false := by
      cases hf : ((runRefinement exactComparator m p fuel).1.partition.block
          ((runRefinement exactComparator m p fuel).1.partition.getBlock s1)).splitter with
      | false => rfl
      | true =>
        have := inv.queued _ hid hf
        rw [hempty] at this
        exact absurd this (List.not_mem_nil _)
    have hst := (checkBlockStable_iff exactComparator m _ _).mp
      (inv.stable _ hid hflag (qinv.noAbsorbing _))
    have hm1 : s1 ∈ (runRefinement exactComparator m p fuel).1.partition.statesOf
        ((runRefinement exactComparator m p fuel).1.partition.getBlock s1) := by
      rw [Partition.mem_statesOf_iff _ inv.valid _ hid]
      exact Partition.mem_of_getBlock _ inv.valid.nodup s1 hmem1
    have hm2 : s2 ∈ (runRefinement exactComparator m p fuel).1.partition.statesOf
        ((runRefinement exactComparator m p fuel).1.partition.getBlock s1) := by
      rw [Partition.mem_statesOf_iff _ inv.valid _ hid, h12]
      exact Partition.mem_of_getBlock _ inv.valid.nodup s2 hmem2
    exact (quotientDistributionsLess_incomp_iff_matches m _ inv.sorted qinv.tracks qinv.ranges
      s1 s2).mp ⟨hst s1 hm1 s2 hm2, hst s2 hm2 s1 hm1⟩
  intro s1 h1 s2 h2
  constructor
  · exact hstable s1 h1 s2 h2
  · intro h
    exact share_block_of_matches m hc p _ hstable qinv.coarsest s1 s2 h1 h2 h.1 h.2

theorem fixpoint_is_coarsest_stable_refinement_witness :
    (∃ fuel, (runRefinement exactComparator threeStateModel threeStatePartition
      fuel).2 = []) ∧
    ∀ fuel,
    ((runRefinement exactComparator threeStateModel threeStatePartition fuel).2 = [] →
      ∀ s1, s1 < threeStateModel.getNumberOfStates →
        ∀ s2, s2 < threeStateModel.getNumberOfStates →
        ((runRefinement exactComparator threeStateModel threeStatePartition
              fuel).1.partition.getBlock s1
            = (runRefinement exactComparator threeStateModel threeStatePartition
              fuel).1.partition.getBlock s2 ↔
          threeStatePartition.getBlock s1 = threeStatePartition.getBlock s2 ∧
            threeStateModel.Matches
              (runRefinement exactComparator threeStateModel threeStatePartition
                fuel).1.partition.getBlock s1 s2)) ∧
    (∀ g, threeStateModel.StableRefinement threeStatePartition g →
      ∀ s1, s1 < threeStateModel.getNumberOfStates →
        ∀ s2, s2 < threeStateModel.getNumberOfStates → g s1 = g s2 →
        (runRefinement exactComparator threeStateModel threeStatePartition
            fuel).1.partition.getBlock s1
          = (runRefinement exactComparator threeStateModel threeStatePartition
            fuel).1.partition.getBlock s2) :=
  fixpoint_is_coarsest_stable_refinement threeStateModel threeStatePartition
    (by unfold Model.Nonnegative; decide!) (by simp [Model.Monotone, threeStateModel])
    (by unfold Model.Closed; decide!) (by decide!) ⟨by decide!, by decide!, by decide!⟩
    (by decide!) (by decide!)

/-! ## The order of distributions for a correct comparator -/

namespace Distribution

end Distribution

/-! ## The result of a split -/

namespace Partition

/-- The pair of a member state and its block is an entry of the sequence. -/
theorem mem_positions_of_mem_statesOf (p : Partition) (hv : p.Valid) (id s : Nat)
    (hs : s ∈ p.statesOf id) : (s, id) ∈ p.positions ∧ id < p.blocks.length := by
  have hid : id < p.blocks.length := by
    by_contra hge
    unfold statesOf at hs
    rw [slice_eq_nil_of_ge p id (by omega)] at hs
    simp at hs
  exact ⟨(mem_statesOf_iff p hv id hid s).mp hs, hid⟩

/-- A state of the block that is split is, after the split, an entry of the sequence with
its new block. -/
theorem SplitSpec.mem_after {p : Partition} {id : Nat} {less : Nat → Nat → Bool}
    {r : Partition × List Nat × Bool} (h : p.SplitSpec id less r) (hv : p.Valid) (s : Nat)
    (hs : s ∈ p.statesOf id) : (s, r.1.getBlock s) ∈ r.1.positions := by
  have h1 := (mem_positions_of_mem_statesOf p hv id s hs).1
  apply mem_of_getBlock r.1 h.valid.nodup s
  rw [h.states.mem_iff]
  exact List.mem_map_of_mem Prod.fst h1

end Partition

/-- C12, amended: the result of the split for a strict weak order.  For a valid
partition, sorted signature lists and a strict weak order `Distribution.less`: after `partition.splitBlock(block,
quotientDistributionsLess, onNewBlock)` any two states that were in `block` before the
split lie in the same resulting sub-block if and only if neither is
`quotientDistributionsLess` than the other; `onNewBlock` has been invoked exactly once for
every newly created sub-block, and never for a block that existed before, in particular
never for the sub-block that keeps the original id. -/
theorem splitBlock_result (cmp : ConstantsComparator) (m : Model) (st : Decomposition)
    (block : Nat) (hswo : StrictWeakOrder (Distribution.less cmp))
    (hsorted : st.SignaturesSorted cmp m) (hv : st.partition.Valid) :
    (∀ s1 ∈ st.partition.statesOf block, ∀ s2 ∈ st.partition.statesOf block,
      ((st.partition.splitBlock block (quotientDistributionsLess cmp m st)).1.getBlock s1
          = (st.partition.splitBlock block
              (quotientDistributionsLess cmp m st)).1.getBlock s2 ↔
        (quotientDistributionsLess cmp m st s1 s2 = false ∧
          quotientDistributionsLess cmp m st s2 s1 = false))) ∧
    (∀ j, st.partition.blocks.length ≤ j →
      j < (st.partition.splitBlock block
        (quotientDistributionsLess cmp m st)).1.blocks.length →
      (st.partition.splitBlock block (quotientDistributionsLess cmp m st)).2.1.count j = 1) ∧
    (∀ j, j < st.partition.blocks.length →
      (st.partition.splitBlock block (quotientDistributionsLess cmp m st)).2.1.count j = 0) ∧
    (st.partition.splitBlock block (quotientDistributionsLess cmp m st)).2.1.count block
      = 0 := by
  have spec := Partition.splitBlock_spec st.partition hv block
    (quotientDistributionsLess cmp m st)
  have hless := quotientDistributionsLess_swo cmp m st hswo hsorted
  have hold : ∀ j, j < st.partition.blocks.length →
      (st.partition.splitBlock block (quotientDistributionsLess cmp m st)).2.1.count j
        = 0 := by
    intro j hj
    rw [List.count_eq_zero, spec.news, List.mem_range']
    rintro ⟨i, _, hi⟩
    omega
  refine ⟨?_, ?_, hold, ?_⟩
  · intro s1 h1 s2 h2
    have hm1 := (Partition.mem_positions_of_mem_statesOf _ hv block s1 h1).1
    have hm2 := (Partition.mem_positions_of_mem_statesOf _ hv block s2 h2).1
    rw [← equivOf_iff]
    exact spec.classes hless _ (spec.mem_after hv s1 h1) _ (spec.mem_after hv s2 h2) hm1 hm2
  · intro j h1 h2
    rw [spec.news]
    apply List.count_eq_one_of_mem (List.nodup_range' _ _)
    rw [List.mem_range']
    exact ⟨j - st.partition.blocks.length, by omega, by omega⟩
  · by_cases hb : block < st.partition.blocks.length
    · exact hold block hb
    · rw [List.count_eq_zero]
      intro hmem
      exact hb (spec.inTable (List.ne_nil_of_mem hmem))

theorem splitBlock_result_witness :
    (∀ s1 ∈ threeStateDecomposition.partition.statesOf 0,
      ∀ s2 ∈ threeStateDecomposition.partition.statesOf 0,
      ((threeStateDecomposition.partition.splitBlock 0
            (quotientDistributionsLess exactComparator threeStateModel
              threeStateDecomposition)).1.getBlock s1
          = (threeStateDecomposition.partition.splitBlock 0
              (quotientDistributionsLess exactComparator threeStateModel
                threeStateDecomposition)).1.getBlock s2 ↔
        (quotientDistributionsLess exactComparator threeStateModel threeStateDecomposition
            s1 s2 = false ∧
          quotientDistributionsLess exactComparator threeStateModel threeStateDecomposition
            s2 s1 = false))) ∧
    (∀ j, threeStateDecomposition.partition.blocks.length ≤ j →
      j < (threeStateDecomposition.partition.splitBlock 0
        (quotientDistributionsLess exactComparator threeStateModel
          threeStateDecomposition)).1.blocks.length →
      (threeStateDecomposition.partition.splitBlock 0
        (quotientDistributionsLess exactComparator threeStateModel
          threeStateDecomposition)).2.1.count j = 1) ∧
    (∀ j, j < threeStateDecomposition.partition.blocks.length →
      (threeStateDecomposition.partition.splitBlock 0
        (quotientDistributionsLess exactComparator threeStateModel
          threeStateDecomposition)).2.1.count j = 0) ∧
    (threeStateDecomposition.partition.splitBlock 0
      (quotientDistributionsLess exactComparator threeStateModel
        threeStateDecomposition)).2.1.count 0 = 0 :=
  splitBlock_result exactComparator threeStateModel threeStateDecomposition 0
    Distribution.less_exact_strictWeakOrder
    (initializeQuotientDistributions_sorted exactComparator threeStateModel
      Distribution.less_exact_strictWeakOrder (by simp [Model.Monotone, threeStateModel]) _)
    ⟨by decide!, by decide!, by decide!⟩

/-! ## Validity of the partition -/

section SliceIndex

variable {α : Type}

theorem getElem?_slice (l : List α) (b n k : Nat) :
    ((l.drop b).take n)[k]? = if k < n then l[b + k]? else none := by
  by_cases hk : k < n
  · rw [if_pos hk, List.getElem?_take_of_lt hk, List.getElem?_drop]
  · rw [if_neg hk, List.getElem?_eq_none]
    rw [List.length_take]
    omega

theorem mem_slice_of_index (l : List α) (b n i : Nat) (hi : i < l.length) (hb : b ≤ i)
    (hn : i < b + n) : l[i] ∈ (l.drop b).take n := by
  rw [List.mem_iff_getElem?]
  refine ⟨i - b, ?_⟩
  rw [getElem?_slice, if_pos (by omega)]
  have : b + (i - b) = i := by omega
  rw [this, List.getElem?_eq_getElem hi]

theorem index_of_mem_slice (l : List α) (b n : Nat) (e : α) (he : e ∈ (l.drop b).take n) :
    ∃ i, b ≤ i ∧ i < b + n ∧ l[i]? = some e := by
  rw [List.mem_iff_getElem?] at he
  obtain ⟨k, hk⟩ := he
  rw [getElem?_slice] at hk
  by_cases hkn : k < n
  · rw [if_pos hkn] at hk
    exact ⟨b + k, by omega, by omega, hk⟩
  · rw [if_neg hkn] at hk
    cases hk

end SliceIndex

namespace Partition

theorem Valid.carries {p : Partition} (hv : p.Valid) (i id : Nat)
    (hi : i < p.positions.length) (hid : id < p.blocks.length)
    (hb : (p.block id).beginIndex ≤ i) (he : i < (p.block id).endIndex) :
    (p.positions[i]).2 = id := by
  have hmem : p.positions[i] ∈ p.slice id :=
    mem_slice_of_index p.positions _ _ i hi hb (by omega)
  rw [hv.slices id hid, List.mem_filter] at hmem
  simpa using hmem.2

theorem Valid.inRange {p : Partition} (hv : p.Valid) (i : Nat)
    (hi : i < p.positions.length) :
    (p.positions[i]).2 < p.blocks.length ∧
    (p.block (p.positions[i]).2).beginIndex ≤ i ∧
    i < (p.block (p.positions[i]).2).endIndex := by
  have hid := hv.bound _ (List.getElem_mem hi)
  refine ⟨hid, ?_⟩
  have hmem : p.positions[i] ∈ p.slice (p.positions[i]).2 := by
    rw [hv.slices _ hid, List.mem_filter]
    exact ⟨List.getElem_mem hi, by simp⟩
  obtain ⟨j, hj1, hj2, hj3⟩ := index_of_mem_slice p.positions _ _ _ hmem
  have hjl : j < p.positions.length := by
    by_contra hge
    rw [List.getElem?_eq_none (by omega)] at hj3
    cases hj3
  rw [List.getElem?_eq_getElem hjl] at hj3
  have hnd : p.positions.Nodup := List.Nodup.of_map _ hv.nodup
  have hij : j = i := (hnd.getElem_inj_iff).mp (Option.some.inj hj3)
  subst hij
  omega

/-- A valid partition is partitioned as the specification says. -/
theorem Valid.partitioned {p : Partition} (hv : p.Valid) : p.Partitioned where
  cover := by
    intro i hi
    obtain ⟨h1, h2, h3⟩ := hv.inRange i hi
    refine ⟨(p.positions[i]).2, ⟨h1, h2, h3⟩, ?_⟩
    rintro id ⟨hid, hb, he⟩
    exact (hv.carries i id hi hid hb he).symm
  carries := by
    intro i id hi hid hb he
    rw [List.getD_eq_getElem?_getD, List.getElem?_eq_getElem hi]
    exact hv.carries i id hi hid hb he
  once := hv.nodup
  member := by
    intro s hs
    refine ⟨p.getBlock s, ⟨getBlock_lt p hv s hs, ?_⟩, ?_⟩
    · rw [mem_statesOf_iff p hv _ (getBlock_lt p hv s hs)]
      exact mem_of_getBlock p hv.nodup s hs
    · rintro id ⟨hid, hmem⟩
      exact (getBlock_of_mem_statesOf p hv id hid s hmem).symm

end Partition

theorem refinePartitionBasedOnSplitter_valid (cmp : ConstantsComparator) (m : Model)
    (st : Decomposition) (splitter : Nat) (queue : List Nat) (hv : st.partition.Valid) :
    (refinePartitionBasedOnSplitter cmp m st splitter queue).1.partition.Valid ∧
    ((refinePartitionBasedOnSplitter cmp m st splitter queue).1.partition.positions.map
      Prod.fst).Perm (st.partition.positions.map Prod.fst) := by
  unfold refinePartitionBasedOnSplitter
  by_cases hneed : possiblyNeedsRefinement st splitter = true
  · simp only [hneed, Bool.not_true, Bool.false_eq_true, if_false]
    unfold splitBlockAccordingToCurrentQuotientDistributions
    dsimp only
    have spec := Partition.splitBlock_spec st.partition hv splitter
      (quotientDistributionsLess cmp m st)
    have hlay := foldl_update_sameLayout cmp m splitter
      (st.partition.splitBlock splitter (quotientDistributionsLess cmp m st)).2.1
      ({ st with
          partition :=
            (st.partition.splitBlock splitter (quotientDistributionsLess cmp m st)).1 },
        queue)
    refine ⟨hlay.valid spec.valid, ?_⟩
    rw [hlay.1]
    exact spec.states
  · simp only [hneed, Bool.not_false, if_true]
    exact ⟨hv, List.Perm.refl _⟩

/-- C13: validity of the partition.  For a valid initial partition, the partition after
`initialize()` and the partition after every `refinePartitionBasedOnSplitter` step that
starts from a valid partition is valid: its block ranges are disjoint and cover every
position of the sequence exactly once, every state belongs to exactly one block, and the
set of states is the one before the step. -/
theorem partition_validity (cmp : ConstantsComparator) (m : Model) (p : Partition)
    (hv : p.Valid) :
    ((initializeDecomposition cmp m (construct m p)).partition = p ∧
      (initializeDecomposition cmp m (construct m p)).partition.Partitioned) ∧
    (∀ (st : Decomposition) (splitter : Nat) (queue : List Nat), st.partition.Valid →
      (refinePartitionBasedOnSplitter cmp m st splitter queue).1.partition.Valid ∧
      (refinePartitionBasedOnSplitter cmp m st splitter queue).1.partition.Partitioned ∧
      ((refinePartitionBasedOnSplitter cmp m st splitter queue).1.partition.positions.map
        Prod.fst).Perm (st.partition.positions.map Prod.fst)) := by
  have hpart : (initializeDecomposition cmp m (construct m p)).partition = p := by
    unfold initializeDecomposition
    rw [initializeQuotientDistributions_partition]
    rfl
  refine ⟨⟨hpart, ?_⟩, ?_⟩
  · rw [hpart]
    exact hv.partitioned
  · intro st splitter queue hst
    have h := refinePartitionBasedOnSplitter_valid cmp m st splitter queue hst
    exact ⟨h.1, h.1.partitioned, h.2⟩

theorem partition_validity_witness :
    ((initializeDecomposition exactComparator threeStateModel
        (construct threeStateModel threeStatePartition)).partition = threeStatePartition ∧
      (initializeDecomposition exactComparator threeStateModel
        (construct threeStateModel threeStatePartition)).partition.Partitioned) ∧
    (∀ (st : Decomposition) (splitter : Nat) (queue : List Nat), st.partition.Valid →
      (refinePartitionBasedOnSplitter exactComparator threeStateModel st splitter
        queue).1.partition.Valid ∧
      (refinePartitionBasedOnSplitter exactComparator threeStateModel st splitter
        queue).1.partition.Partitioned ∧
      ((refinePartitionBasedOnSplitter exactComparator threeStateModel st splitter
        queue).1.partition.positions.map Prod.fst).Perm
        (st.partition.positions.map Prod.fst)) :=
  partition_validity exactComparator threeStateModel threeStatePartition
    ⟨by decide!, by decide!, by decide!⟩

/-! ## Frame of a split -/

/-- C14: the frame of a split and the fresh ids.  Splitting the block `block` of a valid
partition leaves the block id and the member states of every other block unchanged,
gives every new sub-block an id that no block had before, and keeps the id `block` on a
sub-block if the block held a state; every state of a new sub-block, and every state
that still carries the id `block`, carried the id `block` before the split, so the
`oldBlock` id passed to `updateQuotientDistributionsOfPredecessors` is the id that the
states of each new sub-block carried before. -/
theorem split_frame_and_fresh_ids (cmp : ConstantsComparator) (m : Model)
    (st : Decomposition) (block : Nat) (hv : st.partition.Valid) :
    (∀ s, st.partition.getBlock s ≠ block →
      (st.partition.splitBlock block (quotientDistributionsLess cmp m st)).1.getBlock s
        = st.partition.getBlock s) ∧
    (∀ id, id < st.partition.blocks.length → id ≠ block → ∀ s,
      (s ∈ (st.partition.splitBlock block
          (quotientDistributionsLess cmp m st)).1.statesOf id ↔
        s ∈ st.partition.statesOf id)) ∧
    (∀ j ∈ (st.partition.splitBlock block (quotientDistributionsLess cmp m st)).2.1,
      st.partition.blocks.length ≤ j ∧
      j < (st.partition.splitBlock block
        (quotientDistributionsLess cmp m st)).1.blocks.length ∧
      (∃ s, s ∈ (st.partition.splitBlock block
        (quotientDistributionsLess cmp m st)).1.statesOf j) ∧
      ∀ s ∈ (st.partition.splitBlock block
          (quotientDistributionsLess cmp m st)).1.statesOf j,
        st.partition.getBlock s = block) ∧
    ((∃ s, s ∈ st.partition.statesOf block) →
      ∃ s, s ∈ (st.partition.splitBlock block
        (quotientDistributionsLess cmp m st)).1.statesOf block) ∧
    (∀ s ∈ (st.partition.splitBlock block
        (quotientDistributionsLess cmp m st)).1.statesOf block,
      s ∈ st.partition.statesOf block) := by
  have spec := Partition.splitBlock_spec st.partition hv block
    (quotientDistributionsLess cmp m st)
  have hne := Partition.splitBlock_nonempty st.partition block
    (quotientDistributionsLess cmp m st)
  have hnews : ∀ j ∈ (st.partition.splitBlock block
        (quotientDistributionsLess cmp m st)).2.1,
      st.partition.blocks.length ≤ j ∧
      j < (st.partition.splitBlock block
        (quotientDistributionsLess cmp m st)).1.blocks.length := by
    intro j hj
    rw [spec.news, List.mem_range'] at hj
    obtain ⟨i, hi, rfl⟩ := hj
    have := spec.grow
    omega
  refine ⟨?_, ?_, ?_, ?_, ?_⟩
  · intro s hs
    rcases spec.getBlock_cases hv s with h | h
    · exact h
    · exact absurd h.1 hs
  · intro id hid hidb s
    have hid' : id < (st.partition.splitBlock block
        (quotientDistributionsLess cmp m st)).1.blocks.length :=
      Nat.lt_of_lt_of_le hid spec.grow
    rw [Partition.mem_statesOf_iff _ spec.valid id hid',
      Partition.mem_statesOf_iff _ hv id hid]
    constructor
    · intro h
      rcases spec.members _ h with h1 | h1
      · exact h1.1
      · rcases h1.2 with h2 | h2
        · exact absurd h2 hidb
        · have := (hnews _ h2).1
          have h3 : id < st.partition.blocks.length := hid
          exact absurd h3 (by show ¬ id < _; omega)
    · intro h
      exact spec.frame _ h hidb
  · intro j hj
    obtain ⟨h1, h2⟩ := hnews j hj
    refine ⟨h1, h2, ?_, ?_⟩
    · obtain ⟨s, hs⟩ := hne.1 j hj
      exact ⟨s, (Partition.mem_statesOf_iff _ spec.valid j h2 s).mpr hs⟩
    · intro s hs
      rw [Partition.mem_statesOf_iff _ spec.valid j h2] at hs
      rcases spec.members _ hs with h3 | h3
      · have := hv.bound _ h3.1
        exact absurd this (by show ¬ j < _; omega)
      · exact Partition.getBlock_eq_of_mem _ hv.nodup s block h3.1
  · rintro ⟨s, hs⟩
    obtain ⟨hmem, hid⟩ := Partition.mem_positions_of_mem_statesOf _ hv block s hs
    obtain ⟨t, ht⟩ := hne.2 s hmem
    exact ⟨t, (Partition.mem_statesOf_iff _ spec.valid block
      (Nat.lt_of_lt_of_le hid spec.grow) t).mpr ht⟩
  · intro s hs
    obtain ⟨hmem, hid⟩ := Partition.mem_positions_of_mem_statesOf _ spec.valid block s hs
    by_cases hb : block < st.partition.blocks.length
    · rw [Partition.mem_statesOf_iff _ hv block hb]
      rcases spec.members _ hmem with h1 | h1
      · exact absurd rfl h1.2
      · exact h1.1
    · exfalso
      rcases spec.members _ hmem with h1 | h1
      · exact h1.2 rfl
      · exact hb (hv.bound _ h1.1)

theorem split_frame_and_fresh_ids_witness :
    (∀ s, threeStateDecomposition.partition.getBlock s ≠ 0 →
      (threeStateDecomposition.partition.splitBlock 0
        (quotientDistributionsLess exactComparator threeStateModel
          threeStateDecomposition)).1.getBlock s
        = threeStateDecomposition.partition.getBlock s) ∧
    (∀ id, id < threeStateDecomposition.partition.blocks.length → id ≠ 0 → ∀ s,
      (s ∈ (threeStateDecomposition.partition.splitBlock 0
          (quotientDistributionsLess exactComparator threeStateModel
            threeStateDecomposition)).1.statesOf id ↔
        s ∈ threeStateDecomposition.partition.statesOf id)) ∧
    (∀ j ∈ (threeStateDecomposition.partition.splitBlock 0
        (quotientDistributionsLess exactComparator threeStateModel
          threeStateDecomposition)).2.1,
      threeStateDecomposition.partition.blocks.length ≤ j ∧
      j < (threeStateDecomposition.partition.splitBlock 0
        (quotientDistributionsLess exactComparator threeStateModel
          threeStateDecomposition)).1.blocks.length ∧
      (∃ s, s ∈ (threeStateDecomposition.partition.splitBlock 0
        (quotientDistributionsLess exactComparator threeStateModel
          threeStateDecomposition)).1.statesOf j) ∧
      ∀ s ∈ (threeStateDecomposition.partition.splitBlock 0
          (quotientDistributionsLess exactComparator threeStateModel
            threeStateDecomposition)).1.statesOf j,
        threeStateDecomposition.partition.getBlock s = 0) ∧
    ((∃ s, s ∈ threeStateDecomposition.partition.statesOf 0) →
      ∃ s, s ∈ (threeStateDecomposition.partition.splitBlock 0
        (quotientDistributionsLess exactComparator threeStateModel
          threeStateDecomposition)).1.statesOf 0) ∧
    (∀ s ∈ (threeStateDecomposition.partition.splitBlock 0
        (quotientDistributionsLess exactComparator threeStateModel
          threeStateDecomposition)).1.statesOf 0,
      s ∈ threeStateDecomposition.partition.statesOf 0) :=
  split_frame_and_fresh_ids exactComparator threeStateModel threeStateDecomposition 0
    ⟨by decide!, by decide!, by decide!⟩

/-! ## Splitter flags and the queue during the predecessor update -/

/-- The partition and the queue during the loop of
`updateQuotientDistributionsOfPredecessors` depend on the entries only: every entry whose
value is not zero marks the block of its predecessor state. -/
theorem foldl_updatePredecessorEntry_marks (cmp : ConstantsComparator) (m : Model)
    (newBlock oldBlock : Nat) (es : List (Nat × ℚ)) :
    ∀ u : UpdateState,
      ((es.foldl (updatePredecessorEntry cmp m newBlock oldBlock) u).dec.partition,
        (es.foldl (updatePredecessorEntry cmp m newBlock oldBlock) u).queue)
      = es.foldl
          (fun (pq : Partition × List Nat) e =>
            if cmp.isZero e.2 = true then pq
            else markSplitter pq.1 pq.2
              (pq.1.getBlock (u.dec.choiceToStateMapping.getD e.1 0)))
          (u.dec.partition, u.queue) := by
  induction es with
  | nil => intro u; rfl
  | cons e es ih =>
    intro u
    simp only [List.foldl_cons]
    rw [ih, (updatePredecessorEntry_partition cmp m newBlock oldBlock u e).2.2]
    congr 1
    by_cases hz : cmp.isZero e.2 = true
    · rw [if_pos hz]
      unfold updatePredecessorEntry
      rw [if_pos hz]
    · rw [if_neg hz]
      obtain ⟨h1, h2, _⟩ := updatePredecessorEntry_flags cmp m newBlock oldBlock u e hz
      rw [h1, h2]

/-- What the marking of the predecessor blocks does to the flags and the queue. -/
theorem foldl_markSplitter_spec (cmp : ConstantsComparator) (mapping : List Nat)
    (es : List (Nat × ℚ)) :
    ∀ (p : Partition) (q : List Nat), (∀ s, p.getBlock s < p.blocks.length) →
      p.SameLayout
        (es.foldl
          (fun (pq : Partition × List Nat) e =>
            if cmp.isZero e.2 = true then pq
            else markSplitter pq.1 pq.2 (pq.1.getBlock (mapping.getD e.1 0))) (p, q)).1 ∧
      (∀ id, (p.block id).splitter = true →
        ((es.foldl
          (fun (pq : Partition × List Nat) e =>
            if cmp.isZero e.2 = true then pq
            else markSplitter pq.1 pq.2 (pq.1.getBlock (mapping.getD e.1 0)))
          (p, q)).1.block id).splitter = true) ∧
      (∃ added,
        (es.foldl
          (fun (pq : Partition × List Nat) e =>
            if cmp.isZero e.2 = true then pq
            else markSplitter pq.1 pq.2 (pq.1.getBlock (mapping.getD e.1 0))) (p, q)).2
          = q ++ added ∧
        added.Nodup ∧
        (∀ id ∈ added, (p.block id).splitter = false) ∧
        (∀ id, ((es.foldl
            (fun (pq : Partition × List Nat) e =>
              if cmp.isZero e.2 = true then pq
              else markSplitter pq.1 pq.2 (pq.1.getBlock (mapping.getD e.1 0)))
            (p, q)).1.block id).splitter = true ↔
          ((p.block id).splitter = true ∨ id ∈ added))) ∧
      (∀ e ∈ es, ¬ cmp.isZero e.2 = true →
        ((es.foldl
          (fun (pq : Partition × List Nat) e =>
            if cmp.isZero e.2 = true then pq
            else markSplitter pq.1 pq.2 (pq.1.getBlock (mapping.getD e.1 0)))
          (p, q)).1.block (p.getBlock (mapping.getD e.1 0))).splitter = true) := by
  induction es with
  | nil =>
    intro p q _
    refine ⟨Partition.SameLayout.refl _, fun _ h => h, ⟨[], by simp, List.nodup_nil,
      by simp, by simp⟩, by simp⟩
  | cons e es ih =>
    intro p q hpos
    simp only [List.foldl_cons]
    by_cases hz : cmp.isZero e.2 = true
    · simp only [if_pos hz]
      obtain ⟨h1, h2, h3, h4⟩ := ih p q hpos
      refine ⟨h1, h2, h3, ?_⟩
      intro e' he' hz'
      rcases List.mem_cons.mp he' with h | h
      · rw [h] at hz'
        exact absurd hz hz'
      · exact h4 e' h hz'
    · simp only [if_neg hz]
      have hlay := markSplitter_sameLayout p q (p.getBlock (mapping.getD e.1 0))
      have hpos1 : ∀ s, (markSplitter p q (p.getBlock (mapping.getD e.1 0))).1.getBlock s
          < (markSplitter p q (p.getBlock (mapping.getD e.1 0))).1.blocks.length := by
        intro s
        rw [hlay.getBlock, hlay.2.1]
        exact hpos s
      obtain ⟨h1, h2, ⟨added, h3, h3n, h3f, h3i⟩, h4⟩ :=
        ih (markSplitter p q (p.getBlock (mapping.getD e.1 0))).1
          (markSplitter p q (p.getBlock (mapping.getD e.1 0))).2 hpos1
      have hflag1 : ∀ id,
          ((markSplitter p q (p.getBlock (mapping.getD e.1 0))).1.block id).splitter = true ↔
            (id = p.getBlock (mapping.getD e.1 0) ∨ (p.block id).splitter = true) := by
        intro id
        rw [markSplitter_splitter]
        by_cases hid : id = p.getBlock (mapping.getD e.1 0)
        · rw [if_pos ⟨hid, hpos _⟩]
          exact ⟨fun _ => Or.inl hid, fun _ => rfl⟩
        · rw [if_neg (fun h => hid h.1)]
          exact ⟨fun h => Or.inr h, fun h => h.resolve_left hid⟩
      refine ⟨hlay.trans h1, ?_, ?_, ?_⟩
      · intro id hid
        exact h2 id ((hflag1 id).mpr (Or.inr hid))
      · have hq := markSplitter_queue p q (p.getBlock (mapping.getD e.1 0))
        by_cases hf : (p.block (p.getBlock (mapping.getD e.1 0))).splitter = true
        · rw [if_pos hf] at hq
          refine ⟨added, h3.trans (congrArg (fun l => l ++ added) hq), h3n, ?_, ?_⟩
          · intro id hid
            cases hfl : (p.block id).splitter with
            | false => rfl
            | true =>
              have := h3f id hid
              rw [(hflag1 id).mpr (Or.inr hfl)] at this
              cases this
          · intro id
            rw [h3i id, hflag1 id]
            constructor
            · rintro ((h | h) | h)
              · left; rw [h]; exact hf
              · left; exact h
              · right; exact h
            · rintro (h | h)
              · left; right; exact h
              · right; exact h
        · rw [if_neg hf] at hq
          have hnot : p.getBlock (mapping.getD e.1 0) ∉ added := by
            intro hmem
            have := h3f _ hmem
            rw [(hflag1 _).mpr (Or.inl rfl)] at this
            cases this
          refine ⟨p.getBlock (mapping.getD e.1 0) :: added, ?_, ?_, ?_, ?_⟩
          · refine h3.trans ((congrArg (fun l => l ++ added) hq).trans ?_)
            simp
          · exact List.nodup_cons.mpr ⟨hnot, h3n⟩
          · intro id hid
            rcases List.mem_cons.mp hid with h | h
            · rw [h]
              simpa using hf
            · cases hfl : (p.block id).splitter with
              | false => rfl
              | true =>
                have := h3f id h
                rw [(hflag1 id).mpr (Or.inr hfl)] at this
                cases this
          · intro id
            rw [h3i id, hflag1 id, List.mem_cons]
            tauto
      · intro e' he' hz'
        rcases List.mem_cons.mp he' with h | h
        · rw [h]
          exact h2 _ ((hflag1 _).mpr (Or.inl rfl))
        · have := h4 e' h hz'
          rw [hlay.getBlock] at this
          exact this

/-- The flags and the queue after one call of
`updateQuotientDistributionsOfPredecessors`. -/
theorem updateQuotientDistributionsOfPredecessors_marks (cmp : ConstantsComparator)
    (m : Model) (st : Decomposition) (newBlock oldBlock : Nat) (queue : List Nat)
    (hpos : ∀ s, st.partition.getBlock s < st.partition.blocks.length) :
    (∀ id, (st.partition.block id).splitter = true →
      ((updateQuotientDistributionsOfPredecessors cmp m st newBlock oldBlock
        queue).1.partition.block id).splitter = true) ∧
    (∃ added,
      (updateQuotientDistributionsOfPredecessors cmp m st newBlock oldBlock queue).2
        = queue ++ added ∧
      added.Nodup ∧
      (∀ id ∈ added, (st.partition.block id).splitter = false) ∧
      (∀ id, ((updateQuotientDistributionsOfPredecessors cmp m st newBlock oldBlock
          queue).1.partition.block id).splitter = true ↔
        ((st.partition.block id).splitter = true ∨ id ∈ added))) ∧
    (∀ e ∈ predecessorEntries m st newBlock, ¬ cmp.isZero e.2 = true →
      ((updateQuotientDistributionsOfPredecessors cmp m st newBlock oldBlock
        queue).1.partition.block
          (st.partition.getBlock (st.choiceToStateMapping.getD e.1 0))).splitter = true) := by
  have hfr := finishUpdate_frame cmp m
    ((predecessorEntries m st newBlock).foldl (updatePredecessorEntry cmp m newBlock oldBlock)
      { dec := st, queue := queue, lastState := none })
  have hm := foldl_updatePredecessorEntry_marks cmp m newBlock oldBlock
    (predecessorEntries m st newBlock) { dec := st, queue := queue, lastState := none }
  have hp : (updateQuotientDistributionsOfPredecessors cmp m st newBlock oldBlock
      queue).1.partition
      = ((predecessorEntries m st newBlock).foldl
          (fun (pq : Partition × List Nat) e =>
            if cmp.isZero e.2 = true then pq
            else markSplitter pq.1 pq.2
              (pq.1.getBlock (st.choiceToStateMapping.getD e.1 0)))
          (st.partition, queue)).1 := by
    unfold updateQuotientDistributionsOfPredecessors
    rw [hfr.1]
    exact congrArg Prod.fst hm
  have hq : (updateQuotientDistributionsOfPredecessors cmp m st newBlock oldBlock queue).2
      = ((predecessorEntries m st newBlock).foldl
          (fun (pq : Partition × List Nat) e =>
            if cmp.isZero e.2 = true then pq
            else markSplitter pq.1 pq.2
              (pq.1.getBlock (st.choiceToStateMapping.getD e.1 0)))
          (st.partition, queue)).2 := by
    unfold updateQuotientDistributionsOfPredecessors
    rw [hfr.2.2.2]
    exact congrArg Prod.snd hm
  rw [hp, hq]
  obtain ⟨_, h2, h3, h4⟩ := foldl_markSplitter_spec cmp st.choiceToStateMapping
    (predecessorEntries m st newBlock) st.partition queue hpos
  exact ⟨h2, h3, h4⟩

theorem mem_predecessorEntries (m : Model) (st : Decomposition) (newBlock c t : Nat) (v : ℚ)
    (ht : t ∈ st.partition.statesOf newBlock) (he : (t, v) ∈ m.getRow c) :
    (c, v) ∈ predecessorEntries m st newBlock := by
  unfold predecessorEntries
  rw [List.mem_flatMap]
  refine ⟨t, ht, ?_⟩
  unfold Model.backwardRow
  rw [List.mem_flatMap]
  have hc : c < m.getNumberOfChoices := by
    by_contra hge
    unfold Model.getRow at he
    rw [List.getD_eq_default _ _ (by unfold Model.getNumberOfChoices at hge; omega)] at he
    simp at he
  refine ⟨c, List.mem_range.mpr hc, ?_⟩
  rw [List.mem_map]
  exact ⟨(t, v), List.mem_filter.mpr ⟨he, by simp⟩, rfl⟩

/-- C15: the affected predecessor blocks are enqueued.  For a valid partition with at
least one block and a correct `choiceToStateMapping`, if on entry every flagged block is
in the queue, then after `updateQuotientDistributionsOfPredecessors(newBlock, oldBlock,
queue)`, for every state `p` that has a choice with a transition of non-zero probability
into a state of `newBlock`, the block of `p` has its splitter flag set and is in the
splitter queue. -/
theorem affected_predecessor_blocks_enqueued (cmp : ConstantsComparator) (m : Model)
    (st : Decomposition) (newBlock oldBlock : Nat) (queue : List Nat)
    (hv : st.partition.Valid) (hlen : 0 < st.partition.blocks.length)
    (hmap : st.MappingCorrect m)
    (hentry : ∀ id, (st.partition.block id).splitter = true → id ∈ queue)
    (p c t : Nat) (v : ℚ) (hp : p < m.getNumberOfStates) (hc : c ∈ m.choicesOf p)
    (he : (t, v) ∈ m.getRow c) (hz : cmp.isZero v = false)
    (ht : t ∈ st.partition.statesOf newBlock) :
    ((updateQuotientDistributionsOfPredecessors cmp m st newBlock oldBlock
        queue).1.partition.block
      ((updateQuotientDistributionsOfPredecessors cmp m st newBlock oldBlock
        queue).1.partition.getBlock p)).splitter = true ∧
    (updateQuotientDistributionsOfPredecessors cmp m st newBlock oldBlock
        queue).1.partition.getBlock p
      ∈ (updateQuotientDistributionsOfPredecessors cmp m st newBlock oldBlock queue).2 := by
  have hpos := Partition.getBlock_lt_of_pos st.partition hv hlen
  have hlay := updateQuotientDistributionsOfPredecessors_sameLayout cmp m st newBlock oldBlock
    queue
  obtain ⟨_, ⟨added, hq, _, _, hiff⟩, hmarked⟩ :=
    updateQuotientDistributionsOfPredecessors_marks cmp m st newBlock oldBlock queue hpos
  have hcp : st.choiceToStateMapping.getD c 0 = p := by
    unfold Model.choicesOf at hc
    rw [List.mem_range'] at hc
    obtain ⟨i, hi, rfl⟩ := hc
    exact hmap p hp _ (by omega) (by omega)
  have hflag := hmarked (c, v) (mem_predecessorEntries m st newBlock c t v ht he)
    (by simp [hz])
  simp only [hcp] at hflag
  rw [hlay.getBlock]
  refine ⟨hflag, ?_⟩
  rw [hq]
  rcases (hiff _).mp hflag with h | h
  · exact List.mem_append_left _ (hentry _ h)
  · exact List.mem_append_right _ h

theorem affected_predecessor_blocks_enqueued_witness :
    ((updateQuotientDistributionsOfPredecessors exactComparator threeStateModel
        threeStateDecomposition 1 0 []).1.partition.block
      ((updateQuotientDistributionsOfPredecessors exactComparator threeStateModel
        threeStateDecomposition 1 0 []).1.partition.getBlock 0)).splitter = true ∧
    (updateQuotientDistributionsOfPredecessors exactComparator threeStateModel
        threeStateDecomposition 1 0 []).1.partition.getBlock 0
      ∈ (updateQuotientDistributionsOfPredecessors exactComparator threeStateModel
        threeStateDecomposition 1 0 []).2 :=
  affected_predecessor_blocks_enqueued exactComparator threeStateModel
    threeStateDecomposition 1 0 [] ⟨by decide!, by decide!, by decide!⟩ (by decide!)
    (by unfold Decomposition.MappingCorrect; decide!)
    (by
      intro id hid
      exfalso
      revert hid
      by_cases h : id < 2
      · interval_cases id <;> decide!
      · have : threeStateDecomposition.partition.block id = default :=
          Partition.block_eq_default_of_ge _ id (by
            have : threeStateDecomposition.partition.blocks.length = 2 := by decide!
            omega)
        rw [this]
        decide)
    0 0 1 (1 / 2) (by decide!) (by decide!) (by decide!) (by decide!) (by decide!)

/-- C16: no duplicate enqueues.  The step of lines 101-105 pushes a block onto the queue
only when its splitter flag is unset and sets the flag in the same step; for a valid
partition with at least one block, if on entry every queued block is flagged and no block
occurs twice in the queue, then after `updateQuotientDistributionsOfPredecessors` no
block occurs twice in the queue, every queued block is flagged, the queue on entry is a
prefix of the queue, and every block pushed by the call was not flagged on entry. -/
theorem no_duplicate_enqueues (cmp : ConstantsComparator) (m : Model) (st : Decomposition)
    (newBlock oldBlock : Nat) (queue : List Nat)
    (hv : st.partition.Valid) (hlen : 0 < st.partition.blocks.length)
    (hflag : ∀ id ∈ queue, (st.partition.block id).splitter = true) (hnd : queue.Nodup) :
    (∀ (p : Partition) (q : List Nat) (b : Nat), b < p.blocks.length →
      ((p.block b).splitter = true ∧ markSplitter p q b = (p, q)) ∨
      ((p.block b).splitter = false ∧ (markSplitter p q b).2 = q ++ [b] ∧
        ((markSplitter p q b).1.block b).splitter = true)) ∧
    (updateQuotientDistributionsOfPredecessors cmp m st newBlock oldBlock queue).2.Nodup ∧
    (∀ id ∈ (updateQuotientDistributionsOfPredecessors cmp m st newBlock oldBlock queue).2,
      ((updateQuotientDistributionsOfPredecessors cmp m st newBlock oldBlock
        queue).1.partition.block id).splitter = true) ∧
    queue <+: (updateQuotientDistributionsOfPredecessors cmp m st newBlock oldBlock
      queue).2 ∧
    (∀ id ∈ ((updateQuotientDistributionsOfPredecessors cmp m st newBlock oldBlock
        queue).2).drop queue.length, (st.partition.block id).splitter = false) := by
  have hpos := Partition.getBlock_lt_of_pos st.partition hv hlen
  obtain ⟨hmono, ⟨added, hq, hadd, hunset, hiff⟩, _⟩ :=
    updateQuotientDistributionsOfPredecessors_marks cmp m st newBlock oldBlock queue hpos
  refine ⟨?_, ?_, ?_, ?_, ?_⟩
  · intro p q b hb
    cases hf : (p.block b).splitter with
    | true =>
      left
      refine ⟨rfl, ?_⟩
      unfold markSplitter
      simp [hf]
    | false =>
      right
      refine ⟨rfl, ?_, ?_⟩
      · rw [markSplitter_queue, if_neg (by simp [hf])]
      · rw [markSplitter_splitter, if_pos ⟨rfl, hb⟩]
  · rw [hq]
    apply List.Nodup.append hnd hadd
    intro id h1 h2
    have := hunset id h2
    rw [hflag id h1] at this
    cases this
  · intro id hid
    rw [hq] at hid
    rcases List.mem_append.mp hid with h | h
    · exact hmono id (hflag id h)
    · exact (hiff id).mpr (Or.inr h)
  · rw [hq]
    exact List.prefix_append _ _
  · rw [hq, List.drop_left]
    exact hunset

theorem no_duplicate_enqueues_witness :
    (∀ (p : Partition) (q : List Nat) (b : Nat), b < p.blocks.length →
      ((p.block b).splitter = true ∧ markSplitter p q b = (p, q)) ∨
      ((p.block b).splitter = false ∧ (markSplitter p q b).2 = q ++ [b] ∧
        ((markSplitter p q b).1.block b).splitter = true)) ∧
    (updateQuotientDistributionsOfPredecessors exactComparator threeStateModel
      threeStateMarked 1 0 [0]).2.Nodup ∧
    (∀ id ∈ (updateQuotientDistributionsOfPredecessors exactComparator threeStateModel
        threeStateMarked 1 0 [0]).2,
      ((updateQuotientDistributionsOfPredecessors exactComparator threeStateModel
        threeStateMarked 1 0 [0]).1.partition.block id).splitter = true) ∧
    [0] <+: (updateQuotientDistributionsOfPredecessors exactComparator threeStateModel
      threeStateMarked 1 0 [0]).2 ∧
    (∀ id ∈ ((updateQuotientDistributionsOfPredecessors exactComparator threeStateModel
        threeStateMarked 1 0 [0]).2).drop [0].length,
      (threeStateMarked.partition.block id).splitter = false) :=
  no_duplicate_enqueues exactComparator threeStateModel threeStateMarked 1 0 [0]
    ⟨by decide!, by decide!, by decide!⟩ (by decide!) (by decide!) (by decide)

/-! ## Postcondition of one predecessor update -/

theorem sum_mass_of_nodup (N : List Nat) (hN : N.Nodup) (row : List (Nat × ℚ)) :
    (N.map (fun s => Distribution.mass row s)).sum
      = ((row.filter (fun e => decide (e.1 ∈ N))).map Prod.snd).sum := by
  induction row with
  | nil => simp [Distribution.mass_nil]
  | cons e row ih =>
    simp only [Distribution.mass_cons, List.sum_map_add, ih]
    have h1 : (N.map (fun s => if e.1 = s then e.2 else 0)).sum
        = if e.1 ∈ N then e.2 else 0 := by
      have := Distribution.sum_indicator_nodup N hN e.1 (fun _ => e.2)
      simp only [eq_comm] at this ⊢
      exact this
    rw [h1]
    by_cases hm : e.1 ∈ N
    · simp [List.filter_cons, hm]
    · simp [List.filter_cons, hm]

theorem predecessorEntries_lt (m : Model) (st : Decomposition) (newBlock : Nat) :
    ∀ e ∈ predecessorEntries m st newBlock, e.1 < m.getNumberOfChoices := by
  intro e he
  unfold predecessorEntries Model.backwardRow at he
  simp only [List.mem_flatMap, List.mem_range, List.mem_map, List.mem_filter] at he
  obtain ⟨_, _, c, hc, x, _, hxe⟩ := he
  rw [← hxe]
  exact hc

theorem Distribution.mass_filter_flatMap {α : Type} (l : List α) (f : α → Distribution)
    (q : Nat × ℚ → Bool) (k : Nat) :
    Distribution.mass ((l.flatMap f).filter q) k
      = (l.map (fun x => Distribution.mass ((f x).filter q) k)).sum := by
  induction l with
  | nil => simp [Distribution.mass]
  | cons a l ih =>
    rw [List.flatMap_cons, List.filter_append, Distribution.mass_append, ih]
    simp

/-- The backward transitions that are not zero are the transposed entries that are not
zero. -/
theorem mass_filter_backwardRow (cmp : ConstantsComparator) (m : Model) (s c : Nat) :
    Distribution.mass ((m.backwardRow s).filter (fun e => !cmp.isZero e.2)) c
      = Distribution.mass ((m.getRow c).filter (fun e => !cmp.isZero e.2)) s := by
  unfold Model.backwardRow
  rw [Distribution.mass_filter_flatMap]
  have hinner : ∀ c', Distribution.mass
      ((((m.getRow c').filter (fun e => decide (e.1 = s))).map
        (fun e => (c', e.2))).filter (fun e => !cmp.isZero e.2)) c
        = if c' = c then
            Distribution.mass ((m.getRow c').filter (fun e => !cmp.isZero e.2)) s
          else 0 := by
    intro c'
    by_cases hc : c' = c
    · subst hc
      rw [if_pos rfl]
      generalize m.getRow c' = row
      induction row with
      | nil => rfl
      | cons e row ih =>
        by_cases h1 : e.1 = s <;> by_cases h2 : cmp.isZero e.2 = true <;>
          simp [List.filter_cons, h1, h2, Distribution.mass_cons] <;>
          simpa [List.filter_cons] using ih
    · simp only [if_neg hc]
      apply Distribution.mass_eq_zero_of_not_mem
      simp only [Distribution.keys, List.mem_map, List.mem_filter, not_exists, not_and]
      rintro ⟨a, b⟩ ⟨⟨x, _, hx⟩, _⟩ hab
      simp only [Prod.mk.injEq] at hx
      exact hc (hx.1.trans hab)
  simp only [hinner]
  rw [Distribution.sum_indicator_nodup _ (List.nodup_range _) c
    (fun c' => Distribution.mass ((m.getRow c').filter (fun e => !cmp.isZero e.2)) s)]
  by_cases hc : c < m.getNumberOfChoices
  · simp [hc]
  · simp only [List.mem_range, hc, if_false]
    have : m.getRow c = [] := by
      unfold Model.getRow
      rw [List.getD_eq_default]
      unfold Model.getNumberOfChoices at hc
      omega
    rw [this]; rfl

theorem mass_filter_predecessorEntries (cmp : ConstantsComparator) (m : Model)
    (st : Decomposition) (newBlock c : Nat) (hN : (st.partition.statesOf newBlock).Nodup) :
    Distribution.mass ((predecessorEntries m st newBlock).filter (fun e => !cmp.isZero e.2)) c
      = st.massInto cmp m c newBlock := by
  unfold predecessorEntries Decomposition.massInto
  rw [Distribution.mass_filter_flatMap]
  simp only [mass_filter_backwardRow]
  rw [sum_mass_of_nodup _ hN, List.filter_filter]
  congr 2
  apply List.filter_congr
  intro e _
  exact Bool.and_comm _ _

/-- The masses after a run of the inner loop over the entries `es`, for every
comparator: the entries that are not zero are shifted. -/
theorem foldl_updatePredecessorEntry_shift (cmp : ConstantsComparator) (m : Model)
    (newBlock oldBlock : Nat) (es : List (Nat × ℚ)) (u : UpdateState)
    (hes : ∀ e ∈ es, e.1 < u.dec.quotientDistributions.length) (c k : Nat) :
    Distribution.mass
        ((es.foldl (updatePredecessorEntry cmp m newBlock oldBlock) u).dec.distribution c) k
      = Distribution.mass (u.dec.distribution c) k
        - (if oldBlock = k then
            Distribution.mass (es.filter (fun e => !cmp.isZero e.2)) c else 0)
        + (if newBlock = k then
            Distribution.mass (es.filter (fun e => !cmp.isZero e.2)) c else 0) := by
  induction es generalizing u with
  | nil => simp [Distribution.mass_nil]
  | cons e es ih =>
    simp only [List.foldl_cons]
    have hlen := (updatePredecessorEntry_partition cmp m newBlock oldBlock u e).2.1
    rw [ih _ (fun x hx => by rw [hlen]; exact hes x (List.mem_cons_of_mem _ hx)),
      updatePredecessorEntry_distribution]
    have he := hes e (by simp)
    by_cases hz : cmp.isZero e.2 = true
    · simp only [hz, Bool.true_eq_false, false_and, if_false, List.filter_cons,
        Bool.not_true, Bool.false_eq_true]
    · have hz' : cmp.isZero e.2 = false := by simpa using hz
      simp only [List.filter_cons, hz', Bool.not_false, if_true, Distribution.mass_cons]
      by_cases hc : c = e.1
      · subst hc
        simp only [he, and_self, if_true, Distribution.mass_shiftProbability]
        by_cases h1 : oldBlock = k <;> by_cases h2 : newBlock = k <;> simp [h1, h2] <;> ring
      · have hc' : ¬ e.1 = c := fun h => hc h.symm
        simp [hc, hc']

/-- The masses after one call of `updateQuotientDistributionsOfPredecessors`, for every
comparator. -/
theorem updateQuotientDistributionsOfPredecessors_shift (cmp : ConstantsComparator)
    (m : Model) (st : Decomposition) (newBlock oldBlock : Nat) (queue : List Nat)
    (hlen : m.getNumberOfChoices ≤ st.quotientDistributions.length)
    (hN : (st.partition.statesOf newBlock).Nodup) (c k : Nat) :
    Distribution.mass
        ((updateQuotientDistributionsOfPredecessors cmp m st newBlock oldBlock
          queue).1.distribution c) k
      = Distribution.mass (st.distribution c) k
        - (if oldBlock = k then st.massInto cmp m c newBlock else 0)
        + (if newBlock = k then st.massInto cmp m c newBlock else 0) := by
  unfold updateQuotientDistributionsOfPredecessors
  rw [finishUpdate_distribution,
    foldl_updatePredecessorEntry_shift cmp m newBlock oldBlock _ _
      (fun e he => Nat.lt_of_lt_of_le (predecessorEntries_lt m st newBlock e he) hlen),
    mass_filter_predecessorEntries cmp m st newBlock c hN]

/-- C17, amended: the postcondition of one predecessor update over exact arithmetic, for
every comparator.  For an exact value type, a valid partition and at least one quotient
distribution per choice, after
`updateQuotientDistributionsOfPredecessors(newBlock, oldBlock, queue)` with two different
blocks, for every choice `c` the mass of `quotientDistributions[c]` on the id of
`newBlock` has grown by exactly the sum of the probabilities that are not `isZero` of the
transitions of `c` into states of `newBlock`, the mass on the id of `oldBlock` has shrunk by exactly
the same amount, and the mass on every other block id is unchanged. -/
theorem predecessor_update_postcondition (cmp : ConstantsComparator) (m : Model)
    (st : Decomposition) (newBlock oldBlock : Nat) (queue : List Nat) (hv : st.partition.Valid)
    (hlen : m.getNumberOfChoices ≤ st.quotientDistributions.length)
    (hne : newBlock ≠ oldBlock) (c : Nat) :
    Distribution.mass
        ((updateQuotientDistributionsOfPredecessors cmp m st newBlock oldBlock
          queue).1.distribution c) newBlock
      = Distribution.mass (st.distribution c) newBlock
        + st.massInto cmp m c newBlock ∧
    Distribution.mass
        ((updateQuotientDistributionsOfPredecessors cmp m st newBlock oldBlock
          queue).1.distribution c) oldBlock
      = Distribution.mass (st.distribution c) oldBlock
        - st.massInto cmp m c newBlock ∧
    (∀ k, k ≠ newBlock → k ≠ oldBlock →
      Distribution.mass
          ((updateQuotientDistributionsOfPredecessors cmp m st newBlock oldBlock
            queue).1.distribution c) k
        = Distribution.mass (st.distribution c) k) := by
  have hN : (st.partition.statesOf newBlock).Nodup := by
    by_cases hid : newBlock < st.partition.blocks.length
    · exact Partition.statesOf_nodup _ hv newBlock hid
    · unfold Partition.statesOf
      rw [Partition.slice_eq_nil_of_ge _ newBlock (by omega)]
      exact List.nodup_nil
  have key := updateQuotientDistributionsOfPredecessors_shift cmp m st newBlock oldBlock queue hlen
    hN c
  refine ⟨?_, ?_, ?_⟩
  · rw [key, if_neg (fun h => hne h.symm), if_pos rfl]
    ring
  · rw [key, if_pos rfl, if_neg hne]
    ring
  · intro k h1 h2
    rw [key, if_neg (fun h => h2 h.symm), if_neg (fun h => h1 h.symm)]
    ring

theorem predecessor_update_postcondition_witness :
    Distribution.mass
        ((updateQuotientDistributionsOfPredecessors exactComparator threeStateModel
          threeStateDecomposition 1 0 []).1.distribution 0) 1
      = Distribution.mass (threeStateDecomposition.distribution 0) 1
        + threeStateDecomposition.massInto exactComparator threeStateModel 0 1 ∧
    Distribution.mass
        ((updateQuotientDistributionsOfPredecessors exactComparator threeStateModel
          threeStateDecomposition 1 0 []).1.distribution 0) 0
      = Distribution.mass (threeStateDecomposition.distribution 0) 0
        - threeStateDecomposition.massInto exactComparator threeStateModel 0 1 ∧
    (∀ k, k ≠ 1 → k ≠ 0 →
      Distribution.mass
          ((updateQuotientDistributionsOfPredecessors exactComparator threeStateModel
            threeStateDecomposition 1 0 []).1.distribution 0) k
        = Distribution.mass (threeStateDecomposition.distribution 0) k) :=
  predecessor_update_postcondition exactComparator threeStateModel threeStateDecomposition
    1 0 []
    ⟨by decide!, by decide!, by decide!⟩ (by decide!) (by decide) 0

/-! ## Blocks that are not refined -/

/-- C18: `refine` is a no-op on small or absorbing blocks.  For every block that has at
most one state or whose data is flagged absorbing, `possiblyNeedsRefinement` returns
false and `refinePartitionBasedOnSplitter` returns without changing the decomposition
(the partition, every quotient distribution, every signature list) or the splitter
queue; for every other block `possiblyNeedsRefinement` returns true. -/
theorem refine_noop_on_small_or_absorbing (cmp : ConstantsComparator) (m : Model)
    (st : Decomposition) (splitter : Nat) (splitterQueue : List Nat) :
    ((st.partition.getNumberOfStates splitter ≤ 1 ∨
        (st.partition.block splitter).absorbing = true) →
      possiblyNeedsRefinement st splitter = false ∧
      refinePartitionBasedOnSplitter cmp m st splitter splitterQueue
        = (st, splitterQueue)) ∧
    (¬ (st.partition.getNumberOfStates splitter ≤ 1 ∨
        (st.partition.block splitter).absorbing = true) →
      possiblyNeedsRefinement st splitter = true) := by
  constructor
  · intro h
    have hp : possiblyNeedsRefinement st splitter = false := by
      unfold possiblyNeedsRefinement
      rcases h with h | h
      · have : ¬ st.partition.getNumberOfStates splitter > 1 := by omega
        simp [this]
      · simp [h]
    refine ⟨hp, ?_⟩
    unfold refinePartitionBasedOnSplitter
    simp [hp]
  · intro h
    rw [not_or] at h
    unfold possiblyNeedsRefinement
    have h1 : st.partition.getNumberOfStates splitter > 1 := by omega
    have h2 : (st.partition.block splitter).absorbing = false := by
      cases hf : (st.partition.block splitter).absorbing with
      | false => rfl
      | true => exact absurd hf h.2
    simp [h1, h2]

theorem refine_noop_on_small_or_absorbing_witness :
    ((threeStateDecomposition.partition.getNumberOfStates 1 ≤ 1 ∨
        (threeStateDecomposition.partition.block 1).absorbing = true) →
      possiblyNeedsRefinement threeStateDecomposition 1 = false ∧
      refinePartitionBasedOnSplitter exactComparator threeStateModel threeStateDecomposition
        1 [0] = (threeStateDecomposition, [0])) ∧
    (¬ (threeStateDecomposition.partition.getNumberOfStates 1 ≤ 1 ∨
        (threeStateDecomposition.partition.block 1).absorbing = true) →
      possiblyNeedsRefinement threeStateDecomposition 1 = true) :=
  refine_noop_on_small_or_absorbing exactComparator threeStateModel threeStateDecomposition
    1 [0]

/-! ## A stable block is left alone -/

/-- The flag returned by `splitBlock` for a strict weak order: no split occurred exactly
if no state of the block is less than another. -/
theorem splitBlock_flag_iff (p : Partition) (hv : p.Valid) (id : Nat)
    (less : Nat → Nat → Bool) (hless : StrictWeakOrder less) :
    (p.splitBlock id less).2.2 = false ↔
      ∀ s1 ∈ p.statesOf id, ∀ s2 ∈ p.statesOf id, less s1 s2 = false := by
  have spec := Partition.splitBlock_spec p hv id less
  have hne := Partition.splitBlock_nonempty p id less
  have hflag : (p.splitBlock id less).2.2 = false ↔ (p.splitBlock id less).2.1 = [] := by
    rw [spec.flag]
    simp
  rw [hflag]
  constructor
  · intro hnews s1 h1 s2 h2
    have hm1 := (Partition.mem_positions_of_mem_statesOf p hv id s1 h1).1
    have hm2 := (Partition.mem_positions_of_mem_statesOf p hv id s2 h2).1
    have hkeep : ∀ s, (s, id) ∈ p.positions → (p.splitBlock id less).1.getBlock s = id := by
      intro s hs
      rcases spec.getBlock_cases hv s with h | h
      · rw [h]
        exact Partition.getBlock_eq_of_mem p hv.nodup s id hs
      · rw [hnews] at h
        exact absurd h.2 (List.not_mem_nil _)
    have hcl := (spec.classes hless _ (spec.mem_after hv s1 h1) _ (spec.mem_after hv s2 h2)
      hm1 hm2).mp (by
        show (p.splitBlock id less).1.getBlock s1 = (p.splitBlock id less).1.getBlock s2
        rw [hkeep s1 hm1, hkeep s2 hm2])
    rw [equivOf_iff] at hcl
    exact hcl.1
  · intro hstable
    by_contra hnews
    obtain ⟨j, hj⟩ := List.exists_mem_of_ne_nil _ hnews
    have hid := spec.inTable hnews
    obtain ⟨s, hs⟩ := hne.1 j hj
    have hjge : p.blocks.length ≤ j := by
      rw [spec.news, List.mem_range'] at hj
      obtain ⟨i, _, rfl⟩ := hj
      omega
    have hsold : (s, id) ∈ p.positions := by
      rcases spec.members _ hs with h | h
      · have := hv.bound _ h.1
        exact absurd this (by show ¬ j < _; omega)
      · exact h.1
    obtain ⟨t, ht⟩ := hne.2 s hsold
    have htold : (t, id) ∈ p.positions := by
      rcases spec.members _ ht with h | h
      · exact absurd rfl h.2
      · exact h.1
    have hs1 := (Partition.mem_statesOf_iff p hv id hid s).mpr hsold
    have ht1 := (Partition.mem_statesOf_iff p hv id hid t).mpr htold
    have heq : equivOf less s t = true := by
      rw [equivOf_iff]
      exact ⟨hstable s hs1 t ht1, hstable t ht1 s hs1⟩
    have := (spec.classes hless _ hs _ ht hsold htold).mpr heq
    have hjid : j = id := this
    omega

/-- C19, amended: a stable block is left alone, for a strict weak order.  For a valid
partition, sorted signature lists and a strict weak order `Distribution.less`,
`splitBlockAccordingToCurrentQuotientDistributions(block, queue)` returns false exactly
when all states of the block are pairwise not `quotientDistributionsLess` than each other
(`checkBlockStable`); in that case no block is created, every state keeps its block, no
quotient distribution and no signature list changes and nothing is pushed onto the
splitter queue; and it returns true exactly when at least one new sub-block was
created. -/
theorem stable_block_left_alone (cmp : ConstantsComparator) (m : Model) (st : Decomposition)
    (block : Nat) (splitterQueue : List Nat)
    (hswo : StrictWeakOrder (Distribution.less cmp)) (hsorted : st.SignaturesSorted cmp m)
    (hv : st.partition.Valid) :
    ((splitBlockAccordingToCurrentQuotientDistributions cmp m st block splitterQueue).2.2
        = false ↔ checkBlockStable cmp m st block = true) ∧
    ((splitBlockAccordingToCurrentQuotientDistributions cmp m st block splitterQueue).2.2
        = false →
      (splitBlockAccordingToCurrentQuotientDistributions cmp m st block
          splitterQueue).1.partition.blocks.length = st.partition.blocks.length ∧
      (∀ s, (splitBlockAccordingToCurrentQuotientDistributions cmp m st block
          splitterQueue).1.partition.getBlock s = st.partition.getBlock s) ∧
      (splitBlockAccordingToCurrentQuotientDistributions cmp m st block
          splitterQueue).1.quotientDistributions = st.quotientDistributions ∧
      (splitBlockAccordingToCurrentQuotientDistributions cmp m st block
          splitterQueue).1.orderedQuotientDistributions = st.orderedQuotientDistributions ∧
      (∀ s, (splitBlockAccordingToCurrentQuotientDistributions cmp m st block
          splitterQueue).1.signature m s = st.signature m s) ∧
      (splitBlockAccordingToCurrentQuotientDistributions cmp m st block splitterQueue).2.1
        = splitterQueue) ∧
    ((splitBlockAccordingToCurrentQuotientDistributions cmp m st block splitterQueue).2.2
        = true ↔
      st.partition.blocks.length
        < (splitBlockAccordingToCurrentQuotientDistributions cmp m st block
          splitterQueue).1.partition.blocks.length) := by
  have spec := Partition.splitBlock_spec st.partition hv block
    (quotientDistributionsLess cmp m st)
  have hless := quotientDistributionsLess_swo cmp m st hswo hsorted
  have hflagEq : (splitBlockAccordingToCurrentQuotientDistributions cmp m st block
      splitterQueue).2.2
      = (st.partition.splitBlock block (quotientDistributionsLess cmp m st)).2.2 := rfl
  have hlay : (st.partition.splitBlock block
        (quotientDistributionsLess cmp m st)).1.SameLayout
      (splitBlockAccordingToCurrentQuotientDistributions cmp m st block
        splitterQueue).1.partition := by
    unfold splitBlockAccordingToCurrentQuotientDistributions
    dsimp only
    exact foldl_update_sameLayout cmp m block _ _
  have hnews : (st.partition.splitBlock block (quotientDistributionsLess cmp m st)).2.2
      = false → (st.partition.splitBlock block (quotientDistributionsLess cmp m st)).2.1
        = [] := by
    intro h
    rw [spec.flag] at h
    simpa using h
  have hlen : (st.partition.splitBlock block
        (quotientDistributionsLess cmp m st)).1.blocks.length
      = st.partition.blocks.length
        + (st.partition.splitBlock block (quotientDistributionsLess cmp m st)).2.1.length := by
    have h1 := congrArg List.length spec.news
    rw [List.length_range'] at h1
    have h2 := spec.grow
    omega
  refine ⟨?_, ?_, ?_⟩
  · rw [hflagEq, splitBlock_flag_iff _ hv block _ hless, checkBlockStable_iff]
  · intro hfalse
    rw [hflagEq] at hfalse
    have hn := hnews hfalse
    have hres : splitBlockAccordingToCurrentQuotientDistributions cmp m st block
        splitterQueue
        = ({ st with
            partition :=
              (st.partition.splitBlock block (quotientDistributionsLess cmp m st)).1 },
          splitterQueue, false) := by
      unfold splitBlockAccordingToCurrentQuotientDistributions
      dsimp only
      rw [hn, hfalse]
      rfl
    rw [hres]
    refine ⟨?_, ?_, rfl, rfl, fun _ => rfl, rfl⟩
    · show (Partition.blocks _).length = _
      rw [hlen, hn]
      rfl
    · intro s
      show Partition.getBlock _ s = _
      rcases spec.getBlock_cases hv s with h | h
      · exact h
      · rw [hn] at h
        exact absurd h.2 (List.not_mem_nil _)
  · rw [hflagEq, hlay.2.1, hlen, spec.flag]
    simp only [decide_eq_true_eq]
    constructor
    · intro h
      have := List.length_pos.mpr h
      omega
    · intro h
      apply List.length_pos.mp
      omega

theorem stable_block_left_alone_witness :
    ((splitBlockAccordingToCurrentQuotientDistributions exactComparator duplicateChoiceModel
        duplicateChoiceDecomposition 0 []).2.2 = false ↔
      checkBlockStable exactComparator duplicateChoiceModel duplicateChoiceDecomposition 0
        = true) ∧
    ((splitBlockAccordingToCurrentQuotientDistributions exactComparator duplicateChoiceModel
        duplicateChoiceDecomposition 0 []).2.2 = false →
      (splitBlockAccordingToCurrentQuotientDistributions exactComparator
          duplicateChoiceModel duplicateChoiceDecomposition 0
          []).1.partition.blocks.length
        = duplicateChoiceDecomposition.partition.blocks.length ∧
      (∀ s, (splitBlockAccordingToCurrentQuotientDistributions exactComparator
          duplicateChoiceModel duplicateChoiceDecomposition 0 []).1.partition.getBlock s
        = duplicateChoiceDecomposition.partition.getBlock s) ∧
      (splitBlockAccordingToCurrentQuotientDistributions exactComparator
          duplicateChoiceModel duplicateChoiceDecomposition 0 []).1.quotientDistributions
        = duplicateChoiceDecomposition.quotientDistributions ∧
      (splitBlockAccordingToCurrentQuotientDistributions exactComparator
          duplicateChoiceModel duplicateChoiceDecomposition 0
          []).1.orderedQuotientDistributions
        = duplicateChoiceDecomposition.orderedQuotientDistributions ∧
      (∀ s, (splitBlockAccordingToCurrentQuotientDistributions exactComparator
          duplicateChoiceModel duplicateChoiceDecomposition 0
          []).1.signature duplicateChoiceModel s
        = duplicateChoiceDecomposition.signature duplicateChoiceModel s) ∧
      (splitBlockAccordingToCurrentQuotientDistributions exactComparator
          duplicateChoiceModel duplicateChoiceDecomposition 0 []).2.1 = []) ∧
    ((splitBlockAccordingToCurrentQuotientDistributions exactComparator duplicateChoiceModel
        duplicateChoiceDecomposition 0 []).2.2 = true ↔
      duplicateChoiceDecomposition.partition.blocks.length
        < (splitBlockAccordingToCurrentQuotientDistributions exactComparator
          duplicateChoiceModel duplicateChoiceDecomposition 0
          []).1.partition.blocks.length) :=
  stable_block_left_alone exactComparator duplicateChoiceModel duplicateChoiceDecomposition
    0 [] Distribution.less_exact_strictWeakOrder
    (initializeQuotientDistributions_sorted exactComparator duplicateChoiceModel
      Distribution.less_exact_strictWeakOrder
      (by simp [Model.Monotone, duplicateChoiceModel]) _)
    ⟨by decide!, by decide!, by decide!⟩

/-! ## Block ranges within the sequence -/

namespace Partition

theorem carveBlocks_bounds (rs : List (List Nat)) :
    ∀ (start : Nat), ∀ b ∈ carveBlocks start rs,
      start ≤ b.beginIndex ∧ b.beginIndex ≤ b.endIndex ∧
        b.endIndex ≤ start + rs.flatten.length := by
  induction rs with
  | nil =>
    intro start b hb
    simp [carveBlocks] at hb
  | cons r rs ih =>
    intro start b hb
    simp only [carveBlocks, List.mem_cons] at hb
    simp only [List.flatten_cons, List.length_append]
    rcases hb with e | e
    · subst e
      refine ⟨le_refl _, ?_, ?_⟩
      · show start ≤ start + r.length
        omega
      · show start + r.length ≤ _
        omega
    · have := ih (start + r.length) b e
      omega

theorem block_mem_blocks (p : Partition) (id : Nat) (hid : id < p.blocks.length) :
    p.block id ∈ p.blocks := by
  unfold block
  rw [List.getD_eq_getElem?_getD, List.getElem?_eq_getElem hid]
  exact List.getElem_mem hid

theorem InBounds.of_layout {p q : Partition} (h : p.InBounds) (hlay : p.SameLayout q) :
    q.InBounds := by
  intro b hb
  obtain ⟨i, hi, rfl⟩ := List.getElem_of_mem hb
  have hqi : q.block i = q.blocks[i] := by
    unfold block
    rw [List.getD_eq_getElem?_getD, List.getElem?_eq_getElem hi]
    rfl
  rw [← hqi, (hlay.2.2 i).1, (hlay.2.2 i).2.1, hlay.1]
  exact h _ (block_mem_blocks p i (by rw [← hlay.2.1]; exact hi))

theorem slice_length_le (p : Partition) (id : Nat) :
    (p.slice id).length ≤ (p.block id).endIndex - (p.block id).beginIndex ∧
    (p.slice id).length ≤ p.positions.length - (p.block id).beginIndex := by
  unfold slice
  rw [List.length_take, List.length_drop]
  omega

theorem InBounds.afterSplit {p : Partition} (hb : p.InBounds) (hv : p.Valid) (id : Nat)
    (less : Nat → Nat → Bool) : (p.splitBlock id less).1.InBounds := by
  have spec := splitBlock_spec p hv id less
  have hlen : (p.splitBlock id less).1.positions.length = p.positions.length := by
    have := spec.states.length_eq
    simpa using this
  cases h : runs less ((p.statesOf id).insertionSort (fun s t => less t s = false)) with
  | nil =>
    rw [splitBlock_of_runs_nil p id less h]
    exact hb
  | cons first others =>
    have hflat := flatten_runs less
      ((p.statesOf id).insertionSort (fun s t => less t s = false))
    rw [h] at hflat
    have hcount : first.length + others.flatten.length = (p.slice id).length := by
      have := congrArg List.length hflat
      rw [insertionSort_length] at this
      simp only [List.flatten_cons, List.length_append] at this
      rw [this, statesOf, List.length_map]
    have hid : id < p.blocks.length := by
      by_contra hge
      have : p.statesOf id = [] := by
        unfold statesOf
        rw [slice_eq_nil_of_ge p id (by omega)]
        rfl
      rw [this] at h
      simp [runs] at h
    have hbid := hb _ (block_mem_blocks p id hid)
    have hsl := slice_length_le p id
    intro b hbmem
    rw [hlen]
    have hblocks : (p.splitBlock id less).1.blocks
        = p.blocks.set id
            { p.block id with endIndex := (p.block id).beginIndex + first.length }
          ++ carveBlocks ((p.block id).beginIndex + first.length) others := by
      rw [splitBlock_of_runs_cons p id less first others h]
    rw [hblocks, List.mem_append] at hbmem
    rcases hbmem with h1 | h1
    · rcases List.mem_or_eq_of_mem_set h1 with h2 | h2
      · exact hb b h2
      · rw [h2]
        constructor
        · show (p.block id).beginIndex ≤ (p.block id).beginIndex + first.length
          omega
        · show (p.block id).beginIndex + first.length ≤ p.positions.length
          omega
    · have := carveBlocks_bounds others _ b h1
      omega

end Partition

/-! ## The split of a stable block -/

namespace Partition

theorem runsFrom_of_stable (less : Nat → Nat → Bool) :
    ∀ (l : List Nat) (a : Nat), (∀ x ∈ a :: l, ∀ y ∈ a :: l, less x y = false) →
      runsFrom less a l = [a :: l] := by
  intro l
  induction l with
  | nil => intro a _; rfl
  | cons b rest ih =>
    intro a h
    have hb := ih b (fun x hx y hy =>
      h x (List.mem_cons_of_mem _ hx) y (List.mem_cons_of_mem _ hy))
    simp only [runsFrom, hb]
    rw [if_neg]
    rw [h a (by simp) b (by simp)]
    simp

theorem runs_of_stable (less : Nat → Nat → Bool) (l : List Nat) (hl : l ≠ [])
    (h : ∀ x ∈ l, ∀ y ∈ l, less x y = false) : runs less l = [l] := by
  cases l with
  | nil => exact absurd rfl hl
  | cons a l => exact runsFrom_of_stable less l a h

theorem map_pair_slice (p : Partition) (hv : p.Valid) (id : Nat)
    (hid : id < p.blocks.length) :
    (p.statesOf id).map (fun s => (s, id)) = p.slice id := by
  unfold statesOf
  rw [List.map_map]
  have : ∀ e ∈ p.slice id, ((fun s => (s, id)) ∘ Prod.fst) e = e := by
    intro e he
    rw [hv.slices id hid, List.mem_filter] at he
    have h2 : e.2 = id := by simpa using he.2
    show (e.1, id) = e
    rw [← h2]
  rw [List.map_congr_left this]
  simp

theorem set_block_self (p : Partition) (id : Nat) : p.blocks.set id (p.block id) = p.blocks := by
  by_cases hid : id < p.blocks.length
  · apply List.ext_getElem?
    intro i
    rw [List.getElem?_set]
    by_cases hi : id = i
    · subst hi
      rw [if_pos rfl]
      simp only [hid, if_true]
      unfold block
      rw [List.getD_eq_getElem?_getD, List.getElem?_eq_getElem hid]
      rfl
    · rw [if_neg hi]
  · exact List.set_eq_of_length_le (by omega)

/-- The split of a block in which no state is less than another changes nothing. -/
theorem splitBlock_of_stable (p : Partition) (hv : p.Valid) (hb : p.InBounds) (id : Nat)
    (less : Nat → Nat → Bool)
    (h : ∀ s1 ∈ p.statesOf id, ∀ s2 ∈ p.statesOf id, less s1 s2 = false) :
    p.splitBlock id less = (p, [], false) := by
  by_cases hnil : p.statesOf id = []
  · apply splitBlock_of_runs_nil
    rw [hnil]
    rfl
  · have hid : id < p.blocks.length := by
      by_contra hge
      apply hnil
      unfold statesOf
      rw [slice_eq_nil_of_ge p id (by omega)]
      rfl
    have hsorted : (p.statesOf id).insertionSort (fun s t => less t s = false)
        = p.statesOf id := by
      apply List.Sorted.insertionSort_eq
      apply List.Pairwise.imp_of_mem _ (List.pairwise_of_forall (l := p.statesOf id)
        (R := fun _ _ => True) (fun _ _ => trivial))
      intro a b ha hb' _
      exact h b hb' a ha
    have hruns : runs less ((p.statesOf id).insertionSort (fun s t => less t s = false))
        = [p.statesOf id] := by
      rw [hsorted]
      exact runs_of_stable less _ hnil h
    rw [splitBlock_of_runs_cons p id less _ _ hruns, hsorted]
    have hbid := hb _ (block_mem_blocks p id hid)
    have hlen : (p.statesOf id).length
        = (p.block id).endIndex - (p.block id).beginIndex := by
      unfold statesOf slice
      rw [List.length_map, List.length_take, List.length_drop]
      omega
    have hend : (p.block id).beginIndex + (p.statesOf id).length = (p.block id).endIndex := by
      omega
    have hpos : p.positions.take (p.block id).beginIndex
          ++ ((p.statesOf id).map (fun s => (s, id)) ++ carvePositions p.blocks.length [])
          ++ p.positions.drop ((p.block id).beginIndex + (p.statesOf id).length)
        = p.positions := by
      rw [map_pair_slice p hv id hid]
      simp only [carvePositions, List.append_nil]
      have hsl : (p.statesOf id).length = (p.slice id).length := by
        unfold statesOf
        rw [List.length_map]
      rw [hsl]
      exact (take_append_slice_append_drop p.positions _ _).symm
    have hblk : p.blocks.set id
          { p.block id with endIndex := (p.block id).beginIndex + (p.statesOf id).length }
          ++ carveBlocks ((p.block id).beginIndex + (p.statesOf id).length) []
        = p.blocks := by
      rw [hend]
      simp only [carveBlocks, List.append_nil]
      exact set_block_self p id
    rw [hpos, hblk]
    rfl

end Partition

/-! ## A second run of the refinement loop -/

theorem refinementStep_valid (cmp : ConstantsComparator) (m : Model)
    (s : Decomposition × List Nat) (hv : s.1.partition.Valid) :
    (refinementStep cmp m s).1.partition.Valid := by
  obtain ⟨st, queue⟩ := s
  cases queue with
  | nil => exact hv
  | cons x rest =>
    exact (refinePartitionBasedOnSplitter_valid cmp m _ x rest
      ((Partition.sameLayout_setSplitter st.partition x false).valid hv)).1

theorem refinementStep_inBounds (cmp : ConstantsComparator) (m : Model)
    (s : Decomposition × List Nat) (hv : s.1.partition.Valid)
    (hb : s.1.partition.InBounds) : (refinementStep cmp m s).1.partition.InBounds := by
  obtain ⟨st, queue⟩ := s
  cases queue with
  | nil => exact hb
  | cons x rest =>
    have hlay := Partition.sameLayout_setSplitter st.partition x false
    have hv1 := hlay.valid hv
    have hb1 : (st.partition.setSplitter x false).InBounds := hb.of_layout hlay
    show (refinePartitionBasedOnSplitter cmp m
      { st with partition := st.partition.setSplitter x false } x rest).1.partition.InBounds
    unfold refinePartitionBasedOnSplitter
    by_cases hneed : possiblyNeedsRefinement
        { st with partition := st.partition.setSplitter x false } x = true
    · simp only [hneed, Bool.not_true, Bool.false_eq_true, if_false]
      unfold splitBlockAccordingToCurrentQuotientDistributions
      dsimp only
      exact (hb1.afterSplit hv1 x _).of_layout (foldl_update_sameLayout cmp m x _ _)
    · simp only [hneed, Bool.not_false, if_true]
      exact hb1

theorem refinementLoop_inBounds (cmp : ConstantsComparator) (m : Model) (fuel : Nat) :
    ∀ s : Decomposition × List Nat, s.1.partition.Valid → s.1.partition.InBounds →
      (refinementLoop cmp m fuel s).1.partition.Valid ∧
      (refinementLoop cmp m fuel s).1.partition.InBounds := by
  induction fuel with
  | zero => intro s hv hb; exact ⟨hv, hb⟩
  | succ fuel ih =>
    intro s hv hb
    obtain ⟨st, queue⟩ := s
    cases queue with
    | nil => exact ⟨hv, hb⟩
    | cons x rest =>
      exact ih _ (refinementStep_valid cmp m _ hv) (refinementStep_inBounds cmp m _ hv hb)

/-- A completed run from a valid initial partition with ranges within the sequence ends
in a fixpoint. -/
theorem runRefinement_fixpoint (cmp : ConstantsComparator) (m : Model) (p : Partition)
    (fuel : Nat) (hswo : StrictWeakOrder (Distribution.less cmp)) (hm : m.Monotone)
    (hrows : m.rowGroupIndices.getLastD 0 ≤ m.getNumberOfChoices) (hv : p.Valid)
    (hb : p.InBounds) (hempty : (runRefinement cmp m p fuel).2 = []) :
    (runRefinement cmp m p fuel).1.Fixpoint cmp m := by
  have inv : RefinementInvariant cmp m (runRefinement cmp m p fuel) :=
    refinementLoop_invariant cmp m hswo hm fuel _
      (enqueueAllBlocks_invariant cmp m hswo hm hrows p hv)
  have hpart : (initializeDecomposition cmp m (construct m p)).partition = p := by
    unfold initializeDecomposition
    rw [initializeQuotientDistributions_partition]
    rfl
  have hlay := enqueueAllBlocks_sameLayout (initializeDecomposition cmp m (construct m p))
  rw [hpart] at hlay
  have hbnd := (refinementLoop_inBounds cmp m fuel
    (enqueueAllBlocks (initializeDecomposition cmp m (construct m p)))
    (hlay.valid hv) (hb.of_layout hlay)).2
  have hun : ∀ id, ((runRefinement cmp m p fuel).1.partition.block id).splitter = false := by
    intro id
    by_cases hid : id < (runRefinement cmp m p fuel).1.partition.blocks.length
    · cases hf : ((runRefinement cmp m p fuel).1.partition.block id).splitter with
      | false => rfl
      | true =>
        have := inv.queued id hid hf
        rw [hempty] at this
        exact absurd this (List.not_mem_nil _)
    · rw [Partition.block_eq_default_of_ge _ id (by omega)]
      rfl
  exact
    { valid := inv.valid
      inBounds := hbnd
      sorted := inv.sorted
      unflagged := hun
      stable := fun id hid habs => inv.stable id hid (hun id) habs }

theorem RerunState.layout {fix : Decomposition} {k : Nat} {s : Decomposition × List Nat}
    (h : RerunState fix k s) : fix.partition.SameLayout s.1.partition := by
  refine ⟨h.positions, h.length, fun i => ?_⟩
  rw [h.blocks i]
  split
  · exact ⟨rfl, rfl, rfl⟩
  · exact ⟨rfl, rfl, rfl⟩

theorem RerunState.signature {fix : Decomposition} {k : Nat} {s : Decomposition × List Nat}
    (h : RerunState fix k s) (m : Model) (t : Nat) :
    s.1.signature m t = fix.signature m t := by
  unfold Decomposition.signature Decomposition.orderedRange Decomposition.distribution
  rw [h.ordered, h.distributions]

theorem block_flag_roundtrip (b : Block) (h : b.splitter = false) :
    { ({ b with splitter := true } : Block) with splitter := false } = b := by
  cases b
  simp only at h
  subst h
  rfl

/-- One round of the second run pops the next block and marks nothing: the block is
small, absorbing or stable. -/
theorem refinementStep_rerun (cmp : ConstantsComparator) (m : Model) (fix : Decomposition)
    (hfix : fix.Fixpoint cmp m) (k : Nat) (s : Decomposition × List Nat)
    (h : RerunState fix k s) (hk : k < fix.partition.blocks.length) :
    RerunState fix (k + 1) (refinementStep cmp m s) := by
  obtain ⟨st, queue⟩ := s
  have hq : queue = k :: List.range' (k + 1) (fix.partition.blocks.length - (k + 1)) := by
    have := h.queue
    simp only at this
    rw [this]
    have : fix.partition.blocks.length - k
        = (fix.partition.blocks.length - (k + 1)) + 1 := by omega
    rw [this, List.range'_succ]
  subst hq
  have hlay := h.layout
  have hlay1 := hlay.trans (Partition.sameLayout_setSplitter st.partition k false)
  have hv1 := hlay1.valid hfix.valid
  have hb1 := hfix.inBounds.of_layout hlay1
  -- the state after the flag of the popped block has been cleared
  have hst1 : RerunState fix (k + 1)
      ({ st with partition := st.partition.setSplitter k false },
        List.range' (k + 1) (fix.partition.blocks.length - (k + 1))) := by
    refine ⟨rfl, h.mapping, h.distributions, h.ordered, h.positions, ?_, ?_⟩
    · exact hlay1.2.1
    · intro i
      show (st.partition.setSplitter k false).block i = _
      rw [Partition.block_setSplitter]
      have hlen : st.partition.blocks.length = fix.partition.blocks.length := h.length
      have hbi := h.blocks
      simp only at hbi
      by_cases hik : i = k
      · subst hik
        rw [if_pos ⟨rfl, by omega⟩, hbi i, if_pos ⟨le_refl _, hk⟩, if_neg (by omega)]
        exact block_flag_roundtrip _ (hfix.unflagged i)
      · rw [if_neg (fun hc => hik hc.1), hbi i]
        by_cases hki : k ≤ i ∧ i < fix.partition.blocks.length
        · rw [if_pos hki, if_pos ⟨by omega, hki.2⟩]
        · rw [if_neg hki, if_neg (by omega)]
  have hrefine : refinePartitionBasedOnSplitter cmp m
      { st with partition := st.partition.setSplitter k false } k
      (List.range' (k + 1) (fix.partition.blocks.length - (k + 1)))
      = ({ st with partition := st.partition.setSplitter k false },
        List.range' (k + 1) (fix.partition.blocks.length - (k + 1))) := by
    unfold refinePartitionBasedOnSplitter
    by_cases hneed : possiblyNeedsRefinement
        { st with partition := st.partition.setSplitter k false } k = true
    · simp only [hneed, Bool.not_true, Bool.false_eq_true, if_false]
      have habs : (fix.partition.block k).absorbing = false := by
        unfold possiblyNeedsRefinement at hneed
        simp only [Bool.and_eq_true, Bool.not_eq_true'] at hneed
        rw [← (hlay1.2.2 k).2.2]
        exact hneed.2
      have hstable := (checkBlockStable_iff cmp m fix k).mp (hfix.stable k hk habs)
      have hsplit := Partition.splitBlock_of_stable (st.partition.setSplitter k false) hv1 hb1
        k (quotientDistributionsLess cmp m
          { st with partition := st.partition.setSplitter k false }) (by
          intro s1 h1 s2 h2
          have e1 : (st.partition.setSplitter k false).statesOf k = fix.partition.statesOf k :=
            hlay1.statesOf k
          rw [e1] at h1 h2
          have := hstable s1 h1 s2 h2
          unfold quotientDistributionsLess at this ⊢
          rw [hst1.signature m s1, hst1.signature m s2]
          exact this)
      unfold splitBlockAccordingToCurrentQuotientDistributions
      dsimp only
      rw [hsplit]
      rfl
    · simp only [hneed, Bool.not_false, if_true]
  show RerunState fix (k + 1)
    (refinePartitionBasedOnSplitter cmp m
      { st with partition := st.partition.setSplitter k false } k
      (List.range' (k + 1) (fix.partition.blocks.length - (k + 1))))
  rw [hrefine]
  exact hst1

theorem refinementLoop_rerun (cmp : ConstantsComparator) (m : Model) (fix : Decomposition)
    (hfix : fix.Fixpoint cmp m) (fuel : Nat) :
    ∀ (k : Nat) (s : Decomposition × List Nat), RerunState fix k s →
      k ≤ fix.partition.blocks.length →
      RerunState fix (min (k + fuel) fix.partition.blocks.length)
        (refinementLoop cmp m fuel s) := by
  induction fuel with
  | zero =>
    intro k s h hk
    rw [Nat.add_zero, Nat.min_eq_left hk]
    exact h
  | succ fuel ih =>
    intro k s h hk
    by_cases hlt : k < fix.partition.blocks.length
    · have hstep := refinementStep_rerun cmp m fix hfix k s h hlt
      have hq := h.queue
      obtain ⟨st, queue⟩ := s
      simp only at hq
      have hne : fix.partition.blocks.length - k
          = (fix.partition.blocks.length - (k + 1)) + 1 := by omega
      rw [hne, List.range'_succ] at hq
      subst hq
      have := ih (k + 1) _ hstep (by omega)
      have e : k + 1 + fuel = k + (fuel + 1) := by omega
      rw [e] at this
      exact this
    · have hkeq : k = fix.partition.blocks.length := by omega
      have hq := h.queue
      obtain ⟨st, queue⟩ := s
      simp only at hq
      rw [hkeq, Nat.sub_self] at hq
      simp only [List.range'_zero] at hq
      subst hq
      have hmin : min (k + (fuel + 1)) fix.partition.blocks.length = k := by
        rw [hkeq]
        exact Nat.min_eq_right (by omega)
      rw [hmin]
      exact h

theorem enqueueAllBlocks_rerun (fix : Decomposition) :
    RerunState fix 0 (enqueueAllBlocks fix) := by
  refine ⟨?_, rfl, rfl, rfl, rfl, ?_, ?_⟩
  · show List.range fix.partition.blocks.length = _
    rw [Nat.sub_zero, List.range_eq_range']
  · exact (enqueueAllBlocks_sameLayout fix).2.1
  · intro i
    rw [enqueueAllBlocks_block]
    by_cases hi : i < fix.partition.blocks.length
    · rw [if_pos hi, if_pos ⟨Nat.zero_le _, hi⟩]
    · rw [if_neg hi, if_neg (fun h => hi h.2)]

theorem blocks_ext (l1 l2 : List Block) (h1 : l1.length = l2.length)
    (h2 : ∀ i, l1.getD i default = l2.getD i default) : l1 = l2 := by
  apply List.ext_getElem h1
  intro i hi1 hi2
  have := h2 i
  rw [List.getD_eq_getElem?_getD, List.getD_eq_getElem?_getD, List.getElem?_eq_getElem hi1,
    List.getElem?_eq_getElem hi2] at this
  exact this

/-- When the queue of the second run is empty, the decomposition is the fixpoint. -/
theorem RerunState.eq_fix {fix : Decomposition} {k : Nat} {s : Decomposition × List Nat}
    (h : RerunState fix k s) (hk : k ≤ fix.partition.blocks.length) (hq : s.2 = []) :
    s.1 = fix := by
  have hkeq : k = fix.partition.blocks.length := by
    have := h.queue
    rw [hq] at this
    have hl := congrArg List.length this
    simp only [List.length_nil, List.length_range'] at hl
    omega
  obtain ⟨st, queue⟩ := s
  obtain ⟨pst, mp, qd, ord⟩ := st
  obtain ⟨pos, blks⟩ := pst
  obtain ⟨fp, fmp, fqd, ford⟩ := fix
  obtain ⟨fpos, fblks⟩ := fp
  have h1 := h.mapping
  have h2 := h.distributions
  have h3 := h.ordered
  have h4 := h.positions
  have h5 := h.length
  have h6 := h.blocks
  simp only at h1 h2 h3 h4 h5 h6 hkeq
  subst h1 h2 h3 h4
  have : blks = fblks := by
    apply blocks_ext _ _ h5
    intro i
    have := h6 i
    rw [if_neg (by omega)] at this
    exact this
  subst this
  rfl

/-- C20: idempotence of the fixpoint. Let `fix` be the decomposition a completed
refinement run ended in (its queue is empty). Enqueuing all blocks of `fix` again and
running the refinement loop for any number `k` of rounds performs no split: the number of
blocks, the state sequence, the quotient distributions and their per-state order are those
of `fix`. After as many rounds as there are blocks the queue is empty, and whenever the
queue is empty the whole decomposition, splitter flags included, is `fix` again. -/
theorem rerun_of_fixpoint_unchanged (cmp : ConstantsComparator) (m : Model) (p : Partition)
    (fuel : Nat) (hswo : StrictWeakOrder (Distribution.less cmp)) (hm : m.Monotone)
    (hrows : m.rowGroupIndices.getLastD 0 ≤ m.getNumberOfChoices) (hv : p.Valid)
    (hb : p.InBounds) (hempty : (runRefinement cmp m p fuel).2 = []) :
    (∀ k,
      (refinementLoop cmp m k (enqueueAllBlocks (runRefinement cmp m p fuel).1)).1.partition.blocks.length
          = (runRefinement cmp m p fuel).1.partition.blocks.length
      ∧ (refinementLoop cmp m k (enqueueAllBlocks (runRefinement cmp m p fuel).1)).1.partition.positions
          = (runRefinement cmp m p fuel).1.partition.positions
      ∧ (refinementLoop cmp m k (enqueueAllBlocks (runRefinement cmp m p fuel).1)).1.quotientDistributions
          = (runRefinement cmp m p fuel).1.quotientDistributions
      ∧ (refinementLoop cmp m k (enqueueAllBlocks (runRefinement cmp m p fuel).1)).1.orderedQuotientDistributions
          = (runRefinement cmp m p fuel).1.orderedQuotientDistributions
      ∧ ((refinementLoop cmp m k (enqueueAllBlocks (runRefinement cmp m p fuel).1)).2 = [] →
          (refinementLoop cmp m k (enqueueAllBlocks (runRefinement cmp m p fuel).1)).1
            = (runRefinement cmp m p fuel).1))
    ∧ (refinementLoop cmp m (runRefinement cmp m p fuel).1.partition.blocks.length
        (enqueueAllBlocks (runRefinement cmp m p fuel).1)).2 = [] := by
  have hfix := runRefinement_fixpoint cmp m p fuel hswo hm hrows hv hb hempty
  have hloop := fun k => refinementLoop_rerun cmp m _ hfix k 0 _
    (enqueueAllBlocks_rerun (runRefinement cmp m p fuel).1) (Nat.zero_le _)
  refine ⟨fun k => ⟨(hloop k).length, (hloop k).positions, (hloop k).distributions,
    (hloop k).ordered, fun hq => (hloop k).eq_fix (Nat.min_le_right _ _) hq⟩, ?_⟩
  have h := (hloop (runRefinement cmp m p fuel).1.partition.blocks.length).queue
  rw [h, Nat.zero_add, Nat.min_self, Nat.sub_self]
  rfl

theorem rerun_of_fixpoint_unchanged_witness :
    StrictWeakOrder (Distribution.less exactComparator) ∧ threeStateModel.Monotone
    ∧ threeStateModel.rowGroupIndices.getLastD 0 ≤ threeStateModel.getNumberOfChoices
    ∧ threeStatePartition.Valid ∧ threeStatePartition.InBounds
    ∧ (runRefinement exactComparator threeStateModel threeStatePartition 4).2 = []
    ∧ ((∀ k,
      (refinementLoop exactComparator threeStateModel k (enqueueAllBlocks
        (runRefinement exactComparator threeStateModel threeStatePartition 4).1)).1.partition.blocks.length
          = (runRefinement exactComparator threeStateModel threeStatePartition 4).1.partition.blocks.length
      ∧ (refinementLoop exactComparator threeStateModel k (enqueueAllBlocks
        (runRefinement exactComparator threeStateModel threeStatePartition 4).1)).1.partition.positions
          = (runRefinement exactComparator threeStateModel threeStatePartition 4).1.partition.positions
      ∧ (refinementLoop exactComparator threeStateModel k (enqueueAllBlocks
        (runRefinement exactComparator threeStateModel threeStatePartition 4).1)).1.quotientDistributions
          = (runRefinement exactComparator threeStateModel threeStatePartition 4).1.quotientDistributions
      ∧ (refinementLoop exactComparator threeStateModel k (enqueueAllBlocks
        (runRefinement exactComparator threeStateModel threeStatePartition 4).1)).1.orderedQuotientDistributions
          = (runRefinement exactComparator threeStateModel threeStatePartition 4).1.orderedQuotientDistributions
      ∧ ((refinementLoop exactComparator threeStateModel k (enqueueAllBlocks
        (runRefinement exactComparator threeStateModel threeStatePartition 4).1)).2 = [] →
          (refinementLoop exactComparator threeStateModel k (enqueueAllBlocks
            (runRefinement exactComparator threeStateModel threeStatePartition 4).1)).1
            = (runRefinement exactComparator threeStateModel threeStatePartition 4).1))
    ∧ (refinementLoop exactComparator threeStateModel
        (runRefinement exactComparator threeStateModel threeStatePartition 4).1.partition.blocks.length
        (enqueueAllBlocks
          (runRefinement exactComparator threeStateModel threeStatePartition 4).1)).2 = []) :=
  ⟨Distribution.less_exact_strictWeakOrder, by simp [Model.Monotone, threeStateModel], by decide!,
    ⟨by decide!, by decide!, by decide!⟩, by unfold Partition.InBounds; decide!, by decide!,
    rerun_of_fixpoint_unchanged exactComparator threeStateModel threeStatePartition 4
      Distribution.less_exact_strictWeakOrder (by simp [Model.Monotone, threeStateModel]) (by decide!)
      ⟨by decide!, by decide!, by decide!⟩ (by unfold Partition.InBounds; decide!)
      (by decide!)⟩

/-! ## Illegal configurations -/

/-- C23: weak bisimulation is rejected at construction.  The constructor raises
`IllegalFunctionCallException` if and only if `options.type` is not
`BisimulationType::Strong`; otherwise it returns the decomposition with its three vectors
of one entry per choice. -/
theorem weak_bisimulation_rejected (m : Model) (p : Partition) (options : Options) :
    (NondeterministicModelBisimulationDecomposition m p options
        = Except.error Exception.IllegalFunctionCallException ↔
      options.type ≠ BisimulationType.Strong) ∧
    ((∃ e, NondeterministicModelBisimulationDecomposition m p options = Except.error e) ↔
      options.type ≠ BisimulationType.Strong) ∧
    (NondeterministicModelBisimulationDecomposition m p options
        = Except.ok (construct m p) ↔
      options.type = BisimulationType.Strong) := by
  unfold NondeterministicModelBisimulationDecomposition STORM_LOG_THROW
  by_cases h : options.type = BisimulationType.Strong
  · simp [h]
  · simp only [h, decide_False, Bool.false_eq_true, if_false, ne_eq, not_false_eq_true,
      iff_true, true_and, iff_false]
    exact ⟨⟨Exception.IllegalFunctionCallException, trivial⟩, by simp⟩

/-- C24: the probability-0/1 query needs a direction.  `getStatesWithProbability01`
raises `IllegalFunctionCallException` if and only if `options.optimalityType` is absent,
in which case no result is returned; for `Minimize` the result is that of
`performProb01Min` and for `Maximize` that of `performProb01Max`, on the transition
matrix, its row-group indices, the backward transitions and the phi and psi states of the
options. -/
theorem probability01_needs_direction
    (performProb01Min performProb01Max :
      List (List (Nat × ℚ)) → List Nat → List (List (Nat × ℚ)) → StateSet → StateSet →
        StateSet × StateSet)
    (m : Model) (backwardTransitions : List (List (Nat × ℚ))) :
    (∀ options : Options,
      (getStatesWithProbability01 performProb01Min performProb01Max m backwardTransitions
          options = Except.error Exception.IllegalFunctionCallException ↔
        options.optimalityType = none) ∧
      ((∃ e, getStatesWithProbability01 performProb01Min performProb01Max m
          backwardTransitions options = Except.error e) ↔
        options.optimalityType = none)) ∧
    (∀ (type : BisimulationType) (phi psi : StateSet),
      getStatesWithProbability01 performProb01Min performProb01Max m backwardTransitions
          { type := type, optimalityType := some OptimizationDirection.Minimize,
            phiStates := some phi, psiStates := some psi }
        = Except.ok (some (performProb01Min m.rows m.rowGroupIndices backwardTransitions
            phi psi))) ∧
    (∀ (type : BisimulationType) (phi psi : StateSet),
      getStatesWithProbability01 performProb01Min performProb01Max m backwardTransitions
          { type := type, optimalityType := some OptimizationDirection.Maximize,
            phiStates := some phi, psiStates := some psi }
        = Except.ok (some (performProb01Max m.rows m.rowGroupIndices backwardTransitions
            phi psi))) := by
  refine ⟨?_, ?_, ?_⟩
  · intro options
    unfold getStatesWithProbability01 STORM_LOG_THROW
    cases h : options.optimalityType with
    | none =>
      simp only [Option.isSome_none, Bool.false_eq_true, if_false, iff_true, true_and]
      exact ⟨Exception.IllegalFunctionCallException, trivial⟩
    | some d =>
      simp only [Option.isSome_some, if_true]
      constructor
      · constructor
        · intro h'
          split at h' <;> exact absurd h' (by simp)
        · intro h'
          exact absurd h' (by simp)
      · constructor
        · rintro ⟨e, h'⟩
          split at h' <;> exact absurd h' (by simp)
        · intro h'
          exact absurd h' (by simp)
  · intro type phi psi
    rfl
  · intro type phi psi
    rfl

/-! ## The scenarios of the specification -/

/-- C25: the three-state scenario.  State 0 has one choice to the states 1 and 2 with
probability one half each, the states 1 and 2 loop; the initial partition has the block
`rest` (id 0) with the states 0 and 2 and the block `target` (id 1) with state 1.
Initialization gives the choice of state 0 the quotient distribution
`{target: 1/2, rest: 1/2}` and the choice of state 2 the distribution `{rest: 1}`; state 0
is `quotientDistributionsLess` than state 2; refining the block `rest` splits it into the
block 0 with state 0 and the new block 2 with state 2; and the refinement loop ends, with
an empty splitter queue, in three blocks of one state each. -/
theorem three_state_scenario :
    threeStateModel.choicesOf 0 = [0] ∧ threeStateModel.choicesOf 2 = [2] ∧
    threeStatePartition.statesOf 0 = [0, 2] ∧ threeStatePartition.statesOf 1 = [1] ∧
    (initializeDecomposition exactComparator threeStateModel
        (construct threeStateModel threeStatePartition)).distribution 0
      = [(1, 1 / 2), (0, 1 / 2)] ∧
    (initializeDecomposition exactComparator threeStateModel
        (construct threeStateModel threeStatePartition)).distribution 2 = [(0, 1)] ∧
    (initializeDecomposition exactComparator threeStateModel
        (construct threeStateModel threeStatePartition)).signature threeStateModel 0
      = [[(1, 1 / 2), (0, 1 / 2)]] ∧
    (initializeDecomposition exactComparator threeStateModel
        (construct threeStateModel threeStatePartition)).signature threeStateModel 2
      = [[(0, 1)]] ∧
    quotientDistributionsLess exactComparator threeStateModel
      (initializeDecomposition exactComparator threeStateModel
        (construct threeStateModel threeStatePartition)) 0 2 = true ∧
    (refinePartitionBasedOnSplitter exactComparator threeStateModel
      (initializeDecomposition exactComparator threeStateModel
        (construct threeStateModel threeStatePartition)) 0 []).1.partition.blocks.length = 3 ∧
    (refinePartitionBasedOnSplitter exactComparator threeStateModel
      (initializeDecomposition exactComparator threeStateModel
        (construct threeStateModel threeStatePartition)) 0 []).1.partition.statesOf 0 = [0] ∧
    (refinePartitionBasedOnSplitter exactComparator threeStateModel
      (initializeDecomposition exactComparator threeStateModel
        (construct threeStateModel threeStatePartition)) 0 []).1.partition.statesOf 2 = [2] ∧
    (refinePartitionBasedOnSplitter exactComparator threeStateModel
      (initializeDecomposition exactComparator threeStateModel
        (construct threeStateModel threeStatePartition)) 0 []).1.partition.statesOf 1 = [1] ∧
    (runRefinement exactComparator threeStateModel threeStatePartition 4).2 = [] ∧
    (runRefinement exactComparator threeStateModel threeStatePartition
      4).1.partition.blocks.length = 3 ∧
    (runRefinement exactComparator threeStateModel threeStatePartition
      4).1.partition.statesOf 0 = [0] ∧
    (runRefinement exactComparator threeStateModel threeStatePartition
      4).1.partition.statesOf 1 = [1] ∧
    (runRefinement exactComparator threeStateModel threeStatePartition
      4).1.partition.statesOf 2 = [2] ∧
    (runRefinement exactComparator threeStateModel threeStatePartition 4).1.partition.Valid := by
  refine ⟨by decide, by decide, by decide, by decide, by decide!, by decide!, by decide!,
    by decide!, by decide!, by decide!, by decide!, by decide!, by decide!, by decide!,
    by decide!, by decide!, by decide!, by decide!, ⟨by decide!, by decide!, by decide!⟩⟩

/-! ## Initialization by replay -/

/-- The replay of a row into a distribution, for every comparator: the keys, the masses
and the uniqueness of the keys. -/
theorem replay_spec (cmp : ConstantsComparator) (g : Nat → Nat) (l : List (Nat × ℚ)) :
    ∀ d : Distribution,
      (∀ k, k ∈ (l.foldl
          (fun d entry =>
            if !cmp.isZero entry.2 then Distribution.addProbability d (g entry.1) entry.2
            else d) d).keys ↔
        k ∈ d.keys ∨ ∃ e ∈ l, cmp.isZero e.2 = false ∧ g e.1 = k) ∧
      (∀ k, Distribution.mass (l.foldl
          (fun d entry =>
            if !cmp.isZero entry.2 then Distribution.addProbability d (g entry.1) entry.2
            else d) d) k
        = Distribution.mass d k
          + ((l.filter (fun e => !cmp.isZero e.2 && decide (g e.1 = k))).map Prod.snd).sum) ∧
      (d.keys.Nodup → (l.foldl
          (fun d entry =>
            if !cmp.isZero entry.2 then Distribution.addProbability d (g entry.1) entry.2
            else d) d).keys.Nodup) := by
  induction l with
  | nil =>
    intro d
    simp
  | cons e l ih =>
    intro d
    simp only [List.foldl_cons]
    by_cases hz : cmp.isZero e.2 = true
    · simp only [hz, Bool.not_true, Bool.false_eq_true, if_false]
      obtain ⟨h1, h2, h3⟩ := ih d
      refine ⟨?_, ?_, h3⟩
      · intro k
        rw [h1 k]
        simp [hz]
      · intro k
        rw [h2 k]
        simp [List.filter_cons, hz]
    · have hz' : cmp.isZero e.2 = false := by simpa using hz
      simp only [hz', Bool.not_false, if_true]
      obtain ⟨h1, h2, h3⟩ := ih (Distribution.addProbability d (g e.1) e.2)
      refine ⟨?_, ?_, ?_⟩
      · intro k
        rw [h1 k, Distribution.mem_keys_addProbability]
        simp only [List.mem_cons, exists_eq_or_imp, hz', true_and]
        constructor
        · rintro ((h | h) | h)
          · exact Or.inl h
          · exact Or.inr (Or.inl h.symm)
          · exact Or.inr (Or.inr h)
        · rintro (h | h | h)
          · exact Or.inl (Or.inl h)
          · exact Or.inl (Or.inr h.symm)
          · exact Or.inr h
      · intro k
        rw [h2 k, Distribution.mass_addProbability]
        by_cases hk : g e.1 = k
        · simp [List.filter_cons, hz', hk]
          ring
        · simp [List.filter_cons, hz', hk]
      · intro hd
        exact h3 (Distribution.nodup_keys_addProbability d _ _ hd)

/-- C22: initialization builds the quotient distributions by replay.  For a decomposition
with one empty quotient distribution per choice, non-decreasing row-group indices that end
at the number of choices and a strict weak order `Distribution.less`: after `initializeQuotientDistributions`, for every choice `c` and every
block id `b`, `quotientDistributions[c]` has an entry for `b` if and only if the row of `c`
has an entry whose probability is not `isZero` and whose successor state lies in block
`b`; it has at most one such entry, and its mass is the sum of the probabilities of exactly
those row entries; and every signature list is sorted afterwards. -/
theorem initialization_by_replay (cmp : ConstantsComparator) (m : Model) (st : Decomposition)
    (hlen : st.quotientDistributions.length = m.getNumberOfChoices)
    (hfresh : ∀ c, st.distribution c = [])
    (hrows : m.rowGroupIndices.getLastD 0 = m.getNumberOfChoices)
    (hswo : StrictWeakOrder (Distribution.less cmp)) (hm : m.Monotone) :
    (∀ c, c < m.getNumberOfChoices → ∀ b,
      (b ∈ ((initializeQuotientDistributions cmp m st).distribution c).keys ↔
        ∃ e ∈ m.getRow c, cmp.isZero e.2 = false ∧ st.partition.getBlock e.1 = b) ∧
      ((initializeQuotientDistributions cmp m st).distribution c).keys.count b ≤ 1 ∧
      Distribution.mass ((initializeQuotientDistributions cmp m st).distribution c) b
        = (((m.getRow c).filter
            (fun e => !cmp.isZero e.2 && decide (st.partition.getBlock e.1 = b))).map
            Prod.snd).sum) ∧
    (initializeQuotientDistributions cmp m st).SignaturesSorted cmp m := by
  refine ⟨?_, initializeQuotientDistributions_sorted cmp m hswo hm st⟩
  intro c hc b
  rw [initializeQuotientDistributions_distribution, if_pos ⟨by omega, by omega⟩, hfresh c]
  obtain ⟨h1, h2, h3⟩ := replay_spec cmp st.partition.getBlock (m.getRow c) []
  refine ⟨?_, ?_, ?_⟩
  · unfold replayRow
    rw [h1 b]
    simp [Distribution.keys]
  · unfold replayRow
    exact List.nodup_iff_count_le_one.mp (h3 List.nodup_nil) b
  · unfold replayRow
    rw [h2 b]
    simp [Distribution.mass_nil]

theorem initialization_by_replay_witness :
    (∀ c, c < threeStateModel.getNumberOfChoices → ∀ b,
      (b ∈ ((initializeQuotientDistributions exactComparator threeStateModel
          (construct threeStateModel threeStatePartition)).distribution c).keys ↔
        ∃ e ∈ threeStateModel.getRow c, exactComparator.isZero e.2 = false ∧
          (construct threeStateModel threeStatePartition).partition.getBlock e.1 = b) ∧
      ((initializeQuotientDistributions exactComparator threeStateModel
          (construct threeStateModel threeStatePartition)).distribution c).keys.count b ≤ 1 ∧
      Distribution.mass ((initializeQuotientDistributions exactComparator threeStateModel
          (construct threeStateModel threeStatePartition)).distribution c) b
        = (((threeStateModel.getRow c).filter
            (fun e => !exactComparator.isZero e.2 &&
              decide ((construct threeStateModel threeStatePartition).partition.getBlock e.1
                = b))).map Prod.snd).sum) ∧
    (initializeQuotientDistributions exactComparator threeStateModel
      (construct threeStateModel threeStatePartition)).SignaturesSorted exactComparator
      threeStateModel :=
  initialization_by_replay exactComparator threeStateModel
    (construct threeStateModel threeStatePartition) (by decide)
    (construct_distribution threeStateModel threeStatePartition) (by decide)
    Distribution.less_exact_strictWeakOrder (by simp [Model.Monotone, threeStateModel])

/-! ## Signature entries point to the choices of their state -/

theorem initializeQuotientDistributions_rangesPermuted (cmp : ConstantsComparator)
    (m : Model) (hm : m.Monotone) (st : Decomposition)
    (hlast : m.rowGroupIndices.getLastD 0 ≤ st.orderedQuotientDistributions.length) :
    (initializeQuotientDistributions cmp m st).RangesPermuted m := by
  unfold initializeQuotientDistributions
  apply foldl_updateOrdered_rangesPermuted cmp m hm
  intro s hs
  obtain ⟨h1, h2⟩ := foldl_initializeChoice_ordered cmp m st (m.rowGroupIndices.getLastD 0)
  have hle := choiceIndex_le_last m hm (s + 1) hs
  have hmono : m.choiceIndex s ≤ m.choiceIndex (s + 1) := by
    apply choiceIndex_mono m hm s (s + 1) (by omega)
    unfold Model.getNumberOfStates at hs
    omega
  unfold Decomposition.orderedRange
  rw [slice_eq_range']
  · rw [h1]
    omega
  · intro c hc
    rw [h2 c, if_pos]
    constructor <;> omega

theorem updateQuotientDistributionsOfPredecessors_rangesPermuted (cmp : ConstantsComparator)
    (m : Model) (hm : m.Monotone) (st : Decomposition) (newBlock oldBlock : Nat)
    (queue : List Nat) (h : st.RangesPermuted m) :
    (updateQuotientDistributionsOfPredecessors cmp m st newBlock oldBlock
      queue).1.RangesPermuted m := fun s hs =>
  (updateQuotientDistributionsOfPredecessors_orderedRange_perm cmp m hm st newBlock oldBlock
    queue s).trans (h s hs)

/-- C30: the signature entries are references to the choices of their state.  With
non-decreasing row-group indices: after `initializeQuotientDistributions` (on vectors that
have an entry for every choice below the last row-group index), and, when it holds
before, after every call of `updateOrderedQuotientDistributions` and of
`updateQuotientDistributionsOfPredecessors`, for every state `s` the entries of
`orderedQuotientDistributions` inside the choice range of `s` are a permutation of the
references to `quotientDistributions[c]` for the choices `c` of `s`: every choice of `s` is
referenced exactly once and no choice of another state is referenced; the signature list
reads the distributions through these references. -/
theorem signature_entries_are_own_choices (cmp : ConstantsComparator) (m : Model)
    (hm : m.Monotone) :
    (∀ st : Decomposition,
      m.rowGroupIndices.getLastD 0 ≤ st.orderedQuotientDistributions.length →
      (initializeQuotientDistributions cmp m st).RangesPermuted m) ∧
    (∀ (st : Decomposition) (state : Nat), st.RangesPermuted m →
      (updateOrderedQuotientDistributions cmp m st state).RangesPermuted m) ∧
    (∀ (st : Decomposition) (newBlock oldBlock : Nat) (queue : List Nat),
      st.RangesPermuted m →
      (updateQuotientDistributionsOfPredecessors cmp m st newBlock oldBlock
        queue).1.RangesPermuted m) ∧
    (∀ st : Decomposition, st.RangesPermuted m → ∀ s, s < m.getNumberOfStates →
      (st.orderedRange m s).Perm (m.choicesOf s) ∧
      (∀ c, (st.orderedRange m s).count c
        = if m.choiceIndex s ≤ c ∧ c < m.choiceIndex (s + 1) then 1 else 0) ∧
      st.signature m s = (st.orderedRange m s).map st.distribution) := by
  refine ⟨fun st h => initializeQuotientDistributions_rangesPermuted cmp m hm st h,
    fun st state h => updateOrdered_rangesPermuted cmp m hm st state h,
    fun st newBlock oldBlock queue h =>
      updateQuotientDistributionsOfPredecessors_rangesPermuted cmp m hm st newBlock oldBlock
        queue h, ?_⟩
  intro st h s hs
  refine ⟨h s hs, fun c => ?_, rfl⟩
  rw [(h s hs).count_eq]
  by_cases hc : m.choiceIndex s ≤ c ∧ c < m.choiceIndex (s + 1)
  · rw [if_pos hc]
    apply List.count_eq_one_of_mem (List.nodup_range' _ _)
    rw [List.mem_range']
    exact ⟨c - m.choiceIndex s, by omega, by omega⟩
  · rw [if_neg hc, List.count_eq_zero, List.mem_range']
    rintro ⟨i, hi, rfl⟩
    omega

theorem signature_entries_are_own_choices_witness :
    (initializeQuotientDistributions exactComparator threeStateModel
      (construct threeStateModel threeStatePartition)).RangesPermuted threeStateModel ∧
    (∀ st : Decomposition,
      threeStateModel.rowGroupIndices.getLastD 0 ≤ st.orderedQuotientDistributions.length →
      (initializeQuotientDistributions exactComparator threeStateModel st).RangesPermuted
        threeStateModel) ∧
    (∀ (st : Decomposition) (state : Nat), st.RangesPermuted threeStateModel →
      (updateOrderedQuotientDistributions exactComparator threeStateModel st
        state).RangesPermuted threeStateModel) ∧
    (∀ (st : Decomposition) (newBlock oldBlock : Nat) (queue : List Nat),
      st.RangesPermuted threeStateModel →
      (updateQuotientDistributionsOfPredecessors exactComparator threeStateModel st newBlock
        oldBlock queue).1.RangesPermuted threeStateModel) ∧
    (∀ st : Decomposition, st.RangesPermuted threeStateModel →
      ∀ s, s < threeStateModel.getNumberOfStates →
      (st.orderedRange threeStateModel s).Perm (threeStateModel.choicesOf s) ∧
      (∀ c, (st.orderedRange threeStateModel s).count c
        = if threeStateModel.choiceIndex s ≤ c ∧ c < threeStateModel.choiceIndex (s + 1)
          then 1 else 0) ∧
      st.signature threeStateModel s
        = (st.orderedRange threeStateModel s).map st.distribution) :=
  ⟨(signature_entries_are_own_choices exactComparator threeStateModel
      (by simp [Model.Monotone, threeStateModel])).1 _ (by decide),
    signature_entries_are_own_choices exactComparator threeStateModel
      (by simp [Model.Monotone, threeStateModel])⟩

/-! ## The frame of one predecessor update -/

section SliceFrame

variable {α : Type}

theorem slice_replace_entry (l x : List α) (b k : Nat)
    (hx : x.length = ((l.drop b).take k).length) (i : Nat) (hi : i < b ∨ b + k ≤ i) :
    (l.take b ++ x ++ l.drop (b + x.length))[i]? = l[i]? := by
  by_cases hb : b ≤ l.length
  · have hA : (l.take b).length = b := by simp [hb]
    have hxl : x.length = min k (l.length - b) := by simp [hx]
    rcases hi with hi | hi
    · rw [List.append_assoc, List.getElem?_append_left (by omega), List.getElem?_take_of_lt hi]
    · rw [List.getElem?_append_right (by simp [hA]; omega), List.getElem?_drop]
      congr 1
      simp only [List.length_append, hA]
      omega
  · rw [slice_replace_eq_self l x b k hx (by omega)]

theorem slice_replace_length (l x : List α) (b k : Nat)
    (hx : x.length = ((l.drop b).take k).length) :
    (l.take b ++ x ++ l.drop (b + x.length)).length = l.length := by
  simp only [List.length_append, List.length_take, List.length_drop]
  simp only [List.length_take, List.length_drop] at hx
  omega

end SliceFrame

/-- `updateOrderedQuotientDistributions(state)` keeps every entry outside the range of the
state. -/
theorem updateOrdered_entry (cmp : ConstantsComparator) (m : Model) (st : Decomposition)
    (s i : Nat) (hi : ¬ (m.choiceIndex s ≤ i ∧ i < m.choiceIndex (s + 1))) :
    (updateOrderedQuotientDistributions cmp m st s).orderedQuotientDistributions[i]?
      = st.orderedQuotientDistributions[i]? := by
  unfold updateOrderedQuotientDistributions
  simp only [Decomposition.orderedRange]
  rw [← insertionSort_length
    (fun c1 c2 => Distribution.less cmp (st.distribution c2) (st.distribution c1) = false)
    ((st.orderedQuotientDistributions.drop (m.choiceIndex s)).take
      (m.choiceIndex (s + 1) - m.choiceIndex s))]
  apply slice_replace_entry _ _ _ _ (insertionSort_length _ _)
  omega

theorem updateOrdered_ordered_length (cmp : ConstantsComparator) (m : Model)
    (st : Decomposition) (s : Nat) :
    (updateOrderedQuotientDistributions cmp m st s).orderedQuotientDistributions.length
      = st.orderedQuotientDistributions.length := by
  unfold updateOrderedQuotientDistributions
  simp only [Decomposition.orderedRange]
  rw [← insertionSort_length
    (fun c1 c2 => Distribution.less cmp (st.distribution c2) (st.distribution c1) = false)
    ((st.orderedQuotientDistributions.drop (m.choiceIndex s)).take
      (m.choiceIndex (s + 1) - m.choiceIndex s))]
  exact slice_replace_length _ _ _ _ (insertionSort_length _ _)

theorem repairOrder_entry (cmp : ConstantsComparator) (m : Model) (st : Decomposition)
    (last : Option Nat) (ps i : Nat)
    (hi : ∀ l, last = some l → ¬ (m.choiceIndex l ≤ i ∧ i < m.choiceIndex (l + 1))) :
    (repairOrder cmp m st last ps).orderedQuotientDistributions[i]?
      = st.orderedQuotientDistributions[i]? := by
  unfold repairOrder
  cases last with
  | none => rfl
  | some l =>
    dsimp only
    split
    · exact updateOrdered_entry cmp m st l i (hi l rfl)
    · rfl

theorem repairOrder_ordered_length (cmp : ConstantsComparator) (m : Model)
    (st : Decomposition) (last : Option Nat) (ps : Nat) :
    (repairOrder cmp m st last ps).orderedQuotientDistributions.length
      = st.orderedQuotientDistributions.length := by
  unfold repairOrder
  cases last with
  | none => rfl
  | some l =>
    dsimp only
    split
    · exact updateOrdered_ordered_length cmp m st l
    · rfl

theorem updatePredecessorEntry_ordered_length (cmp : ConstantsComparator) (m : Model)
    (newBlock oldBlock : Nat) (u : UpdateState) (e : Nat × ℚ) :
    (updatePredecessorEntry cmp m newBlock oldBlock u e).dec.orderedQuotientDistributions.length
        = u.dec.orderedQuotientDistributions.length := by
  unfold updatePredecessorEntry
  by_cases hz : cmp.isZero e.2 = true
  · rw [if_pos hz]
  · rw [if_neg hz]
    show (repairOrder cmp m _ _ _).orderedQuotientDistributions.length = _
    exact repairOrder_ordered_length cmp m _ _ _

/-- One round of the inner loop keeps every entry of `orderedQuotientDistributions` that
lies outside the range of `lastState`. -/
theorem updatePredecessorEntry_ordered (cmp : ConstantsComparator) (m : Model)
    (newBlock oldBlock : Nat) (u : UpdateState) (e : Nat × ℚ) (i : Nat)
    (hi : ∀ l, u.lastState = some l → ¬ (m.choiceIndex l ≤ i ∧ i < m.choiceIndex (l + 1))) :
    (updatePredecessorEntry cmp m newBlock oldBlock u e).dec.orderedQuotientDistributions[i]?
        = u.dec.orderedQuotientDistributions[i]? ∧
    (updatePredecessorEntry cmp m newBlock oldBlock u e).lastState
      = if cmp.isZero e.2 = true then u.lastState
        else some (u.dec.choiceToStateMapping.getD e.1 0) := by
  unfold updatePredecessorEntry
  by_cases hz : cmp.isZero e.2 = true
  · rw [if_pos hz, if_pos hz]
    exact ⟨rfl, rfl⟩
  · rw [if_neg hz, if_neg hz]
    refine ⟨?_, rfl⟩
    show (repairOrder cmp m _ _ _).orderedQuotientDistributions[i]? = _
    exact repairOrder_entry cmp m _ _ _ i hi

theorem foldl_updatePredecessorEntry_ordered (cmp : ConstantsComparator) (m : Model)
    (newBlock oldBlock : Nat) (i : Nat) (es : List (Nat × ℚ)) :
    ∀ u : UpdateState,
      (∀ l, u.lastState = some l → ¬ (m.choiceIndex l ≤ i ∧ i < m.choiceIndex (l + 1))) →
      (∀ e ∈ es, cmp.isZero e.2 = false →
        ¬ (m.choiceIndex (u.dec.choiceToStateMapping.getD e.1 0) ≤ i ∧
          i < m.choiceIndex (u.dec.choiceToStateMapping.getD e.1 0 + 1))) →
      (es.foldl (updatePredecessorEntry cmp m newBlock oldBlock)
          u).dec.orderedQuotientDistributions[i]? = u.dec.orderedQuotientDistributions[i]? ∧
      (∀ l, (es.foldl (updatePredecessorEntry cmp m newBlock oldBlock) u).lastState = some l →
        ¬ (m.choiceIndex l ≤ i ∧ i < m.choiceIndex (l + 1))) := by
  induction es with
  | nil =>
    intro u hl _
    exact ⟨rfl, hl⟩
  | cons e es ih =>
    intro u hl hes
    simp only [List.foldl_cons]
    obtain ⟨h1, h3⟩ := updatePredecessorEntry_ordered cmp m newBlock oldBlock u e i hl
    have hmap := (updatePredecessorEntry_partition cmp m newBlock oldBlock u e).2.2
    have hl' : ∀ l, (updatePredecessorEntry cmp m newBlock oldBlock u e).lastState = some l →
        ¬ (m.choiceIndex l ≤ i ∧ i < m.choiceIndex (l + 1)) := by
      intro l hlast
      rw [h3] at hlast
      by_cases hz : cmp.isZero e.2 = true
      · rw [if_pos hz] at hlast
        exact hl l hlast
      · rw [if_neg hz] at hlast
        have hz' : cmp.isZero e.2 = false := by simpa using hz
        have := hes e (List.mem_cons_self _ _) hz'
        rw [Option.some.injEq] at hlast
        rw [← hlast]
        exact this
    obtain ⟨h4, h5⟩ := ih _ hl' (by
      intro x hx hz
      rw [hmap]
      exact hes x (List.mem_cons_of_mem _ hx) hz)
    exact ⟨h4.trans h1, h5⟩

theorem foldl_updatePredecessorEntry_ordered_length (cmp : ConstantsComparator) (m : Model)
    (newBlock oldBlock : Nat) (es : List (Nat × ℚ)) :
    ∀ u : UpdateState,
      (es.foldl (updatePredecessorEntry cmp m newBlock oldBlock)
          u).dec.orderedQuotientDistributions.length
        = u.dec.orderedQuotientDistributions.length := by
  induction es with
  | nil => intro u; rfl
  | cons e es ih =>
    intro u
    simp only [List.foldl_cons]
    rw [ih]
    exact updatePredecessorEntry_ordered_length cmp m newBlock oldBlock u e

theorem foldl_updatePredecessorEntry_distribution_frame (cmp : ConstantsComparator)
    (m : Model) (newBlock oldBlock : Nat) (c : Nat) (es : List (Nat × ℚ))
    (hes : ∀ e ∈ es, cmp.isZero e.2 = false → e.1 ≠ c) :
    ∀ u : UpdateState,
      (es.foldl (updatePredecessorEntry cmp m newBlock oldBlock) u).dec.distribution c
        = u.dec.distribution c := by
  induction es with
  | nil => intro u; rfl
  | cons e es ih =>
    intro u
    simp only [List.foldl_cons]
    rw [ih (fun x hx => hes x (List.mem_cons_of_mem _ hx)),
      updatePredecessorEntry_distribution, if_neg]
    rintro ⟨hz, hc, _⟩
    exact hes e (List.mem_cons_self _ _) hz hc.symm

theorem mem_backwardRow_iff (m : Model) (t : Nat) (e : Nat × ℚ) :
    e ∈ m.backwardRow t ↔ e.1 < m.getNumberOfChoices ∧ (t, e.2) ∈ m.getRow e.1 := by
  unfold Model.backwardRow
  simp only [List.mem_flatMap, List.mem_range, List.mem_map, List.mem_filter,
    decide_eq_true_eq]
  constructor
  · rintro ⟨c, hc, x, ⟨hx, hxt⟩, rfl⟩
    refine ⟨hc, ?_⟩
    rw [← hxt]
    exact hx
  · rintro ⟨hc, hmem⟩
    exact ⟨e.1, hc, (t, e.2), ⟨hmem, rfl⟩, rfl⟩

theorem mem_predecessorEntries_iff (m : Model) (st : Decomposition) (newBlock : Nat)
    (e : Nat × ℚ) :
    e ∈ predecessorEntries m st newBlock ↔
      e.1 < m.getNumberOfChoices ∧
        ∃ t ∈ st.partition.statesOf newBlock, (t, e.2) ∈ m.getRow e.1 := by
  unfold predecessorEntries
  simp only [List.mem_flatMap, mem_backwardRow_iff]
  constructor
  · rintro ⟨t, ht, hc, hmem⟩
    exact ⟨hc, t, ht, hmem⟩
  · rintro ⟨hc, t, ht, hmem⟩
    exact ⟨t, ht, hc, hmem⟩

/-- C29: only predecessor choices are patched.
`updateQuotientDistributionsOfPredecessors(newBlock, oldBlock, queue)` keeps the number of
quotient distributions and leaves `quotientDistributions[c]` unchanged for every choice
`c` that has no transition with a probability that is not `isZero` into a state of
`newBlock`; it keeps the length of `orderedQuotientDistributions` and every entry of it
whose position lies outside the choice ranges of the states that `choiceToStateMapping`
names as the owners of the choices that do have such a transition. -/
theorem only_predecessor_choices_patched (cmp : ConstantsComparator) (m : Model)
    (st : Decomposition) (newBlock oldBlock : Nat) (queue : List Nat) :
    (updateQuotientDistributionsOfPredecessors cmp m st newBlock oldBlock
        queue).1.quotientDistributions.length = st.quotientDistributions.length ∧
    (∀ c, (∀ e ∈ m.getRow c, cmp.isZero e.2 = false →
          e.1 ∉ st.partition.statesOf newBlock) →
      (updateQuotientDistributionsOfPredecessors cmp m st newBlock oldBlock
          queue).1.quotientDistributions[c]? = st.quotientDistributions[c]?) ∧
    (updateQuotientDistributionsOfPredecessors cmp m st newBlock oldBlock
        queue).1.orderedQuotientDistributions.length
      = st.orderedQuotientDistributions.length ∧
    (∀ i, (∀ c, c < m.getNumberOfChoices →
          (∃ e ∈ m.getRow c, cmp.isZero e.2 = false ∧
            e.1 ∈ st.partition.statesOf newBlock) →
          ¬ (m.choiceIndex (st.choiceToStateMapping.getD c 0) ≤ i ∧
            i < m.choiceIndex (st.choiceToStateMapping.getD c 0 + 1))) →
      (updateQuotientDistributionsOfPredecessors cmp m st newBlock oldBlock
          queue).1.orderedQuotientDistributions[i]?
        = st.orderedQuotientDistributions[i]?) := by
  have hlen : (updateQuotientDistributionsOfPredecessors cmp m st newBlock oldBlock
      queue).1.quotientDistributions.length = st.quotientDistributions.length := by
    unfold updateQuotientDistributionsOfPredecessors
    rw [(finishUpdate_frame cmp m _).2.1]
    exact (foldl_updatePredecessorEntry_partition cmp m newBlock oldBlock _ _).2.1
  refine ⟨hlen, ?_, ?_, ?_⟩
  · intro c hc
    have hd : (updateQuotientDistributionsOfPredecessors cmp m st newBlock oldBlock
        queue).1.distribution c = st.distribution c := by
      unfold updateQuotientDistributionsOfPredecessors
      rw [finishUpdate_distribution]
      apply foldl_updatePredecessorEntry_distribution_frame
      intro e he hz hec
      rw [mem_predecessorEntries_iff] at he
      obtain ⟨_, t, ht, hmem⟩ := he
      rw [hec] at hmem
      exact hc (t, e.2) hmem hz ht
    by_cases hcl : c < st.quotientDistributions.length
    · unfold Decomposition.distribution at hd
      rw [List.getD_eq_getElem _ _ hcl, List.getD_eq_getElem _ _ (by omega)] at hd
      rw [List.getElem?_eq_getElem hcl, List.getElem?_eq_getElem (by omega), hd]
    · rw [List.getElem?_eq_none (by omega), List.getElem?_eq_none (by omega)]
  · unfold updateQuotientDistributionsOfPredecessors finishUpdate
    split
    · show (updateOrderedQuotientDistributions cmp m _ _).orderedQuotientDistributions.length
        = _
      rw [updateOrdered_ordered_length]
      exact foldl_updatePredecessorEntry_ordered_length cmp m newBlock oldBlock _ _
    · exact foldl_updatePredecessorEntry_ordered_length cmp m newBlock oldBlock _ _
  · intro i hi
    obtain ⟨h1, h2⟩ := foldl_updatePredecessorEntry_ordered cmp m newBlock oldBlock i
      (predecessorEntries m st newBlock)
      { dec := st, queue := queue, lastState := none }
      (by intro l hl; exact absurd hl (by simp))
      (by
        intro e he hz
        rw [mem_predecessorEntries_iff] at he
        obtain ⟨hcl, t, ht, hmem⟩ := he
        exact hi e.1 hcl ⟨(t, e.2), hmem, hz, ht⟩)
    unfold updateQuotientDistributionsOfPredecessors finishUpdate
    split
    · rename_i l hl
      show (updateOrderedQuotientDistributions cmp m _ _).orderedQuotientDistributions[i]? = _
      rw [updateOrdered_entry cmp m _ l i (h2 l hl)]
      exact h1
    · exact h1

/-! ## Separation of the states of one initial block -/

theorem SeparationInvariant.relayout (m : Model) (p0 : Partition)
    (st st' : Decomposition) (q q' : List Nat) (h : SeparationInvariant m p0 (st, q))
    (hlay : st.partition.SameLayout st'.partition)
    (hqd : st'.quotientDistributions = st.quotientDistributions)
    (hord : ∀ s, (st'.orderedRange m s).Perm (st.orderedRange m s)) :
    SeparationInvariant m p0 (st', q') := by
  have hg : st'.partition.getBlock = st.partition.getBlock := funext hlay.getBlock
  have hd : ∀ c, st'.distribution c = st.distribution c := by
    intro c
    unfold Decomposition.distribution
    rw [hqd]
  refine ⟨?_, ?_, ?_, ?_⟩
  · show Decomposition.Tracks m st'.partition.getBlock st'
    rw [hg]
    exact
      { length := by rw [hqd]; exact h.tracks.length
        keys := fun c => by rw [hd]; exact h.tracks.keys c
        zeroFree := fun c => by rw [hd]; exact h.tracks.zeroFree c
        mass := fun c k => by rw [hd]; exact h.tracks.mass c k }
  · intro s hs
    exact (hord s).trans (h.ranges s hs)
  · intro t ht
    show t ∈ st'.partition.positions.map Prod.fst
    rw [hlay.1]
    exact h.members t ht
  · intro s1 h1 s2 h2 hp hne
    show ¬ m.Matches st'.partition.getBlock s1 s2
    rw [hg]
    apply h.separated s1 h1 s2 h2 hp
    show st.partition.getBlock s1 ≠ st.partition.getBlock s2
    rw [← hg]
    exact hne

/-- The split of a block followed by the predecessor updates keeps the separation
invariant. -/
theorem splitBlockAccording_separation (m : Model) (hm : m.Nonnegative) (hmono : m.Monotone)
    (hc : m.Closed) (p0 : Partition) (st : Decomposition) (block : Nat) (queue : List Nat)
    (hv : st.partition.Valid) (hsorted : st.SignaturesSorted exactComparator m)
    (h : SeparationInvariant m p0 (st, queue)) :
    SeparationInvariant m p0
      ((splitBlockAccordingToCurrentQuotientDistributions exactComparator m st block queue).1,
        (splitBlockAccordingToCurrentQuotientDistributions exactComparator m st block
          queue).2.1) := by
  have spec := Partition.splitBlock_spec st.partition hv block
    (quotientDistributionsLess exactComparator m st)
  have hcases := spec.getBlock_cases hv
  have hless := quotientDistributionsLess_swo exactComparator m st
    Distribution.less_exact_strictWeakOrder hsorted
  obtain ⟨hlay, htracks⟩ := splitBlockAccording_tracks m hm st block queue hv h.tracks
  have hg : ∀ s, (splitBlockAccordingToCurrentQuotientDistributions exactComparator m st block
      queue).1.partition.getBlock s
      = (st.partition.splitBlock block
          (quotientDistributionsLess exactComparator m st)).1.getBlock s := hlay.getBlock
  have hmemnews : ∀ j, j ∈ (st.partition.splitBlock block
        (quotientDistributionsLess exactComparator m st)).2.1 →
      st.partition.blocks.length ≤ j := by
    intro j hj
    rw [spec.news, List.mem_range'] at hj
    obtain ⟨i, _, hji⟩ := hj
    omega
  have hsame : ∀ s1 s2, (st.partition.splitBlock block
        (quotientDistributionsLess exactComparator m st)).1.getBlock s1
      = (st.partition.splitBlock block
        (quotientDistributionsLess exactComparator m st)).1.getBlock s2 →
      st.partition.getBlock s1 = st.partition.getBlock s2 := by
    intro s1 s2 h12
    rcases hcases s1 with h1 | h1
    · rcases hcases s2 with h2 | h2
      · rw [← h1, ← h2]
        exact h12
      · exfalso
        have hne : (st.partition.splitBlock block
            (quotientDistributionsLess exactComparator m st)).2.1 ≠ [] :=
          List.ne_nil_of_mem h2.2
        have hpos := spec.inTable hne
        have hlt := Partition.getBlock_lt_of_pos st.partition hv (by omega) s1
        have hge := hmemnews _ h2.2
        rw [← h12, h1] at hge
        omega
    · rcases hcases s2 with h2 | h2
      · exfalso
        have hne : (st.partition.splitBlock block
            (quotientDistributionsLess exactComparator m st)).2.1 ≠ [] :=
          List.ne_nil_of_mem h1.2
        have hpos := spec.inTable hne
        have hlt := Partition.getBlock_lt_of_pos st.partition hv (by omega) s2
        have hge := hmemnews _ h1.2
        rw [h12, h2] at hge
        omega
      · rw [h1.1, h2.1]
  have hmem' : ∀ t, t < m.getNumberOfStates →
      t ∈ (st.partition.splitBlock block
        (quotientDistributionsLess exactComparator m st)).1.positions.map Prod.fst := by
    intro t ht
    exact spec.states.mem_iff.mpr (h.members t ht)
  refine ⟨htracks, ?_, ?_, ?_⟩
  · intro s hs
    unfold splitBlockAccordingToCurrentQuotientDistributions
    dsimp only
    exact (foldl_update_orderedRange_perm exactComparator m hmono block _ s _).trans
      (h.ranges s hs)
  · intro t ht
    show t ∈ List.map Prod.fst _
    rw [hlay.1]
    exact hmem' t ht
  · intro s1 h1 s2 h2 hp hne hmatch
    have hne' : (st.partition.splitBlock block
        (quotientDistributionsLess exactComparator m st)).1.getBlock s1
        ≠ (st.partition.splitBlock block
          (quotientDistributionsLess exactComparator m st)).1.getBlock s2 := by
      rw [← hg, ← hg]
      exact hne
    -- matching choices for the finer partition are matching choices for the coarser one
    have hold : m.Matches st.partition.getBlock s1 s2 := by
      apply matches_coarsen m hc _ st.partition.getBlock _ s1 s2 hmatch
      intro t1 _ t2 _ h12
      apply hsame
      rw [← hg, ← hg]
      exact h12
    by_cases hb : st.partition.getBlock s1 = st.partition.getBlock s2
    · have hm1 := Partition.mem_of_getBlock _ hv.nodup s1 (h.members s1 h1)
      have hm2 := Partition.mem_of_getBlock _ hv.nodup s2 (h.members s2 h2)
      have hn1 := Partition.mem_of_getBlock _ spec.valid.nodup s1 (hmem' s1 h1)
      have hn2 := Partition.mem_of_getBlock _ spec.valid.nodup s2 (hmem' s2 h2)
      by_cases hblock : st.partition.getBlock s1 = block
      · have hblock2 : st.partition.getBlock s2 = block := by rw [← hb]; exact hblock
        rw [hblock] at hm1
        rw [hblock2] at hm2
        apply hne'
        apply (spec.classes hless _ hn1 _ hn2 hm1 hm2).mpr
        rw [equivOf_iff]
        exact (quotientDistributionsLess_incomp_iff_matches m st hsorted h.tracks h.ranges
          s1 s2).mpr hold
      · have hblock2 : st.partition.getBlock s2 ≠ block := by rw [← hb]; exact hblock
        apply hne'
        rw [Partition.getBlock_eq_of_mem _ spec.valid.nodup s1 _ (spec.frame _ hm1 hblock),
          Partition.getBlock_eq_of_mem _ spec.valid.nodup s2 _ (spec.frame _ hm2 hblock2)]
        exact hb
    · exact h.separated s1 h1 s2 h2 hp hb hold

theorem refinementStep_separation (m : Model) (hm : m.Nonnegative) (hmono : m.Monotone)
    (hc : m.Closed) (p0 : Partition) (s : Decomposition × List Nat)
    (hinv : RefinementInvariant exactComparator m s) (h : SeparationInvariant m p0 s) :
    SeparationInvariant m p0 (refinementStep exactComparator m s) := by
  obtain ⟨st, queue⟩ := s
  cases queue with
  | nil => exact h
  | cons splitter rest =>
    have hlay := Partition.sameLayout_setSplitter st.partition splitter false
    have h1 : SeparationInvariant m p0
        ({ st with partition := st.partition.setSplitter splitter false }, rest) :=
      SeparationInvariant.relayout m p0 st _ _ rest h hlay rfl (fun _ => List.Perm.refl _)
    show SeparationInvariant m p0
      (refinePartitionBasedOnSplitter exactComparator m
        { st with partition := st.partition.setSplitter splitter false } splitter rest)
    unfold refinePartitionBasedOnSplitter
    by_cases hneed : possiblyNeedsRefinement
        { st with partition := st.partition.setSplitter splitter false } splitter = true
    · simp only [hneed, Bool.not_true, Bool.false_eq_true, if_false]
      exact splitBlockAccording_separation m hm hmono hc p0 _ splitter rest
        (hlay.valid hinv.valid) hinv.sorted h1
    · simp only [hneed, Bool.not_false, if_true]
      exact h1

theorem refinementLoop_separation (m : Model) (hm : m.Nonnegative) (hmono : m.Monotone)
    (hc : m.Closed) (p0 : Partition) (fuel : Nat) :
    ∀ s : Decomposition × List Nat, RefinementInvariant exactComparator m s →
      SeparationInvariant m p0 s →
      SeparationInvariant m p0 (refinementLoop exactComparator m fuel s) := by
  induction fuel with
  | zero => intro s _ h; exact h
  | succ fuel ih =>
    intro s hinv h
    obtain ⟨st, queue⟩ := s
    cases queue with
    | nil => exact h
    | cons splitter rest =>
      exact ih _
        (refinementStep_invariant exactComparator m Distribution.less_exact_strictWeakOrder
          hmono _ hinv)
        (refinementStep_separation m hm hmono hc p0 _ hinv h)

/-- The separation invariant holds at the start of the refinement loop. -/
theorem enqueueAllBlocks_separation (m : Model) (hm : m.Nonnegative) (hmono : m.Monotone)
    (hrows : m.rowGroupIndices.getLastD 0 = m.getNumberOfChoices) (p : Partition)
    (hcover : ∀ t, t < m.getNumberOfStates → t ∈ p.positions.map Prod.fst) :
    SeparationInvariant m p
      (enqueueAllBlocks (initializeDecomposition exactComparator m (construct m p))) := by
  have hpart : (initializeDecomposition exactComparator m (construct m p)).partition = p := by
    unfold initializeDecomposition
    rw [initializeQuotientDistributions_partition]
    rfl
  have hlen2 : (construct m p).orderedQuotientDistributions.length = m.getNumberOfChoices := by
    simp [construct]
  have h0 : SeparationInvariant m p
      (initializeDecomposition exactComparator m (construct m p), []) := by
    refine ⟨?_, ?_, ?_, ?_⟩
    · show Decomposition.Tracks m (Partition.getBlock _) _
      rw [hpart]
      exact initializeDecomposition_tracks m hm p hrows
    · exact initializeDecomposition_rangesPermuted exactComparator m hmono _
        (by rw [hlen2]; exact le_of_eq hrows)
    · intro t ht
      show t ∈ List.map Prod.fst (Partition.positions _)
      rw [hpart]
      exact hcover t ht
    · intro s1 _ s2 _ hp hne
      exact absurd (by rw [hpart]; exact hp) hne
  exact SeparationInvariant.relayout m p _ _ [] _ h0
    (enqueueAllBlocks_sameLayout _) rfl (fun _ => List.Perm.refl _)

/-- C21, as stated, fails in two ways.  First, with exact arithmetic, in the model whose
states 0 and 1 both move to state 2 with probability one, with an initial partition into
three blocks of one state each: the refinement loop ends with an empty queue, the states
0 and 1 lie in different blocks of the final partition, and neither is
`quotientDistributionsLess` than the other.  Second, with the tolerance 1/8, in
`sepModel` (a well-formed model and a valid initial partition of its states): the states 0
and 2 lie in the same initial block, the refinement loop ends with an empty queue, the
two states lie in different blocks of the final partition, and neither is
`quotientDistributionsLess` than the other (state 2 was split off because state 1 is less
than it). -/
theorem separation_fails_as_stated :
    (twinModel.Nonnegative ∧ twinModel.Monotone ∧ twinModel.Closed ∧
      twinModel.rowGroupIndices.getLastD 0 = twinModel.getNumberOfChoices ∧
      twinPartition.Valid ∧
      (runRefinement exactComparator twinModel twinPartition 3).2 = [] ∧
      (runRefinement exactComparator twinModel twinPartition 3).1.partition.getBlock 0
        ≠ (runRefinement exactComparator twinModel twinPartition 3).1.partition.getBlock 1 ∧
      quotientDistributionsLess exactComparator twinModel
        (runRefinement exactComparator twinModel twinPartition 3).1 0 1 = false ∧
      quotientDistributionsLess exactComparator twinModel
        (runRefinement exactComparator twinModel twinPartition 3).1 1 0 = false) ∧
    (sepModel.Nonnegative ∧ sepModel.Monotone ∧ sepModel.Closed ∧
      sepModel.rowGroupIndices.getLastD 0 = sepModel.getNumberOfChoices ∧
      tolPartition.Valid ∧
      (∀ t, t < sepModel.getNumberOfStates → t ∈ tolPartition.positions.map Prod.fst) ∧
      tolPartition.getBlock 0 = tolPartition.getBlock 2 ∧
      (runRefinement (toleranceComparator (1 / 8)) sepModel tolPartition 3).2 = [] ∧
      (runRefinement (toleranceComparator (1 / 8)) sepModel tolPartition
          3).1.partition.getBlock 0
        ≠ (runRefinement (toleranceComparator (1 / 8)) sepModel tolPartition
            3).1.partition.getBlock 2 ∧
      quotientDistributionsLess (toleranceComparator (1 / 8)) sepModel
        (runRefinement (toleranceComparator (1 / 8)) sepModel tolPartition 3).1 0 2 = false ∧
      quotientDistributionsLess (toleranceComparator (1 / 8)) sepModel
        (runRefinement (toleranceComparator (1 / 8)) sepModel tolPartition 3).1 2 0
        = false) :=
  ⟨⟨by unfold Model.Nonnegative; decide!, by simp [Model.Monotone, twinModel],
    by unfold Model.Closed; decide!, by decide!, ⟨by decide!, by decide!, by decide!⟩,
    by decide!, by decide!, by decide!, by decide!⟩,
    ⟨by unfold Model.Nonnegative; decide!, by simp [Model.Monotone, sepModel],
    by unfold Model.Closed; decide!, by decide!, ⟨by decide!, by decide!, by decide!⟩,
    by decide!, by decide!, by decide!, by decide!, by decide!, by decide!⟩⟩

/-- C21, amended: separation of the states of one initial block.  For a model with exact,
non-negative probabilities, non-decreasing row-group indices that end at the number of
choices and columns that are states, and a valid initial partition of the states of the
model: the refinement loop empties the splitter queue, and at every round of the loop, in
particular for the final partition, for all states `s1`, `s2` that lie in the same block
of the initial partition and in different blocks of the current partition, at least one
of `quotientDistributionsLess(s1, s2)` and `quotientDistributionsLess(s2, s1)` holds under
the current quotient distributions. -/
theorem separation_within_initial_blocks (m : Model) (p : Partition)
    (hm : m.Nonnegative) (hmono : m.Monotone) (hc : m.Closed)
    (hrows : m.rowGroupIndices.getLastD 0 = m.getNumberOfChoices) (hv : p.Valid)
    (hcover : ∀ t, t < m.getNumberOfStates → t ∈ p.positions.map Prod.fst) :
    (∃ fuel, (runRefinement exactComparator m p fuel).2 = []) ∧
    ∀ fuel, ∀ s1, s1 < m.getNumberOfStates → ∀ s2, s2 < m.getNumberOfStates →
      p.getBlock s1 = p.getBlock s2 →
      (runRefinement exactComparator m p fuel).1.partition.getBlock s1
        ≠ (runRefinement exactComparator m p fuel).1.partition.getBlock s2 →
      (quotientDistributionsLess exactComparator m
          (runRefinement exactComparator m p fuel).1 s1 s2 = true ∨
        quotientDistributionsLess exactComparator m
          (runRefinement exactComparator m p fuel).1 s2 s1 = true) := by
  refine ⟨runRefinement_terminates exactComparator m p hv, ?_⟩
  intro fuel s1 h1 s2 h2 hp hne
  have inv0 := enqueueAllBlocks_invariant exactComparator m
    Distribution.less_exact_strictWeakOrder hmono (le_of_eq hrows) p hv
  have inv : RefinementInvariant exactComparator m (runRefinement exactComparator m p fuel) :=
    refinementLoop_invariant exactComparator m Distribution.less_exact_strictWeakOrder hmono
      fuel _ inv0
  have sinv : SeparationInvariant m p (runRefinement exactComparator m p fuel) :=
    refinementLoop_separation m hm hmono hc p fuel _ inv0
      (enqueueAllBlocks_separation m hm hmono hrows p hcover)
  have hnot := sinv.separated s1 h1 s2 h2 hp hne
  rw [← quotientDistributionsLess_incomp_iff_matches m _ inv.sorted sinv.tracks sinv.ranges
    s1 s2] at hnot
  cases h12 : quotientDistributionsLess exactComparator m
      (runRefinement exactComparator m p fuel).1 s1 s2 with
  | true => exact Or.inl rfl
  | false =>
    cases h21 : quotientDistributionsLess exactComparator m
        (runRefinement exactComparator m p fuel).1 s2 s1 with
    | true => exact Or.inr rfl
    | false => exact absurd ⟨h12, h21⟩ hnot

theorem separation_within_initial_blocks_witness :
    (∃ fuel, (runRefinement exactComparator threeStateModel threeStatePartition
      fuel).2 = []) ∧
    ∀ fuel, ∀ s1, s1 < threeStateModel.getNumberOfStates →
      ∀ s2, s2 < threeStateModel.getNumberOfStates →
      threeStatePartition.getBlock s1 = threeStatePartition.getBlock s2 →
      (runRefinement exactComparator threeStateModel threeStatePartition
          fuel).1.partition.getBlock s1
        ≠ (runRefinement exactComparator threeStateModel threeStatePartition
          fuel).1.partition.getBlock s2 →
      (quotientDistributionsLess exactComparator threeStateModel
          (runRefinement exactComparator threeStateModel threeStatePartition fuel).1 s1 s2
          = true ∨
        quotientDistributionsLess exactComparator threeStateModel
          (runRefinement exactComparator threeStateModel threeStatePartition fuel).1 s2 s1
          = true) :=
  separation_within_initial_blocks threeStateModel threeStatePartition
    (by unfold Model.Nonnegative; decide!) (by simp [Model.Monotone, threeStateModel])
    (by unfold Model.Closed; decide!) (by decide!) ⟨by decide!, by decide!, by decide!⟩
    (by decide!)

/-! ## The self-loop scenario -/

theorem mass_map_const_block (g : Nat → Nat) (B : Nat) (l : List (Nat × ℚ))
    (h : ∀ e ∈ l, g e.1 = B) (k : Nat) :
    Distribution.mass (l.map (fun e => (g e.1, e.2))) k
      = if B = k then (l.map Prod.snd).sum else 0 := by
  induction l with
  | nil => simp [Distribution.mass_nil]
  | cons e l ih =>
    rw [List.map_cons, Distribution.mass_cons, ih (fun x hx => h x (List.mem_cons_of_mem _ hx)),
      h e (List.mem_cons_self _ _)]
    by_cases hk : B = k
    · simp [hk]
    · simp [hk]

theorem signatureLess_singleton {D : Type} (less : D → D → Bool) (a b : D)
    (hab : less a b = false) (hba : less b a = false) :
    signatureLess less [a] [b] = false := by
  simp [signatureLess, lessLoop, hab, hba, skipEqualRun]

/-- C26: the self-loop scenario.  Let the quotient distributions be the rebuilt ones and
let the signature lists hold the choices of their state, in a valid partition whose block
ranges lie within the state sequence.  For two states that form a block, each with a
single choice that moves with probability one into that same block and has no other
successors, `quotientDistributionsLess` is false in both directions, and
`refinePartitionBasedOnSplitter` on that block returns the decomposition and the queue
that it was given: the block is not split, whether or not it is flagged absorbing. -/
theorem self_loop_pair_never_split (m : Model) (st : Decomposition) (B s1 s2 c1 c2 : Nat)
    (queue : List Nat) (hv : st.partition.Valid) (hb : st.partition.InBounds)
    (ht : st.Tracks m st.partition.getBlock) (hr : st.RangesPermuted m)
    (hblock : ∀ s, s ∈ st.partition.statesOf B ↔ s = s1 ∨ s = s2)
    (hc1 : m.choicesOf s1 = [c1]) (hc2 : m.choicesOf s2 = [c2])
    (hrow1 : ∀ e ∈ m.getRow c1, st.partition.getBlock e.1 = B) (hsum1 : m.rowSum c1 = 1)
    (hrow2 : ∀ e ∈ m.getRow c2, st.partition.getBlock e.1 = B) (hsum2 : m.rowSum c2 = 1) :
    quotientDistributionsLess exactComparator m st s1 s2 = false ∧
    quotientDistributionsLess exactComparator m st s2 s1 = false ∧
    refinePartitionBasedOnSplitter exactComparator m st B queue = (st, queue) ∧
    (∀ s, (refinePartitionBasedOnSplitter exactComparator m st B queue).1.partition.getBlock s
      = st.partition.getBlock s) := by
  have hsig : ∀ s c, m.choicesOf s = [c] → st.signature m s = [st.distribution c] := by
    intro s c hsc
    have hp := orderedRange_perm_choicesOf m st hr s
    rw [hsc] at hp
    unfold Decomposition.signature
    rw [List.perm_singleton.mp hp]
    rfl
  have hmass : ∀ c, (∀ e ∈ m.getRow c, st.partition.getBlock e.1 = B) → m.rowSum c = 1 →
      ∀ k, Distribution.mass (st.distribution c) k = if B = k then 1 else 0 := by
    intro c hrow hsum k
    rw [ht.mass c k]
    unfold Model.blockMass
    rw [mass_map_const_block st.partition.getBlock B _ hrow k]
    unfold Model.rowSum at hsum
    rw [hsum]
  have hless : ∀ c c', (∀ e ∈ m.getRow c, st.partition.getBlock e.1 = B) → m.rowSum c = 1 →
      (∀ e ∈ m.getRow c', st.partition.getBlock e.1 = B) → m.rowSum c' = 1 →
      Distribution.less exactComparator (st.distribution c) (st.distribution c') = false := by
    intro c c' hrow hsum hrow' hsum'
    cases hl : Distribution.less exactComparator (st.distribution c) (st.distribution c') with
    | false => rfl
    | true =>
      rw [Distribution.less_exact_iff] at hl
      obtain ⟨k, hk, _⟩ := hl
      rw [hmass c hrow hsum k, hmass c' hrow' hsum' k] at hk
      exact absurd hk (lt_irrefl _)
  have hpair : ∀ a c a' c', m.choicesOf a = [c] → m.choicesOf a' = [c'] →
      (∀ e ∈ m.getRow c, st.partition.getBlock e.1 = B) → m.rowSum c = 1 →
      (∀ e ∈ m.getRow c', st.partition.getBlock e.1 = B) → m.rowSum c' = 1 →
      quotientDistributionsLess exactComparator m st a a' = false := by
    intro a c a' c' hac hac' hrow hsum hrow' hsum'
    unfold quotientDistributionsLess
    rw [hsig a c hac, hsig a' c' hac']
    exact signatureLess_singleton _ _ _ (hless c c' hrow hsum hrow' hsum')
      (hless c' c hrow' hsum' hrow hsum)
  have hstable : ∀ a ∈ st.partition.statesOf B, ∀ a' ∈ st.partition.statesOf B,
      quotientDistributionsLess exactComparator m st a a' = false := by
    intro a ha a' ha'
    rcases (hblock a).mp ha with rfl | rfl <;> rcases (hblock a').mp ha' with rfl | rfl
    · exact hpair _ _ _ _ hc1 hc1 hrow1 hsum1 hrow1 hsum1
    · exact hpair _ _ _ _ hc1 hc2 hrow1 hsum1 hrow2 hsum2
    · exact hpair _ _ _ _ hc2 hc1 hrow2 hsum2 hrow1 hsum1
    · exact hpair _ _ _ _ hc2 hc2 hrow2 hsum2 hrow2 hsum2
  have hrefine : refinePartitionBasedOnSplitter exactComparator m st B queue = (st, queue) := by
    unfold refinePartitionBasedOnSplitter
    by_cases hneed : possiblyNeedsRefinement st B = true
    · simp only [hneed, Bool.not_true, Bool.false_eq_true, if_false]
      unfold splitBlockAccordingToCurrentQuotientDistributions
      dsimp only
      rw [Partition.splitBlock_of_stable st.partition hv hb B _ hstable]
      rfl
    · simp only [hneed, Bool.not_false, if_true]
  refine ⟨hpair _ _ _ _ hc1 hc2 hrow1 hsum1 hrow2 hsum2,
    hpair _ _ _ _ hc2 hc1 hrow2 hsum2 hrow1 hsum1, hrefine, ?_⟩
  intro s
  rw [hrefine]

theorem self_loop_pair_never_split_witness :
    (quotientDistributionsLess exactComparator selfLoopModel
        (initializeDecomposition exactComparator selfLoopModel
          (construct selfLoopModel singleBlockPartition)) 0 1 = false ∧
      quotientDistributionsLess exactComparator selfLoopModel
        (initializeDecomposition exactComparator selfLoopModel
          (construct selfLoopModel singleBlockPartition)) 1 0 = false ∧
      refinePartitionBasedOnSplitter exactComparator selfLoopModel
          (initializeDecomposition exactComparator selfLoopModel
            (construct selfLoopModel singleBlockPartition)) 0 []
        = (initializeDecomposition exactComparator selfLoopModel
            (construct selfLoopModel singleBlockPartition), []) ∧
      (∀ s, (refinePartitionBasedOnSplitter exactComparator selfLoopModel
          (initializeDecomposition exactComparator selfLoopModel
            (construct selfLoopModel singleBlockPartition)) 0 []).1.partition.getBlock s
        = (initializeDecomposition exactComparator selfLoopModel
            (construct selfLoopModel singleBlockPartition)).partition.getBlock s)) ∧
    (quotientDistributionsLess exactComparator selfLoopModel
        (initializeDecomposition exactComparator selfLoopModel
          (construct selfLoopModel absorbingPairPartition)) 0 1 = false ∧
      quotientDistributionsLess exactComparator selfLoopModel
        (initializeDecomposition exactComparator selfLoopModel
          (construct selfLoopModel absorbingPairPartition)) 1 0 = false ∧
      refinePartitionBasedOnSplitter exactComparator selfLoopModel
          (initializeDecomposition exactComparator selfLoopModel
            (construct selfLoopModel absorbingPairPartition)) 0 []
        = (initializeDecomposition exactComparator selfLoopModel
            (construct selfLoopModel absorbingPairPartition), []) ∧
      (∀ s, (refinePartitionBasedOnSplitter exactComparator selfLoopModel
          (initializeDecomposition exactComparator selfLoopModel
            (construct selfLoopModel absorbingPairPartition)) 0 []).1.partition.getBlock s
        = (initializeDecomposition exactComparator selfLoopModel
            (construct selfLoopModel absorbingPairPartition)).partition.getBlock s)) :=
  ⟨self_loop_pair_never_split selfLoopModel
      (initializeDecomposition exactComparator selfLoopModel
        (construct selfLoopModel singleBlockPartition)) 0 0 1 0 1 []
      ⟨by decide!, by decide!, by decide!⟩ (by unfold Partition.InBounds; decide!)
      (initializeDecomposition_tracks selfLoopModel (by unfold Model.Nonnegative; decide!)
        singleBlockPartition (by decide))
      (initializeDecomposition_rangesPermuted exactComparator selfLoopModel
        (by simp [Model.Monotone, selfLoopModel]) _ (by decide))
      (by
        intro s
        rw [show (initializeDecomposition exactComparator selfLoopModel
          (construct selfLoopModel singleBlockPartition)).partition.statesOf 0 = [0, 1] by
          decide!]
        simp)
      (by decide) (by decide) (by decide!) (by decide!) (by decide!) (by decide!),
    self_loop_pair_never_split selfLoopModel
      (initializeDecomposition exactComparator selfLoopModel
        (construct selfLoopModel absorbingPairPartition)) 0 0 1 0 1 []
      ⟨by decide!, by decide!, by decide!⟩ (by unfold Partition.InBounds; decide!)
      (initializeDecomposition_tracks selfLoopModel (by unfold Model.Nonnegative; decide!)
        absorbingPairPartition (by decide))
      (initializeDecomposition_rangesPermuted exactComparator selfLoopModel
        (by simp [Model.Monotone, selfLoopModel]) _ (by decide))
      (by
        intro s
        rw [show (initializeDecomposition exactComparator selfLoopModel
          (construct selfLoopModel absorbingPairPartition)).partition.statesOf 0 = [0, 1] by
          decide!]
        simp)
      (by decide) (by decide) (by decide!) (by decide!) (by decide!) (by decide!)⟩

/-! ## The consistency hook -/

theorem checkedDistribution_eq_rebuild (m : Model) (p : Partition) (c : Nat)
    (hz : ∀ e ∈ m.getRow c, e.2 ≠ 0) :
    checkedDistribution m p c = rebuildDistribution exactComparator m p c := by
  unfold checkedDistribution rebuildDistribution replayRow
  apply List.foldl_ext
  intro d e he
  have : exactComparator.isZero e.2 = false := by
    simp [exactComparator, hz e he]
  simp [this]

theorem getRow_ne_zero (m : Model) (hz : ∀ row ∈ m.rows, ∀ e ∈ row, e.2 ≠ 0) (c : Nat) :
    ∀ e ∈ m.getRow c, e.2 ≠ 0 := by
  intro e he
  unfold Model.getRow at he
  by_cases hc : c < m.rows.length
  · rw [List.getD_eq_getElem _ _ hc] at he
    exact hz _ (List.getElem_mem _) e he
  · rw [List.getD_eq_default _ _ (by omega)] at he
    simp at he

/-- With the rebuilt distributions and no stored zero entry, the checks of a choice
pass. -/
theorem checkChoice_of_tracks (m : Model) (hm : m.Nonnegative)
    (hz : ∀ row ∈ m.rows, ∀ e ∈ row, e.2 ≠ 0) (st : Decomposition)
    (ht : st.Tracks m st.partition.getBlock) (c : Nat) (hc : c < m.getNumberOfChoices) :
    checkChoice exactComparator m st c = true := by
  have hcons := consistent_of_tracks m hm st ht c hc
  rw [← checkedDistribution_eq_rebuild m st.partition c (getRow_ne_zero m hz c)] at hcons
  have heq : Distribution.equals exactComparator (checkedDistribution m st.partition c)
      (st.distribution c) = true := by
    rw [Distribution.equals_exact_iff] at hcons ⊢
    exact ⟨fun k => (hcons.1 k).symm, fun k => (hcons.2 k).symm⟩
  have hmass := ((Distribution.equals_exact_iff _ _).mp heq).2
  have h1 : Distribution.less exactComparator (checkedDistribution m st.partition c)
      (st.distribution c) = false := by
    cases hl : Distribution.less exactComparator (checkedDistribution m st.partition c)
        (st.distribution c) with
    | false => rfl
    | true =>
      obtain ⟨k, hk, _⟩ := (Distribution.less_exact_iff _ _).mp hl
      rw [hmass k] at hk
      exact absurd hk (lt_irrefl _)
  have h2 : Distribution.less exactComparator (st.distribution c)
      (checkedDistribution m st.partition c) = false := by
    cases hl : Distribution.less exactComparator (st.distribution c)
        (checkedDistribution m st.partition c) with
    | false => rfl
    | true =>
      obtain ⟨k, hk, _⟩ := (Distribution.less_exact_iff _ _).mp hl
      rw [hmass k] at hk
      exact absurd hk (lt_irrefl _)
  unfold checkChoice
  dsimp only
  rw [heq, h1, h2]
  rfl

/-- In a sorted signature list whose range lies within the vector, the check of two
neighbours passes. -/
theorem checkOrder_of_sorted (m : Model) (st : Decomposition)
    (hsorted : st.SignaturesSorted exactComparator m) (s j : Nat)
    (hlen : (st.orderedRange m s).length = m.choiceIndex (s + 1) - m.choiceIndex s)
    (hj : m.choiceIndex s + j + 1 < m.choiceIndex (s + 1)) :
    checkOrder exactComparator st (m.choiceIndex s + j) = true := by
  have hchain := List.chain'_iff_get.mp (hsorted s) j (by
    unfold Decomposition.signature
    rw [List.length_map, hlen]
    omega)
  have hl : m.choiceIndex (s + 1) ≤ st.orderedQuotientDistributions.length := by
    unfold Decomposition.orderedRange at hlen
    rw [List.length_take, List.length_drop] at hlen
    omega
  have hget : ∀ i, i < m.choiceIndex (s + 1) - m.choiceIndex s →
      (st.signature m s)[i]? = some (st.distribution
        (st.orderedQuotientDistributions.getD (m.choiceIndex s + i) 0)) := by
    intro i hi
    unfold Decomposition.signature Decomposition.orderedRange
    rw [List.getElem?_map, List.getElem?_take_of_lt hi, List.getElem?_drop,
      List.getD_eq_getElem?_getD, List.getElem?_eq_getElem (by omega)]
    rfl
  have h0 := hget j (by omega)
  have h1 := hget (j + 1) (by omega)
  simp only [List.get_eq_getElem] at hchain
  rw [List.getElem?_eq_getElem (by
    unfold Decomposition.signature
    rw [List.length_map, hlen]
    omega), Option.some.injEq] at h0 h1
  rw [h0, h1] at hchain
  unfold checkOrder
  rw [show m.choiceIndex s + j + 1 = m.choiceIndex s + (j + 1) by omega, hchain]
  rfl

/-- The consistency hook passes on a decomposition with the rebuilt distributions and
sorted signature lists, for a model without stored zero entries whose states have a
choice each and whose row-group indices fit into 64 bits. -/
theorem checkQuotientDistributions_of_tracks (m : Model) (hm : m.Nonnegative)
    (hmono : m.Monotone) (hz : ∀ row ∈ m.rows, ∀ e ∈ row, e.2 ≠ 0)
    (hrows : m.rowGroupIndices.getLastD 0 = m.getNumberOfChoices)
    (hfit : ∀ s, s < m.getNumberOfStates →
      0 < m.choiceIndex (s + 1) ∧ m.choiceIndex (s + 1) < 2 ^ 64)
    (st : Decomposition) (ht : st.Tracks m st.partition.getBlock)
    (hr : st.RangesPermuted m) (hsorted : st.SignaturesSorted exactComparator m) :
    checkQuotientDistributions exactComparator m st = true := by
  unfold checkQuotientDistributions
  rw [List.all_eq_true]
  intro s hs
  rw [List.mem_range] at hs
  unfold checkState
  rw [Bool.and_eq_true, List.all_eq_true, List.all_eq_true]
  have hle := choiceIndex_le_last m hmono (s + 1) hs
  constructor
  · intro c hc
    rw [List.mem_range'] at hc
    obtain ⟨i, hi, rfl⟩ := hc
    exact checkChoice_of_tracks m hm hz st ht _ (by omega)
  · intro c hc
    have hwrap : (m.choiceIndex (s + 1) + 2 ^ 64 - 1) % 2 ^ 64 = m.choiceIndex (s + 1) - 1 := by
      have := hfit s hs
      omega
    rw [hwrap, List.mem_range'] at hc
    obtain ⟨j, hj, rfl⟩ := hc
    rw [Nat.one_mul]
    have hlen : (st.orderedRange m s).length = m.choiceIndex (s + 1) - m.choiceIndex s := by
      rw [(hr s hs).length_eq, List.length_range']
    exact checkOrder_of_sorted m st hsorted s j hlen (by omega)

/-- The consistency hook passes in a run on a model without stored zero entries.  For a
model with exact, positive probabilities, non-decreasing row-group indices that end at the
number of choices and fit into 64 bits, a choice for every state and columns that are
states, and a valid initial partition of the states of the model:
`checkQuotientDistributions` returns true directly after `initialize()` and after every
round of the refinement loop, that is after every completed
`splitBlockAccordingToCurrentQuotientDistributions`. -/
theorem consistency_hook_passes_without_zero_entries (m : Model) (p : Partition)
    (hm : m.Nonnegative) (hmono : m.Monotone) (hc : m.Closed)
    (hz : ∀ row ∈ m.rows, ∀ e ∈ row, e.2 ≠ 0)
    (hrows : m.rowGroupIndices.getLastD 0 = m.getNumberOfChoices)
    (hfit : ∀ s, s < m.getNumberOfStates →
      0 < m.choiceIndex (s + 1) ∧ m.choiceIndex (s + 1) < 2 ^ 64)
    (hv : p.Valid) (hcover : ∀ t, t < m.getNumberOfStates → t ∈ p.positions.map Prod.fst) :
    checkQuotientDistributions exactComparator m
      (initializeDecomposition exactComparator m (construct m p)) = true ∧
    ∀ fuel, checkQuotientDistributions exactComparator m
      (runRefinement exactComparator m p fuel).1 = true := by
  have hpart : (initializeDecomposition exactComparator m (construct m p)).partition = p := by
    unfold initializeDecomposition
    rw [initializeQuotientDistributions_partition]
    rfl
  have hlen2 : (construct m p).orderedQuotientDistributions.length = m.getNumberOfChoices := by
    simp [construct]
  constructor
  · apply checkQuotientDistributions_of_tracks m hm hmono hz hrows hfit
    · rw [hpart]
      exact initializeDecomposition_tracks m hm p hrows
    · exact initializeDecomposition_rangesPermuted exactComparator m hmono _
        (by rw [hlen2]; exact le_of_eq hrows)
    · exact initializeQuotientDistributions_sorted exactComparator m
        Distribution.less_exact_strictWeakOrder hmono _
  · intro fuel
    have inv0 := enqueueAllBlocks_invariant exactComparator m
      Distribution.less_exact_strictWeakOrder hmono (le_of_eq hrows) p hv
    have inv : RefinementInvariant exactComparator m
        (runRefinement exactComparator m p fuel) :=
      refinementLoop_invariant exactComparator m Distribution.less_exact_strictWeakOrder hmono
        fuel _ inv0
    have sinv : SeparationInvariant m p (runRefinement exactComparator m p fuel) :=
      refinementLoop_separation m hm hmono hc p fuel _ inv0
        (enqueueAllBlocks_separation m hm hmono hrows p hcover)
    exact checkQuotientDistributions_of_tracks m hm hmono hz hrows hfit _ sinv.tracks
      sinv.ranges inv.sorted

/-- C27, at a failing input: the consistency hook fires in a correct run.  In the model
whose state 0 loops with probability one and has a stored entry of probability zero to
state 1, with an initial partition into two blocks of one state each,
`initialize()` skips the zero entry and gives the choice of state 0 the quotient
distribution `{0: 1}` (line 54), which has the mass of the row; the rebuild of `checkQuotientDistributions` adds the zero
entry and gets `{0: 1, 1: 0}` (lines 135-137); the two key sets differ, `equals` is false,
and `checkQuotientDistributions`, invoked directly after `initialize()`, leaves through
`exit(-1)` instead of returning true.  The same model without the zero entry passes. -/
theorem consistency_hook_fires_on_zero_entry :
    zeroEntryModel.Nonnegative ∧ zeroEntryModel.Monotone ∧ zeroEntryModel.Closed ∧
    zeroEntryModel.rowGroupIndices.getLastD 0 = zeroEntryModel.getNumberOfChoices ∧
    pairPartition.Valid ∧
    (initializeDecomposition exactComparator zeroEntryModel
      (construct zeroEntryModel pairPartition)).quotientDistributions
      = [[(0, 1)], [(1, 1)]] ∧
    (initializeDecomposition exactComparator zeroEntryModel
      (construct zeroEntryModel pairPartition)).distribution 0 = [(0, 1)] ∧
    ((initializeDecomposition exactComparator zeroEntryModel
      (construct zeroEntryModel pairPartition)).distribution 0).total
      = zeroEntryModel.rowSum 0 ∧
    checkedDistribution zeroEntryModel
      (initializeDecomposition exactComparator zeroEntryModel
        (construct zeroEntryModel pairPartition)).partition 0 = [(0, 1), (1, 0)] ∧
    Distribution.equals exactComparator
      (checkedDistribution zeroEntryModel
        (initializeDecomposition exactComparator zeroEntryModel
          (construct zeroEntryModel pairPartition)).partition 0)
      ((initializeDecomposition exactComparator zeroEntryModel
        (construct zeroEntryModel pairPartition)).distribution 0) = false ∧
    checkQuotientDistributions exactComparator zeroEntryModel
      (initializeDecomposition exactComparator zeroEntryModel
        (construct zeroEntryModel pairPartition)) = false ∧
    checkQuotientDistributions exactComparator selfLoopModel
      (initializeDecomposition exactComparator selfLoopModel
        (construct selfLoopModel pairPartition)) = true := by
  refine ⟨by unfold Model.Nonnegative; decide!, by simp [Model.Monotone, zeroEntryModel],
    by unfold Model.Closed; decide!, by decide!, ⟨by decide!, by decide!, by decide!⟩,
    by decide!, by decide!, by decide!, by decide!, by decide!, by decide!, by decide!⟩

/-! ## Updates are deferred until the split is complete -/

namespace Partition

theorem foldl_callback_less {σ : Type} (less : σ → Nat → Nat → Bool)
    (onNewBlock : σ → Nat → σ) (h : ∀ s j, less (onNewBlock s j) = less s) (js : List Nat) :
    ∀ s, less (js.foldl onNewBlock s) = less s := by
  induction js with
  | nil => intro s; rfl
  | cons j js ih =>
    intro s
    rw [List.foldl_cons, ih, h]

/-- A callback that does not change the predicate does not change the scan: the runs are
those for the predicate at the start, and the callback has been invoked once for each run
after the first, with the fresh ids in ascending order. -/
theorem runsFromWith_eq {σ : Type} (less : σ → Nat → Nat → Bool) (onNewBlock : σ → Nat → σ)
    (h : ∀ s j, less (onNewBlock s j) = less s) (l : List Nat) :
    ∀ (s : σ) (next a : Nat),
      runsFromWith less onNewBlock s next a l
        = (runsFrom (less s) a l,
            (List.range' next ((runsFrom (less s) a l).length - 1)).foldl onNewBlock s) := by
  induction l with
  | nil =>
    intro s next a
    rfl
  | cons b rest ih =>
    intro s next a
    unfold runsFromWith
    obtain ⟨r, rs, hr⟩ := List.exists_cons_of_ne_nil (runsFrom_ne_nil (less s) b rest)
    have hrun : runsFrom (less s) a (b :: rest)
        = if less s a b then [a] :: r :: rs else (a :: r) :: rs := by
      show (match runsFrom (less s) b rest with
        | [] => [[a]]
        | r :: rs => if less s a b then [a] :: r :: rs else (a :: r) :: rs) = _
      rw [hr]
    by_cases hab : less s a b = true
    · rw [if_pos hab, hrun, if_pos hab]
      dsimp only
      rw [ih, h, hr]
      simp only [List.length_cons, Nat.add_sub_cancel]
      rw [List.range'_succ, List.foldl_cons]
    · rw [if_neg hab, hrun, if_neg hab]
      dsimp only
      rw [ih, hr]
      simp only [List.length_cons, Nat.add_sub_cancel]

theorem runsWith_eq {σ : Type} (less : σ → Nat → Nat → Bool) (onNewBlock : σ → Nat → σ)
    (h : ∀ s j, less (onNewBlock s j) = less s) (s : σ) (next : Nat) (l : List Nat) :
    runsWith less onNewBlock s next l
      = (runs (less s) l,
          (List.range' next ((runs (less s) l).length - 1)).foldl onNewBlock s) := by
  cases l with
  | nil => rfl
  | cons a rest => exact runsFromWith_eq less onNewBlock h rest s next a

/-- With a callback that does not change the predicate, the split with the callback is
the split for the predicate at the start, and the callback has been invoked for the new
blocks one after the other. -/
theorem splitBlockWith_eq {σ : Type} (p : Partition) (id : Nat)
    (less : σ → Nat → Nat → Bool) (onNewBlock : σ → Nat → σ)
    (h : ∀ s j, less (onNewBlock s j) = less s) (s : σ) :
    p.splitBlockWith id less onNewBlock s
      = ((p.splitBlock id (less s)).1, (p.splitBlock id (less s)).2.1.foldl onNewBlock s,
          (p.splitBlock id (less s)).2.2) := by
  unfold splitBlockWith
  dsimp only
  rw [runsWith_eq less onNewBlock h]
  cases hruns : runs (less s)
      ((p.statesOf id).insertionSort (fun x y => less s y x = false)) with
  | nil =>
    rw [splitBlock_of_runs_nil p id (less s) hruns]
    rfl
  | cons first others =>
    rw [splitBlock_of_runs_cons p id (less s) first others hruns]
    simp only [List.length_cons, Nat.add_sub_cancel]

end Partition

theorem foldl_recordNewBlock (news : List Nat) :
    ∀ s : Decomposition × List Nat, news.foldl recordNewBlock s = (s.1, s.2 ++ news) := by
  induction news with
  | nil => intro s; simp
  | cons b news ih =>
    intro s
    rw [List.foldl_cons, ih]
    simp [recordNewBlock]

/-- C28: updates are deferred until the split is complete.  In
`splitBlockAccordingToCurrentQuotientDistributions`, with `splitBlock` invoking its
callback during the scan: the callback only appends the new block to `newBlocks` and
leaves the decomposition as it is; so, whatever blocks have been handed to the callback
and however the partition has been changed by the split,
`quotientDistributionsLess` gives the answer that it gives at the start of the split for
every pair of states; the split is therefore the split for the predicate at the start, it
leaves every quotient distribution and every entry of `orderedQuotientDistributions`
unchanged and records every new block exactly once; and
`updateQuotientDistributionsOfPredecessors` runs once for each recorded block, in the
order of the records, on the partition that `splitBlock` has returned. -/
theorem updates_deferred_until_split_complete (cmp : ConstantsComparator) (m : Model)
    (st : Decomposition) (block : Nat) (splitterQueue : List Nat) :
    (∀ (s : Decomposition × List Nat) (newBlock : Nat),
      (recordNewBlock s newBlock).1 = s.1 ∧ (recordNewBlock s newBlock).2 = s.2 ++ [newBlock]) ∧
    (∀ news : List Nat, (news.foldl recordNewBlock (st, [])).1 = st) ∧
    (∀ (news : List Nat) (p : Partition) (s1 s2 : Nat),
      quotientDistributionsLess cmp m
          { (news.foldl recordNewBlock (st, [])).1 with partition := p } s1 s2
        = quotientDistributionsLess cmp m st s1 s2) ∧
    (st.partition.splitBlockWith block
        (fun s => quotientDistributionsLess cmp m s.1) recordNewBlock (st, [])).1
      = (st.partition.splitBlock block (quotientDistributionsLess cmp m st)).1 ∧
    (st.partition.splitBlockWith block
        (fun s => quotientDistributionsLess cmp m s.1) recordNewBlock (st, [])).2.1
      = (st, (st.partition.splitBlock block (quotientDistributionsLess cmp m st)).2.1) ∧
    (st.partition.splitBlockWith block
        (fun s => quotientDistributionsLess cmp m s.1) recordNewBlock (st, [])).2.2
      = (st.partition.splitBlock block (quotientDistributionsLess cmp m st)).2.2 ∧
    (st.partition.splitBlockWith block
        (fun s => quotientDistributionsLess cmp m s.1) recordNewBlock (st, [])).2.1.2.Nodup ∧
    splitBlockAccordingToCurrentQuotientDistributions cmp m st block splitterQueue
      = (((st.partition.splitBlockWith block
              (fun s => quotientDistributionsLess cmp m s.1) recordNewBlock
              (st, [])).2.1.2.foldl
            (fun (acc : Decomposition × List Nat) el =>
              updateQuotientDistributionsOfPredecessors cmp m acc.1 el block acc.2)
            ({ (st.partition.splitBlockWith block
                  (fun s => quotientDistributionsLess cmp m s.1) recordNewBlock
                  (st, [])).2.1.1 with
                partition := (st.partition.splitBlockWith block
                  (fun s => quotientDistributionsLess cmp m s.1) recordNewBlock (st, [])).1 },
              splitterQueue)).1,
          ((st.partition.splitBlockWith block
              (fun s => quotientDistributionsLess cmp m s.1) recordNewBlock
              (st, [])).2.1.2.foldl
            (fun (acc : Decomposition × List Nat) el =>
              updateQuotientDistributionsOfPredecessors cmp m acc.1 el block acc.2)
            ({ (st.partition.splitBlockWith block
                  (fun s => quotientDistributionsLess cmp m s.1) recordNewBlock
                  (st, [])).2.1.1 with
                partition := (st.partition.splitBlockWith block
                  (fun s => quotientDistributionsLess cmp m s.1) recordNewBlock (st, [])).1 },
              splitterQueue)).2,
          (st.partition.splitBlockWith block
            (fun s => quotientDistributionsLess cmp m s.1) recordNewBlock (st, [])).2.2) := by
  have hinv : ∀ (s : Decomposition × List Nat) (j : Nat),
      (fun s : Decomposition × List Nat => quotientDistributionsLess cmp m s.1)
          (recordNewBlock s j)
        = (fun s : Decomposition × List Nat => quotientDistributionsLess cmp m s.1) s :=
    fun _ _ => rfl
  have heq := Partition.splitBlockWith_eq st.partition block
    (fun s : Decomposition × List Nat => quotientDistributionsLess cmp m s.1) recordNewBlock
    hinv (st, [])
  have hrec : ((st.partition.splitBlock block (quotientDistributionsLess cmp m st)).2.1.foldl
      recordNewBlock (st, []))
      = (st, (st.partition.splitBlock block (quotientDistributionsLess cmp m st)).2.1) := by
    rw [foldl_recordNewBlock]
    simp
  have hnodup : (st.partition.splitBlock block
      (quotientDistributionsLess cmp m st)).2.1.Nodup := by
    unfold Partition.splitBlock
    dsimp only
    split
    · exact List.nodup_nil
    · exact List.nodup_range' _ _
  refine ⟨fun _ _ => ⟨rfl, rfl⟩, ?_, ?_, ?_, ?_, ?_, ?_, ?_⟩
  · intro news
    rw [foldl_recordNewBlock]
  · intro news p s1 s2
    rw [foldl_recordNewBlock]
    rfl
  · rw [heq]
  · rw [heq]
    exact hrec
  · rw [heq]
  · rw [heq]
    dsimp only
    rw [hrec]
    exact hnodup
  · rw [heq]
    dsimp only
    rw [hrec]
    rfl
/-- C31: `buildQuotient` builds no quotient model for any input.  In a build with
assertions its outcome is the failing assertion "Not yet implemented" and no state is
returned; in a build without assertions the macro is empty and the object is returned as
it was, so in no build does a run return an object that differs from its input, and an
empty quotient pointer stays empty. -/
theorem buildQuotient_unimplemented {Q : Type} (s : QuotientState Q) :
    buildQuotient true s = Except.error (AssertionFailure.mk "Not yet implemented")
      ∧ buildQuotient false s = Except.ok s
      ∧ (∀ assertions r, buildQuotient assertions s = Except.ok r → r = s)
      ∧ (∀ assertions e, buildQuotient assertions s = Except.error e →
          assertions = true ∧ e.message = "Not yet implemented")
      ∧ (s.quotient = none → ∀ assertions r,
          buildQuotient assertions s = Except.ok r → r.quotient = none) := by
  refine ⟨rfl, rfl, ?_, ?_, ?_⟩
  · intro assertions r h
    cases assertions
    · simp [buildQuotient, STORM_LOG_ASSERT] at h
      exact h.symm
    · simp [buildQuotient, STORM_LOG_ASSERT] at h
  · intro assertions e h
    cases assertions
    · simp [buildQuotient, STORM_LOG_ASSERT] at h
    · simp [buildQuotient, STORM_LOG_ASSERT] at h
      subst h
      exact ⟨rfl, rfl⟩
  · intro hq assertions r h
    cases assertions
    · simp [buildQuotient, STORM_LOG_ASSERT] at h
      subst h
      exact hq
    · simp [buildQuotient, STORM_LOG_ASSERT] at h
/-- Below the end of the row-group indices every choice lies in the range of a state. -/
theorem exists_state_of_choice (m : Model) (c : Nat) (n : Nat)
    (h0 : m.choiceIndex 0 ≤ c) (hn : c < m.choiceIndex n) :
    ∃ s, s < n ∧ m.choiceIndex s ≤ c ∧ c < m.choiceIndex (s + 1) := by
  induction n with
  | zero => omega
  | succ n ih =>
    by_cases h : c < m.choiceIndex n
    · obtain ⟨s, hs, h1, h2⟩ := ih h
      exact ⟨s, by omega, h1, h2⟩
    · exact ⟨n, by omega, by omega, hn⟩

/-- C35: the choice-to-state mapping inverts the choice ranges.  For row-group indices
that start at 0, are non-decreasing and end at the number of choices, and a mapping
vector with one entry per choice (line 19), `createChoiceToStateMapping` keeps the length
of the vector, and for every choice `c` below the number of choices the entry
`choiceToStateMapping[c]` is a state of the model whose range holds `c`, and it is the
only such state. -/
theorem mapping_inverts_choice_ranges (m : Model) (mapping : List Nat)
    (hstart : m.choiceIndex 0 = 0) (hm : m.Monotone)
    (hend : m.rowGroupIndices.getLastD 0 = m.getNumberOfChoices)
    (hlen : mapping.length = m.getNumberOfChoices) :
    (createChoiceToStateMapping m mapping).length = m.getNumberOfChoices ∧
    ∀ c, c < m.getNumberOfChoices →
      (createChoiceToStateMapping m mapping).getD c 0 < m.getNumberOfStates
      ∧ m.choiceIndex ((createChoiceToStateMapping m mapping).getD c 0) ≤ c
      ∧ c < m.choiceIndex ((createChoiceToStateMapping m mapping).getD c 0 + 1)
      ∧ ∀ s, s < m.getNumberOfStates → m.choiceIndex s ≤ c → c < m.choiceIndex (s + 1) →
          s = (createChoiceToStateMapping m mapping).getD c 0 := by
  obtain ⟨hl, hspec⟩ := createChoiceToStateMapping_spec m hm mapping (by omega)
    m.getNumberOfStates (Nat.le_refl _)
  refine ⟨by unfold createChoiceToStateMapping; rw [hl, hlen], ?_⟩
  intro c hc
  have huniq : ∀ s, s < m.getNumberOfStates → m.choiceIndex s ≤ c →
      c < m.choiceIndex (s + 1) → (createChoiceToStateMapping m mapping).getD c 0 = s :=
    fun s hs h1 h2 => hspec s hs c h1 h2
  obtain ⟨s, hs, h1, h2⟩ := exists_state_of_choice m c m.getNumberOfStates (by omega)
    (by rw [choiceIndex_last, hend]; exact hc)
  have hval := huniq s hs h1 h2
  rw [hval]
  exact ⟨hs, h1, h2, fun t ht ht1 ht2 => by rw [← huniq t ht ht1 ht2, hval]⟩

theorem mapping_inverts_choice_ranges_witness :
    (createChoiceToStateMapping gapModel [0, 0, 0]).length = gapModel.getNumberOfChoices ∧
    ∀ c, c < gapModel.getNumberOfChoices →
      (createChoiceToStateMapping gapModel [0, 0, 0]).getD c 0 < gapModel.getNumberOfStates
      ∧ gapModel.choiceIndex ((createChoiceToStateMapping gapModel [0, 0, 0]).getD c 0) ≤ c
      ∧ c < gapModel.choiceIndex ((createChoiceToStateMapping gapModel [0, 0, 0]).getD c 0 + 1)
      ∧ ∀ s, s < gapModel.getNumberOfStates → gapModel.choiceIndex s ≤ c →
          c < gapModel.choiceIndex (s + 1) →
          s = (createChoiceToStateMapping gapModel [0, 0, 0]).getD c 0 :=
  mapping_inverts_choice_ranges gapModel [0, 0, 0] (by decide)
    (by simp [Model.Monotone, gapModel]) (by decide) (by decide)
/-- The scan with the reads passes exactly when every round of `checkOrder` passes. -/
theorem scanOrder_passed (cmp : ConstantsComparator) (st : Decomposition)
    (choices : List Nat) :
    (scanOrder cmp st choices).1 = choices.all (checkOrder cmp st) := by
  induction choices with
  | nil => rfl
  | cons c rest ih =>
    unfold scanOrder
    rw [List.all_cons]
    unfold checkOrder
    by_cases h : Distribution.less cmp
        (st.distribution (st.orderedQuotientDistributions.getD (c + 1) 0))
        (st.distribution (st.orderedQuotientDistributions.getD c 0)) = true
    · rw [if_pos h, if_pos h]
      rfl
    · rw [if_neg h, if_neg h, Bool.true_and]
      exact ih

/-- Every position that the scan reads is a choice given or its successor. -/
theorem scanOrder_reads (cmp : ConstantsComparator) (st : Decomposition)
    (choices : List Nat) :
    ∀ i ∈ (scanOrder cmp st choices).2, i ∈ choices ∨ ∃ c ∈ choices, i = c + 1 := by
  induction choices with
  | nil =>
    intro i hi
    simp [scanOrder] at hi
  | cons c rest ih =>
    intro i hi
    unfold scanOrder at hi
    by_cases h : Distribution.less cmp
        (st.distribution (st.orderedQuotientDistributions.getD (c + 1) 0))
        (st.distribution (st.orderedQuotientDistributions.getD c 0)) = true
    · rw [if_pos h] at hi
      simp only [List.mem_cons, List.mem_singleton, List.not_mem_nil, or_false] at hi
      rcases hi with hi | hi
      · exact Or.inr ⟨c, List.mem_cons_self _ _, hi⟩
      · exact Or.inl (hi ▸ List.mem_cons_self _ _)
    · rw [if_neg h] at hi
      simp only [List.cons_append, List.nil_append, List.mem_cons] at hi
      rcases hi with hi | hi | hi
      · exact Or.inr ⟨c, List.mem_cons_self _ _, hi⟩
      · exact Or.inl (hi ▸ List.mem_cons_self _ _)
      · rcases ih i hi with h1 | ⟨d, hd, h1⟩
        · exact Or.inl (List.mem_cons_of_mem _ h1)
        · exact Or.inr ⟨d, List.mem_cons_of_mem _ hd, h1⟩

/-- C36: the sortedness scan of `checkQuotientDistributions` stays in bounds.  In a model
in which each state has at least one choice and whose row-group indices are 64-bit
values, for every state the subtraction `rowGroupIndices[state + 1] - 1` does not wrap
around (the bound of the loop is the last choice of the state), every position of
`orderedQuotientDistributions` that the scan reads lies inside the choice range of the
state, and the scan passes exactly when the second loop of `checkState` passes. -/
theorem sortedness_scan_in_bounds (cmp : ConstantsComparator) (m : Model)
    (st : Decomposition)
    (hchoice : ∀ s, s < m.getNumberOfStates → m.choiceIndex s < m.choiceIndex (s + 1))
    (hword : ∀ s, s ≤ m.getNumberOfStates → m.choiceIndex s < 2 ^ 64)
    (state : Nat) (hstate : state < m.getNumberOfStates) :
    m.scanBound state + 1 = m.choiceIndex (state + 1)
    ∧ (∀ i ∈ (sortednessScan cmp m st state).2,
        m.choiceIndex state ≤ i ∧ i < m.choiceIndex (state + 1))
    ∧ (sortednessScan cmp m st state).1 =
        (List.range' (m.choiceIndex state)
          ((m.choiceIndex (state + 1) + 2 ^ 64 - 1) % 2 ^ 64 - m.choiceIndex state)).all
            (checkOrder cmp st) := by
  have h1 := hchoice state hstate
  have h2 := hword (state + 1) (by omega)
  have hb : m.scanBound state + 1 = m.choiceIndex (state + 1) := by
    unfold Model.scanBound
    omega
  refine ⟨hb, ?_, ?_⟩
  · intro i hi
    unfold sortednessScan at hi
    rcases scanOrder_reads cmp st _ i hi with h | ⟨c, hc, h⟩
    · rw [List.mem_range'_1] at h
      omega
    · rw [List.mem_range'_1] at hc
      omega
  · unfold sortednessScan Model.scanBound
    exact scanOrder_passed cmp st _

theorem sortedness_scan_in_bounds_witness :
    duplicateChoiceModel.scanBound 0 + 1 = duplicateChoiceModel.choiceIndex (0 + 1)
    ∧ (∀ i ∈ (sortednessScan exactComparator duplicateChoiceModel
          duplicateChoiceDecomposition 0).2,
        duplicateChoiceModel.choiceIndex 0 ≤ i
          ∧ i < duplicateChoiceModel.choiceIndex (0 + 1))
    ∧ (sortednessScan exactComparator duplicateChoiceModel
          duplicateChoiceDecomposition 0).1 =
        (List.range' (duplicateChoiceModel.choiceIndex 0)
          ((duplicateChoiceModel.choiceIndex (0 + 1) + 2 ^ 64 - 1) % 2 ^ 64
            - duplicateChoiceModel.choiceIndex 0)).all
            (checkOrder exactComparator duplicateChoiceDecomposition) :=
  sortedness_scan_in_bounds exactComparator duplicateChoiceModel duplicateChoiceDecomposition
    (by decide) (by decide) 0 (by decide)

/-- The scan for state 0 of `duplicateChoiceModel`, whose range holds the positions 0 and
1: one round, which reads the positions 1 and 0 and passes. -/
theorem sortednessScan_duplicateChoice :
    sortednessScan exactComparator duplicateChoiceModel duplicateChoiceDecomposition 0
      = (true, [1, 0]) := by
  decide!
/-- The termination invariant holds after every number of rounds of the refinement
loop. -/
theorem refinementLoop_termination_invariant (cmp : ConstantsComparator) (m : Model)
    (b0 n : Nat) :
    ∀ (k : Nat) (s : Decomposition × List Nat), TerminationInvariant b0 n s →
      TerminationInvariant b0 n (refinementLoop cmp m k s) := by
  intro k
  induction k with
  | zero => intro s h; exact h
  | succ k ih =>
    intro s h
    obtain ⟨st, queue⟩ := s
    cases queue with
    | nil => exact h
    | cons splitter rest =>
      exact ih _ (refinementStep_progress cmp m b0 n st splitter rest h).1

/-- C32: the refinement loop terminates.  From every decomposition with a valid partition
and every splitter queue, repeatedly popping a block from the queue (clearing its flag)
and calling `refinePartitionBasedOnSplitter` empties the queue after finitely many
rounds.  After every number of rounds, a further round either strictly increases the
number of blocks, or leaves the number of blocks as it is and leaves the rest of the queue
without enqueuing a block; the number of states stays the same; the number of blocks is at
most the number of blocks at the start plus the number of states, and at most the number of
states when every block at the start holds a state. -/
theorem refinement_loop_terminates (cmp : ConstantsComparator) (m : Model)
    (st : Decomposition) (queue : List Nat) (hv : st.partition.Valid) :
    (∃ fuel, (refinementLoop cmp m fuel (st, queue)).2 = [])
    ∧ (∀ k splitter rest, (refinementLoop cmp m k (st, queue)).2 = splitter :: rest →
        (refinementLoop cmp m k (st, queue)).1.partition.blocks.length
            < (refinementStep cmp m
                (refinementLoop cmp m k (st, queue))).1.partition.blocks.length
          ∨ ((refinementStep cmp m
                (refinementLoop cmp m k (st, queue))).1.partition.blocks.length
              = (refinementLoop cmp m k (st, queue)).1.partition.blocks.length
            ∧ (refinementStep cmp m (refinementLoop cmp m k (st, queue))).2 = rest))
    ∧ (∀ k, (refinementLoop cmp m k (st, queue)).1.partition.positions.length
        = st.partition.positions.length)
    ∧ (∀ k, (refinementLoop cmp m k (st, queue)).1.partition.blocks.length
        ≤ st.partition.blocks.length + st.partition.positions.length)
    ∧ ((∀ j, j < st.partition.blocks.length → ∃ s, (s, j) ∈ st.partition.positions) →
        ∀ k, (refinementLoop cmp m k (st, queue)).1.partition.blocks.length
          ≤ st.partition.positions.length) := by
  have h0 : TerminationInvariant st.partition.blocks.length st.partition.positions.length
      (st, queue) :=
    { valid := hv
      size := rfl
      inhabited := by
        intro j h1 h2
        have h3 : j < st.partition.blocks.length := h2
        omega }
  refine ⟨?_, ?_, ?_, ?_, ?_⟩
  · exact refinementLoop_terminates cmp m st.partition.blocks.length
      st.partition.positions.length _ _ _ h0 (le_refl _) (le_refl _)
  · intro k splitter rest hq
    have hk := refinementLoop_termination_invariant cmp m _ _ k _ h0
    generalize refinementLoop cmp m k (st, queue) = s at hq hk
    obtain ⟨st1, q1⟩ := s
    have hq1 : q1 = splitter :: rest := hq
    subst hq1
    exact (refinementStep_progress cmp m _ _ st1 splitter rest hk).2
  · intro k
    exact (refinementLoop_termination_invariant cmp m _ _ k _ h0).size
  · intro k
    have hk := refinementLoop_termination_invariant cmp m _ _ k _ h0
    have hb := hk.inhabited.blocks_le
    rw [hk.size] at hb
    exact hb
  · intro hin k
    have h1 : TerminationInvariant 0 st.partition.positions.length (st, queue) :=
      { valid := hv
        size := rfl
        inhabited := fun j _ h2 => hin j h2 }
    have hk := refinementLoop_termination_invariant cmp m _ _ k _ h1
    have hb := hk.inhabited.blocks_le
    rw [hk.size] at hb
    omega

theorem refinement_loop_terminates_witness :
    (∃ fuel, (refinementLoop exactComparator threeStateModel fuel
        (threeStateMarked, [0])).2 = [])
    ∧ (∀ k splitter rest,
        (refinementLoop exactComparator threeStateModel k (threeStateMarked, [0])).2
          = splitter :: rest →
        (refinementLoop exactComparator threeStateModel k
            (threeStateMarked, [0])).1.partition.blocks.length
            < (refinementStep exactComparator threeStateModel
                (refinementLoop exactComparator threeStateModel k
                  (threeStateMarked, [0]))).1.partition.blocks.length
          ∨ ((refinementStep exactComparator threeStateModel
                (refinementLoop exactComparator threeStateModel k
                  (threeStateMarked, [0]))).1.partition.blocks.length
              = (refinementLoop exactComparator threeStateModel k
                  (threeStateMarked, [0])).1.partition.blocks.length
            ∧ (refinementStep exactComparator threeStateModel
                (refinementLoop exactComparator threeStateModel k
                  (threeStateMarked, [0]))).2 = rest))
    ∧ (∀ k, (refinementLoop exactComparator threeStateModel k
          (threeStateMarked, [0])).1.partition.positions.length
        = threeStateMarked.partition.positions.length)
    ∧ (∀ k, (refinementLoop exactComparator threeStateModel k
          (threeStateMarked, [0])).1.partition.blocks.length
        ≤ threeStateMarked.partition.blocks.length
          + threeStateMarked.partition.positions.length)
    ∧ ((∀ j, j < threeStateMarked.partition.blocks.length →
          ∃ s, (s, j) ∈ threeStateMarked.partition.positions) →
        ∀ k, (refinementLoop exactComparator threeStateModel k
            (threeStateMarked, [0])).1.partition.blocks.length
          ≤ threeStateMarked.partition.positions.length) :=
  refinement_loop_terminates exactComparator threeStateModel threeStateMarked [0]
    ⟨by decide!, by decide!, by decide!⟩
/-- An inner loop that starts inside the range stops inside the range and reads inside the
part of the range from its start. -/
theorem skipEqualRunAt_spec (cmp : ConstantsComparator) (st : Decomposition) (ite : Nat) :
    ∀ (fuel it : Nat), it < ite → ite - it ≤ fuel →
      (∃ it1, (skipEqualRunAt cmp st ite fuel it).1 = some it1 ∧ it ≤ it1 ∧ it1 < ite)
      ∧ ∀ i ∈ (skipEqualRunAt cmp st ite fuel it).2, it ≤ i ∧ i < ite := by
  intro fuel
  induction fuel with
  | zero => intro it h1 h2; omega
  | succ fuel ih =>
    intro it h1 h2
    unfold skipEqualRunAt
    by_cases hc : it ≠ ite ∧ it + 1 ≠ ite
    · rw [if_pos hc]
      have h3 : it + 1 < ite := by omega
      by_cases hl : (!st.lessAt cmp it (it + 1)) = true
      · rw [if_pos hl]
        obtain ⟨⟨it1, he, hle, hlt⟩, hr⟩ := ih (it + 1) h3 (by omega)
        refine ⟨⟨it1, he, by omega, hlt⟩, ?_⟩
        intro i hi
        simp only [List.mem_cons] at hi
        rcases hi with hi | hi | hi
        · omega
        · omega
        · have := hr i hi
          omega
      · rw [if_neg hl]
        refine ⟨⟨it, rfl, le_refl _, h1⟩, ?_⟩
        intro i hi
        simp only [List.mem_cons, List.mem_singleton, List.not_mem_nil, or_false] at hi
        omega
    · rw [if_neg hc]
      refine ⟨⟨it, rfl, le_refl _, h1⟩, ?_⟩
      intro i hi
      simp at hi

/-- The main loop on two iterators that have not passed their ends returns a value and
reads inside the two ranges. -/
theorem lessLoopAt_spec (cmp : ConstantsComparator) (st : Decomposition)
    (firstIte secondIte : Nat) :
    ∀ (fuel firstIt secondIt : Nat), firstIt ≤ firstIte → secondIt ≤ secondIte →
      (firstIte - firstIt) + (secondIte - secondIt) < fuel →
      (∃ b, (lessLoopAt cmp st firstIte secondIte fuel firstIt secondIt).1 = some b)
      ∧ ∀ i ∈ (lessLoopAt cmp st firstIte secondIte fuel firstIt secondIt).2,
          (firstIt ≤ i ∧ i < firstIte) ∨ (secondIt ≤ i ∧ i < secondIte) := by
  intro fuel
  induction fuel with
  | zero => intro f s h1 h2 h3; omega
  | succ fuel ih =>
    intro f s h1 h2 h3
    unfold lessLoopAt
    by_cases hc : f ≠ firstIte ∧ s ≠ secondIte
    · rw [if_pos hc]
      have hf : f < firstIte := by omega
      have hs : s < secondIte := by omega
      by_cases hl1 : st.lessAt cmp f s = true
      · rw [if_pos hl1]
        refine ⟨⟨true, rfl⟩, ?_⟩
        intro i hi
        simp only [List.mem_cons, List.mem_singleton, List.not_mem_nil, or_false] at hi
        omega
      · rw [if_neg hl1]
        by_cases hl2 : st.lessAt cmp s f = true
        · rw [if_pos hl2]
          refine ⟨⟨false, rfl⟩, ?_⟩
          intro i hi
          simp only [List.mem_cons, List.mem_singleton, List.not_mem_nil, or_false] at hi
          omega
        · rw [if_neg hl2]
          obtain ⟨⟨f1, hf1, hf1a, hf1b⟩, hfr⟩ :=
            skipEqualRunAt_spec cmp st firstIte fuel f hf (by omega)
          obtain ⟨⟨s1, hs1, hs1a, hs1b⟩, hsr⟩ :=
            skipEqualRunAt_spec cmp st secondIte fuel s hs (by omega)
          rw [hf1]
          dsimp only
          rw [hs1]
          dsimp only
          obtain ⟨hb, hr⟩ := ih (f1 + 1) (s1 + 1) (by omega) (by omega) (by omega)
          refine ⟨hb, ?_⟩
          intro i hi
          simp only [List.mem_append, List.mem_cons, List.mem_singleton, List.not_mem_nil,
            or_false] at hi
          rcases hi with ((hi | hi) | hi) | hi
          · omega
          · have := hfr i hi
            omega
          · have := hsr i hi
            omega
          · have := hr i hi
            omega
    · rw [if_neg hc]
      by_cases hd : f = firstIte ∧ s ≠ secondIte
      · rw [if_pos hd]
        exact ⟨⟨true, rfl⟩, by intro i hi; simp at hi⟩
      · rw [if_neg hd]
        exact ⟨⟨false, rfl⟩, by intro i hi; simp at hi⟩
/-- The distributions that the pointers at the positions from `i` up to `e` point to. -/
theorem signatureFrom_cons (st : Decomposition) (i e : Nat) (hi : i < e)
    (he : e ≤ st.orderedQuotientDistributions.length) :
    ((st.orderedQuotientDistributions.drop i).take (e - i)).map st.distribution
      = st.distribution (st.orderedQuotientDistributions.getD i 0)
        :: ((st.orderedQuotientDistributions.drop (i + 1)).take (e - (i + 1))).map
            st.distribution := by
  have hlt : i < st.orderedQuotientDistributions.length := by omega
  rw [List.drop_eq_getElem_cons hlt, show e - i = (e - (i + 1)) + 1 by omega,
    List.take_succ_cons, List.map_cons, List.getD_eq_getElem _ _ hlt]

theorem signatureFrom_nil (st : Decomposition) (i e : Nat) (hi : e ≤ i) :
    ((st.orderedQuotientDistributions.drop i).take (e - i)).map st.distribution = [] := by
  rw [show e - i = 0 by omega, List.take_zero, List.map_nil]

/-- The inner loop on positions stops where the inner loop on the list of the
distributions stops. -/
theorem skipEqualRunAt_eq (cmp : ConstantsComparator) (st : Decomposition) (ite : Nat)
    (he : ite ≤ st.orderedQuotientDistributions.length) :
    ∀ (fuel it : Nat), it < ite → ite - it ≤ fuel →
      ∃ it1, (skipEqualRunAt cmp st ite fuel it).1 = some it1 ∧ it1 < ite ∧
        skipEqualRun (Distribution.less cmp)
            (((st.orderedQuotientDistributions.drop it).take (ite - it)).map st.distribution)
          = ((st.orderedQuotientDistributions.drop it1).take (ite - it1)).map
              st.distribution := by
  intro fuel
  induction fuel with
  | zero => intro it h1 h2; omega
  | succ fuel ih =>
    intro it h1 h2
    unfold skipEqualRunAt
    by_cases hc : it ≠ ite ∧ it + 1 ≠ ite
    · rw [if_pos hc]
      have h3 : it + 1 < ite := by omega
      rw [signatureFrom_cons st it ite h1 he, signatureFrom_cons st (it + 1) ite h3 he]
      unfold skipEqualRun
      by_cases hl : (!st.lessAt cmp it (it + 1)) = true
      · rw [if_pos hl]
        have hl2 : (!Distribution.less cmp
            (st.distribution (st.orderedQuotientDistributions.getD it 0))
            (st.distribution (st.orderedQuotientDistributions.getD (it + 1) 0))) = true := hl
        rw [if_pos hl2]
        obtain ⟨it1, h4, h5, h6⟩ := ih (it + 1) h3 (by omega)
        refine ⟨it1, h4, h5, ?_⟩
        rw [← h6, signatureFrom_cons st (it + 1) ite h3 he]
      · rw [if_neg hl]
        have hl2 : ¬ (!Distribution.less cmp
            (st.distribution (st.orderedQuotientDistributions.getD it 0))
            (st.distribution (st.orderedQuotientDistributions.getD (it + 1) 0))) = true := hl
        rw [if_neg hl2]
        refine ⟨it, rfl, h1, ?_⟩
        rw [signatureFrom_cons st it ite h1 he, signatureFrom_cons st (it + 1) ite h3 he]
    · rw [if_neg hc]
      refine ⟨it, rfl, h1, ?_⟩
      have h3 : it + 1 = ite := by omega
      rw [signatureFrom_cons st it ite h1 he, signatureFrom_nil st (it + 1) ite (by omega)]
      rfl

/-- The main loop on positions returns what the main loop on the two lists of
distributions returns. -/
theorem lessLoopAt_eq (cmp : ConstantsComparator) (st : Decomposition)
    (firstIte secondIte : Nat)
    (he1 : firstIte ≤ st.orderedQuotientDistributions.length)
    (he2 : secondIte ≤ st.orderedQuotientDistributions.length) :
    ∀ (fuel firstIt secondIt : Nat), firstIt ≤ firstIte → secondIt ≤ secondIte →
      (firstIte - firstIt) + (secondIte - secondIt) < fuel →
      ∀ fuel1, firstIte - firstIt < fuel1 →
      (lessLoopAt cmp st firstIte secondIte fuel firstIt secondIt).1
        = some (lessLoop (Distribution.less cmp) fuel1
            (((st.orderedQuotientDistributions.drop firstIt).take
              (firstIte - firstIt)).map st.distribution)
            (((st.orderedQuotientDistributions.drop secondIt).take
              (secondIte - secondIt)).map st.distribution)) := by
  intro fuel
  induction fuel with
  | zero => intro f s h1 h2 h3; omega
  | succ fuel ih =>
    intro f s h1 h2 h3 fuel1 h4
    unfold lessLoopAt
    by_cases hc : f ≠ firstIte ∧ s ≠ secondIte
    · rw [if_pos hc]
      have hf : f < firstIte := by omega
      have hs : s < secondIte := by omega
      obtain ⟨k, rfl⟩ : ∃ k, fuel1 = k + 1 := ⟨fuel1 - 1, by omega⟩
      have hx := signatureFrom_cons st f firstIte hf he1
      have hy := signatureFrom_cons st s secondIte hs he2
      obtain ⟨f1, hf1, hf1b, hf1c⟩ := skipEqualRunAt_eq cmp st firstIte he1 fuel f hf (by omega)
      obtain ⟨s1, hs1, hs1b, hs1c⟩ :=
        skipEqualRunAt_eq cmp st secondIte he2 fuel s hs (by omega)
      have hrec := ih (f1 + 1) (s1 + 1) (by omega) (by omega)
      have hf1a : f ≤ f1 :=
        (skipEqualRunAt_spec cmp st firstIte fuel f hf (by omega)).1.elim
          (fun it1 h => by
            have := h.1
            rw [hf1] at this
            cases this
            exact h.2.1)
      have hs1a : s ≤ s1 :=
        (skipEqualRunAt_spec cmp st secondIte fuel s hs (by omega)).1.elim
          (fun it1 h => by
            have := h.1
            rw [hs1] at this
            cases this
            exact h.2.1)
      have hrec2 := hrec (by omega) k (by omega)
      have htx : (skipEqualRun (Distribution.less cmp)
          (((st.orderedQuotientDistributions.drop f).take (firstIte - f)).map
            st.distribution)).tail
          = ((st.orderedQuotientDistributions.drop (f1 + 1)).take
              (firstIte - (f1 + 1))).map st.distribution := by
        rw [hf1c, signatureFrom_cons st f1 firstIte hf1b he1]
        rfl
      have hty : (skipEqualRun (Distribution.less cmp)
          (((st.orderedQuotientDistributions.drop s).take (secondIte - s)).map
            st.distribution)).tail
          = ((st.orderedQuotientDistributions.drop (s1 + 1)).take
              (secondIte - (s1 + 1))).map st.distribution := by
        rw [hs1c, signatureFrom_cons st s1 secondIte hs1b he2]
        rfl
      rw [hx] at htx ⊢
      rw [hy] at hty ⊢
      unfold lessLoop
      by_cases hl1 : st.lessAt cmp f s = true
      · rw [if_pos hl1]
        have hl1b : Distribution.less cmp
            (st.distribution (st.orderedQuotientDistributions.getD f 0))
            (st.distribution (st.orderedQuotientDistributions.getD s 0)) = true := hl1
        rw [if_pos hl1b]
      · rw [if_neg hl1]
        have hl1b : ¬ Distribution.less cmp
            (st.distribution (st.orderedQuotientDistributions.getD f 0))
            (st.distribution (st.orderedQuotientDistributions.getD s 0)) = true := hl1
        rw [if_neg hl1b]
        by_cases hl2 : st.lessAt cmp s f = true
        · rw [if_pos hl2]
          have hl2b : Distribution.less cmp
              (st.distribution (st.orderedQuotientDistributions.getD s 0))
              (st.distribution (st.orderedQuotientDistributions.getD f 0)) = true := hl2
          rw [if_pos hl2b]
        · rw [if_neg hl2]
          have hl2b : ¬ Distribution.less cmp
              (st.distribution (st.orderedQuotientDistributions.getD s 0))
              (st.distribution (st.orderedQuotientDistributions.getD f 0)) = true := hl2
          rw [if_neg hl2b, hf1]
          dsimp only
          rw [hs1]
          dsimp only
          rw [htx, hty]
          exact hrec2
    · rw [if_neg hc]
      by_cases hf : f = firstIte
      · subst hf
        rw [signatureFrom_nil st f f (le_refl _)]
        by_cases hs : s = secondIte
        · subst hs
          rw [signatureFrom_nil st s s (le_refl _), if_neg (by simp)]
          cases fuel1 <;> rfl
        · rw [signatureFrom_cons st s secondIte (by omega) he2, if_pos ⟨rfl, hs⟩]
          cases fuel1 <;> rfl
      · have hs : s = secondIte := by
          by_contra hs
          exact hc ⟨hf, hs⟩
        subst hs
        rw [signatureFrom_nil st s s (le_refl _),
          signatureFrom_cons st f firstIte (by omega) he1, if_neg (by simp [hf])]
        cases fuel1 <;> rfl
/-- C33: `quotientDistributionsLess` is total and in bounds.  For a model with monotone
row-group indices and every pair of states of the model (states without choices
included), a run with more rounds than the two choice ranges have entries returns a value,
so the main loop and both run-collapsing loops terminate, and every position of
`orderedQuotientDistributions` that the run dereferences lies inside the choice range of
`state1` or of `state2`; a run for a state without choices dereferences nothing.  When
the two ranges lie within the vector, the value returned is the value of the comparison
of the two signature lists. -/
theorem quotientDistributionsLess_total_in_bounds (cmp : ConstantsComparator) (m : Model)
    (st : Decomposition) (hm : m.Monotone) (state1 state2 : Nat)
    (h1 : state1 < m.getNumberOfStates) (h2 : state2 < m.getNumberOfStates) (fuel : Nat)
    (hfuel : (m.choiceIndex (state1 + 1) - m.choiceIndex state1)
      + (m.choiceIndex (state2 + 1) - m.choiceIndex state2) < fuel) :
    (∃ b, (quotientDistributionsLessAt cmp m st state1 state2 fuel).1 = some b)
    ∧ (∀ i ∈ (quotientDistributionsLessAt cmp m st state1 state2 fuel).2,
        (m.choiceIndex state1 ≤ i ∧ i < m.choiceIndex (state1 + 1))
          ∨ (m.choiceIndex state2 ≤ i ∧ i < m.choiceIndex (state2 + 1)))
    ∧ (m.choiceIndex state1 = m.choiceIndex (state1 + 1)
        ∨ m.choiceIndex state2 = m.choiceIndex (state2 + 1) →
        (quotientDistributionsLessAt cmp m st state1 state2 fuel).2 = [])
    ∧ (m.choiceIndex (state1 + 1) ≤ st.orderedQuotientDistributions.length →
        m.choiceIndex (state2 + 1) ≤ st.orderedQuotientDistributions.length →
        (quotientDistributionsLessAt cmp m st state1 state2 fuel).1
          = some (quotientDistributionsLess cmp m st state1 state2)) := by
  have hlen1 : state1 + 1 < m.rowGroupIndices.length := by
    unfold Model.getNumberOfStates at h1
    omega
  have hlen2 : state2 + 1 < m.rowGroupIndices.length := by
    unfold Model.getNumberOfStates at h2
    omega
  have hle1 := choiceIndex_mono m hm state1 (state1 + 1) (by omega) hlen1
  have hle2 := choiceIndex_mono m hm state2 (state2 + 1) (by omega) hlen2
  obtain ⟨hb, hr⟩ := lessLoopAt_spec cmp st (m.choiceIndex (state1 + 1))
    (m.choiceIndex (state2 + 1)) fuel (m.choiceIndex state1) (m.choiceIndex state2) hle1 hle2
    hfuel
  refine ⟨hb, hr, ?_, ?_⟩
  · intro hz
    apply List.eq_nil_iff_forall_not_mem.mpr
    intro i hi
    obtain ⟨k, rfl⟩ : ∃ k, fuel = k + 1 := ⟨fuel - 1, by omega⟩
    unfold quotientDistributionsLessAt lessLoopAt at hi
    rw [if_neg (by omega)] at hi
    by_cases hd : m.choiceIndex state1 = m.choiceIndex (state1 + 1)
        ∧ m.choiceIndex state2 ≠ m.choiceIndex (state2 + 1)
    · rw [if_pos hd] at hi
      simp at hi
    · rw [if_neg hd] at hi
      simp at hi
  · intro he1 he2
    unfold quotientDistributionsLessAt quotientDistributionsLess signatureLess
    have hsl : (st.signature m state1).length
        = m.choiceIndex (state1 + 1) - m.choiceIndex state1 := by
      unfold Decomposition.signature Decomposition.orderedRange
      rw [List.length_map, List.length_take, List.length_drop]
      omega
    exact lessLoopAt_eq cmp st _ _ he1 he2 fuel _ _ hle1 hle2 hfuel _ (by omega)

theorem quotientDistributionsLess_total_in_bounds_witness :
    (∃ b, (quotientDistributionsLessAt exactComparator gapModel gapDecomposition 0 1 3).1
        = some b)
    ∧ (∀ i ∈ (quotientDistributionsLessAt exactComparator gapModel gapDecomposition 0 1 3).2,
        (gapModel.choiceIndex 0 ≤ i ∧ i < gapModel.choiceIndex (0 + 1))
          ∨ (gapModel.choiceIndex 1 ≤ i ∧ i < gapModel.choiceIndex (1 + 1)))
    ∧ (gapModel.choiceIndex 0 = gapModel.choiceIndex (0 + 1)
        ∨ gapModel.choiceIndex 1 = gapModel.choiceIndex (1 + 1) →
        (quotientDistributionsLessAt exactComparator gapModel gapDecomposition 0 1 3).2 = [])
    ∧ (gapModel.choiceIndex (0 + 1) ≤ gapDecomposition.orderedQuotientDistributions.length →
        gapModel.choiceIndex (1 + 1) ≤ gapDecomposition.orderedQuotientDistributions.length →
        (quotientDistributionsLessAt exactComparator gapModel gapDecomposition 0 1 3).1
          = some (quotientDistributionsLess exactComparator gapModel gapDecomposition 0 1)) :=
  quotientDistributionsLess_total_in_bounds exactComparator gapModel gapDecomposition
    (by simp [Model.Monotone, gapModel]) 0 1 (by decide) (by decide) 3 (by decide)

/-- The run for the states 0 and 2 of `gapModel`, whose first choices lead into the same
block: the first round reads the positions 0 and 2 in both orders, the inner loop of
state 0 reads the positions 0 and 1, and the value is `false` because the range of
state 2 ends first. -/
theorem quotientDistributionsLessAt_gap :
    quotientDistributionsLessAt exactComparator gapModel gapDecomposition 0 2 4
      = (some false, [0, 2, 2, 0, 0, 1]) := by
  decide!
/-- A block is marked after the marking of the predecessor blocks exactly when it is
marked before or it is the block of the predecessor state of an entry that is not
zero. -/
theorem foldl_markSplitter_flag_iff (cmp : ConstantsComparator) (mapping : List Nat)
    (es : List (Nat × ℚ)) :
    ∀ (p : Partition) (q : List Nat), (∀ s, p.getBlock s < p.blocks.length) →
      ∀ id, ((es.foldl
          (fun (pq : Partition × List Nat) e =>
            if cmp.isZero e.2 = true then pq
            else markSplitter pq.1 pq.2 (pq.1.getBlock (mapping.getD e.1 0)))
          (p, q)).1.block id).splitter = true ↔
        ((p.block id).splitter = true ∨
          ∃ e ∈ es, ¬ cmp.isZero e.2 = true ∧ p.getBlock (mapping.getD e.1 0) = id) := by
  induction es with
  | nil =>
    intro p q _ id
    simp
  | cons e es ih =>
    intro p q hpos id
    simp only [List.foldl_cons]
    by_cases hz : cmp.isZero e.2 = true
    · simp only [if_pos hz]
      rw [ih p q hpos id]
      constructor
      · rintro (h | ⟨e1, he1, h1, h2⟩)
        · exact Or.inl h
        · exact Or.inr ⟨e1, List.mem_cons_of_mem _ he1, h1, h2⟩
      · rintro (h | ⟨e1, he1, h1, h2⟩)
        · exact Or.inl h
        · rcases List.mem_cons.mp he1 with h | h
          · rw [h] at h1
            exact absurd hz h1
          · exact Or.inr ⟨e1, h, h1, h2⟩
    · simp only [if_neg hz]
      have hlay := markSplitter_sameLayout p q (p.getBlock (mapping.getD e.1 0))
      have hpos1 : ∀ s, (markSplitter p q (p.getBlock (mapping.getD e.1 0))).1.getBlock s
          < (markSplitter p q (p.getBlock (mapping.getD e.1 0))).1.blocks.length := by
        intro s
        rw [hlay.getBlock, hlay.2.1]
        exact hpos s
      rw [ih _ _ hpos1 id, markSplitter_splitter]
      have hg : ∀ s, (markSplitter p q (p.getBlock (mapping.getD e.1 0))).1.getBlock s
          = p.getBlock s := fun s => hlay.getBlock s
      simp only [hg]
      by_cases hid : id = p.getBlock (mapping.getD e.1 0)
      · rw [if_pos ⟨hid, hpos _⟩]
        constructor
        · intro _
          exact Or.inr ⟨e, List.mem_cons_self _ _, hz, hid.symm⟩
        · intro _
          exact Or.inl rfl
      · rw [if_neg (fun h => hid h.1)]
        constructor
        · rintro (h | ⟨e1, he1, h1, h2⟩)
          · exact Or.inl h
          · exact Or.inr ⟨e1, List.mem_cons_of_mem _ he1, h1, h2⟩
        · rintro (h | ⟨e1, he1, h1, h2⟩)
          · exact Or.inl h
          · rcases List.mem_cons.mp he1 with h | h
            · rw [h] at h2
              exact absurd h2.symm hid
            · exact Or.inr ⟨e1, h, h1, h2⟩

/-- The blocks that are marked after one call of
`updateQuotientDistributionsOfPredecessors`: the blocks marked before and the blocks of
the predecessor states of the entries that are not zero. -/
theorem updateQuotientDistributionsOfPredecessors_flag_iff (cmp : ConstantsComparator)
    (m : Model) (st : Decomposition) (newBlock oldBlock : Nat) (queue : List Nat)
    (hpos : ∀ s, st.partition.getBlock s < st.partition.blocks.length) (id : Nat) :
    ((updateQuotientDistributionsOfPredecessors cmp m st newBlock oldBlock
        queue).1.partition.block id).splitter = true ↔
      ((st.partition.block id).splitter = true ∨
        ∃ e ∈ predecessorEntries m st newBlock, ¬ cmp.isZero e.2 = true ∧
          st.partition.getBlock (st.choiceToStateMapping.getD e.1 0) = id) := by
  have hfr := finishUpdate_frame cmp m
    ((predecessorEntries m st newBlock).foldl (updatePredecessorEntry cmp m newBlock oldBlock)
      { dec := st, queue := queue, lastState := none })
  have hm := foldl_updatePredecessorEntry_marks cmp m newBlock oldBlock
    (predecessorEntries m st newBlock) { dec := st, queue := queue, lastState := none }
  have hp : (updateQuotientDistributionsOfPredecessors cmp m st newBlock oldBlock
      queue).1.partition
      = ((predecessorEntries m st newBlock).foldl
          (fun (pq : Partition × List Nat) e =>
            if cmp.isZero e.2 = true then pq
            else markSplitter pq.1 pq.2
              (pq.1.getBlock (st.choiceToStateMapping.getD e.1 0)))
          (st.partition, queue)).1 := by
    unfold updateQuotientDistributionsOfPredecessors
    rw [hfr.1]
    exact congrArg Prod.fst hm
  rw [hp]
  exact foldl_markSplitter_flag_iff cmp st.choiceToStateMapping
    (predecessorEntries m st newBlock) st.partition queue hpos id

/-- The entries that an update visits are the same after another update. -/
theorem predecessorEntries_congr (m : Model) (st st1 : Decomposition) (newBlock : Nat)
    (h : st.partition.SameLayout st1.partition) :
    predecessorEntries m st1 newBlock = predecessorEntries m st newBlock := by
  unfold predecessorEntries
  rw [h.statesOf]

theorem massInto_congr (cmp : ConstantsComparator) (m : Model) (st st1 : Decomposition)
    (c block : Nat) (h : st.partition.SameLayout st1.partition) :
    st1.massInto cmp m c block = st.massInto cmp m c block := by
  unfold Decomposition.massInto
  rw [h.statesOf]

theorem updateQuotientDistributionsOfPredecessors_length (cmp : ConstantsComparator)
    (m : Model) (st : Decomposition) (newBlock oldBlock : Nat) (queue : List Nat) :
    (updateQuotientDistributionsOfPredecessors cmp m st newBlock oldBlock
      queue).1.quotientDistributions.length = st.quotientDistributions.length := by
  unfold updateQuotientDistributionsOfPredecessors
  rw [(finishUpdate_frame cmp m _).2.1]
  exact (foldl_updatePredecessorEntry_partition cmp m _ _ _ _).2.1

/-- One call of `updateQuotientDistributionsOfPredecessors` over exact arithmetic keeps the
keys unique and stores no zero mass, when the model has no negative probability and the
mass on the new block is not negative. -/
theorem updateQuotientDistributionsOfPredecessors_keys (m : Model) (hm : m.Nonnegative)
    (st : Decomposition) (newBlock oldBlock : Nat) (queue : List Nat)
    (hne : oldBlock ≠ newBlock) (hkeys : ∀ c, (st.distribution c).keys.Nodup)
    (hzf : ∀ c, (st.distribution c).ZeroFree)
    (hnew : ∀ c, 0 ≤ Distribution.mass (st.distribution c) newBlock) :
    (∀ c, ((updateQuotientDistributionsOfPredecessors exactComparator m st newBlock oldBlock
        queue).1.distribution c).keys.Nodup) ∧
    (∀ c, ((updateQuotientDistributionsOfPredecessors exactComparator m st newBlock oldBlock
        queue).1.distribution c).ZeroFree) := by
  have hentries : ∀ e ∈ predecessorEntries m st newBlock, 0 ≤ e.2 := by
    intro e he
    unfold predecessorEntries at he
    obtain ⟨s, _, hs⟩ := List.mem_flatMap.mp he
    exact (mem_backwardRow m hm s e hs).2
  have hk := foldl_updatePredecessorEntry_keys m newBlock oldBlock hne
    (predecessorEntries m st newBlock) hentries
    { dec := st, queue := queue, lastState := none } hkeys hzf hnew
  unfold updateQuotientDistributionsOfPredecessors
  constructor
  · intro c
    rw [finishUpdate_distribution]
    exact hk.1 c
  · intro c
    rw [finishUpdate_distribution]
    exact hk.2.1 c

/-- A distribution that stores no zero mass has exactly the keys of non-zero mass. -/
theorem Distribution.mem_keys_iff_of_zeroFree (d : Distribution) (h : d.ZeroFree) (k : Nat) :
    k ∈ d.keys ↔ d.mass k ≠ 0 :=
  ⟨fun hk => h k hk, Distribution.mem_keys_of_mass_ne_zero d k⟩
/-- A property of every stored distribution and of the empty distribution holds for the
distribution of every choice. -/
theorem distribution_forall (st : Decomposition) (P : Distribution → Prop)
    (h : ∀ d ∈ st.quotientDistributions, P d) (h0 : P []) (c : Nat) :
    P (st.distribution c) := by
  by_cases hc : c < st.quotientDistributions.length
  · unfold Decomposition.distribution
    rw [List.getD_eq_getElem _ _ hc]
    exact h _ (List.getElem_mem _)
  · rw [distribution_eq_nil_of_ge st c (by omega)]
    exact h0

/-- The loop over two new blocks is two calls in a row. -/
theorem updatePredecessorsOfNewBlocks_pair (cmp : ConstantsComparator) (m : Model)
    (st : Decomposition) (a b oldBlock : Nat) (queue : List Nat) :
    updatePredecessorsOfNewBlocks cmp m st oldBlock [a, b] queue
      = updateQuotientDistributionsOfPredecessors cmp m
          (updateQuotientDistributionsOfPredecessors cmp m st a oldBlock queue).1 b oldBlock
          (updateQuotientDistributionsOfPredecessors cmp m st a oldBlock queue).2 := by
  unfold updatePredecessorsOfNewBlocks
  simp only [List.foldl_cons, List.foldl_nil]

/-- The flags and the queue after the predecessor updates of two new blocks. -/
theorem update_pair_marks (cmp : ConstantsComparator) (m : Model) (st : Decomposition)
    (a b oldBlock : Nat) (queue : List Nat)
    (hpos : ∀ s, st.partition.getBlock s < st.partition.blocks.length) :
    (∀ id, ((updatePredecessorsOfNewBlocks cmp m st oldBlock [a, b]
        queue).1.partition.block id).splitter = true ↔
      ((st.partition.block id).splitter = true
        ∨ (∃ e ∈ predecessorEntries m st a, ¬ cmp.isZero e.2 = true ∧
            st.partition.getBlock (st.choiceToStateMapping.getD e.1 0) = id)
        ∨ (∃ e ∈ predecessorEntries m st b, ¬ cmp.isZero e.2 = true ∧
            st.partition.getBlock (st.choiceToStateMapping.getD e.1 0) = id))) ∧
    ∃ added, (updatePredecessorsOfNewBlocks cmp m st oldBlock [a, b] queue).2
        = queue ++ added ∧ added.Nodup ∧
      ∀ id, id ∈ added ↔
        ((st.partition.block id).splitter = false ∧
          ((updatePredecessorsOfNewBlocks cmp m st oldBlock [a, b]
            queue).1.partition.block id).splitter = true) := by
  have hlay := updateQuotientDistributionsOfPredecessors_sameLayout cmp m st a oldBlock queue
  have hmap := updateQuotientDistributionsOfPredecessors_mapping cmp m st a oldBlock queue
  have hpos1 : ∀ s,
      (updateQuotientDistributionsOfPredecessors cmp m st a oldBlock queue).1.partition.getBlock s
        < (updateQuotientDistributionsOfPredecessors cmp m st a oldBlock
            queue).1.partition.blocks.length := by
    intro s
    rw [hlay.getBlock, hlay.2.1]
    exact hpos s
  have hf1 := updateQuotientDistributionsOfPredecessors_flag_iff cmp m st a oldBlock queue hpos
  have hf2 := updateQuotientDistributionsOfPredecessors_flag_iff cmp m
    (updateQuotientDistributionsOfPredecessors cmp m st a oldBlock queue).1 b oldBlock
    (updateQuotientDistributionsOfPredecessors cmp m st a oldBlock queue).2 hpos1
  have hflag : ∀ id, ((updatePredecessorsOfNewBlocks cmp m st oldBlock [a, b]
        queue).1.partition.block id).splitter = true ↔
      ((st.partition.block id).splitter = true
        ∨ (∃ e ∈ predecessorEntries m st a, ¬ cmp.isZero e.2 = true ∧
            st.partition.getBlock (st.choiceToStateMapping.getD e.1 0) = id)
        ∨ (∃ e ∈ predecessorEntries m st b, ¬ cmp.isZero e.2 = true ∧
            st.partition.getBlock (st.choiceToStateMapping.getD e.1 0) = id)) := by
    intro id
    rw [updatePredecessorsOfNewBlocks_pair, hf2 id, hf1 id, predecessorEntries_congr m st _ b hlay, hmap]
    simp only [hlay.getBlock]
    exact or_assoc
  refine ⟨hflag, ?_⟩
  obtain ⟨hmono1, ⟨added1, hq1, hn1, hu1, hi1⟩, _⟩ :=
    updateQuotientDistributionsOfPredecessors_marks cmp m st a oldBlock queue hpos
  obtain ⟨hmono2, ⟨added2, hq2, hn2, hu2, hi2⟩, _⟩ :=
    updateQuotientDistributionsOfPredecessors_marks cmp m
      (updateQuotientDistributionsOfPredecessors cmp m st a oldBlock queue).1 b oldBlock
      (updateQuotientDistributionsOfPredecessors cmp m st a oldBlock queue).2 hpos1
  refine ⟨added1 ++ added2, ?_, ?_, ?_⟩
  · rw [updatePredecessorsOfNewBlocks_pair, hq2, hq1, List.append_assoc]
  · rw [List.nodup_append]
    refine ⟨hn1, hn2, ?_⟩
    intro id h1 h2
    have h3 := (hi1 id).mpr (Or.inr h1)
    have h4 := hu2 id h2
    rw [h3] at h4
    cases h4
  · intro id
    have hfin : ((updatePredecessorsOfNewBlocks cmp m st oldBlock [a, b]
        queue).1.partition.block id).splitter = true ↔
        (((updateQuotientDistributionsOfPredecessors cmp m st a oldBlock
          queue).1.partition.block id).splitter = true ∨ id ∈ added2) := by
      rw [updatePredecessorsOfNewBlocks_pair]
      exact hi2 id
    rw [List.mem_append, hfin]
    constructor
    · rintro (h | h)
      · exact ⟨hu1 id h, Or.inl ((hi1 id).mpr (Or.inr h))⟩
      · refine ⟨?_, Or.inr h⟩
        cases hs : (st.partition.block id).splitter with
        | false => rfl
        | true =>
          have h3 := hmono1 id hs
          have h4 := hu2 id h
          rw [h3] at h4
          cases h4
    · rintro ⟨h0, h | h⟩
      · rcases (hi1 id).mp h with h1 | h1
        · rw [h0] at h1
          cases h1
        · exact Or.inl h1
      · exact Or.inr h

/-- The masses after the predecessor updates of two new blocks. -/
theorem update_pair_mass (cmp : ConstantsComparator) (m : Model) (st : Decomposition)
    (a b oldBlock : Nat) (queue : List Nat)
    (hv : st.partition.Valid) (ha : a < st.partition.blocks.length)
    (hb : b < st.partition.blocks.length)
    (hlen : m.getNumberOfChoices ≤ st.quotientDistributions.length) (c k : Nat) :
    Distribution.mass
        ((updatePredecessorsOfNewBlocks cmp m st oldBlock [a, b] queue).1.distribution c) k
      = Distribution.mass (st.distribution c) k
        - (if oldBlock = k then st.massInto cmp m c a else 0)
        + (if a = k then st.massInto cmp m c a else 0)
        - (if oldBlock = k then st.massInto cmp m c b else 0)
        + (if b = k then st.massInto cmp m c b else 0) := by
  have hlay := updateQuotientDistributionsOfPredecessors_sameLayout cmp m st a oldBlock queue
  rw [updatePredecessorsOfNewBlocks_pair,
    updateQuotientDistributionsOfPredecessors_shift cmp m _ b oldBlock _
      (by rw [updateQuotientDistributionsOfPredecessors_length]; exact hlen)
      (Partition.statesOf_nodup _ (hlay.valid hv) b (by rw [hlay.2.1]; exact hb)) c k,
    updateQuotientDistributionsOfPredecessors_shift cmp m st a oldBlock queue hlen
      (Partition.statesOf_nodup _ hv a ha) c k,
    massInto_congr cmp m st _ c b hlay]

/-- The keys after the predecessor updates of two new blocks over exact arithmetic. -/
theorem update_pair_keys (m : Model) (hm : m.Nonnegative) (st : Decomposition)
    (a b oldBlock : Nat) (queue : List Nat)
    (hv : st.partition.Valid) (ha : a < st.partition.blocks.length)
    (hab : a ≠ b) (hoa : oldBlock ≠ a) (hob : oldBlock ≠ b)
    (hlen : m.getNumberOfChoices ≤ st.quotientDistributions.length)
    (hkeys : ∀ c, (st.distribution c).keys.Nodup)
    (hzf : ∀ c, (st.distribution c).ZeroFree)
    (hnewa : ∀ c, 0 ≤ Distribution.mass (st.distribution c) a)
    (hnewb : ∀ c, 0 ≤ Distribution.mass (st.distribution c) b) (c : Nat) :
    ((updatePredecessorsOfNewBlocks exactComparator m st oldBlock [a, b]
      queue).1.distribution c).ZeroFree := by
  obtain ⟨hk1, hz1⟩ := updateQuotientDistributionsOfPredecessors_keys m hm st a oldBlock
    queue hoa hkeys hzf hnewa
  have hnew1 : ∀ c, 0 ≤ Distribution.mass
      ((updateQuotientDistributionsOfPredecessors exactComparator m st a oldBlock
        queue).1.distribution c) b := by
    intro c
    rw [updateQuotientDistributionsOfPredecessors_shift exactComparator m st a oldBlock queue
      hlen (Partition.statesOf_nodup _ hv a ha) c b, if_neg hob, if_neg hab]
    simp only [sub_zero, add_zero]
    exact hnewb c
  rw [updatePredecessorsOfNewBlocks_pair]
  exact (updateQuotientDistributionsOfPredecessors_keys m hm _ b oldBlock _ hob hk1 hz1
    hnew1).2 c
/-- C34: the predecessor updates of sibling blocks commute.  For a model without negative
probabilities, a valid partition with two different new blocks `N1` and `N2` carved from
the block `oldBlock`, and quotient distributions with unique keys, without stored zero
mass and without negative mass on `N1` and `N2` (the new blocks are fresh), running
`updateQuotientDistributionsOfPredecessors` for `N1` and then for `N2` gives, over exact
arithmetic, for every choice a quotient distribution with the same mass on every block
and the same keys as running it for `N2` and then for `N1`, and the same flag for every
block; both runs append to the queue, and the two lists of newly queued blocks are
permutations of each other. -/
theorem sibling_updates_commute (m : Model) (hm : m.Nonnegative) (st : Decomposition)
    (N1 N2 oldBlock : Nat) (queue : List Nat)
    (hv : st.partition.Valid) (hN1 : N1 < st.partition.blocks.length)
    (hN2 : N2 < st.partition.blocks.length)
    (h12 : N1 ≠ N2) (ho1 : oldBlock ≠ N1) (ho2 : oldBlock ≠ N2)
    (hlen : m.getNumberOfChoices ≤ st.quotientDistributions.length)
    (hkeys : st.UniqueKeys) (hzf : ∀ d ∈ st.quotientDistributions, d.ZeroFree)
    (hnew : ∀ d ∈ st.quotientDistributions,
      0 ≤ Distribution.mass d N1 ∧ 0 ≤ Distribution.mass d N2) :
    (updatePredecessorsOfNewBlocks exactComparator m st oldBlock [N1, N2]
        queue).1.quotientDistributions.length
      = (updatePredecessorsOfNewBlocks exactComparator m st oldBlock [N2, N1]
        queue).1.quotientDistributions.length
    ∧ (∀ c k,
        Distribution.mass
            ((updatePredecessorsOfNewBlocks exactComparator m st oldBlock [N1, N2]
              queue).1.distribution c) k
          = Distribution.mass
            ((updatePredecessorsOfNewBlocks exactComparator m st oldBlock [N2, N1]
              queue).1.distribution c) k)
    ∧ (∀ c k,
        k ∈ ((updatePredecessorsOfNewBlocks exactComparator m st oldBlock [N1, N2]
              queue).1.distribution c).keys
          ↔ k ∈ ((updatePredecessorsOfNewBlocks exactComparator m st oldBlock [N2, N1]
              queue).1.distribution c).keys)
    ∧ (∀ id,
        ((updatePredecessorsOfNewBlocks exactComparator m st oldBlock [N1, N2]
            queue).1.partition.block id).splitter
          = ((updatePredecessorsOfNewBlocks exactComparator m st oldBlock [N2, N1]
            queue).1.partition.block id).splitter)
    ∧ ∃ added12 added21,
        (updatePredecessorsOfNewBlocks exactComparator m st oldBlock [N1, N2] queue).2
          = queue ++ added12
        ∧ (updatePredecessorsOfNewBlocks exactComparator m st oldBlock [N2, N1] queue).2
          = queue ++ added21
        ∧ added12.Perm added21 := by
  have hk : ∀ c, (st.distribution c).keys.Nodup := uniqueKeys_apply st hkeys
  have hz : ∀ c, (st.distribution c).ZeroFree :=
    distribution_forall st Distribution.ZeroFree hzf (by intro k hk; simp [Distribution.keys] at hk)
  have hn1 : ∀ c, 0 ≤ Distribution.mass (st.distribution c) N1 :=
    distribution_forall st (fun d => 0 ≤ Distribution.mass d N1) (fun d hd => (hnew d hd).1)
      (by simp [Distribution.mass_nil])
  have hn2 : ∀ c, 0 ≤ Distribution.mass (st.distribution c) N2 :=
    distribution_forall st (fun d => 0 ≤ Distribution.mass d N2) (fun d hd => (hnew d hd).2)
      (by simp [Distribution.mass_nil])
  have hpos : ∀ s, st.partition.getBlock s < st.partition.blocks.length :=
    Partition.getBlock_lt_of_pos st.partition hv (by omega)
  have hmass : ∀ c k,
      Distribution.mass
          ((updatePredecessorsOfNewBlocks exactComparator m st oldBlock [N1, N2]
            queue).1.distribution c) k
        = Distribution.mass
          ((updatePredecessorsOfNewBlocks exactComparator m st oldBlock [N2, N1]
            queue).1.distribution c) k := by
    intro c k
    rw [update_pair_mass exactComparator m st N1 N2 oldBlock queue hv hN1 hN2 hlen c k,
      update_pair_mass exactComparator m st N2 N1 oldBlock queue hv hN2 hN1 hlen c k]
    ring
  have hz12 := update_pair_keys m hm st N1 N2 oldBlock queue hv hN1 h12 ho1 ho2 hlen hk hz
    hn1 hn2
  have hz21 := update_pair_keys m hm st N2 N1 oldBlock queue hv hN2 (fun h => h12 h.symm)
    ho2 ho1 hlen hk hz hn2 hn1
  obtain ⟨hf12, added12, hq12, hnd12, hmem12⟩ :=
    update_pair_marks exactComparator m st N1 N2 oldBlock queue hpos
  obtain ⟨hf21, added21, hq21, hnd21, hmem21⟩ :=
    update_pair_marks exactComparator m st N2 N1 oldBlock queue hpos
  have hflag : ∀ id,
      ((updatePredecessorsOfNewBlocks exactComparator m st oldBlock [N1, N2]
          queue).1.partition.block id).splitter = true
        ↔ ((updatePredecessorsOfNewBlocks exactComparator m st oldBlock [N2, N1]
          queue).1.partition.block id).splitter = true := by
    intro id
    rw [hf12 id, hf21 id]
    exact or_congr_right or_comm
  refine ⟨?_, hmass, ?_, ?_, added12, added21, hq12, hq21, ?_⟩
  · rw [updatePredecessorsOfNewBlocks_pair, updatePredecessorsOfNewBlocks_pair,
      updateQuotientDistributionsOfPredecessors_length,
      updateQuotientDistributionsOfPredecessors_length,
      updateQuotientDistributionsOfPredecessors_length,
      updateQuotientDistributionsOfPredecessors_length]
  · intro c k
    rw [Distribution.mem_keys_iff_of_zeroFree _ (hz12 c) k,
      Distribution.mem_keys_iff_of_zeroFree _ (hz21 c) k, hmass c k]
  · intro id
    exact Bool.eq_iff_iff.mpr (hflag id)
  · rw [List.perm_ext_iff_of_nodup hnd12 hnd21]
    intro id
    rw [hmem12 id, hmem21 id, hflag id]

theorem sibling_updates_commute_witness :
    (updatePredecessorsOfNewBlocks exactComparator siblingModel siblingSplit 0 [3, 4]
        []).1.quotientDistributions.length
      = (updatePredecessorsOfNewBlocks exactComparator siblingModel siblingSplit 0 [4, 3]
        []).1.quotientDistributions.length
    ∧ (∀ c k,
        Distribution.mass
            ((updatePredecessorsOfNewBlocks exactComparator siblingModel siblingSplit 0 [3, 4]
              []).1.distribution c) k
          = Distribution.mass
            ((updatePredecessorsOfNewBlocks exactComparator siblingModel siblingSplit 0 [4, 3]
              []).1.distribution c) k)
    ∧ (∀ c k,
        k ∈ ((updatePredecessorsOfNewBlocks exactComparator siblingModel siblingSplit 0 [3, 4]
              []).1.distribution c).keys
          ↔ k ∈ ((updatePredecessorsOfNewBlocks exactComparator siblingModel siblingSplit 0
              [4, 3] []).1.distribution c).keys)
    ∧ (∀ id,
        ((updatePredecessorsOfNewBlocks exactComparator siblingModel siblingSplit 0 [3, 4]
            []).1.partition.block id).splitter
          = ((updatePredecessorsOfNewBlocks exactComparator siblingModel siblingSplit 0 [4, 3]
            []).1.partition.block id).splitter)
    ∧ ∃ added12 added21,
        (updatePredecessorsOfNewBlocks exactComparator siblingModel siblingSplit 0 [3, 4] []).2
          = [] ++ added12
        ∧ (updatePredecessorsOfNewBlocks exactComparator siblingModel siblingSplit 0 [4, 3]
            []).2 = [] ++ added21
        ∧ added12.Perm added21 :=
  sibling_updates_commute siblingModel (by unfold Model.Nonnegative; decide!) siblingSplit
    3 4 0 [] ⟨by decide!, by decide!, by decide!⟩ (by decide!) (by decide!) (by decide)
    (by decide) (by decide) (by decide!)
    (by unfold Decomposition.UniqueKeys; decide!)
    (by unfold Distribution.ZeroFree; decide!) (by decide!)

/-- The two orders of the updates on `siblingSplit`: the quotient distribution of choice 3
holds its two keys in the order of the updates, and the newly queued blocks come in
another order. -/
theorem sibling_updates_order :
    (updatePredecessorsOfNewBlocks exactComparator siblingModel siblingSplit 0 [3, 4]
        []).1.distribution 3 = [(3, 1 / 2), (4, 1 / 2)]
    ∧ (updatePredecessorsOfNewBlocks exactComparator siblingModel siblingSplit 0 [4, 3]
        []).1.distribution 3 = [(4, 1 / 2), (3, 1 / 2)]
    ∧ (updatePredecessorsOfNewBlocks exactComparator siblingModel siblingSplit 0 [3, 4] []).2
        = [4, 1, 3]
    ∧ (updatePredecessorsOfNewBlocks exactComparator siblingModel siblingSplit 0 [4, 3] []).2
        = [3, 1, 4] := by
  decide!
/-! ## Failures with a comparator with a tolerance -/

/-- The comparator with a tolerance satisfies the consistency rule of section 4.1 of the
specification: values that are equal are not less than each other. -/
theorem toleranceComparator_consistent (eps : ℚ) (a b : ℚ)
    (h : (toleranceComparator eps).isEqual a b = true) :
    (toleranceComparator eps).isLess a b = false ∧
      (toleranceComparator eps).isLess b a = false := by
  simp only [toleranceComparator, decide_eq_true_eq] at h
  simp only [toleranceComparator, decide_eq_false_iff_not, not_lt]
  constructor <;> linarith [h.1, h.2]

/-- With the tolerance 1/8 the order `Distribution.less` is not a strict weak order: on
the distributions of the states 0, 1 and 2 of `tolModel` neighbours are equivalent, and
the first is less than the third. -/
theorem tolerance_less_not_strictWeakOrder :
    ¬ StrictWeakOrder (Distribution.less (toleranceComparator (1 / 8))) := by
  intro h
  have h1 := h.incomp_trans [(1, 1 / 2), (2, 1 / 2)] [(1, 5 / 8), (2, 3 / 8)]
    [(1, 3 / 4), (2, 1 / 4)] (by decide!) (by decide!)
  revert h1
  decide!

/-- C12, as stated, fails: in `tolModel` after `initialize()` with the tolerance 1/8 (an
input with a valid partition and sorted signature lists), the states 0 and 2 are in block
0, `quotientDistributionsLess(0, 2)` is true, and after `partition.splitBlock` for block
0 the two states still lie in the same block: the neighbours 0, 1 and 1, 2 are not less
than each other, so the scan for boundaries finds none. -/
theorem split_keeps_less_states_together :
    tolDecomposition.partition.Valid ∧
    (∀ s, s < 5 → SignatureSorted (Distribution.less (toleranceComparator (1 / 8)))
      (tolDecomposition.signature tolModel s)) ∧
    0 ∈ tolDecomposition.partition.statesOf 0 ∧
    2 ∈ tolDecomposition.partition.statesOf 0 ∧
    quotientDistributionsLess (toleranceComparator (1 / 8)) tolModel tolDecomposition 0 2
      = true ∧
    (tolDecomposition.partition.splitBlock 0
        (quotientDistributionsLess (toleranceComparator (1 / 8)) tolModel
          tolDecomposition)).1.getBlock 0
      = (tolDecomposition.partition.splitBlock 0
          (quotientDistributionsLess (toleranceComparator (1 / 8)) tolModel
            tolDecomposition)).1.getBlock 2 :=
  ⟨⟨by decide!, by decide!, by decide!⟩, by decide!, by decide!, by decide!, by decide!,
    by decide!⟩

/-- C19, as stated, fails: in `tolModel` after `initialize()` with the tolerance 1/8 (an
input with a valid partition and sorted signature lists),
`splitBlockAccordingToCurrentQuotientDistributions` for block 0 returns false and creates
no block, although the states of the block are not pairwise not less than each other:
`quotientDistributionsLess(0, 2)` is true and `checkBlockStable` fails. -/
theorem unstable_block_reported_stable :
    tolDecomposition.partition.Valid ∧
    (∀ s, s < 5 → SignatureSorted (Distribution.less (toleranceComparator (1 / 8)))
      (tolDecomposition.signature tolModel s)) ∧
    (splitBlockAccordingToCurrentQuotientDistributions (toleranceComparator (1 / 8)) tolModel
      tolDecomposition 0 []).2.2 = false ∧
    (splitBlockAccordingToCurrentQuotientDistributions (toleranceComparator (1 / 8)) tolModel
      tolDecomposition 0 []).1.partition.blocks.length
      = tolDecomposition.partition.blocks.length ∧
    0 ∈ tolDecomposition.partition.statesOf 0 ∧
    2 ∈ tolDecomposition.partition.statesOf 0 ∧
    quotientDistributionsLess (toleranceComparator (1 / 8)) tolModel tolDecomposition 0 2
      = true ∧
    checkBlockStable (toleranceComparator (1 / 8)) tolModel tolDecomposition 0 = false :=
  ⟨⟨by decide!, by decide!, by decide!⟩, by decide!, by decide!, by decide!, by decide!,
    by decide!, by decide!, by decide!⟩

/-- C5, as stated, fails in two ways.  First, with exact arithmetic, in
`storedZeroDecomposition` (sorted signature lists): the signature list of state 0 is
`{0: 1}`, `{0: 1, 1: 0}` and that of state 1 is `{0: 1}`; the two entries of state 0 are
not less than each other and not `Distribution.equals` (their key sets differ); the
inner loop of `quotientDistributionsLess` passes both, so `quotientDistributionsLess(1,
0)` is false, while the reference comparison keeps both entries and finds the list of
state 1 exhausted first.  Second, with the tolerance 1/8, in `chainModel` after
`initialize()` (sorted signature lists on which `Distribution.equals` is the equivalence
of `Distribution.less`): the three entries of state 0 are neighbour by neighbour not
less than each other, the inner loop passes all of them, so
`quotientDistributionsLess(1, 0)` is false, while the reference comparison keeps the
third entry, which is not equal to the first, and finds the list of state 1 exhausted
first. -/
theorem quotientDistributionsLess_differs_from_reference :
    (SignatureSorted (Distribution.less exactComparator)
        (storedZeroDecomposition.signature storedZeroModel 0) ∧
      SignatureSorted (Distribution.less exactComparator)
        (storedZeroDecomposition.signature storedZeroModel 1) ∧
      quotientDistributionsLess exactComparator storedZeroModel storedZeroDecomposition 1 0
        = false ∧
      referenceLess (Distribution.less exactComparator) (Distribution.equals exactComparator)
        (storedZeroDecomposition.signature storedZeroModel 1)
        (storedZeroDecomposition.signature storedZeroModel 0) = true) ∧
    (SignatureSorted (Distribution.less (toleranceComparator (1 / 8)))
        (chainDecomposition.signature chainModel 0) ∧
      SignatureSorted (Distribution.less (toleranceComparator (1 / 8)))
        (chainDecomposition.signature chainModel 1) ∧
      (∀ a ∈ chainDecomposition.signature chainModel 0
          ++ chainDecomposition.signature chainModel 1,
        ∀ b ∈ chainDecomposition.signature chainModel 0
            ++ chainDecomposition.signature chainModel 1,
          Distribution.equals (toleranceComparator (1 / 8)) a b
            = equivOf (Distribution.less (toleranceComparator (1 / 8))) a b) ∧
      quotientDistributionsLess (toleranceComparator (1 / 8)) chainModel chainDecomposition
        1 0 = false ∧
      referenceLess (Distribution.less (toleranceComparator (1 / 8)))
        (Distribution.equals (toleranceComparator (1 / 8)))
        (chainDecomposition.signature chainModel 1)
        (chainDecomposition.signature chainModel 0) = true) :=
  ⟨⟨by decide!, by decide!, by decide!, by decide!⟩,
    ⟨by decide!, by decide!, by decide!, by decide!, by decide!⟩⟩

/-- C8, as stated, fails in two ways.  First, with exact arithmetic, in
`storedZeroDecomposition`: the sorted signature lists of the states 0 and 2 hold the same
distinct distributions `{0: 1}` and `{0: 1, 1: 0}` with different multiplicities, and
from the first entry of state 0 the run-collapsing loop passes the second entry, which
is not `Distribution.equals` to the first.  Second, with the tolerance 1/8, in
`chainModel` after `initialize()`: every entry of the sorted signature list of state 0
is `Distribution.equals` to the single entry of state 1 and the other way round, and
from the first entry of state 0 the run-collapsing loop passes the second and the third
entry, of which the third is not `Distribution.equals` to the first. -/
theorem run_collapse_passes_unequal_entries :
    (SignatureSorted (Distribution.less exactComparator)
        (storedZeroDecomposition.signature storedZeroModel 0) ∧
      SignatureSorted (Distribution.less exactComparator)
        (storedZeroDecomposition.signature storedZeroModel 2) ∧
      (∀ d1 ∈ storedZeroDecomposition.signature storedZeroModel 0,
        ∃ d2 ∈ storedZeroDecomposition.signature storedZeroModel 2,
          Distribution.equals exactComparator d1 d2 = true) ∧
      (∀ d2 ∈ storedZeroDecomposition.signature storedZeroModel 2,
        ∃ d1 ∈ storedZeroDecomposition.signature storedZeroModel 0,
          Distribution.equals exactComparator d1 d2 = true) ∧
      storedZeroDecomposition.signature storedZeroModel 0 = [[(0, 1)], [(0, 1), (1, 0)]] ∧
      (skipEqualRun (Distribution.less exactComparator)
        [[(0, 1)], [(0, 1), (1, 0)]]).tail = [] ∧
      [[(0, 1), (1, 0)]].dropWhile (fun b => Distribution.equals exactComparator [(0, 1)] b)
        = [[(0, 1), (1, 0)]]) ∧
    (SignatureSorted (Distribution.less (toleranceComparator (1 / 8)))
        (chainDecomposition.signature chainModel 0) ∧
      SignatureSorted (Distribution.less (toleranceComparator (1 / 8)))
        (chainDecomposition.signature chainModel 1) ∧
      (∀ d1 ∈ chainDecomposition.signature chainModel 0,
        ∃ d2 ∈ chainDecomposition.signature chainModel 1,
          Distribution.equals (toleranceComparator (1 / 8)) d1 d2 = true) ∧
      (∀ d2 ∈ chainDecomposition.signature chainModel 1,
        ∃ d1 ∈ chainDecomposition.signature chainModel 0,
          Distribution.equals (toleranceComparator (1 / 8)) d1 d2 = true) ∧
      chainDecomposition.signature chainModel 0
        = [[(1, 1 / 2), (2, 1 / 2)], [(1, 5 / 8), (2, 3 / 8)], [(1, 3 / 4), (2, 1 / 4)]] ∧
      (skipEqualRun (Distribution.less (toleranceComparator (1 / 8)))
        [[(1, 1 / 2), (2, 1 / 2)], [(1, 5 / 8), (2, 3 / 8)], [(1, 3 / 4), (2, 1 / 4)]]).tail
        = [] ∧
      [[(1, 5 / 8), (2, 3 / 8)], [(1, 3 / 4), (2, 1 / 4)]].dropWhile
          (fun b => Distribution.equals (toleranceComparator (1 / 8))
            [(1, 1 / 2), (2, 1 / 2)] b)
        = [[(1, 3 / 4), (2, 1 / 4)]]) :=
  ⟨⟨by decide!, by decide!, by decide!, by decide!, by decide!, by decide!, by decide!⟩,
    ⟨by decide!, by decide!, by decide!, by decide!, by decide!, by decide!, by decide!⟩⟩
/-! ## The arithmetic of the value type

With the exact arithmetic the functions with the suffix `In` are the functions without
it. -/

theorem Distribution.addProbabilityIn_exact (d : Distribution) (b : Nat) (v : ℚ) :
    Distribution.addProbabilityIn exactArithmetic d b v = Distribution.addProbability d b v := by
  induction d with
  | nil => rfl
  | cons e d ih =>
    obtain ⟨k, w⟩ := e
    simp only [Distribution.addProbabilityIn, Distribution.addProbability, ih]
    rfl

theorem Distribution.removeProbabilityIn_exact (d : Distribution) (b : Nat) (v : ℚ) :
    Distribution.removeProbabilityIn exactArithmetic d b v
      = Distribution.removeProbability d b v := by
  induction d with
  | nil => rfl
  | cons e d ih =>
    obtain ⟨k, w⟩ := e
    simp only [Distribution.removeProbabilityIn, Distribution.removeProbability, ih]
    rfl

theorem Distribution.shiftProbabilityIn_exact (d : Distribution) (fromBlock toBlock : Nat)
    (v : ℚ) :
    Distribution.shiftProbabilityIn exactArithmetic d fromBlock toBlock v
      = Distribution.shiftProbability d fromBlock toBlock v := by
  unfold Distribution.shiftProbabilityIn Distribution.shiftProbability
  rw [Distribution.removeProbabilityIn_exact, Distribution.addProbabilityIn_exact]

theorem replayRowIn_exact (cmp : ConstantsComparator) (m : Model) (p : Partition)
    (choice : Nat) (d : Distribution) :
    replayRowIn exactArithmetic cmp m p choice d = replayRow cmp m p choice d := by
  unfold replayRowIn replayRow
  simp only [Distribution.addProbabilityIn_exact]

theorem rebuildDistributionIn_exact (cmp : ConstantsComparator) (m : Model) (p : Partition)
    (choice : Nat) :
    rebuildDistributionIn exactArithmetic cmp m p choice = rebuildDistribution cmp m p choice :=
  replayRowIn_exact cmp m p choice []

theorem initializeChoiceIn_exact (cmp : ConstantsComparator) (m : Model) :
    initializeChoiceIn exactArithmetic cmp m = initializeChoice cmp m := by
  funext st choice
  unfold initializeChoiceIn initializeChoice
  rw [replayRowIn_exact]

theorem initializeDecompositionIn_exact (cmp : ConstantsComparator) (m : Model)
    (st : Decomposition) :
    initializeDecompositionIn exactArithmetic cmp m st = initializeDecomposition cmp m st := by
  unfold initializeDecompositionIn initializeDecomposition initializeQuotientDistributionsIn
    initializeQuotientDistributions
  rw [initializeChoiceIn_exact]

theorem updatePredecessorEntryIn_exact (cmp : ConstantsComparator) (m : Model)
    (newBlock oldBlock : Nat) :
    updatePredecessorEntryIn exactArithmetic cmp m newBlock oldBlock
      = updatePredecessorEntry cmp m newBlock oldBlock := by
  funext u e
  unfold updatePredecessorEntryIn updatePredecessorEntry shiftChoiceIn shiftChoice
  simp only [Distribution.shiftProbabilityIn_exact]

theorem updateQuotientDistributionsOfPredecessorsIn_exact (cmp : ConstantsComparator)
    (m : Model) :
    updateQuotientDistributionsOfPredecessorsIn exactArithmetic cmp m
      = updateQuotientDistributionsOfPredecessors cmp m := by
  funext st newBlock oldBlock queue
  unfold updateQuotientDistributionsOfPredecessorsIn updateQuotientDistributionsOfPredecessors
  rw [updatePredecessorEntryIn_exact]

theorem splitBlockAccordingToCurrentQuotientDistributionsIn_exact
    (cmp : ConstantsComparator) (m : Model) (st : Decomposition) (block : Nat)
    (splitterQueue : List Nat) :
    splitBlockAccordingToCurrentQuotientDistributionsIn exactArithmetic cmp m st block
        splitterQueue
      = splitBlockAccordingToCurrentQuotientDistributions cmp m st block splitterQueue := by
  unfold splitBlockAccordingToCurrentQuotientDistributionsIn
    splitBlockAccordingToCurrentQuotientDistributions
  rw [updateQuotientDistributionsOfPredecessorsIn_exact]

theorem consistentIn_exact (cmp : ConstantsComparator) (m : Model) (st : Decomposition) :
    st.ConsistentIn exactArithmetic cmp m ↔ st.Consistent cmp m := by
  unfold Decomposition.ConsistentIn Decomposition.Consistent
  simp only [rebuildDistributionIn_exact]

/-! ### The rounding of `double` -/

theorem halvings_spec : ∀ (fuel n : Nat), 1 ≤ n → n ≤ fuel →
    2 ^ halvings fuel n ≤ n ∧ n < 2 ^ (halvings fuel n + 1) := by
  intro fuel
  induction fuel with
  | zero => intro n h1 h2; omega
  | succ fuel ih =>
    intro n h1 h2
    unfold halvings
    by_cases h : 2 ≤ n
    · rw [if_pos h]
      obtain ⟨ha, hb⟩ := ih (n / 2) (by omega) (by omega)
      rw [pow_succ] at hb
      rw [pow_succ, pow_succ, pow_succ]
      constructor <;> omega
    · rw [if_neg h]
      simp
      omega

theorem binaryLog_spec (n : Nat) (h : 1 ≤ n) :
    2 ^ binaryLog n ≤ n ∧ n < 2 ^ (binaryLog n + 1) :=
  halvings_spec n n h (Nat.le_refl n)

theorem twoPow_eq (k : ℤ) : twoPow k = (2 : ℚ) ^ k := by
  unfold twoPow
  by_cases h : 0 ≤ k
  · rw [if_pos h]
    obtain ⟨n, rfl⟩ := Int.eq_ofNat_of_zero_le h
    simp
  · rw [if_neg h]
    obtain ⟨n, hn⟩ := Int.eq_ofNat_of_zero_le (show 0 ≤ -k by omega)
    have hk : k = -(n : ℤ) := by omega
    subst hk
    simp

theorem twoPow_pos (k : ℤ) : 0 < twoPow k := by
  rw [twoPow_eq]
  positivity

theorem twoPow_add (a b : ℤ) : twoPow (a + b) = twoPow a * twoPow b := by
  rw [twoPow_eq, twoPow_eq, twoPow_eq, zpow_add₀ (by norm_num)]

/-- The exponent of a positive rational brackets it between two powers of two. -/
theorem binaryExponent_spec (q : ℚ) (hq : 0 < q) :
    twoPow (binaryExponent q) ≤ q ∧ q < twoPow (binaryExponent q + 1) := by
  have hnum : 0 < q.num := Rat.num_pos.mpr hq
  have hn1 : 1 ≤ q.num.natAbs := by omega
  have hd1 : 1 ≤ q.den := q.den_pos
  obtain ⟨hn_lo, hn_hi⟩ := binaryLog_spec q.num.natAbs hn1
  obtain ⟨hd_lo, hd_hi⟩ := binaryLog_spec q.den hd1
  have hqd : q * (q.den : ℚ) = (q.num.natAbs : ℚ) := by
    have h1 : ((q.num.natAbs : ℕ) : ℤ) = q.num := Int.natAbs_of_nonneg hnum.le
    have h2 : ((q.num.natAbs : ℕ) : ℚ) = (q.num : ℚ) := by
      rw [← Int.cast_natCast, h1]
    rw [h2]
    exact Rat.mul_den_eq_num q
  have hnlo : ((2 : ℚ) ^ binaryLog q.num.natAbs) ≤ (q.num.natAbs : ℚ) := by exact_mod_cast hn_lo
  have hnhi : (q.num.natAbs : ℚ) < (2 : ℚ) ^ (binaryLog q.num.natAbs + 1) := by
    exact_mod_cast hn_hi
  have hdlo : ((2 : ℚ) ^ binaryLog q.den) ≤ (q.den : ℚ) := by exact_mod_cast hd_lo
  have hdhi : (q.den : ℚ) < (2 : ℚ) ^ (binaryLog q.den + 1) := by exact_mod_cast hd_hi
  have hp : ∀ k : ℕ, (0 : ℚ) < (2 : ℚ) ^ k := fun k => by positivity
  have hupper : q < twoPow ((binaryLog q.num.natAbs : ℤ) - (binaryLog q.den : ℤ) + 1) := by
    rw [twoPow_eq, show (binaryLog q.num.natAbs : ℤ) - (binaryLog q.den : ℤ) + 1
      = ((binaryLog q.num.natAbs + 1 : ℕ) : ℤ) - ((binaryLog q.den : ℕ) : ℤ) by push_cast; ring,
      zpow_sub₀ (by norm_num), zpow_natCast, zpow_natCast, lt_div_iff₀ (hp _)]
    calc q * 2 ^ binaryLog q.den
        ≤ q * (q.den : ℚ) := mul_le_mul_of_nonneg_left hdlo hq.le
      _ = (q.num.natAbs : ℚ) := hqd
      _ < 2 ^ (binaryLog q.num.natAbs + 1) := hnhi
  have hlower : twoPow ((binaryLog q.num.natAbs : ℤ) - (binaryLog q.den : ℤ) - 1) ≤ q := by
    rw [twoPow_eq, show (binaryLog q.num.natAbs : ℤ) - (binaryLog q.den : ℤ) - 1
      = ((binaryLog q.num.natAbs : ℕ) : ℤ) - ((binaryLog q.den + 1 : ℕ) : ℤ) by push_cast; ring,
      zpow_sub₀ (by norm_num), zpow_natCast, zpow_natCast, div_le_iff₀ (hp _)]
    calc (2 : ℚ) ^ binaryLog q.num.natAbs
        ≤ (q.num.natAbs : ℚ) := hnlo
      _ = q * (q.den : ℚ) := hqd.symm
      _ ≤ q * 2 ^ (binaryLog q.den + 1) := mul_le_mul_of_nonneg_left hdhi.le hq.le
  unfold binaryExponent
  dsimp only
  by_cases h : twoPow ((binaryLog q.num.natAbs : ℤ) - (binaryLog q.den : ℤ)) ≤ q
  · rw [if_pos h]
    exact ⟨h, hupper⟩
  · rw [if_neg h]
    refine ⟨hlower, ?_⟩
    rw [show (binaryLog q.num.natAbs : ℤ) - (binaryLog q.den : ℤ) - 1 + 1
      = (binaryLog q.num.natAbs : ℤ) - (binaryLog q.den : ℤ) by ring]
    exact lt_of_not_le h

/-- The rounding to an integer moves a value by at most one half. -/
theorem roundHalfEven_spec (q : ℚ) : |((roundHalfEven q : ℤ) : ℚ) - q| ≤ 1 / 2 := by
  have h1 : ((⌊q⌋ : ℤ) : ℚ) ≤ q := Int.floor_le q
  have h2 : q < ((⌊q⌋ : ℤ) : ℚ) + 1 := Int.lt_floor_add_one q
  unfold roundHalfEven
  by_cases ha : q - ((⌊q⌋ : ℤ) : ℚ) < 1 / 2
  · rw [if_pos ha, abs_le]
    constructor <;> linarith
  · rw [if_neg ha]
    by_cases hb : 1 / 2 < q - ((⌊q⌋ : ℤ) : ℚ)
    · rw [if_pos hb, abs_le]
      push_cast
      constructor <;> linarith
    · rw [if_neg hb]
      have hc : q - ((⌊q⌋ : ℤ) : ℚ) = 1 / 2 := le_antisymm (not_lt.mp hb) (not_lt.mp ha)
      by_cases hd : ⌊q⌋ % 2 = 0
      · rw [if_pos hd, abs_le]
        constructor <;> linarith
      · rw [if_neg hd, abs_le]
        push_cast
        constructor <;> linarith

/-- The rounding of a positive value has a significand of 53 binary digits and lies
within half a unit in the last place of the value. -/
theorem roundPositive_spec (q : ℚ) (hq : 0 < q) :
    ∃ M : ℤ, 2 ^ 52 ≤ M ∧ M ≤ 2 ^ 53 ∧
      roundPositive q = (M : ℚ) * twoPow (binaryExponent q - 52) ∧
      |roundPositive q - q| ≤ twoPow (binaryExponent q - 53) := by
  obtain ⟨hlo, hhi⟩ := binaryExponent_spec q hq
  have hs := roundHalfEven_spec (q * twoPow (52 - binaryExponent q))
  have hpos := twoPow_pos (52 - binaryExponent q)
  have hpos2 := twoPow_pos (binaryExponent q - 52)
  have h52 : twoPow (binaryExponent q) * twoPow (52 - binaryExponent q) = 2 ^ 52 := by
    rw [← twoPow_add, show binaryExponent q + (52 - binaryExponent q) = 52 by ring, twoPow_eq]
    norm_num
  have h53 : twoPow (binaryExponent q + 1) * twoPow (52 - binaryExponent q) = 2 ^ 53 := by
    rw [← twoPow_add, show binaryExponent q + 1 + (52 - binaryExponent q) = 53 by ring,
      twoPow_eq]
    norm_num
  have hone : twoPow (52 - binaryExponent q) * twoPow (binaryExponent q - 52) = 1 := by
    rw [← twoPow_add, show 52 - binaryExponent q + (binaryExponent q - 52) = 0 by ring,
      twoPow_eq]
    norm_num
  have hhalf : (1 / 2 : ℚ) * twoPow (binaryExponent q - 52) = twoPow (binaryExponent q - 53) := by
    rw [show binaryExponent q - 52 = (binaryExponent q - 53) + 1 by ring, twoPow_add]
    rw [show twoPow 1 = 2 by rw [twoPow_eq]; norm_num]
    ring
  have hslo : (2 : ℚ) ^ 52 ≤ q * twoPow (52 - binaryExponent q) := by
    rw [← h52]
    exact mul_le_mul_of_nonneg_right hlo hpos.le
  have hshi : q * twoPow (52 - binaryExponent q) < (2 : ℚ) ^ 53 := by
    rw [← h53]
    exact mul_lt_mul_of_pos_right hhi hpos
  rw [abs_le] at hs
  refine ⟨roundHalfEven (q * twoPow (52 - binaryExponent q)), ?_, ?_, rfl, ?_⟩
  · have h2 : (4503599627370495 : ℚ)
        < ((roundHalfEven (q * twoPow (52 - binaryExponent q)) : ℤ) : ℚ) := by
      norm_num at hslo
      linarith [hs.1]
    have h3 : (4503599627370495 : ℤ) < roundHalfEven (q * twoPow (52 - binaryExponent q)) := by
      exact_mod_cast h2
    norm_num
    omega
  · have h2 : ((roundHalfEven (q * twoPow (52 - binaryExponent q)) : ℤ) : ℚ)
        < (9007199254740993 : ℚ) := by
      norm_num at hshi
      linarith [hs.2]
    have h3 : roundHalfEven (q * twoPow (52 - binaryExponent q)) < (9007199254740993 : ℤ) := by
      exact_mod_cast h2
    norm_num
    omega
  · unfold roundPositive
    have hq2 : q = (q * twoPow (52 - binaryExponent q)) * twoPow (binaryExponent q - 52) := by
      rw [mul_assoc, hone, mul_one]
    have : ((roundHalfEven (q * twoPow (52 - binaryExponent q)) : ℤ) : ℚ)
          * twoPow (binaryExponent q - 52) - q
        = (((roundHalfEven (q * twoPow (52 - binaryExponent q)) : ℤ) : ℚ)
            - q * twoPow (52 - binaryExponent q)) * twoPow (binaryExponent q - 52) := by
      rw [sub_mul, ← hq2]
    rw [this, abs_mul, abs_of_pos hpos2, ← hhalf]
    exact mul_le_mul_of_nonneg_right (abs_le.mpr hs) hpos2.le

theorem roundHalfEven_intCast (z : ℤ) : roundHalfEven (z : ℚ) = z := by
  unfold roundHalfEven
  rw [Int.floor_intCast, sub_self, if_pos (by norm_num)]

/-- A positive value with a significand of at most 53 binary digits is not changed by the
rounding. -/
theorem roundPositive_of_significand (q : ℚ) (M : ℤ)
    (h : q * twoPow (52 - binaryExponent q) = (M : ℚ)) : roundPositive q = q := by
  unfold roundPositive
  rw [h, roundHalfEven_intCast, ← h, mul_assoc, ← twoPow_add,
    show 52 - binaryExponent q + (binaryExponent q - 52) = 0 by ring, twoPow_eq]
  simp

theorem roundBinary64_neg (q : ℚ) : roundBinary64 (-q) = -roundBinary64 q := by
  unfold roundBinary64
  rcases lt_trichotomy q 0 with h | h | h
  · rw [if_neg (by linarith), if_pos (by linarith), if_neg (by linarith), if_neg (by linarith)]
    simp
  · subst h
    simp
  · rw [if_neg (by linarith), if_neg (by linarith), if_neg (by linarith), if_pos h]
    simp

/-- The values `0.1`, `0.2` and `0.7` of `double`, their rounded sum
`0.30000000000000004` and the differences that remain when `0.1` and `0.2` are
subtracted from it again. -/
theorem binary64_examples :
    roundBinary64 (1 / 10) = 3602879701896397 / 2 ^ 55 ∧
    roundBinary64 (2 / 10) = 3602879701896397 / 2 ^ 54 ∧
    roundBinary64 (7 / 10) = 3152519739159347 / 2 ^ 52 ∧
    binary64.add (roundBinary64 (1 / 10)) (roundBinary64 (2 / 10))
      = 5404319552844596 / 2 ^ 54 ∧
    binary64.sub (5404319552844596 / 2 ^ 54) (roundBinary64 (1 / 10))
      = 7205759403792795 / 2 ^ 55 ∧
    binary64.sub (7205759403792795 / 2 ^ 55) (roundBinary64 (2 / 10)) = 1 / 2 ^ 55 ∧
    roundBinary64 (1 / 10) + roundBinary64 (2 / 10) = 10808639105689191 / 2 ^ 55 :=
  ⟨by decide!, by decide!, by decide!, by decide!, by decide!, by decide!, by decide!⟩

/-- C3, as stated, fails for the instantiation for `double` (line 299): in `doubleModel`
after `initialize()`, every quotient distribution equals the distribution rebuilt from
its row (the partition is valid, the keys are unique), and after the call of
`splitBlockAccordingToCurrentQuotientDistributions` for block 1, which moves the states 1
and 2 to the new block 3, the quotient distribution of choice 0 does not equal the
rebuilt one: `0.1 + 0.2` is rounded to `0.30000000000000004`, the two subtractions leave
`2 ^ -55` on block 1, the entry of block 1 is not removed, and the rebuilt distribution
has no entry for block 1. -/
theorem incremental_update_disagrees_in_double :
    doubleDecomposition.partition.Valid ∧
    doubleDecomposition.UniqueKeys ∧
    doubleDecomposition.quotientDistributions.length = doubleModel.getNumberOfChoices ∧
    doubleDecomposition.ConsistentIn binary64 doubleComparator doubleModel ∧
    doubleDecomposition.distribution 0
      = [(1, 5404319552844596 / 2 ^ 54), (0, 3152519739159347 / 2 ^ 52)] ∧
    (splitBlockAccordingToCurrentQuotientDistributionsIn binary64 doubleComparator doubleModel
        doubleDecomposition 1 []).1.partition.positions
      = [(4, 0), (3, 1), (1, 3), (2, 3), (0, 2)] ∧
    (splitBlockAccordingToCurrentQuotientDistributionsIn binary64 doubleComparator doubleModel
        doubleDecomposition 1 []).1.distribution 0
      = [(1, 1 / 2 ^ 55), (0, 3152519739159347 / 2 ^ 52), (3, 5404319552844596 / 2 ^ 54)] ∧
    rebuildDistributionIn binary64 doubleComparator doubleModel
        (splitBlockAccordingToCurrentQuotientDistributionsIn binary64 doubleComparator
          doubleModel doubleDecomposition 1 []).1.partition 0
      = [(3, 5404319552844596 / 2 ^ 54), (0, 3152519739159347 / 2 ^ 52)] ∧
    Distribution.equals doubleComparator
      ((splitBlockAccordingToCurrentQuotientDistributionsIn binary64 doubleComparator
        doubleModel doubleDecomposition 1 []).1.distribution 0)
      (rebuildDistributionIn binary64 doubleComparator doubleModel
        (splitBlockAccordingToCurrentQuotientDistributionsIn binary64 doubleComparator
          doubleModel doubleDecomposition 1 []).1.partition 0) = false ∧
    ¬ (splitBlockAccordingToCurrentQuotientDistributionsIn binary64 doubleComparator
        doubleModel doubleDecomposition 1 []).1.ConsistentIn binary64 doubleComparator
        doubleModel :=
  ⟨⟨by decide!, by decide!, by decide!⟩, by unfold Decomposition.UniqueKeys; decide!,
    by decide!, by unfold Decomposition.ConsistentIn; decide!, by decide!, by decide!,
    by decide!, by decide!, by decide!, by unfold Decomposition.ConsistentIn; decide!⟩

/-- C17, as stated, fails for the instantiation for `double` (line 299): in `doubleModel`
after `initialize()` and the split of block 1 (a valid partition, one quotient
distribution per choice), the call `updateQuotientDistributionsOfPredecessors(3, 1,
queue)` raises the mass of choice 0 on the new block 3 from 0 to `0.30000000000000004`,
the rounded sum of the probabilities `0.1` and `0.2` of its transitions into the states 1
and 2 of block 3, and lowers the mass on the old block 1 from `0.30000000000000004` to
`2 ^ -55`: the mass on the old block has not shrunk by the amount by which the mass on the
new block has grown. -/
theorem predecessor_update_inexact_in_double :
    doubleSplit.partition.Valid ∧
    doubleModel.getNumberOfChoices ≤ doubleSplit.quotientDistributions.length ∧
    doubleSplit.partition.statesOf 3 = [1, 2] ∧
    Distribution.mass (doubleSplit.distribution 0) 3 = 0 ∧
    Distribution.mass (doubleSplit.distribution 0) 1 = 5404319552844596 / 2 ^ 54 ∧
    Distribution.mass
      ((updateQuotientDistributionsOfPredecessorsIn binary64 doubleComparator doubleModel
        doubleSplit 3 1 []).1.distribution 0) 3 = 5404319552844596 / 2 ^ 54 ∧
    Distribution.mass
      ((updateQuotientDistributionsOfPredecessorsIn binary64 doubleComparator doubleModel
        doubleSplit 3 1 []).1.distribution 0) 1 = 1 / 2 ^ 55 ∧
    Distribution.mass
        ((updateQuotientDistributionsOfPredecessorsIn binary64 doubleComparator doubleModel
          doubleSplit 3 1 []).1.distribution 0) 3
      - Distribution.mass (doubleSplit.distribution 0) 3
      ≠ Distribution.mass (doubleSplit.distribution 0) 1
        - Distribution.mass
          ((updateQuotientDistributionsOfPredecessorsIn binary64 doubleComparator doubleModel
            doubleSplit 3 1 []).1.distribution 0) 1 :=
  ⟨⟨by decide!, by decide!, by decide!⟩, by decide!, by decide!, by decide!, by decide!,
    by decide!, by decide!, by decide!⟩

/-- A rounding remainder separates `Distribution.equals` from the equivalence of
`Distribution.less` in a state that the instantiation for `double` reaches: in
`residueModel`, after `initialize()` and the split of block 1, the two choices of state 0
have the distributions `{0: 0.7, 3: 0.3}` and `{1: 2 ^ -55, 0: 0.7, 3: 0.30000000000000004}`,
which are not less than each other with the tolerance `1e-6` and are not
`Distribution.equals` (the key sets differ).  The signature lists of the states 0 and 5 are
sorted, the inner loop of `quotientDistributionsLess` passes both entries of state 0, so
`quotientDistributionsLess(5, 0)` is false, while the reference comparison, which
collapses by `Distribution.equals`, keeps both entries and finds the list of state 5
exhausted first. -/
theorem rounding_residue_breaks_equals :
    residueDecomposition.signature residueModel 0
      = [[(0, 3152519739159347 / 2 ^ 52), (3, 5404319552844595 / 2 ^ 54)],
          [(1, 1 / 2 ^ 55), (0, 3152519739159347 / 2 ^ 52),
            (3, 5404319552844596 / 2 ^ 54)]] ∧
    residueDecomposition.signature residueModel 5
      = [[(0, 3152519739159347 / 2 ^ 52), (3, 5404319552844595 / 2 ^ 54)]] ∧
    SignatureSorted (Distribution.less doubleComparator)
      (residueDecomposition.signature residueModel 0) ∧
    SignatureSorted (Distribution.less doubleComparator)
      (residueDecomposition.signature residueModel 5) ∧
    equivOf (Distribution.less doubleComparator)
      [(0, 3152519739159347 / 2 ^ 52), (3, 5404319552844595 / 2 ^ 54)]
      [(1, 1 / 2 ^ 55), (0, 3152519739159347 / 2 ^ 52), (3, 5404319552844596 / 2 ^ 54)]
      = true ∧
    Distribution.equals doubleComparator
      [(0, 3152519739159347 / 2 ^ 52), (3, 5404319552844595 / 2 ^ 54)]
      [(1, 1 / 2 ^ 55), (0, 3152519739159347 / 2 ^ 52), (3, 5404319552844596 / 2 ^ 54)]
      = false ∧
    quotientDistributionsLess doubleComparator residueModel residueDecomposition 5 0
      = false ∧
    referenceLess (Distribution.less doubleComparator) (Distribution.equals doubleComparator)
      (residueDecomposition.signature residueModel 5)
      (residueDecomposition.signature residueModel 0) = true :=
  ⟨by decide!, by decide!, by decide!, by decide!, by decide!, by decide!, by decide!,
    by decide!⟩

/-- The examples with the tolerance 1/8 are examples of the instantiation for `double`:
their probabilities and all sums of them are values of `double`, so `initialize()` in the
arithmetic of `double` builds the decompositions that it builds in exact arithmetic. -/
theorem tolerance_examples_in_double :
    initializeDecompositionIn binary64 (toleranceComparator (1 / 8)) tolModel
        (construct tolModel tolPartition) = tolDecomposition ∧
    initializeDecompositionIn binary64 (toleranceComparator (1 / 8)) sepModel
        (construct sepModel tolPartition)
      = initializeDecomposition (toleranceComparator (1 / 8)) sepModel
          (construct sepModel tolPartition) ∧
    initializeDecompositionIn binary64 (toleranceComparator (1 / 8)) chainModel
        (construct chainModel chainPartition) = chainDecomposition :=
  ⟨by decide!, by decide!, by decide!⟩

end Storm
